import Mathlib

/-!
# A shallow embedding of the crawl engine of `connoryin/crawler`

C++ strings (`std::string`, `std::string_view`) are lists of characters, one
`Char` per byte; the character classes are those of the "C" locale.  Positions
are natural numbers and `npos` is `none`.  Code that throws returns `Except`
or `Option`.  Strings are shorter than 2^31 characters, so that the `int`
positions of the source hold every position of a string.
-/

namespace WebCrawler

/-! ## Exceptions, characters and strings (`core/exception.h`, `core/string.h`) -/

/-- The exceptions the embedded code throws.  `OutOfRange` is `std::out_of_range`
(thrown by `at`) and `BadOptionalAccess` is `std::bad_optional_access` (thrown
by `value` on an empty optional). -/
inductive Exception where
  | FormatException
  | NotImplementedException
  | ArgumentException
  | InvalidOperationException
  | OutOfRange
  | BadOptionalAccess
deriving DecidableEq, Repr

deriving instance DecidableEq for Except

/-- The function `toLower` of `core/string.h`: `std::tolower` on the byte, in
the "C" locale. -/
def toLower (c : Char) : Char :=
  if 'A'.toNat ≤ c.toNat ∧ c.toNat ≤ 'Z'.toNat then Char.ofNat (c.toNat + 32) else c

/-- The library function `std::isspace` in the "C" locale: space, `\t`, `\n`,
`\v`, `\f`, `\r`. -/
def isSpace (c : Char) : Bool :=
  c.toNat = 32 || (9 ≤ c.toNat && c.toNat ≤ 13)

/-- The library function `std::isdigit`. -/
def isDigit (c : Char) : Bool :=
  48 ≤ c.toNat && c.toNat ≤ 57

/-- The library function `std::isalpha` in the "C" locale. -/
def isAlpha (c : Char) : Bool :=
  (65 ≤ c.toNat && c.toNat ≤ 90) || (97 ≤ c.toNat && c.toNat ≤ 122)

/-- The library function `std::isalnum` in the "C" locale. -/
def isAlnum (c : Char) : Bool :=
  isDigit c || isAlpha c

/-- Scan of a view for the first character that satisfies `p`; the first
character of the view has the index `i`. -/
def findIdxFrom (p : Char → Bool) : List Char → Nat → Option Nat
  | [], _ => none
  | c :: cs, i => if p c then some i else findIdxFrom p cs (i + 1)

/-- The member `s.find( c, pos )` for a character `c`; `none` is `npos`. -/
def findChar (s : List Char) (c : Char) (pos : Nat) : Option Nat :=
  findIdxFrom (fun d => d = c) (s.drop pos) pos

/-- The member `s.find_first_of( chars, pos )`; `none` is `npos`. -/
def findFirstOf (s : List Char) (chars : List Char) (pos : Nat) : Option Nat :=
  findIdxFrom (fun d => chars.contains d) (s.drop pos) pos

/-- Scan of a view for the first occurrence of `pat`; the first character of
the view has the index `i`. -/
def findStrFrom (pat : List Char) : List Char → Nat → Option Nat
  | [], i => if pat = [] then some i else none
  | c :: cs, i => if pat.isPrefixOf (c :: cs) then some i else findStrFrom pat cs (i + 1)

/-- The member `s.find( pat, pos )` for a string `pat`; `none` is `npos`. -/
def findStr (s : List Char) (pat : List Char) (pos : Nat) : Option Nat :=
  if pos ≤ s.length then findStrFrom pat (s.drop pos) pos else none

/-- The call `s.substr( beginPos, endPos - beginPos )` of the source, where
`endPos` may be `npos`: the count then exceeds what is left of the string and
the rest of the string is taken.  (Every call of the source has
`beginPos ≤ s.size( )`, so `substr` does not throw.) -/
def substrBetween (s : List Char) (beginPos : Nat) (endPos : Option Nat) : List Char :=
  match endPos with
  | none => s.drop beginPos
  | some e => (s.drop beginPos).take (e - beginPos)

/-- The value of a run of decimal digits. -/
def digitsValue (ds : List Char) : Nat :=
  ds.foldl (fun acc c => 10 * acc + (c.toNat - 48)) 0

/-- The optional sign that `std::stoi` reads: whether it is a minus, and the
text after it. -/
def stoiSign (t : List Char) : Bool × List Char :=
  match t with
  | '-' :: r => (true, r)
  | '+' :: r => (false, r)
  | _ => (false, t)

/-- The library function `std::stoi` (base 10): leading white space is
skipped, an optional sign is read, then the longest run of digits; `none`
stands for `std::invalid_argument` (no digit) and `std::out_of_range` (the
value does not fit an `int`). -/
def stoi (s : List Char) : Option Int :=
  let signed := stoiSign (s.dropWhile isSpace)
  let ds := signed.2.takeWhile isDigit
  if ds = [] then none
  else
    let v : Int := if signed.1 then -(digitsValue ds : Int) else (digitsValue ds : Int)
    if v < -2147483648 ∨ 2147483647 < v then none else some v

/-- The decimal digits of `n`, most significant first, prepended to `acc`;
`fuel` bounds the number of digits. -/
def natToDigits : Nat → Nat → List Char → List Char
  | 0, _, acc => acc
  | fuel + 1, n, acc =>
    if n < 10 then Char.ofNat (48 + n) :: acc
    else natToDigits fuel (n / 10) (Char.ofNat (48 + n % 10) :: acc)

/-- The text that `stream << n` writes for an `int` `n`. -/
def intToString (n : Int) : List Char :=
  if n < 0 then '-' :: natToDigits (n.natAbs + 1) n.natAbs []
  else natToDigits (n.natAbs + 1) n.natAbs []

/-! ## URL (`core/net/url.h`, `src/core/net/url.cpp`) -/

/-- The data members of `struct Url`. -/
structure Url where
  _urlString : List Char
  _isAbsoluteUrl : Bool
  _scheme : Option (List Char)
  _host : Option (List Char)
  _port : Option Int
  _localPath : Option (List Char)
  _query : Option (List Char)
deriving DecidableEq, Repr

namespace Url

/-- The map `Url::_defaultPorts`: `none` when the scheme is not a key. -/
def _defaultPorts (scheme : List Char) : Option Int :=
  if scheme = ['h', 't', 't', 'p'] then some 80
  else if scheme = ['h', 't', 't', 'p', 's'] then some 443
  else none

/-- The accessor `Url::isAbsoluteUrl`. -/
def isAbsoluteUrl (u : Url) : Bool := u._isAbsoluteUrl

/-- The value of a data member of type `std::optional`, read by an accessor
that first checks `_isAbsoluteUrl`. -/
def member {α : Type} (u : Url) (field : Option α) : Except Exception α :=
  if u._isAbsoluteUrl then
    match field with
    | some v => .ok v
    | none => .error .BadOptionalAccess
  else .error .InvalidOperationException

/-- The accessor `Url::scheme`. -/
def scheme (u : Url) : Except Exception (List Char) := u.member u._scheme

/-- The accessor `Url::host`. -/
def host (u : Url) : Except Exception (List Char) := u.member u._host

/-- The accessor `Url::port`. -/
def port (u : Url) : Except Exception Int := u.member u._port

/-- The accessor `Url::localPath`. -/
def localPath (u : Url) : Except Exception (List Char) := u.member u._localPath

/-- The accessor `Url::query`. -/
def query (u : Url) : Except Exception (List Char) := u.member u._query

/-- `Url::canonicalize`, lines 91-100, on the values of the five optionals;
`_defaultPorts.at` throws when the scheme is not a key. -/
def canonicalize (scheme host : List Char) (port : Int) (localPath query : List Char) :
    Except Exception (List Char) :=
  match _defaultPorts scheme with
  | none => .error .OutOfRange
  | some defaultPort =>
    .ok (scheme ++ [':', '/', '/'] ++ host
      ++ (if port ≠ defaultPort then ':' :: intToString port else [])
      ++ localPath
      ++ (if query ≠ [] then '?' :: query else []))

/-- The end of both constructors: `canonicalize( )` and `_isAbsoluteUrl = true`. -/
def mkAbsolute (scheme host : List Char) (port : Int) (localPath query : List Char) :
    Except Exception Url :=
  match canonicalize scheme host port localPath query with
  | .error e => .error e
  | .ok urlString =>
    .ok { _urlString := urlString, _isAbsoluteUrl := true, _scheme := some scheme,
          _host := some host, _port := some port, _localPath := some localPath,
          _query := some query }

/-- "Parses the query" of both constructors: the text between the `?` at
`endPos` and the next `#`, or the empty string. -/
def parseQuery (urlString : List Char) (endPos : Option Nat) : List Char :=
  match endPos with
  | none => []
  | some e =>
    if urlString[e]? = some '?' then
      substrBetween urlString (e + 1) (findChar urlString '#' (e + 1))
    else []

/-- "Parses the local path" of `Url::Url( StringView )`, lines 40-47: the path
and the new `endPos`. -/
def parseLocalPath (urlString : List Char) (endPos : Option Nat) : List Char × Option Nat :=
  match endPos with
  | none => (['/'], none)
  | some e =>
    let endPos2 := findFirstOf urlString ['?', '#'] e
    (substrBetween urlString e endPos2, endPos2)

/-- "Parses the port" of `Url::Url( StringView )`, lines 28-38: the port and
the new `endPos`; a failing `std::stoi` becomes a `FormatException`. -/
def parsePort (urlString : List Char) (scheme : List Char) (endPos : Option Nat) :
    Except Exception (Int × Option Nat) :=
  let useDefault : Except Exception (Int × Option Nat) :=
    match _defaultPorts scheme with
    | some p => .ok (p, endPos)
    | none => .error .OutOfRange
  match endPos with
  | none => useDefault
  | some e =>
    if urlString[e]? = some ':' then
      let beginPos := e + 1
      let endPos2 := findChar urlString '/' beginPos
      match stoi (substrBetween urlString beginPos endPos2) with
      | none => .error .FormatException
      | some p => .ok (p, endPos2)
    else useDefault

/-- The constructor `Url::Url( StringView urlString )`, lines 3-60.  After
`endPos-- > 0` the variable holds the position of `//` less one (it wraps
around when that position is 0), so `beginPos = endPos + 3` is the position of
`//` plus two in both cases. -/
def parse (urlString : List Char) : Except Exception Url :=
  match findStr urlString ['/', '/'] 0 with
  | none =>
    .ok { _urlString := urlString, _isAbsoluteUrl := false, _scheme := none, _host := none,
          _port := none, _localPath := none, _query := none }
  | some slashes =>
    let scheme : List Char :=
      (if slashes > 0 then substrBetween urlString 0 (some (slashes - 1))
        else ['h', 't', 't', 'p']).map toLower
    if (_defaultPorts scheme).isNone then .error .NotImplementedException
    else
      let beginPos := slashes + 2
      if beginPos ≥ urlString.length then .error .FormatException
      else
        let endPos := findFirstOf urlString [':', '/'] beginPos
        let host := substrBetween urlString beginPos endPos
        match parsePort urlString scheme endPos with
        | .error e => .error e
        | .ok (port, endPos2) =>
          let pathAndEnd := parseLocalPath urlString endPos2
          let query := parseQuery urlString pathAndEnd.2
          mkAbsolute scheme host port pathAndEnd.1 query

/-- The constructor `Url::Url( const Url &baseUrl, StringView relativeUrl )`,
lines 62-89. -/
def combine (baseUrl : Url) (relativeUrl : List Char) : Except Exception Url :=
  if !baseUrl._isAbsoluteUrl then .error .ArgumentException
  else
    match baseUrl._scheme, baseUrl._host, baseUrl._port, baseUrl._localPath with
    | some scheme, some host, some port, some basePath =>
      let endPos := findFirstOf relativeUrl ['?', '#'] 0
      let relativePath := substrBetween relativeUrl 0 endPos
      let localPath :=
        if relativeUrl.head? = some '/' then relativePath else basePath ++ relativePath
      let query := parseQuery relativeUrl endPos
      mkAbsolute scheme host port localPath query
    | _, _, _, _ => .error .BadOptionalAccess

/-- The constraints that the two constructors establish on the five parts of
an absolute URL: a supported scheme, a host without `:` and `/`, a port that
is an `int`, a local path that starts with `/` and has no `?` and `#`, and a
query without `#`. -/
def FieldsOk (scheme host : List Char) (port : Int) (localPath query : List Char) : Prop :=
  (_defaultPorts scheme).isSome = true ∧
  (∀ c ∈ host, c ≠ ':' ∧ c ≠ '/') ∧
  (-2147483648 ≤ port ∧ port ≤ 2147483647) ∧
  localPath.head? = some '/' ∧
  (∀ c ∈ localPath, c ≠ '?' ∧ c ≠ '#') ∧
  (∀ c ∈ query, c ≠ '#')

/-- An absolute URL whose parts satisfy `FieldsOk` and whose `_urlString` is
their canonical form. -/
def WellFormed (u : Url) : Prop :=
  ∃ scheme host port localPath query,
    FieldsOk scheme host port localPath query ∧
    mkAbsolute scheme host port localPath query = .ok u

/-- The URLs the program can hold: those built by `Url( urlString )` and those
built by `Url( baseUrl, relativeUrl )` from such a URL. -/
inductive Obtained : Url → Prop where
  | parse (urlString : List Char) (u : Url) : parse urlString = .ok u → Obtained u
  | combine (baseUrl : Url) (relativeUrl : List Char) (u : Url) :
      Obtained baseUrl → combine baseUrl relativeUrl = .ok u → Obtained u

/-- The URL `https://www.google.com/US/`, as `Url::Url( StringView )` builds it. -/
def exampleBase : Url :=
  { _urlString := "https://www.google.com/US/".toList, _isAbsoluteUrl := true,
    _scheme := some "https".toList, _host := some "www.google.com".toList, _port := some 443,
    _localPath := some "/US/".toList, _query := some [] }

/-- The URL `https://www.google.com/index.html?query=test`, as the combination of
`exampleBase` with `/index.html?query=test` builds it. -/
def exampleCombined : Url :=
  { _urlString := "https://www.google.com/index.html?query=test".toList,
    _isAbsoluteUrl := true, _scheme := some "https".toList,
    _host := some "www.google.com".toList, _port := some 443,
    _localPath := some "/index.html".toList, _query := some "query=test".toList }

/-- The text that is left at the position `endPos`: nothing when it is `npos`. -/
def restAt (s : List Char) (endPos : Option Nat) : List Char :=
  match endPos with
  | none => []
  | some e => s.drop e

/-- What "parses the port" does, told on the text `rest` that follows the
host: the port and the text that follows it. -/
def portOfRest (scheme : List Char) (rest : List Char) : Except Exception (Int × List Char) :=
  match rest with
  | ':' :: t =>
    match stoi (t.takeWhile (fun c => !decide (c = '/'))) with
    | none => .error .FormatException
    | some p => .ok (p, t.dropWhile (fun c => !decide (c = '/')))
  | _ =>
    match _defaultPorts scheme with
    | some p => .ok (p, rest)
    | none => .error .OutOfRange

/-- What "parses the local path" does, told on the text `rest` that follows
the port: the path and the text that follows it. -/
def pathOfRest (rest : List Char) : List Char × List Char :=
  if rest = [] then (['/'], [])
  else (rest.takeWhile (fun c => !(['?', '#'].contains c)),
        rest.dropWhile (fun c => !(['?', '#'].contains c)))

/-- What "parses the query" does, told on the text `rest` that follows the
local path. -/
def queryOfRest (rest : List Char) : List Char :=
  match rest with
  | '?' :: t => t.takeWhile (fun c => !decide (c = '#'))
  | _ => []

/-- What `Url::Url( StringView )` does after the scheme, told on the text
`rest` that follows the `//`. -/
def parseAuthority (scheme : List Char) (rest : List Char) : Except Exception Url :=
  let host := rest.takeWhile (fun c => !([':', '/'].contains c))
  match portOfRest scheme (rest.dropWhile (fun c => !([':', '/'].contains c))) with
  | .error e => .error e
  | .ok (port, rest2) =>
    let pathAndRest := pathOfRest rest2
    mkAbsolute scheme host port pathAndRest.1 (queryOfRest pathAndRest.2)

end Url

/-! ## HTML parser (`html_parser/html_parser.h`, `src/html_parser/html_parser.cpp`) -/

/-- The tag types, `enum class TagType`. -/
inductive TagType where
  | Opening
  | Closing
  | SelfClosing
deriving DecidableEq, Repr

/-- The data members of `struct TagInfo`. -/
structure TagInfo where
  type : TagType
  name : List Char
  _params : List Char
deriving DecidableEq, Repr

/-- The character `'`. -/
def singleQuote : Char := Char.ofNat 39

/-- The character `"`. -/
def doubleQuote : Char := Char.ofNat 34

namespace TagInfo

/-- The end of `TagInfo::parse`, lines 29-33, on the text between `begin` and
`end`: the name runs to the first white space and is lowercased, the rest is
the parameter text. -/
def ofInner (type : TagType) (inner : List Char) : TagInfo :=
  { type := type,
    name := (inner.takeWhile (fun c => !isSpace c)).map toLower,
    _params := inner.dropWhile (fun c => !isSpace c) }

/-- `TagInfo::parse`, lines 5-36.  `*( begin + 1 )` is the second character
and `*( end - 2 )` the last but one; the text between the moved `begin` and
`end` is empty when they cross. -/
def parse (tagString : List Char) : Except Exception TagInfo :=
  if tagString.length < 2 then .error .FormatException
  else
    let second := tagString[1]?
    let lastButOne := tagString[tagString.length - 2]?
    if second ≠ some '/' ∧ lastButOne ≠ some '/' then
      .ok (ofInner TagType.Opening ((tagString.take (tagString.length - 1)).drop 1))
    else if second = some '/' ∧ lastButOne ≠ some '/' then
      .ok (ofInner TagType.Closing ((tagString.take (tagString.length - 1)).drop 2))
    else if second ≠ some '/' ∧ lastButOne = some '/' then
      .ok (ofInner TagType.SelfClosing ((tagString.take (tagString.length - 2)).drop 1))
    else .error .FormatException

/-- `TagInfo::valueOf`, lines 38-46. -/
def valueOf (tagInfo : TagInfo) (param : List Char) : Option (List Char) :=
  match findStr tagInfo._params param 0 with
  | none => none
  | some found =>
    let beginPos := found + (param.length + 1)
    if beginPos ≥ tagInfo._params.length then none
    else
      let beginPos2 :=
        if tagInfo._params[beginPos]? = some singleQuote
            ∨ tagInfo._params[beginPos]? = some doubleQuote then beginPos + 1
        else beginPos
      let endPos := findFirstOf tagInfo._params [singleQuote, doubleQuote] beginPos2
      some (substrBetween tagInfo._params beginPos2 endPos)

/-- `TagInfo::getClosingTagString`, lines 48-53, for an opening tag. -/
def getClosingTagString (tagInfo : TagInfo) : List Char :=
  ['<', '/'] ++ tagInfo.name ++ ['>']

end TagInfo

/-- The data members of `struct LinkInfo`. -/
structure LinkInfo where
  url : Url
  anchorWords : List (List Char)
deriving DecidableEq, Repr

/-- The data members of `struct HtmlInfo`. -/
structure HtmlInfo where
  words : List (List Char)
  titleWords : List (List Char)
  links : List LinkInfo
  base : Option Url
deriving DecidableEq, Repr

namespace HtmlParser

/-- The actions of `enum class TagAction`. -/
inductive TagAction where
  | Anchor
  | Base
  | Discard
  | DiscardElement
  | Embed
  | Title
deriving DecidableEq, Repr

/-- The lookup `_actionMap.contains( name ) ? _actionMap.at( name ) : Discard`
of line 157.  The map gives `Anchor` to `a`, `Base` to `base`, `Embed` to
`embed`, `DiscardElement` to `script`, `style` and `svg`, `Title` to `title`,
and `Discard` to each of its other keys, which is also the action of a name
that is not a key. -/
def tagActionOf (name : List Char) : TagAction :=
  if name = "a".toList then TagAction.Anchor
  else if name = "base".toList then TagAction.Base
  else if name = "embed".toList then TagAction.Embed
  else if name = "script".toList then TagAction.DiscardElement
  else if name = "style".toList then TagAction.DiscardElement
  else if name = "svg".toList then TagAction.DiscardElement
  else if name = "title".toList then TagAction.Title
  else TagAction.Discard

/-- `HtmlParser::preprocessToken`, lines 262-272: `none` when it returns
`false`, else the token it leaves. -/
def preprocessToken (token : List Char) : Option (List Char) :=
  let fromFirst := token.dropWhile (fun c => !isAlnum c)
  if fromFirst = [] then none
  else some ((fromFirst.reverse.dropWhile (fun c => !isAlnum c)).reverse.map toLower)

/-- The extractions `stream >> token` of line 256, repeated to the end of the
stream: the maximal runs of characters that are not white space.  `current`
is the run under construction. -/
def splitTokens : List Char → List Char → List (List Char)
  | [], current => if current = [] then [] else [current]
  | c :: rest, current =>
    if isSpace c then
      if current = [] then splitTokens rest [] else current :: splitTokens rest []
    else splitTokens rest (current ++ [c])

/-- `HtmlParser::tokenize`, lines 251-260. -/
def tokenize (string : List Char) : List (List Char) :=
  (splitTokens string []).filterMap preprocessToken

/-- `HtmlParser::preprocessUrlString`, lines 274-286: `none` when it returns
`false`, else the string it leaves. -/
def preprocessUrlString (urlString : List Char) : Option (List Char) :=
  if urlString.any isSpace then none
  else
    match findChar urlString '#' 0 with
    | none => some urlString
    | some pos => if pos = 0 then none else some (substrBetween urlString 0 (some pos))

/-- The link of an anchor or embed tag, lines 162-176 and 201-212: the URL
parsed from the parameter `param` when it is present, passes the
preprocessing, parses, and is accepted by `linkFilter`; an exception of the
URL constructor or of the filter is caught and gives no link. -/
def extractLink (linkFilter : Url → TagInfo → Except Exception Bool) (tagInfo : TagInfo)
    (param : List Char) : Option Url :=
  match tagInfo.valueOf param with
  | none => none
  | some urlString =>
    match preprocessUrlString urlString with
    | none => none
    | some urlString2 =>
      match Url.parse urlString2 with
      | .error _ => none
      | .ok url =>
        match linkFilter url tagInfo with
        | .ok true => some url
        | _ => none

/-- The base action, lines 179-187 and 237-243. -/
def applyBase (htmlInfo : HtmlInfo) (tagInfo : TagInfo) : HtmlInfo :=
  match tagInfo.valueOf "href".toList with
  | none => htmlInfo
  | some urlString =>
    match preprocessUrlString urlString with
    | none => htmlInfo
    | some urlString2 =>
      if htmlInfo.base.isSome then htmlInfo
      else
        match Url.parse urlString2 with
        | .error _ => htmlInfo
        | .ok url => { htmlInfo with base := some url }

/-- The value of the raw pointer `LinkInfo *currentLinkInfo` of
`HtmlParser::parse`, line 136: null, the address of the element of
`htmlInfo.links` with the given index, or the former address of an element
that the vector has since moved to new storage (`dangling`). -/
inductive LinkPointer where
  | null
  | link (index : Nat)
  | dangling
deriving DecidableEq, Repr

/-- The pointer `currentLinkInfo` after the call
`htmlInfo.links.emplace_back( ... )` of line 208, which does not set it anew.
`moved` tells whether the call has moved the elements of the vector to new
storage; a pointer to an element is then the address of freed storage. -/
def LinkPointer.afterEmplace (moved : Bool) : LinkPointer → LinkPointer
  | .null => .null
  | .link index => if moved then .dangling else .link index
  | .dangling => .dangling

/-- What a call of `HtmlParser::parse` does: it returns an `HtmlInfo`, it
throws, or its behaviour is undefined because it goes through a dangling
`currentLinkInfo`. -/
inductive ParseResult where
  | ok (htmlInfo : HtmlInfo)
  | error (e : Exception)
  | undefined
deriving DecidableEq, Repr

/-- The anchor words of the link with the given index get `words` appended. -/
def appendAnchorWords : List LinkInfo → Nat → List (List Char) → List LinkInfo
  | [], _, _ => []
  | link :: rest, 0, words => { link with anchorWords := link.anchorWords ++ words } :: rest
  | link :: rest, index + 1, words => link :: appendAnchorWords rest index words

/-- Lines 145-147: the words of a text go to the current link, if
`currentLinkInfo` is not null, and to `htmlInfo.words`.  Line 146 forms
`currentLinkInfo->anchorWords` whenever the pointer is not null, also for an
empty `words`; through a dangling pointer this is undefined behaviour, for
which `none` stands. -/
def addWords (htmlInfo : HtmlInfo) (currentLinkInfo : LinkPointer)
    (words : List (List Char)) : Option HtmlInfo :=
  match currentLinkInfo with
  | .null => some { htmlInfo with words := htmlInfo.words ++ words }
  | .link index =>
    some { htmlInfo with links := appendAnchorWords htmlInfo.links index words,
                         words := htmlInfo.words ++ words }
  | .dangling => none

/-- The handling of a parsed tag, lines 157-245, for the tag that ends at
`tagEnd`: the position where the scan goes on (`endPos` at the end of the
round), `htmlInfo` and `currentLinkInfo`; a missing closing tag of a `script`,
`style`, `svg` or `title` element throws.  An accepted anchor link is added
to `htmlInfo.links` and `currentLinkInfo` is set to this new last element
(lines 170-171); an accepted embed link is added by the same `emplace_back`
(line 208) with `currentLinkInfo` left as it is, see
`LinkPointer.afterEmplace`.  `reallocates size` tells whether `emplace_back`
on `htmlInfo.links` of the size `size` moves the elements to new storage: it
does when the size has reached the capacity, and the source reserves no
capacity, so when that is the case is the choice of the `std::vector` of the
library. -/
def tagEffect (reallocates : Nat → Bool) (linkFilter : Url → TagInfo → Except Exception Bool)
    (htmlString : List Char)
    (tagEnd : Nat) (htmlInfo : HtmlInfo) (currentLinkInfo : LinkPointer) (tagInfo : TagInfo) :
    Except Exception (Nat × HtmlInfo × LinkPointer) :=
  match tagInfo.type with
  | TagType.Opening =>
    match tagActionOf tagInfo.name with
    | TagAction.Anchor =>
      match extractLink linkFilter tagInfo "href".toList with
      | some url =>
        .ok (tagEnd,
          { htmlInfo with links := htmlInfo.links ++ [{ url := url, anchorWords := [] }] },
          .link htmlInfo.links.length)
      | none => .ok (tagEnd, htmlInfo, currentLinkInfo)
    | TagAction.Base => .ok (tagEnd, applyBase htmlInfo tagInfo, currentLinkInfo)
    | TagAction.Discard => .ok (tagEnd, htmlInfo, currentLinkInfo)
    | TagAction.DiscardElement =>
      match findStr htmlString tagInfo.getClosingTagString tagEnd with
      | none => .error .FormatException
      | some found =>
        .ok (found + tagInfo.getClosingTagString.length, htmlInfo, currentLinkInfo)
    | TagAction.Embed =>
      match extractLink linkFilter tagInfo "src".toList with
      | some url =>
        .ok (tagEnd,
          { htmlInfo with links := htmlInfo.links ++ [{ url := url, anchorWords := [] }] },
          currentLinkInfo.afterEmplace (reallocates htmlInfo.links.length))
      | none => .ok (tagEnd, htmlInfo, currentLinkInfo)
    | TagAction.Title =>
      match findStr htmlString tagInfo.getClosingTagString tagEnd with
      | none => .error .FormatException
      | some found =>
        .ok (found + tagInfo.getClosingTagString.length,
          { htmlInfo with
            titleWords := htmlInfo.titleWords
              ++ tokenize (substrBetween htmlString tagEnd (some found)) },
          currentLinkInfo)
  | TagType.Closing =>
    .ok (tagEnd, htmlInfo,
      if tagActionOf tagInfo.name = TagAction.Anchor then .null else currentLinkInfo)
  | TagType.SelfClosing =>
    .ok (tagEnd,
      if tagActionOf tagInfo.name = TagAction.Base then applyBase htmlInfo tagInfo else htmlInfo,
      currentLinkInfo)

/-- One round of the loop of `HtmlParser::parse`, lines 140-245, from the
position `beginPos`: the final result when the round ends the parse (no `<` is
left, an exception is thrown, or the round goes through a dangling
`currentLinkInfo`), else the state for the next round. -/
def parseRound (reallocates : Nat → Bool)
    (linkFilter : Url → TagInfo → Except Exception Bool) (htmlString : List Char)
    (beginPos : Nat) (htmlInfo0 : HtmlInfo) (currentLinkInfo : LinkPointer) :
    ParseResult ⊕ (Nat × HtmlInfo × LinkPointer) :=
  let endPos := findChar htmlString '<' beginPos
  let words := tokenize (substrBetween htmlString beginPos endPos)
  match addWords htmlInfo0 currentLinkInfo words with
  | none => .inl .undefined
  | some htmlInfo =>
    match endPos with
    | none => .inl (.ok htmlInfo)
    | some tagBegin =>
      match findChar htmlString '>' tagBegin with
      | none => .inl (.error .FormatException)
      | some closePos =>
        match TagInfo.parse (substrBetween htmlString tagBegin (some (closePos + 1))) with
        | .error e => .inl (.error e)
        | .ok tagInfo =>
          match tagEffect reallocates linkFilter htmlString (closePos + 1) htmlInfo
              currentLinkInfo tagInfo with
          | .error e => .inl (.error e)
          | .ok next => .inr next

/-- The loop of `HtmlParser::parse`, lines 138-246, from the position
`beginPos`; every round consumes one unit of `fuel`, and `none` means that
the fuel ran out. -/
def parseLoop (reallocates : Nat → Bool)
    (linkFilter : Url → TagInfo → Except Exception Bool) (htmlString : List Char) :
    Nat → Nat → HtmlInfo → LinkPointer → Option ParseResult
  | 0, _, _, _ => none
  | fuel + 1, beginPos, htmlInfo, currentLinkInfo =>
    match parseRound reallocates linkFilter htmlString beginPos htmlInfo currentLinkInfo with
    | .inl result => some result
    | .inr (beginPos2, htmlInfo2, currentLinkInfo2) =>
      parseLoop reallocates linkFilter htmlString fuel beginPos2 htmlInfo2 currentLinkInfo2

/-- `HtmlParser::parse`, lines 133-249, with the filter `linkFilter`, on a
library whose vector `htmlInfo.links` moves its elements as `reallocates`
tells.  Every round of the loop moves `beginPos` forward, so
`htmlString.length + 1` rounds are enough. -/
def parse (reallocates : Nat → Bool) (linkFilter : Url → TagInfo → Except Exception Bool)
    (htmlString : List Char) : Option ParseResult :=
  parseLoop reallocates linkFilter htmlString (htmlString.length + 1) 0
    { words := [], titleWords := [], links := [], base := none } .null

/-- The default value of `HtmlParser::linkFilter`: every link is accepted. -/
def defaultLinkFilter (_url : Url) (_tagInfo : TagInfo) : Except Exception Bool :=
  .ok true

/-- The rest of a text after the first occurrence of `pat`; `none` when `pat`
does not occur. -/
def skipPast (pat : List Char) : List Char → Option (List Char)
  | [] => if pat = [] then some [] else none
  | c :: rest =>
    if pat.isPrefixOf (c :: rest) then some ((c :: rest).drop pat.length)
    else skipPast pat rest

/-- The text runs of an HTML text in the words of the specification: the
scanner alternates between text and tag, a text runs up to the next `<` and a
tag from `<` through the next `>`; after an opening tag whose name is in
`excluded` the scanner goes on past the closing tag of that element, so the
content of the element is no text run.  The scan stops at an unclosed or
malformed tag and at an excluded element that is not closed.  Every round
consumes at least one character, so a `fuel` above the length of the text is
never used up. -/
def textRuns (excluded : List (List Char)) : Nat → List Char → List (List Char)
  | 0, _ => []
  | fuel + 1, s =>
    let text := s.takeWhile (fun c => !decide (c = '<'))
    match s.dropWhile (fun c => !decide (c = '<')) with
    | [] => [text]
    | tagAndRest =>
      match tagAndRest.dropWhile (fun c => !decide (c = '>')) with
      | [] => [text]
      | _ :: rest =>
        match TagInfo.parse (tagAndRest.takeWhile (fun c => !decide (c = '>')) ++ ['>']) with
        | .error _ => [text]
        | .ok tagInfo =>
          if tagInfo.type = TagType.Opening ∧ tagInfo.name ∈ excluded then
            match skipPast tagInfo.getClosingTagString rest with
            | none => [text]
            | some rest2 => text :: textRuns excluded fuel rest2
          else text :: textRuns excluded fuel rest

/-- The tokens of a list of text runs, in order. -/
def wordsOfRuns : List (List Char) → List (List Char)
  | [] => []
  | run :: rest => tokenize run ++ wordsOfRuns rest

/-- The tokens, in document order, of the text runs of an HTML text that lie
outside tags and outside the elements whose names are in `excluded`. -/
def visibleWords (excluded : List (List Char)) (htmlString : List Char) : List (List Char) :=
  wordsOfRuns (textRuns excluded (htmlString.length + 1) htmlString)

/-- The HTML text `<a href="U">T</a>`. -/
def anchorHtml (href text : List Char) : List Char :=
  ['<', 'a', ' ', 'h', 'r', 'e', 'f', '=', doubleQuote] ++ href ++ [doubleQuote, '>']
    ++ text ++ ['<', '/', 'a', '>']

/-- The HTML text `<a href="http://a.org/"><embed src="http://b.org/">x<`: an
`embed` tag inside an open anchor, a word, and a `<` with no `>` after it. -/
def embedInAnchorHtml : List Char :=
  "<a href=".toList ++ doubleQuote :: "http://a.org/".toList
    ++ doubleQuote :: "><embed src=".toList ++ doubleQuote :: "http://b.org/".toList
    ++ doubleQuote :: ">x<".toList

/-- The tag information of the opening tag of `anchorHtml href text`. -/
def anchorTagInfo (href : List Char) : TagInfo :=
  { type := TagType.Opening, name := ['a'],
    _params := [' ', 'h', 'r', 'e', 'f', '=', doubleQuote] ++ href ++ [doubleQuote] }

end HtmlParser

/-- The library function `std::isupper` in the "C" locale. -/
def isUpper (c : Char) : Bool :=
  65 ≤ c.toNat && c.toNat ≤ 90

namespace HtmlParser

/-- The white-space-separated runs of a text, in the words of the
specification: the text is split at every white space character, and the
empty pieces are left out. -/
def whitespaceRuns (s : List Char) : List (List Char) :=
  (s.splitOnP isSpace).filter (fun run => decide (run ≠ []))

/-- A token as the specification describes it: not empty, with an alphanumeric
first and last character, and without upper-case letters and white space. -/
def GoodToken (token : List Char) : Prop :=
  token ≠ [] ∧ (∃ c, token.head? = some c ∧ isAlnum c = true) ∧
    (∃ c, token.getLast? = some c ∧ isAlnum c = true) ∧
    ∀ c ∈ token, isUpper c = false ∧ isSpace c = false

/-- Every token of the three kinds of word lists of an `HtmlInfo` is a good
token. -/
def TokensOk (htmlInfo : HtmlInfo) : Prop :=
  (∀ w ∈ htmlInfo.words, GoodToken w) ∧ (∀ w ∈ htmlInfo.titleWords, GoodToken w) ∧
    ∀ link ∈ htmlInfo.links, ∀ w ∈ link.anchorWords, GoodToken w

/-- The anchor words of every link are a contiguous part of the words, and
those of the current link are the end of the words. -/
def AnchorsOk (htmlInfo : HtmlInfo) (currentLinkInfo : LinkPointer) : Prop :=
  (∀ link ∈ htmlInfo.links, link.anchorWords <:+: htmlInfo.words) ∧
    ∀ (index : Nat) (link : LinkInfo), currentLinkInfo = .link index →
      htmlInfo.links[index]? = some link → link.anchorWords <:+ htmlInfo.words

end HtmlParser

/-! ## Bloom filter (`include/core/hash_table/bloom_filter.h`) -/

/-- The value of the `int` (32 bits, two's complement) that holds `n` modulo
2^32: the result of `int` arithmetic that wraps around, and of reading 32 bits
as an `int`. -/
def toInt32 (n : Int) : Int :=
  if n % 4294967296 < 2147483648 then n % 4294967296 else n % 4294967296 - 4294967296

/-- The conversion of an `int` to `size_t` (64 bits): the value modulo 2^64. -/
def toSizeT (n : Int) : Nat :=
  (n % 18446744073709551616).toNat

/-- The data members of `class BloomFilter`. -/
structure BloomFilter where
  _bitVec : List Bool
  _numHashFunctions : Int
  _size : Int
deriving DecidableEq, Repr

namespace BloomFilter

/-- The filter the constructor builds, given the two numbers it computes in
floating point: `bitVecSize` bits, all clear, and `numHashFunctions`. -/
def init (bitVecSize : Nat) (numHashFunctions : Int) : BloomFilter :=
  { _bitVec := List.replicate bitVecSize false, _numHashFunctions := numHashFunctions,
    _size := 0 }

/-- `BloomFilter::getHashPair`, lines 103-108: the low and the high 32 bits of
the 64-bit hash value, each read as an `int` (little-endian layout). -/
def getHashPair (hashValue : Nat) : Int × Int :=
  (toInt32 (hashValue % 4294967296), toInt32 (hashValue / 4294967296 % 4294967296))

/-- The index `( firstHashValue + secondHashValue * i ) % _bitVec.size( )` of
lines 46 and 58: `int` arithmetic, then conversion to `size_t` for the
remainder. -/
def bitIndex (firstHashValue secondHashValue : Int) (i : Nat) (size : Nat) : Nat :=
  toSizeT (toInt32 (firstHashValue + toInt32 (secondHashValue * i))) % size

/-- The loop of `BloomFilter::insert`, line 45-46, over the remaining values
of `i`; `at` throws when the index is not below the size (the remainder by a
size of 0, undefined in C++, is counted as such a failure). -/
def insertLoop (firstHashValue secondHashValue : Int) :
    List Nat → List Bool → Except Exception (List Bool)
  | [], bitVec => .ok bitVec
  | i :: rest, bitVec =>
    let index := bitIndex firstHashValue secondHashValue i bitVec.length
    if index < bitVec.length then
      insertLoop firstHashValue secondHashValue rest (bitVec.set index true)
    else .error .OutOfRange

/-- `BloomFilter::insert`, lines 42-48, for a value whose hash is `hashValue`. -/
def insert (filter : BloomFilter) (hashValue : Nat) : Except Exception BloomFilter :=
  let pair := getHashPair hashValue
  match insertLoop pair.1 pair.2 (List.range filter._numHashFunctions.toNat) filter._bitVec with
  | .error e => .error e
  | .ok bitVec => .ok { filter with _bitVec := bitVec, _size := toInt32 (filter._size + 1) }

/-- The loop of `BloomFilter::contains`, lines 57-59, over the remaining values
of `i`. -/
def containsLoop (firstHashValue secondHashValue : Int) (bitVec : List Bool) :
    List Nat → Except Exception Bool
  | [] => .ok true
  | i :: rest =>
    match bitVec[bitIndex firstHashValue secondHashValue i bitVec.length]? with
    | none => .error .OutOfRange
    | some false => .ok false
    | some true => containsLoop firstHashValue secondHashValue bitVec rest

/-- `BloomFilter::contains`, lines 54-60, for a value whose hash is `hashValue`. -/
def contains (filter : BloomFilter) (hashValue : Nat) : Except Exception Bool :=
  let pair := getHashPair hashValue
  containsLoop pair.1 pair.2 filter._bitVec (List.range filter._numHashFunctions.toNat)

/-- `BloomFilter::clear`, lines 63-67. -/
def clear (filter : BloomFilter) : BloomFilter :=
  { filter with _bitVec := List.replicate filter._bitVec.length false, _size := 0 }

/-- A sequence of calls of `insert`, for the values with the given hashes. -/
def insertAll : BloomFilter → List Nat → Except Exception BloomFilter
  | filter, [] => .ok filter
  | filter, hashValue :: rest =>
    match filter.insert hashValue with
    | .error e => .error e
    | .ok filter2 => insertAll filter2 rest

/-- The loop of `operator<<`, lines 89-98, over the remaining bits, with the
byte `value` under construction and `offset`; the result is the bytes put on
the stream. -/
def writeLoop : List Bool → Nat → Int → List Nat
  | [], value, offset => if offset < 7 then [value] else []
  | bit :: rest, value, offset =>
    let value2 := value ||| ((if bit then 1 else 0) <<< offset.toNat)
    let offset2 := offset - 1
    if offset2 = -1 then value2 :: writeLoop rest 0 7 else writeLoop rest value2 offset2

/-- The bytes `operator<<` writes for a filter, lines 85-100. -/
def write (filter : BloomFilter) : List Nat :=
  writeLoop filter._bitVec 0 7

/-- The call `stream.get( )` cast to `std::byte`: the next byte and the rest of
the stream; at the end of the stream `get` returns `EOF` (-1), which the cast
turns into 255. -/
def streamGet (stream : List Nat) : Nat × List Nat :=
  match stream with
  | [] => (255, [])
  | b :: rest => (b % 256, rest)

/-- The loop of `operator>>`, lines 73-81, for the `count` bits that remain:
the bits assigned and the rest of the stream.  The source never changes
`offset` after it has set it to `CHAR_BIT - 1`. -/
def readLoop : Nat → List Nat → Nat → Int → List Bool × List Nat
  | 0, stream, _, _ => ([], stream)
  | count + 1, stream, value, offset =>
    let got := if offset = -1 then streamGet stream else (value, stream)
    let offset2 : Int := if offset = -1 then 7 else offset
    let bit : Bool := decide ((got.1 >>> offset2.toNat) &&& 1 = 1)
    let rest := readLoop count got.2 got.1 offset2
    (bit :: rest.1, rest.2)

/-- The effect of `operator>>`, lines 69-83: the filter read and the rest of
the stream. -/
def read (stream : List Nat) (filter : BloomFilter) : BloomFilter × List Nat :=
  let r := readLoop filter._bitVec.length stream 0 (-1)
  ({ filter with _bitVec := r.1 }, r.2)

/-- The bits set in the first filter are set in the second, which has the same
number of bits and the same number of hash functions. -/
structure Covers (f g : BloomFilter) : Prop where
  length_eq : g._bitVec.length = f._bitVec.length
  hashes_eq : g._numHashFunctions = f._numHashFunctions
  bits : ∀ j : Nat, f._bitVec[j]? = some true → g._bitVec[j]? = some true

end BloomFilter

namespace BloomFilter

/-- The bit with the index `i` of a byte stream that is read most significant
bit first: the bit `7 - i mod 8` of the byte `i / 8`, and `false` past the end
of the stream. -/
def bitAt (bytes : List Nat) (i : Nat) : Bool :=
  (bytes.getD (i / 8) 0).testBit (7 - i % 8)

end BloomFilter

/-! ## Crawler: frontier, scheduled set and hits cache (`src/crawler/crawler.cpp`) -/

/-- The data members of `class Crawler` that the scheduler reads and writes.
`_frontier` is the `HashSet<Url>` as the list of its elements in iteration
order; equality and hash of `Url` use `_urlString` only.  `_hitsCache` is the
`HashMap<String, int>` as the function from a host to its count, 0 for a host
without an entry (`operator[]` creates the entry with 0). -/
structure Crawler where
  _frontier : List Url
  _scheduledUrls : BloomFilter
  _hitsCache : List Char → Int
  _numCrawledTotal : Int

namespace Crawler

/-- The constant `Crawler::_frontierSizeLimit`. -/
def _frontierSizeLimit : Nat := 1000000

/-- The constant `Crawler::_hostHitRateLimit`. -/
def _hostHitRateLimit : Int := 2048

/-- The call `_frontier.emplace( url )`: nothing changes when an element with
an equal `_urlString` is present.  The place of a new element in the
iteration order is not specified by the library; the end is taken here. -/
def frontierEmplace (frontier : List Url) (url : Url) : List Url :=
  if frontier.any (fun v => decide (v._urlString = url._urlString)) then frontier
  else frontier ++ [url]

/-- `Crawler::getUrlScore`, lines 232-265. -/
def getUrlScore (url : Url) : Except Exception Int :=
  match url.scheme, url.host, url.localPath, url.query with
  | .ok scheme, .ok host, .ok localPath, .ok query =>
    let s1 : Int := if scheme = "https".toList then 1 else 0
    let s2 : Int := if host.length ≤ 20 then 1 else 0
    let s3 : Int :=
      if [".edu".toList, ".gov".toList, ".org".toList].any (fun d => d.isSuffixOf host) then 1
      else 0
    let s4 : Int := if localPath.length ≤ 10 then 1 else 0
    let s5 : Int := if (localPath.filter (fun c => !isAlpha c)).length > 10 then -1 else 0
    let s6 : Int := if query = [] then 1 else 0
    let s7 : Int := if query.length > 20 then -1 else 0
    let s8 : Int := if query.length > 40 then -1 else 0
    .ok (s1 + s2 + s3 + s4 + s5 + s6 + s7 + s8)
  | .error e, _, _, _ => .error e
  | _, .error e, _, _ => .error e
  | _, _, .error e, _ => .error e
  | _, _, _, .error e => .error e

/-- The score used by the comparator of `std::sort`, line 297-298, for the
URLs of a sample (all absolute, so `getUrlScore` does not throw on them). -/
def scoreOf (url : Url) : Int :=
  match getUrlScore url with
  | .ok score => score
  | .error _ => 0

/-- Insertion of a URL into a list sorted by descending score, after the
elements whose score is not smaller. -/
def insertByScore (url : Url) : List Url → List Url
  | [] => [url]
  | v :: rest =>
    if scoreOf url > scoreOf v then url :: v :: rest else v :: insertByScore url rest

/-- One admissible result of `std::sort` with the comparator
`getUrlScore( lhs ) > getUrlScore( rhs )`: the order of URLs with equal scores
is not specified by the library, this sort keeps it. -/
def sortByScore : List Url → List Url
  | [] => []
  | url :: rest => insertByScore url (sortByScore rest)

/-- The sampling loop of `Crawler::getNextUrlBatch`, lines 278-294, over the
part of the frontier not yet visited: the elements it keeps, the hits cache and
`urlBatch`.  `hash` is `Hash<Url>` on the `_urlString`. -/
def sampleLoop (hash : List Char → Nat) (scheduledUrls : BloomFilter) (sampleSize : Nat) :
    List Url → (List Char → Int) → List Url →
      Except Exception (List Url × (List Char → Int) × List Url)
  | [], hitsCache, urlBatch => .ok ([], hitsCache, urlBatch)
  | url :: rest, hitsCache, urlBatch =>
    if urlBatch.length < sampleSize then
      match scheduledUrls.contains (hash url._urlString) with
      | .error e => .error e
      | .ok true => sampleLoop hash scheduledUrls sampleSize rest hitsCache urlBatch
      | .ok false =>
        match url.host with
        | .error e => .error e
        | .ok host =>
          if hitsCache host < _hostHitRateLimit then
            sampleLoop hash scheduledUrls sampleSize rest
              (Function.update hitsCache host (hitsCache host + 1)) (urlBatch ++ [url])
          else
            match sampleLoop hash scheduledUrls sampleSize rest hitsCache urlBatch with
            | .error e => .error e
            | .ok (kept, hitsCache2, urlBatch2) => .ok (url :: kept, hitsCache2, urlBatch2)
    else .ok (url :: rest, hitsCache, urlBatch)

/-- The loop of lines 301-305: while `urlBatch` is longer than `batchSize`, its
last element goes back to the frontier. -/
def reinsertLoop (batchSize : Nat) : Nat → List Url → List Url → List Url × List Url
  | 0, frontier, urlBatch => (frontier, urlBatch)
  | fuel + 1, frontier, urlBatch =>
    if urlBatch.length > batchSize then
      match urlBatch.getLast? with
      | some last => reinsertLoop batchSize fuel (frontierEmplace frontier last) urlBatch.dropLast
      | none => (frontier, urlBatch)
    else (frontier, urlBatch)

/-- `Crawler::getNextUrlBatch`, lines 267-313, once the wait of line 274 has
returned (the frontier holds at least `batchSize * sampleFactor` URLs), run
without interleaving of other threads.  `sort` is the effect of `std::sort`
with the score comparator. -/
def getNextUrlBatch (hash : List Char → Nat) (sort : List Url → List Url) (c : Crawler)
    (batchSize sampleFactor : Nat) : Except Exception (List Url × Crawler) :=
  let sampleSize := batchSize * sampleFactor
  match sampleLoop hash c._scheduledUrls sampleSize c._frontier c._hitsCache [] with
  | .error e => .error e
  | .ok (kept, hitsCache, sample) =>
    let sorted := sort sample
    let r := reinsertLoop batchSize sorted.length kept sorted
    match c._scheduledUrls.insertAll (r.2.map (fun u => hash u._urlString)) with
    | .error e => .error e
    | .ok scheduledUrls =>
      .ok (r.2, { c with _frontier := r.1, _hitsCache := hitsCache,
                         _scheduledUrls := scheduledUrls })

/-- `Crawler::insertFrontier`, lines 570-577. -/
def insertFrontier (hash : List Char → Nat) (c : Crawler) (url : Url) :
    Except Exception Crawler :=
  match c._scheduledUrls.contains (hash url._urlString) with
  | .error e => .error e
  | .ok true => .ok c
  | .ok false => .ok { c with _frontier := frontierEmplace c._frontier url }

/-- The first half of a pass of the GC thread, lines 62-66: when the frontier
is larger than the limit, elements are erased from the front of the iteration
order until half the limit is left. -/
def gcFrontier (c : Crawler) : Crawler :=
  if c._frontier.length > _frontierSizeLimit then
    { c with _frontier := c._frontier.drop (c._frontier.length - _frontierSizeLimit / 2) }
  else c

/-- The second half of a pass of the GC thread, lines 68-69: the hits cache is
cleared. -/
def gcHitsCache (c : Crawler) : Crawler :=
  { c with _hitsCache := fun _ => 0 }

/-- The operations on the crawler state.  `rehash` stands for the freedom of
the library in the iteration order of the frontier. -/
inductive Op where
  | insertFrontier (url : Url)
  | getNextUrlBatch (sort : List Url → List Url) (batchSize sampleFactor : Nat)
  | gcFrontier
  | gcHitsCache
  | rehash (order : List Url)

/-- One operation run to its end: the state before, the operation, the state
after and the URLs the operation returns to a worker. -/
inductive Step (hash : List Char → Nat) : Crawler → Op → Crawler → List Url → Prop where
  | insertFrontier (c c2 : Crawler) (url : Url) :
      insertFrontier hash c url = .ok c2 → Step hash c (Op.insertFrontier url) c2 []
  | getNextUrlBatch (c c2 : Crawler) (sort : List Url → List Url) (batchSize sampleFactor : Nat)
      (urlBatch : List Url) :
      (∀ l, (sort l).Perm l) →
      batchSize * sampleFactor ≤ c._frontier.length →
      getNextUrlBatch hash sort c batchSize sampleFactor = .ok (urlBatch, c2) →
      Step hash c (Op.getNextUrlBatch sort batchSize sampleFactor) c2 urlBatch
  | gcFrontier (c : Crawler) : Step hash c Op.gcFrontier (gcFrontier c) []
  | gcHitsCache (c : Crawler) : Step hash c Op.gcHitsCache (gcHitsCache c) []
  | rehash (c : Crawler) (order : List Url) :
      order.Perm c._frontier → Step hash c (Op.rehash order) { c with _frontier := order } []

/-- A sequence of operations, with the URLs returned to workers along it, in
order. -/
inductive Run (hash : List Char → Nat) : Crawler → List Op → Crawler → List Url → Prop where
  | nil (c : Crawler) : Run hash c [] c []
  | cons (c c1 c2 : Crawler) (op : Op) (ops : List Op) (urls later : List Url) :
      Step hash c op c1 urls → Run hash c1 ops c2 later →
      Run hash c (op :: ops) c2 (urls ++ later)

/-- Whether an operation is the reset of the hits cache. -/
def Op.isReset : Op → Bool
  | Op.gcHitsCache => true
  | _ => false

/-- The number of URLs of a list whose host is `host`. -/
def countHost (host : List Char) (urls : List Url) : Nat :=
  (urls.filter (fun u => decide (u.host = .ok host))).length

/-- A stand-in for `Hash<Url>` (`std::hash<std::string>` on `_urlString`) in
the worked examples: a polynomial hash of 64 bits. -/
def exampleHash (s : List Char) : Nat :=
  s.foldl (fun h ch => (h * 31 + ch.toNat) % 18446744073709551616) 7

/-- The URL `http://a.org/`, as `Url::Url( StringView )` builds it. -/
def exampleUrl1 : Url :=
  { _urlString := "http://a.org/".toList, _isAbsoluteUrl := true,
    _scheme := some "http".toList, _host := some "a.org".toList, _port := some 80,
    _localPath := some "/".toList, _query := some [] }

/-- The URL `https://b.com/xyzxyzxyzxyz?q=1`, as `Url::Url( StringView )` builds it. -/
def exampleUrl2 : Url :=
  { _urlString := "https://b.com/xyzxyzxyzxyz?q=1".toList, _isAbsoluteUrl := true,
    _scheme := some "https".toList, _host := some "b.com".toList, _port := some 443,
    _localPath := some "/xyzxyzxyzxyz".toList, _query := some "q=1".toList }

/-- A crawler with two URLs in the frontier, a scheduled set of 16 bits and 2
hash functions with no bit set, and an empty hits cache. -/
def exampleCrawler : Crawler :=
  { _frontier := [exampleUrl2, exampleUrl1], _scheduledUrls := BloomFilter.init 16 2,
    _hitsCache := fun _ => 0, _numCrawledTotal := 0 }

/-- The state of `exampleCrawler` after `getNextUrlBatch( 1, 2 )`. -/
def exampleCrawler1 : Crawler :=
  match getNextUrlBatch exampleHash sortByScore exampleCrawler 1 2 with
  | .ok r => r.2
  | .error _ => exampleCrawler

/-- The state of `exampleCrawler1` after `getNextUrlBatch( 1, 1 )`. -/
def exampleCrawler2 : Crawler :=
  match getNextUrlBatch exampleHash sortByScore exampleCrawler1 1 1 with
  | .ok r => r.2
  | .error _ => exampleCrawler1

end Crawler

namespace Crawler

/-- The sampling loop of `Crawler::getNextUrlBatch`, lines 278-294, as
`sampleLoop` runs it, told for the members it changes: the part of `_frontier`
not yet visited at the start and `_hitsCache`, at the moment the loop is left,
be it by its end or by an exception of `contains` or of `url.host( )`.  The
elements that earlier iterations erased (lines 283 and 291) are gone in both
cases. -/
def sampleLoopLeft (hash : List Char → Nat) (scheduledUrls : BloomFilter) (sampleSize : Nat) :
    List Url → (List Char → Int) → List Url → List Url × (List Char → Int)
  | [], hitsCache, _ => ([], hitsCache)
  | url :: rest, hitsCache, urlBatch =>
    if urlBatch.length < sampleSize then
      match scheduledUrls.contains (hash url._urlString) with
      | .error _ => (url :: rest, hitsCache)
      | .ok true => sampleLoopLeft hash scheduledUrls sampleSize rest hitsCache urlBatch
      | .ok false =>
        match url.host with
        | .error _ => (url :: rest, hitsCache)
        | .ok host =>
          if hitsCache host < _hostHitRateLimit then
            sampleLoopLeft hash scheduledUrls sampleSize rest
              (Function.update hitsCache host (hitsCache host + 1)) (urlBatch ++ [url])
          else
            let left := sampleLoopLeft hash scheduledUrls sampleSize rest hitsCache urlBatch
            (url :: left.1, left.2)
    else (url :: rest, hitsCache)

/-- The crawler after a call of `Crawler::getNextUrlBatch` that an exception
of the sampling loop ends: the exception leaves the function from line 281 or
287, the local `urlBatch` is destroyed and none of lines 296-312 is run, so
`_frontier` and `_hitsCache` stay as the loop left them. -/
def getNextUrlBatchThrown (hash : List Char → Nat) (c : Crawler)
    (batchSize sampleFactor : Nat) : Crawler :=
  let left := sampleLoopLeft hash c._scheduledUrls (batchSize * sampleFactor) c._frontier
    c._hitsCache []
  { c with _frontier := left.1, _hitsCache := left.2 }

/-- The relative URL `b.org`, as `Url::Url( StringView )` builds it from a
text without `//`. -/
def exampleRelativeUrl : Url :=
  { _urlString := "b.org".toList, _isAbsoluteUrl := false, _scheme := none, _host := none,
    _port := none, _localPath := none, _query := none }

/-- A crawler whose frontier holds `http://a.org/` and, after it in the
iteration order, the relative URL `b.org`, as the seed list constructor builds
it from the seed lines `http://a.org/` and `b.org`; the scheduled set has 16
bits and 2 hash functions with no bit set, the hits cache is empty. -/
def exampleCrawler4 : Crawler :=
  { _frontier := [exampleUrl1, exampleRelativeUrl], _scheduledUrls := BloomFilter.init 16 2,
    _hitsCache := fun _ => 0, _numCrawledTotal := 0 }

end Crawler

/-! ## Crawler: link filter and checkpoint (`src/crawler/crawler.cpp`) -/

namespace Crawler

/-- The member `s.rfind( c )`: the position of the last `c`; `none` is `npos`. -/
def rfindChar (s : List Char) (c : Char) : Option Nat :=
  match findIdxFrom (fun d => d = c) s.reverse 0 with
  | none => none
  | some fromEnd => some (s.length - 1 - fromEnd)

/-- The set `nonHtmlExtensions` of `Crawler::filterLink`, lines 363-383. -/
def nonHtmlExtensions : List (List Char) :=
  ["gif".toList, "jpeg".toList, "jpg".toList, "json".toList, "mp3".toList, "mp4".toList,
   "ogg".toList, "ogv".toList, "pdf".toList, "png".toList, "rdf".toList, "rss".toList,
   "svg".toList, "tiff".toList, "ttf".toList, "txt".toList, "webm".toList, "xml".toList,
   "zip".toList]

/-- The set `nonEnglishLanguages` of `Crawler::filterLink`, lines 399-538. -/
def nonEnglishLanguages : List (List Char) :=
  ["aa".toList, "ab".toList, "ace".toList, "af".toList, "ak".toList, "als".toList, "am".toList,
   "an".toList, "ang".toList, "ar".toList, "arc".toList, "arz".toList, "as".toList,
   "ast".toList, "az".toList, "azb".toList, "ba".toList, "bar".toList, "bcl".toList,
   "be".toList, "be-tarask".toList, "bg".toList, "bh".toList, "bn".toList, "br".toList,
   "bs".toList, "ca".toList, "ce".toList, "ceb".toList, "chr".toList, "cs".toList,
   "csb".toList, "cy".toList, "da".toList, "de".toList, "diq".toList, "el".toList, "eo".toList,
   "es".toList, "et".toList, "eu".toList, "fa".toList, "fi".toList, "fo".toList, "fr".toList,
   "frr".toList, "fy".toList, "ga".toList, "gd".toList, "gl".toList, "gn".toList, "gom".toList,
   "gu".toList, "ha".toList, "hak".toList, "he".toList, "hi".toList, "hr".toList, "hsb".toList,
   "ht".toList, "hu".toList, "hy".toList, "hyw".toList, "ia".toList, "id".toList, "ie".toList,
   "io".toList, "is".toList, "it".toList, "ja".toList, "jv".toList, "ka".toList, "kk".toList,
   "kl".toList, "kn".toList, "ko".toList, "ks".toList, "ku".toList, "ky".toList, "la".toList,
   "lad".toList, "li".toList, "lij".toList, "lo".toList, "lt".toList, "lv".toList, "mg".toList,
   "min".toList, "mk".toList, "ml".toList, "mr".toList, "ms".toList, "mt".toList, "my".toList,
   "na".toList, "nah".toList, "nap".toList, "nl".toList, "nn".toList, "no".toList, "oc".toList,
   "or".toList, "pa".toList, "pfl".toList, "pl".toList, "pms".toList, "ps".toList, "pt".toList,
   "ro".toList, "ru".toList, "sa".toList, "sah".toList, "sd".toList, "sh".toList, "sk".toList,
   "sl".toList, "sq".toList, "sr".toList, "sv".toList, "sw".toList, "ta".toList, "te".toList,
   "tg".toList, "th".toList, "tr".toList, "tt".toList, "uk".toList, "ur".toList, "uz".toList,
   "vec".toList, "vi".toList, "vo".toList, "wa".toList, "war".toList, "yi".toList, "zh".toList,
   "zh-min-nan".toList, "zh-yue".toList]

/-- `Crawler::filterLink`, lines 360-543: the accessors `localPath` and `host`
throw for a relative URL. -/
def filterLink (url : Url) (tagInfo : TagInfo) : Except Exception Bool :=
  match url.localPath with
  | .error e => .error e
  | .ok localPath =>
    let nonHtml : Bool :=
      match rfindChar localPath '.' with
      | none => false
      | some pos => nonHtmlExtensions.contains ((localPath.drop (pos + 1)).map toLower)
    if nonHtml then .ok false
    else
      let language : Option (List Char) :=
        match tagInfo.valueOf "hreflang".toList with
        | some l => some l
        | none => tagInfo.valueOf "lang".toList
      let nonEnglish : Bool :=
        match language with
        | some l => (findStr l "en".toList 0).isNone
        | none => false
      if nonEnglish then .ok false
      else
        match url.host with
        | .error e => .error e
        | .ok host =>
          let firstLabel := (substrBetween host 0 (findChar host '.' 0)).map toLower
          if nonEnglishLanguages.contains firstLabel then .ok false else .ok true

/-- The URL that a worker sends on for the link `linkUrl` of a page fetched
from `requestUrl`, lines 215-219 of `Crawler::doWork`: `none` when the
constructor throws and the link is skipped. -/
def resolveLink (requestUrl linkUrl : Url) : Option Url :=
  if linkUrl.isAbsoluteUrl then some linkUrl
  else
    match Url.combine requestUrl linkUrl._urlString with
    | .ok url => some url
    | .error _ => none

/-- The links that a worker resolves for a page with the text `htmlString`
fetched from `requestUrl`, each with its anchor words: the parse with the
filter `Crawler::filterLink` (lines 133-134), then the loop of lines 213-228
up to the test of the scheduled set; `none` when the parse gives no result
(its behaviour is undefined).  `reallocates` is the parameter of
`HtmlParser.parse`. -/
def discoveredLinks (reallocates : Nat → Bool) (requestUrl : Url) (htmlString : List Char) :
    Option (Except Exception (List (Url × List (List Char)))) :=
  match HtmlParser.parse reallocates filterLink htmlString with
  | none => none
  | some .undefined => none
  | some (.error e) => some (.error e)
  | some (.ok htmlInfo) =>
    some (.ok (htmlInfo.links.filterMap (fun linkInfo =>
      match resolveLink requestUrl linkInfo.url with
      | some url => some (url, linkInfo.anchorWords)
      | none => none)))

end Crawler

namespace Crawler

/-- The first two output statements of `Crawler::createCheckpoint`, lines
555-556: the two counts and the URLs of the frontier, one to a line. -/
def checkpointHead (c : Crawler) : List Char :=
  intToString c._numCrawledTotal ++ [' ']
    ++ natToDigits (c._frontier.length + 1) c._frontier.length [] ++ ['\n']
    ++ (c._frontier.map (fun url => url._urlString ++ ['\n'])).flatten

/-- The text that `Crawler::createCheckpoint` writes, lines 555-557: the head,
the bytes of the scheduled set, and the new line of `std::endl`. -/
def createCheckpoint (c : Crawler) : List Char :=
  checkpointHead c ++ (c._scheduledUrls.write.map Char.ofNat ++ ['\n'])

/-- The state of the `std::ifstream` of the checkpoint: the text that is left
and whether `failbit` is set. -/
structure CheckpointStream where
  text : List Char
  fail : Bool
deriving DecidableEq, Repr

/-- The extraction `stream >> n` for an `int`: white space is skipped, then an
optional sign and the longest run of digits are read.  The value is `none`
when the stream has failed before (the variable is left as it is), 0 with
`failbit` when there is no digit, and the nearest `int` with `failbit` when
the number does not fit. -/
def readInt (stream : CheckpointStream) : Option Int × CheckpointStream :=
  if stream.fail then (none, stream)
  else
    let signed := stoiSign (stream.text.dropWhile isSpace)
    let ds := signed.2.takeWhile isDigit
    let rest := signed.2.dropWhile isDigit
    if ds = [] then (some 0, { text := rest, fail := true })
    else
      let v : Int := if signed.1 then -(digitsValue ds : Int) else (digitsValue ds : Int)
      if v < -2147483648 then (some (-2147483648), { text := rest, fail := true })
      else if 2147483647 < v then (some 2147483647, { text := rest, fail := true })
      else (some v, { text := rest, fail := false })

/-- The extraction `stream >> urlString` for an empty `String`: white space is
skipped, then the run of characters up to the next white space is read;
nothing is read from a stream that has failed, and `failbit` is set when the
run is empty. -/
def readString (stream : CheckpointStream) : List Char × CheckpointStream :=
  if stream.fail then ([], stream)
  else
    let t := stream.text.dropWhile isSpace
    let token := t.takeWhile (fun c => !isSpace c)
    (token, { text := t.dropWhile (fun c => !isSpace c), fail := decide (token = []) })

/-- The manipulator `std::ws`: white space is skipped, unless the stream has
failed. -/
def skipWhiteSpace (stream : CheckpointStream) : CheckpointStream :=
  if stream.fail then stream else { stream with text := stream.text.dropWhile isSpace }

/-- The loop of lines 24-33 for the `count` rounds that remain: a string is
extracted and `_frontier.emplace( urlString )` builds the URL in place; when
the constructor throws the round is skipped. -/
def loadLoop : Nat → CheckpointStream → List Url → List Url × CheckpointStream
  | 0, stream, frontier => (frontier, stream)
  | count + 1, stream, frontier =>
    let r := readString stream
    match Url.parse r.1 with
    | .ok url => loadLoop count r.2 (frontierEmplace frontier url)
    | .error _ => loadLoop count r.2 frontier

/-- The constructor `Crawler::Crawler( checkpointFilePath, config )`, lines
12-40, on the text of the checkpoint file, for a configuration that gives the
scheduled set `bitVecSize` bits and `numHashFunctions` hash functions.  `none`
stands for what the model leaves open: a count that is read though it was
never extracted, and a negative frontier size (`reserve` is then asked for
more than 2^63 elements).  `get` on a stream that has failed returns `EOF`
like at the end of the stream. -/
def loadCheckpoint (bitVecSize : Nat) (numHashFunctions : Int) (text : List Char) :
    Option Crawler :=
  let r1 := readInt { text := text, fail := false }
  let r2 := readInt r1.2
  match r1.1, r2.1 with
  | some numCrawledTotal, some frontierSize =>
    if frontierSize < 0 then none
    else
      let loaded := loadLoop frontierSize.toNat r2.2 []
      let stream := skipWhiteSpace loaded.2
      let bytes : List Nat := if stream.fail then [] else stream.text.map Char.toNat
      some { _frontier := loaded.1,
             _scheduledUrls :=
               (BloomFilter.read bytes (BloomFilter.init bitVecSize numHashFunctions)).1,
             _hitsCache := fun _ => 0,
             _numCrawledTotal := numCrawledTotal }
  | _, _ => none

/-- A crawler with `http://a.org/` in the frontier, one page crawled, and a
scheduled set of 16 bits and 2 hash functions that holds
`https://b.com/xyzxyzxyzxyz?q=1`. -/
def exampleCrawler3 : Crawler :=
  { _frontier := [exampleUrl1],
    _scheduledUrls :=
      match (BloomFilter.init 16 2).insert (exampleHash exampleUrl2._urlString) with
      | .ok filter => filter
      | .error _ => BloomFilter.init 16 2,
    _hitsCache := fun _ => 0,
    _numCrawledTotal := 1 }

end Crawler

/-! ## HTML artifact: the stream operators of `HtmlInfo` and `LinkInfo`
(`src/html_parser/html_parser.cpp`, lines 55-131) -/

namespace HtmlParser

/-- The text that `stream << n` writes for a `size_t` `n`. -/
def sizeToString (n : Nat) : List Char :=
  natToDigits (n + 1) n []

/-- A count and the words it counts, as lines 71-73, 122-125 write them: the
count, a space, and every word followed by a space. -/
def writeWords (words : List (List Char)) : List Char :=
  sizeToString words.length ++ ' ' :: (words.map (fun word => word ++ [' '])).flatten

/-- `operator<<` of `LinkInfo`, lines 69-75. -/
def writeLinkInfo (linkInfo : LinkInfo) : List Char :=
  linkInfo.url._urlString ++ '\n' :: writeWords linkInfo.anchorWords

/-- The end of `operator<<` of `HtmlInfo`, lines 128-129: `true` and the base
URL, or `false`. -/
def writeBase (base : Option Url) : List Char :=
  match base with
  | some url => "true".toList ++ ' ' :: url._urlString
  | none => "false".toList

/-- `operator<<` of `HtmlInfo`, lines 120-131. -/
def writeHtmlInfo (htmlInfo : HtmlInfo) : List Char :=
  writeWords htmlInfo.words ++ '\n' :: (writeWords htmlInfo.titleWords
    ++ '\n' :: (sizeToString htmlInfo.links.length
    ++ '\n' :: ((htmlInfo.links.map (fun linkInfo => writeLinkInfo linkInfo ++ ['\n'])).flatten
    ++ writeBase htmlInfo.base)))

/-- The text of the artifact file of a page, line 205 of `Crawler::doWork`:
`htmlInfoFile << requestUrl << '\n' << htmlInfo`. -/
def artifactText (requestUrl : Url) (htmlInfo : HtmlInfo) : List Char :=
  requestUrl._urlString ++ '\n' :: writeHtmlInfo htmlInfo

/-- The lines of the artifact file before its last line, in the words of the
specification: the request URL, the words with their count, the title words
with their count, the number of links, and for every link its URL and its
anchor words with their count. -/
def artifactLines (requestUrl : Url) (htmlInfo : HtmlInfo) : List (List Char) :=
  [requestUrl._urlString, writeWords htmlInfo.words, writeWords htmlInfo.titleWords,
    sizeToString htmlInfo.links.length]
    ++ (htmlInfo.links.map (fun linkInfo =>
          [linkInfo.url._urlString, writeWords linkInfo.anchorWords])).flatten

/-- The loop of lines 60-65, 82-87 and 92-97 for the `count` rounds that
remain: a string is extracted and put at the end of the words, also when the
extraction fails and the string is empty. -/
def readWords : Nat → Crawler.CheckpointStream → List (List Char) →
    List (List Char) × Crawler.CheckpointStream
  | 0, stream, words => (words, stream)
  | count + 1, stream, words =>
    let r := Crawler.readString stream
    readWords count r.2 (words ++ [r.1])

/-- A count and the words it counts, read as lines 57-65, 79-87 and 89-97 do:
the count, the words and the stream.  `none` stands for what the model leaves
open: a count that is used though it was never extracted, and a negative
count (`reserve` is then asked for more than 2^63 elements). -/
def readCountedWords (stream : Crawler.CheckpointStream) :
    Option (Int × List (List Char) × Crawler.CheckpointStream) :=
  let r := Crawler.readInt stream
  match r.1 with
  | none => none
  | some count =>
    if count < 0 then none
    else
      let w := readWords count.toNat r.2 []
      some (count, w.1, w.2)

/-- `operator>>` of `LinkInfo`, lines 55-67, into a new `LinkInfo`: the
constructor of the URL may throw. -/
def readLinkInfo (stream : Crawler.CheckpointStream) :
    Option (Except Exception (LinkInfo × Crawler.CheckpointStream)) :=
  let r := Crawler.readString stream
  match Url.parse r.1 with
  | .error e => some (.error e)
  | .ok url =>
    match readCountedWords r.2 with
    | none => none
    | some (_, anchorWords, stream2) =>
      some (.ok ({ url := url, anchorWords := anchorWords }, stream2))

/-- The loop of lines 101-106 for the `count` rounds that remain. -/
def readLinks : Nat → Crawler.CheckpointStream → List LinkInfo →
    Option (Except Exception (List LinkInfo × Crawler.CheckpointStream))
  | 0, stream, links => some (.ok (links, stream))
  | count + 1, stream, links =>
    match readLinkInfo stream with
    | none => none
    | some (.error e) => some (.error e)
    | some (.ok (linkInfo, stream2)) => readLinks count stream2 (links ++ [linkInfo])

/-- The extraction `stream >> hasBase` of line 109 for a `bool`, on a stream
without `std::boolalpha`: a number is read; 0 gives `false`, 1 gives `true`,
another number gives `true` with `failbit`, and no number gives `false` with
`failbit`.  The value is `none` when the stream has failed before. -/
def readBool (stream : Crawler.CheckpointStream) : Option Bool × Crawler.CheckpointStream :=
  let r := Crawler.readInt stream
  match r.1 with
  | none => (none, r.2)
  | some n =>
    if r.2.fail then (some (decide (n ≠ 0)), r.2)
    else if n = 0 then (some false, r.2)
    else if n = 1 then (some true, r.2)
    else (some true, { r.2 with fail := true })

/-- `operator>>` of `HtmlInfo`, lines 77-118, into a new `HtmlInfo`.  The loop
of the links runs `numTitleWords` times, as in the source; `numLinks` is
extracted and not used. -/
def readHtmlInfo (stream : Crawler.CheckpointStream) :
    Option (Except Exception (HtmlInfo × Crawler.CheckpointStream)) :=
  match readCountedWords stream with
  | none => none
  | some (_, words, stream1) =>
    match readCountedWords stream1 with
    | none => none
    | some (numTitleWords, titleWords, stream2) =>
      let stream3 := (Crawler.readInt stream2).2
      match readLinks numTitleWords.toNat stream3 [] with
      | none => none
      | some (.error e) => some (.error e)
      | some (.ok (links, stream4)) =>
        let b := readBool stream4
        match b.1 with
        | none => none
        | some false =>
          some (.ok ({ words := words, titleWords := titleWords, links := links,
                       base := none }, b.2))
        | some true =>
          let r := Crawler.readString b.2
          match Url.parse r.1 with
          | .error e => some (.error e)
          | .ok url =>
            some (.ok ({ words := words, titleWords := titleWords, links := links,
                         base := some url }, r.2))

/-- An `HtmlInfo` with the word `a`, no title word, the link `http://a.org/`
with the anchor word `a`, and no base. -/
def exampleHtmlInfo : HtmlInfo :=
  { words := ["a".toList], titleWords := [],
    links := [{ url := Crawler.exampleUrl1, anchorWords := ["a".toList] }], base := none }

/-- An `HtmlInfo` with nothing but the base `http://a.org/`. -/
def exampleBaseInfo : HtmlInfo :=
  { words := [], titleWords := [], links := [], base := some Crawler.exampleUrl1 }

end HtmlParser

/-! ## Distributed (`distributed/distributed.h`, `src/distributed/distributed.cpp`) -/

/-- The data members of `class Distributed` that `sendURL` reads and writes:
`serverSockets` by its size, the crawler that the reference `crawler` refers
to, and `urlCache` as the list of the send queues of the peers, each
`HashSet<Url>` as the list of its elements. -/
structure Distributed where
  serverSockets : Nat
  crawler : Crawler
  _isAlive : Bool
  serverID : Int
  urlCache : List (List Url)

namespace Distributed

/-- `Distributed::sendURL`, lines 75-90, run to its end.  `none` stands for
undefined behaviour: the remainder by `serverSockets.size( )` when there is no
socket, and `urlCache[ i ]` out of bounds.  In `i == serverID` the `int` is
converted to `size_t`. -/
def sendURL (hash : List Char → Nat) (d : Distributed) (url : Url) :
    Option (Except Exception Distributed) :=
  if !d._isAlive then some (.ok d)
  else if !url.isAbsoluteUrl then some (.ok d)
  else if d.serverSockets = 0 then none
  else
    let i := hash url._urlString % d.serverSockets
    if i = toSizeT d.serverID then
      match d.crawler.insertFrontier hash url with
      | .error e => some (.error e)
      | .ok crawler => some (.ok { d with crawler := crawler })
    else
      match d.urlCache[i]? with
      | none => none
      | some queue =>
        some (.ok { d with urlCache := d.urlCache.set i (Crawler.frontierEmplace queue url) })

/-- A router of 3 peers with the server ID 1, empty send queues and the
crawler `exampleCrawler`. -/
def exampleRouter (isAlive : Bool) : Distributed :=
  { serverSockets := 3, crawler := Crawler.exampleCrawler, _isAlive := isAlive, serverID := 1,
    urlCache := [[], [], []] }

end Distributed

/-! ## Robots catalog (`src/crawler/robots_catalog.cpp`) -/

namespace RobotsCatalog

/-- The rule types of `RobotsCatalog::RuleType`. -/
inductive RuleType where
  | Allow
  | Disallow
deriving DecidableEq, Repr

/-- A rule of a robots file, `RobotsCatalog::Rule`. -/
structure Rule where
  type : RuleType
  pattern : List Char
deriving DecidableEq, Repr

/-- `RobotsCatalog::startsWithPattern( string, pattern )`, lines 91-101: the
recursion of the source, on the two views. -/
def startsWithPattern : List Char → List Char → Bool
  | _, [] => true
  | [], p0 :: p => decide (p0 :: p = ['*'])
  | s0 :: s, p0 :: p =>
    if s0 = p0 then startsWithPattern s p
    else if p0 = '*' then startsWithPattern (s0 :: s) p || startsWithPattern s (p0 :: p)
    else false
termination_by s p => s.length + p.length

/-- The rule walk of `RobotsCatalog::isAllowed`, lines 50-58, started with the
flag `isDisallowed`: an Allow rule that matches returns `true` at once, a
Disallow rule that matches sets the flag, and the end returns `!isDisallowed`. -/
def ruleWalk (localPath : List Char) : List Rule → Bool → Bool
  | [], isDisallowed => !isDisallowed
  | rule :: rest, isDisallowed =>
    if startsWithPattern localPath rule.pattern then
      match rule.type with
      | RuleType.Allow => true
      | RuleType.Disallow => ruleWalk localPath rest true
    else ruleWalk localPath rest isDisallowed

/-- The decision of `RobotsCatalog::isAllowed` on the rules cached for the host
of the request URL and the local path of the request URL (the fetch of the
robots file and the cache are not part of the decision). -/
def isAllowed (rules : List Rule) (localPath : List Char) : Bool :=
  ruleWalk localPath rules false

/-- The matching relation in the words of the specification: the pattern
matches the whole text, each `*` standing for zero or more arbitrary
characters and every other pattern character for exactly itself. -/
inductive WildcardMatches : List Char → List Char → Prop where
  | nil : WildcardMatches [] []
  | star (q w t : List Char) : WildcardMatches q t → WildcardMatches ('*' :: q) (w ++ t)
  | char (c : Char) (q t : List Char) :
      c ≠ '*' → WildcardMatches q t → WildcardMatches (c :: q) (c :: t)

/-- The specification of `startsWithPattern`: some initial segment of the path
is matched in full by the pattern. -/
def PrefixMatches (q s : List Char) : Prop :=
  ∃ t, t <+: s ∧ WildcardMatches q t

end RobotsCatalog

namespace RobotsCatalog

/-- The lines that the loop `std::getline( robotsStream, line )` of lines 67
and 68 reads: the pieces of the text between new lines; what follows the last
new line is a line when it is not empty.  `current` is the line under
construction. -/
def getLines : List Char → List Char → List (List Char)
  | [], current => if current = [] then [] else [current]
  | c :: rest, current =>
    if c = '\n' then current :: getLines rest [] else getLines rest (current ++ [c])

/-- The body of the loop of `RobotsCatalog::parseRobotsFile`, lines 69-86, on
one line: the rules and `currentUserAgent` before and after. -/
def robotsLine (state : List Rule × List Char) (line0 : List Char) : List Rule × List Char :=
  if line0 = [] then state
  else
    let line : List Char :=
      match line0.getLast? with
      | some c => if isSpace c then line0.dropLast else line0
      | none => line0
    if line.head? = some '#' then state
    else
      match findChar line ':' 0 with
      | none => state
      | some pos =>
        let name := (substrBetween line 0 (some pos)).map toLower
        if pos + 2 ≥ line.length then state
        else
          let value := line.drop (pos + 2)
          let currentUserAgent := if name = "user-agent".toList then value else state.2
          if currentUserAgent ≠ ['*'] then (state.1, currentUserAgent)
          else if name = "allow".toList then
            (state.1 ++ [{ type := RuleType.Allow, pattern := value }], currentUserAgent)
          else if name = "disallow".toList then
            (state.1 ++ [{ type := RuleType.Disallow, pattern := value }], currentUserAgent)
          else (state.1, currentUserAgent)

/-- `RobotsCatalog::parseRobotsFile`, lines 61-89. -/
def parseRobotsFile (robotsString : List Char) : List Rule :=
  ((getLines robotsString []).foldl robotsLine ([], [])).1

/-- The lines of a robots file in the words of the specification: a directive
`Name: Value`, a blank line (of white space only), and a comment line that
starts with `#`. -/
inductive RobotsLine where
  | directive (name value : List Char)
  | blank (space : List Char)
  | comment (text : List Char)
deriving DecidableEq, Repr

/-- The text of a line, without its new line. -/
def RobotsLine.render : RobotsLine → List Char
  | .directive name value => name ++ ':' :: ' ' :: value
  | .blank space => space
  | .comment text => '#' :: text

/-- The lines the specification speaks of: the name of a directive has no `:`
and does not start with `#`, its value is not empty and does not end in white
space, a blank line has white space only, and no line has a new line in it. -/
def RobotsLine.Valid : RobotsLine → Prop
  | .directive name value =>
    (∀ c ∈ name, c ≠ ':' ∧ c ≠ '\n') ∧ name.head? ≠ some '#' ∧ value ≠ [] ∧
      (∀ c ∈ value, c ≠ '\n') ∧ ∀ c, value.getLast? = some c → isSpace c = false
  | .blank space => ∀ c ∈ space, isSpace c = true ∧ c ≠ '\n'
  | .comment text => ∀ c ∈ text, c ≠ '\n'

/-- The text of a robots file with the given lines, each ended by a new line. -/
def robotsText (lines : List RobotsLine) : List Char :=
  (lines.map (fun line => line.render ++ ['\n'])).flatten

/-- The rules of a robots file in the words of the specification: one rule for
every allow and disallow line, in the order of the file, whose nearest
user-agent line before it has the value `*`; `agent` is the value of the
nearest user-agent line so far. -/
def expectedRules : List RobotsLine → Option (List Char) → List Rule
  | [], _ => []
  | .directive name value :: rest, agent =>
    if name.map toLower = "user-agent".toList then expectedRules rest (some value)
    else if agent = some ['*'] then
      if name.map toLower = "allow".toList then
        { type := RuleType.Allow, pattern := value } :: expectedRules rest agent
      else if name.map toLower = "disallow".toList then
        { type := RuleType.Disallow, pattern := value } :: expectedRules rest agent
      else expectedRules rest agent
    else expectedRules rest agent
  | .blank _ :: rest, agent => expectedRules rest agent
  | .comment _ :: rest, agent => expectedRules rest agent

/-- The lines of a robots file with a group for every crawler, a blank line, a
comment and a group for the crawler `x`. -/
def exampleRobotsLines : List RobotsLine :=
  [.directive "User-agent".toList "*".toList,
   .directive "Disallow".toList "/wishlist/".toList,
   .directive "ALLOW".toList "/wishlist/universal*".toList,
   .blank [],
   .comment " private".toList,
   .directive "User-agent".toList "x".toList,
   .directive "Disallow".toList "/".toList]

end RobotsCatalog

/-! ## Theorems -/

/-! ### Strings -/

theorem findIdxFrom_append_hit (p : Char → Bool) (a : List Char) (d : Char) (b : List Char)
    (i : Nat) (ha : ∀ c ∈ a, p c = false) (hd : p d = true) :
    findIdxFrom p (a ++ d :: b) i = some (i + a.length) := by
  induction a generalizing i with
  | nil => simp [findIdxFrom, hd]
  | cons c a ih =>
    have hc : p c = false := ha c (List.mem_cons_self _ _)
    rw [List.cons_append]
    simp only [findIdxFrom, hc, Bool.false_eq_true, if_false]
    rw [ih (i + 1) (fun x hx => ha x (List.mem_cons_of_mem _ hx))]
    simp only [List.length_cons]
    congr 1
    omega

theorem findIdxFrom_none (p : Char → Bool) (s : List Char) (i : Nat)
    (hs : ∀ c ∈ s, p c = false) : findIdxFrom p s i = none := by
  induction s generalizing i with
  | nil => rfl
  | cons c s ih =>
    have hc : p c = false := hs c (List.mem_cons_self _ _)
    simp only [findIdxFrom, hc, Bool.false_eq_true, if_false]
    exact ih (i + 1) (fun x hx => hs x (List.mem_cons_of_mem _ hx))

theorem findIdxFrom_eq_some (p : Char → Bool) (s : List Char) (i j : Nat)
    (h : findIdxFrom p s i = some j) :
    ∃ a d b, s = a ++ d :: b ∧ (∀ c ∈ a, p c = false) ∧ p d = true ∧ j = i + a.length := by
  induction s generalizing i with
  | nil => simp [findIdxFrom] at h
  | cons c s ih =>
    simp only [findIdxFrom] at h
    by_cases hc : p c = true
    · rw [if_pos hc] at h
      cases h
      exact ⟨[], c, s, rfl, by simp, hc, by simp⟩
    · rw [if_neg hc] at h
      obtain ⟨a, d, b, rfl, ha, hd, hj⟩ := ih (i + 1) h
      refine ⟨c :: a, d, b, rfl, ?_, hd, by simp only [List.length_cons]; omega⟩
      intro x hx
      rcases List.mem_cons.1 hx with rfl | hx
      · simpa using hc
      · exact ha x hx

theorem findIdxFrom_eq_none (p : Char → Bool) (s : List Char) (i : Nat)
    (h : findIdxFrom p s i = none) : ∀ c ∈ s, p c = false := by
  induction s generalizing i with
  | nil => simp
  | cons c s ih =>
    simp only [findIdxFrom] at h
    by_cases hc : p c = true
    · rw [if_pos hc] at h
      cases h
    · rw [if_neg hc] at h
      intro x hx
      rcases List.mem_cons.1 hx with rfl | hx
      · simpa using hc
      · exact ih (i + 1) h x hx

/-- What a successful scan from `pos` says about the string. -/
theorem findIdxFrom_drop_eq_some (p : Char → Bool) (s : List Char) (pos e : Nat)
    (h : findIdxFrom p (s.drop pos) pos = some e) :
    ∃ a d b, s.drop pos = a ++ d :: b ∧ (∀ c ∈ a, p c = false) ∧ p d = true ∧
      e = pos + a.length ∧ s[e]? = some d ∧ s.drop e = d :: b ∧
      (s.drop pos).take (e - pos) = a := by
  obtain ⟨a, d, b, hs, ha, hd, he⟩ := findIdxFrom_eq_some p _ _ _ h
  refine ⟨a, d, b, hs, ha, hd, he, ?_, ?_, ?_⟩
  · have : (s.drop pos)[a.length]? = some d := by
      rw [hs, List.getElem?_append_right (Nat.le_refl _)]
      simp
    rw [List.getElem?_drop] at this
    rw [he]
    exact this
  · have : (s.drop pos).drop a.length = d :: b := by
      rw [hs]
      simp
    rw [List.drop_drop] at this
    rw [he]
    exact this
  · rw [hs, he]
    simp

/-! ### Numbers and their decimal text -/

theorem digitsValue_append_single (ds : List Char) (c : Char) :
    digitsValue (ds ++ [c]) = 10 * digitsValue ds + (c.toNat - 48) := by
  simp [digitsValue, List.foldl_append]

theorem digitChar_toNat (k : Nat) (hk : k < 10) : (Char.ofNat (48 + k)).toNat = 48 + k := by
  interval_cases k <;> rfl

theorem digitChar_isDigit (k : Nat) (hk : k < 10) : isDigit (Char.ofNat (48 + k)) = true := by
  interval_cases k <;> rfl

theorem natToDigits_spec (fuel : Nat) :
    ∀ (n : Nat) (acc : List Char), n < fuel →
      ∃ ds : List Char, natToDigits fuel n acc = ds ++ acc ∧ ds ≠ [] ∧
        (∀ c ∈ ds, isDigit c = true) ∧ digitsValue ds = n := by
  induction fuel with
  | zero => intro n acc h; omega
  | succ fuel ih =>
    intro n acc h
    simp only [natToDigits]
    by_cases hn : n < 10
    · rw [if_pos hn]
      refine ⟨[Char.ofNat (48 + n)], rfl, by simp, ?_, ?_⟩
      · intro c hc
        rw [List.mem_singleton.1 hc]
        exact digitChar_isDigit n hn
      · simp [digitsValue, digitChar_toNat n hn]
    · rw [if_neg hn]
      have hlt : n / 10 < fuel := by omega
      obtain ⟨ds, hds, hne, hdig, hval⟩ := ih (n / 10) (Char.ofNat (48 + n % 10) :: acc) hlt
      have hmod : n % 10 < 10 := Nat.mod_lt _ (by norm_num)
      refine ⟨ds ++ [Char.ofNat (48 + n % 10)], by simp [hds], by simp, ?_, ?_⟩
      · intro c hc
        rcases List.mem_append.1 hc with hc | hc
        · exact hdig c hc
        · rw [List.mem_singleton.1 hc]
          exact digitChar_isDigit _ hmod
      · rw [digitsValue_append_single, hval, digitChar_toNat _ hmod]
        omega

theorem isDigit_not_isSpace (c : Char) (h : isDigit c = true) : isSpace c = false := by
  simp only [isDigit, Bool.and_eq_true, decide_eq_true_eq] at h
  simp only [isSpace, Bool.or_eq_false_iff, decide_eq_false_iff_not, Bool.and_eq_false_imp,
    decide_eq_true_eq]
  omega

theorem isDigit_toNat (c : Char) (h : isDigit c = true) : 48 ≤ c.toNat ∧ c.toNat ≤ 57 := by
  simpa [isDigit] using h

theorem takeWhile_eq_self_of_all (p : Char → Bool) (l : List Char)
    (h : ∀ c ∈ l, p c = true) : l.takeWhile p = l := by
  induction l with
  | nil => rfl
  | cons c l ih =>
    rw [List.takeWhile_cons, h c (List.mem_cons_self _ _)]
    simp only [if_true]
    rw [ih (fun x hx => h x (List.mem_cons_of_mem _ hx))]

theorem stoi_digits (ds : List Char) (hne : ds ≠ []) (hdig : ∀ c ∈ ds, isDigit c = true)
    (hval : digitsValue ds ≤ 2147483647) : stoi ds = some (digitsValue ds : Int) := by
  cases ds with
  | nil => exact absurd rfl hne
  | cons d ds =>
    have hd : isDigit d = true := hdig d (List.mem_cons_self _ _)
    have hsp : isSpace d = false := isDigit_not_isSpace d hd
    have hnat := isDigit_toNat d hd
    have hminus : d ≠ '-' := by
      intro h
      rw [h] at hnat
      revert hnat
      decide
    have hplus : d ≠ '+' := by
      intro h
      rw [h] at hnat
      revert hnat
      decide
    have htw : (d :: ds).takeWhile isDigit = d :: ds := takeWhile_eq_self_of_all _ _ hdig
    have hsign : stoiSign (d :: ds) = (false, d :: ds) := by
      unfold stoiSign
      split
      · next r heq => exact absurd (List.cons.inj heq).1 hminus
      · next r heq => exact absurd (List.cons.inj heq).1 hplus
      · rfl
    unfold stoi
    simp only [List.dropWhile_cons, hsp, Bool.false_eq_true, if_false, hsign, htw]
    rw [if_neg (List.cons_ne_nil _ _), if_neg]
    omega

theorem stoi_minus_digits (ds : List Char) (hne : ds ≠ [])
    (hdig : ∀ c ∈ ds, isDigit c = true) (hval : digitsValue ds ≤ 2147483648) :
    stoi ('-' :: ds) = some (-(digitsValue ds : Int)) := by
  have htw : ds.takeWhile isDigit = ds := takeWhile_eq_self_of_all _ _ hdig
  have hsp : isSpace '-' = false := by decide
  unfold stoi
  simp only [List.dropWhile_cons, hsp, Bool.false_eq_true, if_false, stoiSign, htw]
  rw [if_neg hne]
  simp only [if_true]
  rw [if_neg]
  omega

theorem stoi_intToString (n : Int) (hlo : -2147483648 ≤ n) (hhi : n ≤ 2147483647) :
    stoi (intToString n) = some n := by
  obtain ⟨ds, hds, hne, hdig, hval⟩ := natToDigits_spec (n.natAbs + 1) n.natAbs [] (by omega)
  rw [List.append_nil] at hds
  unfold intToString
  rw [hds]
  by_cases hneg : n < 0
  · rw [if_pos hneg, stoi_minus_digits ds hne hdig (by omega), hval]
    congr 1
    omega
  · rw [if_neg hneg, stoi_digits ds hne hdig (by omega), hval]
    congr 1
    omega

theorem intToString_no_slash (n : Int) : ∀ c ∈ intToString n, c ≠ '/' := by
  obtain ⟨ds, hds, _, hdig, _⟩ := natToDigits_spec (n.natAbs + 1) n.natAbs [] (by omega)
  rw [List.append_nil] at hds
  have hd : ∀ c ∈ ds, c ≠ '/' := by
    intro c hc h
    have := isDigit_toNat c (hdig c hc)
    rw [h] at this
    revert this
    decide
  unfold intToString
  rw [hds]
  split
  · intro c hc
    rcases List.mem_cons.1 hc with rfl | hc
    · decide
    · exact hd c hc
  · exact hd

/-! ### URL -/

theorem findIdxFrom_at_hit (p : Char → Bool) (s pre a : List Char) (d : Char) (b : List Char)
    (n : Nat) (hs : s = pre ++ (a ++ d :: b)) (hn : n = pre.length)
    (ha : ∀ c ∈ a, p c = false) (hd : p d = true) :
    findIdxFrom p (s.drop n) n = some (n + a.length) := by
  subst hs hn
  rw [List.drop_left]
  exact findIdxFrom_append_hit p a d b _ ha hd

theorem findIdxFrom_at_none (p : Char → Bool) (s pre a : List Char) (n : Nat)
    (hs : s = pre ++ a) (hn : n = pre.length) (ha : ∀ c ∈ a, p c = false) :
    findIdxFrom p (s.drop n) n = none := by
  subst hs hn
  rw [List.drop_left]
  exact findIdxFrom_none p a _ ha

theorem substrBetween_at (s pre a b : List Char) (n : Nat) (hs : s = pre ++ (a ++ b))
    (hn : n = pre.length) : substrBetween s n (some (n + a.length)) = a := by
  subst hs hn
  simp [substrBetween]

theorem substrBetween_at_none (s pre a : List Char) (n : Nat) (hs : s = pre ++ a)
    (hn : n = pre.length) : substrBetween s n none = a := by
  subst hs hn
  simp [substrBetween]

theorem getElem?_at (s pre : List Char) (d : Char) (b : List Char) (n : Nat)
    (hs : s = pre ++ d :: b) (hn : n = pre.length) : s[n]? = some d := by
  subst hs hn
  rw [List.getElem?_append_right (Nat.le_refl _)]
  simp

namespace Url

theorem parseTail_roundtrip (s pre localPath query : List Char) (n : Nat)
    (hs : s = pre ++ (localPath ++ (if query ≠ [] then '?' :: query else [])))
    (hn : n = pre.length)
    (hpath : ∀ c ∈ localPath, c ≠ '?' ∧ c ≠ '#') (hquery : ∀ c ∈ query, c ≠ '#') :
    (parseLocalPath s (some n)).1 = localPath ∧
    parseQuery s (parseLocalPath s (some n)).2 = query := by
  have hp : ∀ c ∈ localPath, (['?', '#'].contains c) = false := by
    intro c hc
    have := hpath c hc
    simp [this.1, this.2]
  by_cases hq : query = []
  · subst hq
    simp only [ne_eq, not_true_eq_false, if_false, List.append_nil] at hs
    have hfind : findFirstOf s ['?', '#'] n = none :=
      findIdxFrom_at_none _ s pre localPath n hs hn hp
    simp only [parseLocalPath, hfind, parseQuery]
    exact ⟨substrBetween_at_none s pre localPath n hs hn, trivial⟩
  · rw [if_pos hq] at hs
    have hfind : findFirstOf s ['?', '#'] n = some (n + localPath.length) :=
      findIdxFrom_at_hit _ s pre localPath '?' query n hs hn hp (by decide)
    have hs2 : s = (pre ++ localPath) ++ '?' :: query := by
      rw [hs, List.append_assoc]
    have hn2 : n + localPath.length = (pre ++ localPath).length := by
      rw [List.length_append, hn]
    have hget : s[n + localPath.length]? = some '?' := getElem?_at s _ '?' query _ hs2 hn2
    have hs3 : s = (pre ++ localPath ++ ['?']) ++ query := by
      rw [hs]
      simp
    have hn3 : n + localPath.length + 1 = (pre ++ localPath ++ ['?']).length := by
      simp only [List.length_append, List.length_singleton, hn]
    have hfind2 : findChar s '#' (n + localPath.length + 1) = none :=
      findIdxFrom_at_none _ s _ query _ hs3 hn3 (by
        intro c hc
        simpa using hquery c hc)
    simp only [parseLocalPath, hfind, parseQuery, hget, if_true, hfind2]
    exact ⟨substrBetween_at s pre localPath _ n hs hn,
      substrBetween_at_none s _ query _ hs3 hn3⟩

theorem parsePort_roundtrip (s pre host scheme : List Char) (port defaultPort : Int)
    (rest : List Char) (n : Nat)
    (hs : s = pre ++ (host ++ ((if port ≠ defaultPort then ':' :: intToString port else [])
      ++ '/' :: rest)))
    (hn : n = pre.length) (hscheme : _defaultPorts scheme = some defaultPort)
    (hlo : -2147483648 ≤ port) (hhi : port ≤ 2147483647) :
    parsePort s scheme (some (n + host.length)) =
      .ok (port, some (n + host.length
        + (if port ≠ defaultPort then ':' :: intToString port else []).length)) := by
  by_cases hp : port = defaultPort
  · subst hp
    simp only [ne_eq, not_true_eq_false, if_false, List.nil_append, List.length_nil,
      Nat.add_zero] at hs ⊢
    have hs2 : s = (pre ++ host) ++ '/' :: rest := by
      rw [hs, List.append_assoc]
    have hget : s[n + host.length]? = some '/' :=
      getElem?_at s _ '/' rest _ hs2 (by rw [List.length_append, hn])
    simp only [parsePort, hget, hscheme]
    rw [if_neg (by decide)]
  · rw [if_pos hp] at hs ⊢
    have hs2 : s = (pre ++ host) ++ ':' :: (intToString port ++ '/' :: rest) := by
      rw [hs]
      simp
    have hget : s[n + host.length]? = some ':' :=
      getElem?_at s _ ':' _ _ hs2 (by rw [List.length_append, hn])
    have hs3 : s = (pre ++ host ++ [':']) ++ (intToString port ++ '/' :: rest) := by
      rw [hs]
      simp
    have hn3 : n + host.length + 1 = (pre ++ host ++ [':']).length := by
      simp only [List.length_append, List.length_singleton, hn]
    have hfind : findChar s '/' (n + host.length + 1)
        = some (n + host.length + 1 + (intToString port).length) :=
      findIdxFrom_at_hit _ s _ (intToString port) '/' rest _ hs3 hn3 (by
        intro c hc
        simpa using intToString_no_slash port c hc) (by simp)
    have hsub : substrBetween s (n + host.length + 1)
        (some (n + host.length + 1 + (intToString port).length)) = intToString port :=
      substrBetween_at s _ (intToString port) _ _ hs3 hn3
    simp only [parsePort, hget, if_true, hfind, hsub, stoi_intToString port hlo hhi,
      List.length_cons]
    congr 3
    omega

end Url

namespace Url

theorem scheme_facts (scheme : List Char) (h : (_defaultPorts scheme).isSome = true) :
    ∃ defaultPort, _defaultPorts scheme = some defaultPort ∧
      (-2147483648 ≤ defaultPort ∧ defaultPort ≤ 2147483647) ∧
      scheme.map toLower = scheme ∧ 0 < scheme.length ∧
      ∀ rest : List Char,
        findStr (scheme ++ ([':', '/', '/'] ++ rest)) ['/', '/'] 0 = some (scheme.length + 1) := by
  unfold _defaultPorts at h ⊢
  by_cases h1 : scheme = ['h', 't', 't', 'p']
  · subst h1
    refine ⟨80, by simp, by decide, by decide, by decide, ?_⟩
    intro rest
    simp [findStr, findStrFrom, List.isPrefixOf]
  · by_cases h2 : scheme = ['h', 't', 't', 'p', 's']
    · subst h2
      refine ⟨443, by simp, by decide, by decide, by decide, ?_⟩
      intro rest
      simp [findStr, findStrFrom, List.isPrefixOf]
    · rw [if_neg h1, if_neg h2] at h
      cases h

theorem parse_mkAbsolute (scheme host : List Char) (port : Int) (localPath query : List Char)
    (u : Url) (hok : FieldsOk scheme host port localPath query)
    (hmk : mkAbsolute scheme host port localPath query = .ok u) :
    parse u._urlString = .ok u := by
  obtain ⟨hscheme, hhost, ⟨hlo, hhi⟩, hhead, hpath, hquery⟩ := hok
  obtain ⟨defaultPort, hdp, _, hlower, hpos, hfind⟩ := scheme_facts scheme hscheme
  obtain ⟨path2, rfl⟩ : ∃ path2, localPath = '/' :: path2 := by
    cases localPath with
    | nil => simp at hhead
    | cons c l =>
      simp only [List.head?_cons, Option.some.injEq] at hhead
      exact ⟨l, by rw [hhead]⟩
  -- the canonical string and its groupings
  let portPart : List Char := if port ≠ defaultPort then ':' :: intToString port else []
  let queryPart : List Char := if query ≠ [] then '?' :: query else []
  let pre : List Char := scheme ++ [':', '/', '/']
  have hcanon : canonicalize scheme host port ('/' :: path2) query
      = .ok (pre ++ (host ++ (portPart ++ '/' :: (path2 ++ queryPart)))) := by
    simp only [canonicalize, hdp, pre, portPart, queryPart]
    simp
  have hu : u._urlString = pre ++ (host ++ (portPart ++ '/' :: (path2 ++ queryPart))) := by
    simp only [mkAbsolute, hcanon] at hmk
    cases hmk
    rfl
  have hprelen : pre.length = scheme.length + 3 := by simp [pre]
  -- the first character after the host
  obtain ⟨d, b, hd, hdb⟩ : ∃ d b, (d = ':' ∨ d = '/') ∧
      portPart ++ '/' :: (path2 ++ queryPart) = d :: b := by
    by_cases hp : port = defaultPort
    · exact ⟨'/', path2 ++ queryPart, Or.inr rfl, by simp [portPart, hp]⟩
    · exact ⟨':', intToString port ++ '/' :: (path2 ++ queryPart), Or.inl rfl,
        by simp only [portPart, ne_eq, hp, not_false_eq_true, if_true, List.cons_append]⟩
  have hsl : findStr u._urlString ['/', '/'] 0 = some (scheme.length + 1) := by
    rw [hu]
    simp only [pre, List.append_assoc]
    exact hfind _
  have htake : substrBetween u._urlString 0 (some (scheme.length + 1 - 1)) = scheme := by
    rw [hu]
    simp [substrBetween, pre]
  have hlen : ¬ (scheme.length + 1 + 2 ≥ u._urlString.length) := by
    rw [hu]
    simp only [List.length_append, List.length_cons, hprelen]
    omega
  have hhostp : ∀ c ∈ host, ([':', '/'].contains c) = false := by
    intro c hc
    have := hhost c hc
    simp [this.1, this.2]
  have hend : findFirstOf u._urlString [':', '/'] (scheme.length + 1 + 2)
      = some (scheme.length + 1 + 2 + host.length) := by
    refine findIdxFrom_at_hit _ _ pre host d b _ ?_ (by rw [hprelen]) hhostp ?_
    · rw [hu, hdb]
    · rcases hd with rfl | rfl <;> decide
  have hhostsub : substrBetween u._urlString (scheme.length + 1 + 2)
      (some (scheme.length + 1 + 2 + host.length)) = host :=
    substrBetween_at _ pre host _ _ hu (by rw [hprelen])
  have hport : parsePort u._urlString scheme (some (scheme.length + 1 + 2 + host.length))
      = .ok (port, some (scheme.length + 1 + 2 + host.length + portPart.length)) :=
    parsePort_roundtrip _ pre host scheme port defaultPort (path2 ++ queryPart) _ hu
      (by rw [hprelen]) hdp hlo hhi
  have htail := parseTail_roundtrip u._urlString (pre ++ host ++ portPart) ('/' :: path2) query
    (scheme.length + 1 + 2 + host.length + portPart.length)
    (by rw [hu]; simp [queryPart])
    (by simp only [List.length_append, hprelen])
    hpath hquery
  unfold parse
  simp only [hsl]
  rw [if_pos (show scheme.length + 1 > 0 by omega), htake, hlower]
  rw [if_neg (by rw [hdp]; simp), if_neg hlen]
  simp only [hend, hhostsub, hport, htail.1, htail.2]
  exact hmk

end Url

theorem substrBetween_scan (p : Char → Bool) (s : List Char) (b : Nat) :
    ∀ c ∈ substrBetween s b (findIdxFrom p (s.drop b) b), p c = false := by
  cases h : findIdxFrom p (s.drop b) b with
  | none => exact findIdxFrom_eq_none p _ _ h
  | some e =>
    obtain ⟨a, d, r, _, ha, _, _, _, _, htake⟩ := findIdxFrom_drop_eq_some p s b e h
    simp only [substrBetween]
    rw [htake]
    exact ha

theorem substrBetween_scan_head (p : Char → Bool) (s : List Char) (b : Nat) (c0 : Char)
    (hhead : s[b]? = some c0) (hp : p c0 = false) :
    (substrBetween s b (findIdxFrom p (s.drop b) b)).head? = some c0 := by
  have hdrop : (s.drop b).head? = some c0 := by
    rw [List.head?_drop]
    exact hhead
  cases h : findIdxFrom p (s.drop b) b with
  | none => exact hdrop
  | some e =>
    obtain ⟨a, d, r, hs, _, hd, _, _, _, htake⟩ := findIdxFrom_drop_eq_some p s b e h
    simp only [substrBetween]
    rw [htake]
    rw [hs] at hdrop
    cases a with
    | nil =>
      simp only [List.nil_append, List.head?_cons, Option.some.injEq] at hdrop
      rw [hdrop, hp] at hd
      cases hd
    | cons a0 a => simpa using hdrop

theorem stoi_range (t : List Char) (v : Int) (h : stoi t = some v) :
    -2147483648 ≤ v ∧ v ≤ 2147483647 := by
  unfold stoi at h
  simp only at h
  split_ifs at h <;> cases h <;> omega

namespace Url

theorem mkAbsolute_eq_ok (scheme host : List Char) (port : Int) (localPath query : List Char)
    (u : Url) (h : mkAbsolute scheme host port localPath query = .ok u) :
    u._isAbsoluteUrl = true ∧ u._scheme = some scheme ∧ u._host = some host ∧
      u._port = some port ∧ u._localPath = some localPath ∧ u._query = some query := by
  unfold mkAbsolute at h
  cases hc : canonicalize scheme host port localPath query with
  | error e => rw [hc] at h; cases h
  | ok s =>
    rw [hc] at h
    cases h
    exact ⟨rfl, rfl, rfl, rfl, rfl, rfl⟩

theorem parsePort_wellFormed (s scheme : List Char) (endPos endPos2 : Option Nat) (port : Int)
    (h : parsePort s scheme endPos = .ok (port, endPos2))
    (hend : ∀ e, endPos = some e → s[e]? = some ':' ∨ s[e]? = some '/') :
    (-2147483648 ≤ port ∧ port ≤ 2147483647) ∧ ∀ e2, endPos2 = some e2 → s[e2]? = some '/' := by
  have hdefault : ∀ (r : Except Exception (Int × Option Nat)),
      r = (match _defaultPorts scheme with
        | some p => .ok (p, endPos)
        | none => .error .OutOfRange) →
      r = .ok (port, endPos2) → (∀ e, endPos = some e → s[e]? = some '/') →
      (-2147483648 ≤ port ∧ port ≤ 2147483647) ∧
        ∀ e2, endPos2 = some e2 → s[e2]? = some '/' := by
    intro r hr hok hslash
    rw [hr] at hok
    unfold _defaultPorts at hok
    split at hok
    · next p hp =>
      simp only [Except.ok.injEq, Prod.mk.injEq] at hok
      obtain ⟨rfl, rfl⟩ := hok
      refine ⟨?_, hslash⟩
      split at hp
      · cases hp; decide
      · split at hp
        · cases hp; decide
        · cases hp
    · cases hok
  unfold parsePort at h
  cases endPos with
  | none =>
    simp only at h
    exact hdefault _ rfl h (by simp)
  | some e =>
    simp only at h
    by_cases hcolon : s[e]? = some ':'
    · rw [if_pos hcolon] at h
      cases hst : stoi (substrBetween s (e + 1) (findChar s '/' (e + 1))) with
      | none => rw [hst] at h; cases h
      | some p =>
        rw [hst] at h
        simp only [Except.ok.injEq, Prod.mk.injEq] at h
        obtain ⟨rfl, rfl⟩ := h
        refine ⟨stoi_range _ _ hst, ?_⟩
        intro e2 he2
        obtain ⟨a, d, r, _, _, hd, _, hget, _, _⟩ :=
          findIdxFrom_drop_eq_some _ s (e + 1) e2 he2
        rw [hget]
        simpa using hd
    · rw [if_neg hcolon] at h
      refine hdefault _ rfl h ?_
      intro e1 he1
      cases he1
      rcases hend e rfl with hc | hc
      · exact absurd hc hcolon
      · exact hc

theorem parseLocalPath_wellFormed (s : List Char) (endPos : Option Nat)
    (hend : ∀ e, endPos = some e → s[e]? = some '/') :
    (parseLocalPath s endPos).1.head? = some '/' ∧
      ∀ c ∈ (parseLocalPath s endPos).1, c ≠ '?' ∧ c ≠ '#' := by
  cases endPos with
  | none =>
    simp only [parseLocalPath]
    exact ⟨rfl, by decide⟩
  | some e =>
    simp only [parseLocalPath, findFirstOf]
    refine ⟨substrBetween_scan_head _ s e '/' (hend e rfl) (by decide), ?_⟩
    intro c hc
    have := substrBetween_scan _ s e c hc
    simpa using this

theorem parseQuery_wellFormed (s : List Char) (endPos : Option Nat) :
    ∀ c ∈ parseQuery s endPos, c ≠ '#' := by
  cases endPos with
  | none => simp [parseQuery]
  | some e =>
    simp only [parseQuery]
    split
    · intro c hc
      have := substrBetween_scan _ s (e + 1) c hc
      simpa using this
    · simp

theorem parse_wellFormed (s : List Char) (u : Url) (h : parse s = .ok u)
    (habs : u._isAbsoluteUrl = true) : WellFormed u := by
  unfold parse at h
  cases hsl : findStr s ['/', '/'] 0 with
  | none =>
    rw [hsl] at h
    simp only [Except.ok.injEq] at h
    rw [← h] at habs
    cases habs
  | some slashes =>
    rw [hsl] at h
    simp only at h
    generalize (List.map toLower (if slashes > 0 then substrBetween s 0 (some (slashes - 1))
      else ['h', 't', 't', 'p'])) = scheme at h
    by_cases hn : (_defaultPorts scheme).isNone = true
    · rw [if_pos hn] at h
      cases h
    · rw [if_neg hn] at h
      by_cases hl : slashes + 2 ≥ s.length
      · rw [if_pos hl] at h
        cases h
      · rw [if_neg hl] at h
        cases hport : parsePort s scheme (findFirstOf s [':', '/'] (slashes + 2)) with
        | error e => rw [hport] at h; cases h
        | ok r =>
          obtain ⟨port, endPos2⟩ := r
          rw [hport] at h
          simp only at h
          have hend : ∀ e, findFirstOf s [':', '/'] (slashes + 2) = some e →
              s[e]? = some ':' ∨ s[e]? = some '/' := by
            intro e he
            obtain ⟨a, d, r, _, _, hd, _, hget, _, _⟩ :=
              findIdxFrom_drop_eq_some _ s (slashes + 2) e he
            rw [hget]
            simpa using hd
          have hp := parsePort_wellFormed s _ _ _ _ hport hend
          have hpath := parseLocalPath_wellFormed s endPos2 hp.2
          refine ⟨_, _, _, _, _, ⟨?_, ?_, hp.1, hpath.1, hpath.2, parseQuery_wellFormed s _⟩, h⟩
          · cases hd : _defaultPorts scheme with
            | none => rw [hd] at hn; exact absurd rfl hn
            | some p => rfl
          · intro c hc
            have := substrBetween_scan _ s (slashes + 2) c hc
            simpa using this

theorem combine_wellFormed (baseUrl : Url) (relativeUrl : List Char) (u : Url)
    (hbase : WellFormed baseUrl) (h : combine baseUrl relativeUrl = .ok u) : WellFormed u := by
  obtain ⟨scheme, host, port, basePath, query, ⟨hs, hh, hp, hhead, hpath, _⟩, hmk⟩ := hbase
  obtain ⟨habs, h1, h2, h3, h4, _⟩ := mkAbsolute_eq_ok _ _ _ _ _ _ hmk
  unfold combine at h
  rw [habs, h1, h2, h3, h4] at h
  simp only [Bool.not_true, Bool.false_eq_true, if_false] at h
  refine ⟨_, _, _, _, _, ⟨hs, hh, hp, ?_, ?_, parseQuery_wellFormed _ _⟩, h⟩
  · split
    · next hslash =>
      refine substrBetween_scan_head _ relativeUrl 0 '/' ?_ (by decide)
      rw [← hslash]
      cases relativeUrl <;> simp
    · cases basePath with
      | nil => simp at hhead
      | cons c l => simpa using hhead
  · have hrel : ∀ c ∈ substrBetween relativeUrl 0 (findFirstOf relativeUrl ['?', '#'] 0),
        c ≠ '?' ∧ c ≠ '#' := by
      intro c hc
      have := substrBetween_scan _ relativeUrl 0 c hc
      simpa using this
    split
    · exact hrel
    · intro c hc
      rcases List.mem_append.1 hc with hc | hc
      · exact hpath c hc
      · exact hrel c hc

theorem obtained_wellFormed (u : Url) (hobt : Obtained u) (habs : u._isAbsoluteUrl = true) :
    WellFormed u := by
  induction hobt with
  | parse s u h => exact parse_wellFormed s u h habs
  | combine b r u _ hc ih =>
    have hb : b._isAbsoluteUrl = true := by
      unfold combine at hc
      cases hba : b._isAbsoluteUrl with
      | true => rfl
      | false =>
        rw [hba] at hc
        cases hc
    exact combine_wellFormed b r u (ih hb) hc

end Url

namespace Url

/-- C1: every absolute URL built by `Url( urlString )`, or by
`Url( baseUrl, relativeUrl )` from a URL so built, is what `Url( urlString )`
builds from its canonical string: the same canonical string, scheme, host,
port, local path and query. -/
theorem parse_canonical_roundtrip (u : Url) (hobt : Obtained u)
    (habs : u.isAbsoluteUrl = true) : parse u._urlString = .ok u := by
  obtain ⟨scheme, host, port, localPath, query, hok, hmk⟩ := obtained_wellFormed u hobt habs
  exact parse_mkAbsolute scheme host port localPath query u hok hmk

/-- C1 on the URL that combining `https://www.google.com/US/` with
`/index.html?query=test` gives. -/
theorem parse_canonical_roundtrip_witness :
    exampleCombined.isAbsoluteUrl = true ∧
    parse "https://www.google.com/index.html?query=test".toList = .ok exampleCombined :=
  ⟨rfl, parse_canonical_roundtrip exampleCombined
    (Obtained.combine exampleBase "/index.html?query=test".toList exampleCombined
      (Obtained.parse "https://www.google.com/US/".toList exampleBase (by decide))
      (by decide))
    rfl⟩

end Url

/-! ### HTML parser -/

namespace HtmlParser

theorem tokenize_nil : tokenize [] = [] := rfl

theorem addWords_nil (htmlInfo : HtmlInfo) :
    addWords htmlInfo .null [] = some htmlInfo := by
  simp [addWords]

theorem parse_anchorTag (href : List Char) :
    TagInfo.parse (['<', 'a', ' ', 'h', 'r', 'e', 'f', '=', doubleQuote] ++ href
      ++ [doubleQuote, '>']) = .ok (anchorTagInfo href) := by
  have hlen : (['<', 'a', ' ', 'h', 'r', 'e', 'f', '=', doubleQuote] ++ href
      ++ [doubleQuote, '>']).length = href.length + 11 := by
    simp
  have hsecond : (['<', 'a', ' ', 'h', 'r', 'e', 'f', '=', doubleQuote] ++ href
      ++ [doubleQuote, '>'])[1]? = some 'a' := by simp
  have hlast : (['<', 'a', ' ', 'h', 'r', 'e', 'f', '=', doubleQuote] ++ href
      ++ [doubleQuote, '>'])[href.length + 11 - 2]? = some doubleQuote :=
    getElem?_at _ (['<', 'a', ' ', 'h', 'r', 'e', 'f', '=', doubleQuote] ++ href) doubleQuote
      ['>'] _ rfl (by simp)
  have htake : ((['<', 'a', ' ', 'h', 'r', 'e', 'f', '=', doubleQuote] ++ href
      ++ [doubleQuote, '>']).take (href.length + 11 - 1)).drop 1
      = ['a', ' ', 'h', 'r', 'e', 'f', '=', doubleQuote] ++ href ++ [doubleQuote] := by
    have h1 : ['<', 'a', ' ', 'h', 'r', 'e', 'f', '=', doubleQuote] ++ href ++ [doubleQuote, '>']
        = (['<', 'a', ' ', 'h', 'r', 'e', 'f', '=', doubleQuote] ++ href ++ [doubleQuote])
          ++ ['>'] := by simp
    rw [h1, List.take_left' (by simp)]
    rfl
  unfold TagInfo.parse
  rw [hlen, if_neg (by omega), hsecond, hlast, if_pos (by decide), htake]
  simp [TagInfo.ofInner, anchorTagInfo, List.takeWhile, List.dropWhile, isSpace, toLower]

theorem valueOf_anchorTag (href : List Char)
    (hq : ∀ c ∈ href, c ≠ singleQuote ∧ c ≠ doubleQuote) :
    (anchorTagInfo href).valueOf "href".toList = some href := by
  have hfind : findStr ([' ', 'h', 'r', 'e', 'f', '=', doubleQuote] ++ href ++ [doubleQuote])
      ['h', 'r', 'e', 'f'] 0 = some 1 := by
    simp [findStr, findStrFrom, List.isPrefixOf]
  have hlen : ([' ', 'h', 'r', 'e', 'f', '=', doubleQuote] ++ href ++ [doubleQuote]).length
      = href.length + 8 := by
    simp
  have hget : ([' ', 'h', 'r', 'e', 'f', '=', doubleQuote] ++ href ++ [doubleQuote])[6]?
      = some doubleQuote := by simp
  have hs : [' ', 'h', 'r', 'e', 'f', '=', doubleQuote] ++ href ++ [doubleQuote]
      = [' ', 'h', 'r', 'e', 'f', '=', doubleQuote] ++ (href ++ doubleQuote :: []) := by simp
  have hend : findFirstOf ([' ', 'h', 'r', 'e', 'f', '=', doubleQuote] ++ href ++ [doubleQuote])
      [singleQuote, doubleQuote] 7 = some (7 + href.length) :=
    findIdxFrom_at_hit _ _ [' ', 'h', 'r', 'e', 'f', '=', doubleQuote] href doubleQuote [] 7
      hs rfl (by
        intro c hc
        have := hq c hc
        simp [this.1, this.2]) (by decide)
  have hsub : substrBetween ([' ', 'h', 'r', 'e', 'f', '=', doubleQuote] ++ href ++ [doubleQuote])
      7 (some (7 + href.length)) = href :=
    substrBetween_at _ [' ', 'h', 'r', 'e', 'f', '=', doubleQuote] href [doubleQuote] 7 hs rfl
  unfold TagInfo.valueOf anchorTagInfo
  simp only [String.toList, hfind, hlen, List.length_cons, List.length_nil]
  rw [if_neg (by omega)]
  simp only [Nat.reduceAdd, hget, or_true, if_true, hend, hsub]

theorem preprocessUrlString_clean (urlString : List Char)
    (h : ∀ c ∈ urlString, isSpace c = false ∧ c ≠ '#') :
    preprocessUrlString urlString = some urlString := by
  have hany : urlString.any isSpace = false := by
    rw [List.any_eq_false]
    intro c hc
    simp [(h c hc).1]
  have hfind : findChar urlString '#' 0 = none :=
    findIdxFrom_none _ _ _ (by
      intro c hc
      rw [List.drop_zero] at hc
      simpa using (h c hc).2)
  simp [preprocessUrlString, hany, hfind]

end HtmlParser

namespace HtmlParser

theorem extractLink_anchorTag (linkFilter : Url → TagInfo → Except Exception Bool)
    (href : List Char) (url : Url)
    (hhref : ∀ c ∈ href,
      isSpace c = false ∧ c ≠ singleQuote ∧ c ≠ doubleQuote ∧ c ≠ '>' ∧ c ≠ '#')
    (hurl : Url.parse href = .ok url)
    (hfilter : linkFilter url (anchorTagInfo href) = .ok true) :
    extractLink linkFilter (anchorTagInfo href) "href".toList = some url := by
  unfold extractLink
  rw [valueOf_anchorTag href (fun c hc => ⟨(hhref c hc).2.1, (hhref c hc).2.2.1⟩)]
  simp only
  rw [preprocessUrlString_clean href (fun c hc => ⟨(hhref c hc).1, (hhref c hc).2.2.2.2⟩)]
  simp only [hurl, hfilter]

/-- C10: for an href `U` without white space, quote, `>` and `#` that the URL
parser accepts and a text `T` without `<`, parsing `<a href="U">T</a>` with a
link filter that accepts the URL at this tag gives exactly one link, whose URL
is `Url( U )` as parsed (relative when `U` is relative) and whose anchor words
are `tokenize( T )`, gives `tokenize( T )` as words, and gives no title words
and no base. -/
theorem parse_single_anchor (reallocates : Nat → Bool)
    (linkFilter : Url → TagInfo → Except Exception Bool)
    (href text : List Char) (url : Url)
    (hhref : ∀ c ∈ href,
      isSpace c = false ∧ c ≠ singleQuote ∧ c ≠ doubleQuote ∧ c ≠ '>' ∧ c ≠ '#')
    (hurl : Url.parse href = .ok url)
    (hfilter : linkFilter url (anchorTagInfo href) = .ok true)
    (htext : '<' ∉ text) :
    parse reallocates linkFilter (anchorHtml href text) =
      some (.ok { words := tokenize text, titleWords := [],
                  links := [{ url := url, anchorWords := tokenize text }], base := none }) := by
  let A : List Char := ['<', 'a', ' ', 'h', 'r', 'e', 'f', '=', doubleQuote] ++ href ++ [doubleQuote]
  have hA : A.length = href.length + 10 := by simp [A]
  have hs1 : anchorHtml href text = [] ++ (A ++ '>' :: (text ++ ['<', '/', 'a', '>'])) := by
    simp [anchorHtml, A]
  have hs1b : anchorHtml href text = [] ++ ((A ++ ['>']) ++ (text ++ ['<', '/', 'a', '>'])) := by
    simp [anchorHtml, A]
  have hs2 : anchorHtml href text = (A ++ ['>']) ++ (text ++ '<' :: ['/', 'a', '>']) := by
    simp [anchorHtml, A]
  have hs3 : anchorHtml href text = (A ++ ['>'] ++ text) ++ (['<', '/', 'a'] ++ '>' :: []) := by
    simp [anchorHtml, A]
  have hs3b : anchorHtml href text = (A ++ ['>'] ++ text) ++ (['<', '/', 'a', '>'] ++ []) := by
    simp [anchorHtml, A]
  have hs4 : anchorHtml href text = (A ++ ['>'] ++ text ++ ['<', '/', 'a', '>']) ++ [] := by
    simp [anchorHtml, A]
  have hAgt : ∀ c ∈ A, decide (c = '>') = false := by
    intro c hc
    simp only [A, List.mem_append, List.mem_cons, List.mem_singleton, List.not_mem_nil,
      or_false] at hc
    rcases hc with (hc | hc) | hc
    · rcases hc with rfl | rfl | rfl | rfl | rfl | rfl | rfl | rfl | rfl <;> decide
    · simpa using (hhref c hc).2.2.2.1
    · rw [hc]
      decide
  have f1 : findChar (anchorHtml href text) '<' 0 = some 0 := by
    simp [findChar, findIdxFrom, anchorHtml]
  have f2 : substrBetween (anchorHtml href text) 0 (some 0) = [] := by
    simp [substrBetween]
  have f3 : findChar (anchorHtml href text) '>' 0 = some (0 + A.length) :=
    findIdxFrom_at_hit _ _ [] A '>' _ 0 hs1 rfl hAgt (by simp)
  have f4 : substrBetween (anchorHtml href text) 0 (some (0 + (A ++ ['>']).length))
      = A ++ ['>'] :=
    substrBetween_at _ [] (A ++ ['>']) _ 0 hs1b rfl
  have f5 : TagInfo.parse (A ++ ['>']) = .ok (anchorTagInfo href) := by
    have := parse_anchorTag href
    simpa [A] using this
  have f7 := extractLink_anchorTag linkFilter href url hhref hurl hfilter
  have hp2 : href.length + 11 = (A ++ ['>']).length := by simp [A]
  have f8 : findChar (anchorHtml href text) '<' (href.length + 11)
      = some (href.length + 11 + text.length) :=
    findIdxFrom_at_hit _ _ (A ++ ['>']) text '<' _ _ hs2 hp2 (by
      intro c hc
      have : c ≠ '<' := fun h => htext (h ▸ hc)
      simpa using this) (by simp)
  have f9 : substrBetween (anchorHtml href text) (href.length + 11)
      (some (href.length + 11 + text.length)) = text :=
    substrBetween_at _ (A ++ ['>']) text _ _ hs2 hp2
  have hp3 : href.length + 11 + text.length = (A ++ ['>'] ++ text).length := by simp [A]; omega
  have f10 : findChar (anchorHtml href text) '>' (href.length + 11 + text.length)
      = some (href.length + 11 + text.length + 3) :=
    findIdxFrom_at_hit _ _ (A ++ ['>'] ++ text) ['<', '/', 'a'] '>' [] _ hs3 hp3
      (by decide) (by simp)
  have f11 : substrBetween (anchorHtml href text) (href.length + 11 + text.length)
      (some (href.length + 11 + text.length + 3 + 1)) = ['<', '/', 'a', '>'] :=
    substrBetween_at _ (A ++ ['>'] ++ text) ['<', '/', 'a', '>'] [] _ hs3b hp3
  have f12 : TagInfo.parse ['<', '/', 'a', '>']
      = .ok { type := TagType.Closing, name := ['a'], _params := [] } := by decide
  have hp4 : href.length + 11 + text.length + 3 + 1
      = (A ++ ['>'] ++ text ++ ['<', '/', 'a', '>']).length := by simp [A]; omega
  have f13 : findChar (anchorHtml href text) '<' (href.length + 11 + text.length + 3 + 1)
      = none :=
    findIdxFrom_at_none _ _ _ [] _ hs4 hp4 (by simp)
  have f14 : substrBetween (anchorHtml href text) (href.length + 11 + text.length + 3 + 1) none
      = [] :=
    substrBetween_at_none _ _ [] _ hs4 hp4
  have hfuel : (anchorHtml href text).length + 1
      = (href.length + text.length + 13) + 1 + 1 + 1 := by
    simp [anchorHtml]
    omega
  have f3b : findChar (anchorHtml href text) '>' 0 = some (href.length + 10) := by
    rw [f3, hA, Nat.zero_add]
  have f4b : substrBetween (anchorHtml href text) 0 (some (href.length + 10 + 1)) = A ++ ['>'] := by
    have := f4
    rwa [List.length_append, hA, Nat.zero_add] at this
  have f6b : tagActionOf ['a'] = TagAction.Anchor := by decide
  have r1 : parseRound reallocates linkFilter (anchorHtml href text) 0
      { words := [], titleWords := [], links := [], base := none } .null
      = .inr (href.length + 10 + 1,
          { words := [], titleWords := [], links := [{ url := url, anchorWords := [] }],
            base := none }, .link 0) := by
    simp only [parseRound, f1, f2, tokenize_nil, addWords_nil, f3b, f4b, f5, tagEffect,
      anchorTagInfo, f6b]
    have f7b : extractLink linkFilter
        { type := TagType.Opening, name := ['a'],
          _params := [' ', 'h', 'r', 'e', 'f', '=', doubleQuote] ++ href ++ [doubleQuote] }
        "href".toList = some url := f7
    simp only [f7b]
    rfl
  have r2 : parseRound reallocates linkFilter (anchorHtml href text) (href.length + 10 + 1)
      { words := [], titleWords := [], links := [{ url := url, anchorWords := [] }],
        base := none } (.link 0)
      = .inr (href.length + 11 + text.length + 3 + 1,
          { words := tokenize text, titleWords := [],
            links := [{ url := url, anchorWords := tokenize text }], base := none },
          .null) := by
    simp only [parseRound, f8, f9, f10, f11, f12, tagEffect, f6b, if_true, addWords,
      appendAnchorWords]
    simp
  have r3 : parseRound reallocates linkFilter (anchorHtml href text) (href.length + 11 + text.length + 3 + 1)
      { words := tokenize text, titleWords := [],
        links := [{ url := url, anchorWords := tokenize text }], base := none } .null
      = .inl (.ok { words := tokenize text, titleWords := [],
                    links := [{ url := url, anchorWords := tokenize text }],
                    base := none }) := by
    simp only [parseRound, f13, f14, tokenize_nil, addWords_nil]
  unfold parse
  rw [hfuel]
  simp only [parseLoop, r1, r2, r3]

end HtmlParser

theorem takeWhile_dropWhile_split (p : Char → Bool) (a : List Char) (d : Char) (b : List Char)
    (ha : ∀ c ∈ a, p c = false) (hd : p d = true) :
    (a ++ d :: b).takeWhile (fun c => !p c) = a ∧
    (a ++ d :: b).dropWhile (fun c => !p c) = d :: b := by
  induction a with
  | nil => simp [List.takeWhile, List.dropWhile, hd]
  | cons c a ih =>
    have hc : p c = false := ha c (List.mem_cons_self _ _)
    obtain ⟨h1, h2⟩ := ih (fun x hx => ha x (List.mem_cons_of_mem _ hx))
    simp [List.takeWhile, List.dropWhile, hc, h1, h2]

theorem takeWhile_dropWhile_all (p : Char → Bool) (s : List Char)
    (hs : ∀ c ∈ s, p c = false) :
    s.takeWhile (fun c => !p c) = s ∧ s.dropWhile (fun c => !p c) = [] := by
  induction s with
  | nil => simp
  | cons c s ih =>
    have hc : p c = false := hs c (List.mem_cons_self _ _)
    obtain ⟨h1, h2⟩ := ih (fun x hx => hs x (List.mem_cons_of_mem _ hx))
    simp [List.takeWhile, List.dropWhile, hc, h1, h2]

namespace HtmlParser

theorem skipPast_of_findStrFrom (pat s : List Char) (i j : Nat)
    (h : findStrFrom pat s i = some j) :
    i ≤ j ∧ skipPast pat s = some (s.drop (j - i + pat.length)) := by
  induction s generalizing i with
  | nil =>
    simp only [findStrFrom] at h
    split at h
    · next hp =>
      cases h
      simp [skipPast, hp]
    · cases h
  | cons c cs ih =>
    simp only [findStrFrom] at h
    by_cases hp : pat.isPrefixOf (c :: cs) = true
    · rw [if_pos hp] at h
      cases h
      simp [skipPast, hp]
    · rw [if_neg hp] at h
      obtain ⟨hle, hskip⟩ := ih (i + 1) h
      refine ⟨by omega, ?_⟩
      simp only [skipPast, if_neg hp, hskip]
      have : j - i + pat.length = (j - (i + 1) + pat.length) + 1 := by omega
      rw [this, List.drop_succ_cons]

theorem skipPast_of_findStr (pat s : List Char) (pos found : Nat)
    (h : findStr s pat pos = some found) :
    skipPast pat (s.drop pos) = some (s.drop (found + pat.length)) := by
  unfold findStr at h
  split at h
  · obtain ⟨hle, hskip⟩ := skipPast_of_findStrFrom pat _ _ _ h
    rw [hskip, List.drop_drop]
    congr 2
    omega
  · cases h

theorem addWords_words (htmlInfo : HtmlInfo) (currentLinkInfo : LinkPointer)
    (words : List (List Char)) (htmlInfo2 : HtmlInfo)
    (h : addWords htmlInfo currentLinkInfo words = some htmlInfo2) :
    htmlInfo2.words = htmlInfo.words ++ words := by
  cases currentLinkInfo <;> simp only [addWords, Option.some.injEq] at h
  · rw [← h]
  · rw [← h]
  · cases h

theorem applyBase_words (htmlInfo : HtmlInfo) (tagInfo : TagInfo) :
    (applyBase htmlInfo tagInfo).words = htmlInfo.words := by
  unfold applyBase
  split
  · rfl
  · split
    · rfl
    · split
      · rfl
      · split <;> rfl

/-- The names of the elements whose content `HtmlParser::parse` skips. -/
theorem tagActionOf_skips_iff (name : List Char) :
    (tagActionOf name = TagAction.DiscardElement ∨ tagActionOf name = TagAction.Title) ↔
      name ∈ ["script".toList, "style".toList, "svg".toList, "title".toList] := by
  unfold tagActionOf
  by_cases h1 : name = ['a']
  · subst h1; decide
  by_cases h2 : name = ['b', 'a', 's', 'e']
  · subst h2; decide
  by_cases h3 : name = ['e', 'm', 'b', 'e', 'd']
  · subst h3; decide
  by_cases h4 : name = ['s', 'c', 'r', 'i', 'p', 't']
  · subst h4; decide
  by_cases h5 : name = ['s', 't', 'y', 'l', 'e']
  · subst h5; decide
  by_cases h6 : name = ['s', 'v', 'g']
  · subst h6; decide
  by_cases h7 : name = ['t', 'i', 't', 'l', 'e']
  · subst h7; decide
  have e1 : "a".toList = ['a'] := rfl
  have e2 : "base".toList = ['b', 'a', 's', 'e'] := rfl
  have e3 : "embed".toList = ['e', 'm', 'b', 'e', 'd'] := rfl
  have e4 : "script".toList = ['s', 'c', 'r', 'i', 'p', 't'] := rfl
  have e5 : "style".toList = ['s', 't', 'y', 'l', 'e'] := rfl
  have e6 : "svg".toList = ['s', 'v', 'g'] := rfl
  have e7 : "title".toList = ['t', 'i', 't', 'l', 'e'] := rfl
  rw [e1, e2, e3, e4, e5, e6, e7, if_neg h1, if_neg h2, if_neg h3, if_neg h4, if_neg h5,
    if_neg h6, if_neg h7]
  constructor
  · rintro (h | h) <;> cases h
  · intro h
    simp only [List.mem_cons, List.mem_singleton, List.not_mem_nil, or_false] at h
    rcases h with h | h | h | h
    · exact absurd h h4
    · exact absurd h h5
    · exact absurd h h6
    · exact absurd h h7

theorem tagEffect_spec (reallocates : Nat → Bool)
    (linkFilter : Url → TagInfo → Except Exception Bool)
    (htmlString : List Char) (tagEnd : Nat) (htmlInfo : HtmlInfo) (currentLinkInfo : LinkPointer)
    (tagInfo : TagInfo) (next : Nat × HtmlInfo × LinkPointer)
    (h : tagEffect reallocates linkFilter htmlString tagEnd htmlInfo currentLinkInfo tagInfo = .ok next) :
    next.2.1.words = htmlInfo.words ∧
    (if tagInfo.type = TagType.Opening ∧
        tagInfo.name ∈ ["script".toList, "style".toList, "svg".toList, "title".toList] then
      ∃ found, findStr htmlString tagInfo.getClosingTagString tagEnd = some found ∧
        next.1 = found + tagInfo.getClosingTagString.length
    else next.1 = tagEnd) := by
  have hiff := tagActionOf_skips_iff tagInfo.name
  unfold tagEffect at h
  cases hty : tagInfo.type with
  | Opening =>
    rw [hty] at h
    simp only at h
    cases hact : tagActionOf tagInfo.name with
    | Anchor =>
      rw [hact] at h hiff
      simp only at h
      have hnot : ¬ tagInfo.name ∈
          ["script".toList, "style".toList, "svg".toList, "title".toList] :=
        fun hm => by simpa using hiff.2 hm
      rw [if_neg (fun hc => hnot hc.2)]
      split at h <;> (cases h; exact ⟨rfl, rfl⟩)
    | Base =>
      rw [hact] at h hiff
      simp only at h
      have hnot : ¬ tagInfo.name ∈
          ["script".toList, "style".toList, "svg".toList, "title".toList] :=
        fun hm => by simpa using hiff.2 hm
      rw [if_neg (fun hc => hnot hc.2)]
      cases h
      exact ⟨applyBase_words _ _, rfl⟩
    | Discard =>
      rw [hact] at h hiff
      simp only at h
      have hnot : ¬ tagInfo.name ∈
          ["script".toList, "style".toList, "svg".toList, "title".toList] :=
        fun hm => by simpa using hiff.2 hm
      rw [if_neg (fun hc => hnot hc.2)]
      cases h
      exact ⟨rfl, rfl⟩
    | DiscardElement =>
      rw [hact] at h hiff
      simp only at h
      have hin := hiff.1 (Or.inl rfl)
      rw [if_pos ⟨rfl, hin⟩]
      cases hf : findStr htmlString tagInfo.getClosingTagString tagEnd with
      | none => rw [hf] at h; cases h
      | some found =>
        rw [hf] at h
        cases h
        exact ⟨rfl, found, rfl, rfl⟩
    | Embed =>
      rw [hact] at h hiff
      simp only at h
      have hnot : ¬ tagInfo.name ∈
          ["script".toList, "style".toList, "svg".toList, "title".toList] :=
        fun hm => by simpa using hiff.2 hm
      rw [if_neg (fun hc => hnot hc.2)]
      split at h <;> (cases h; exact ⟨rfl, rfl⟩)
    | Title =>
      rw [hact] at h hiff
      simp only at h
      have hin := hiff.1 (Or.inr rfl)
      rw [if_pos ⟨rfl, hin⟩]
      cases hf : findStr htmlString tagInfo.getClosingTagString tagEnd with
      | none => rw [hf] at h; cases h
      | some found =>
        rw [hf] at h
        cases h
        exact ⟨rfl, found, rfl, rfl⟩
  | Closing =>
    rw [hty] at h
    simp only at h
    have hno : ¬ (TagType.Closing = TagType.Opening ∧ tagInfo.name ∈
        ["script".toList, "style".toList, "svg".toList, "title".toList]) :=
      fun hc => by cases hc.1
    rw [if_neg hno]
    cases h
    exact ⟨rfl, rfl⟩
  | SelfClosing =>
    rw [hty] at h
    simp only at h
    have hno : ¬ (TagType.SelfClosing = TagType.Opening ∧ tagInfo.name ∈
        ["script".toList, "style".toList, "svg".toList, "title".toList]) :=
      fun hc => by cases hc.1
    rw [if_neg hno]
    cases h
    refine ⟨?_, rfl⟩
    simp only
    split
    · exact applyBase_words _ _
    · rfl

end HtmlParser

namespace HtmlParser

theorem parseRound_inl (reallocates : Nat → Bool)
    (linkFilter : Url → TagInfo → Except Exception Bool)
    (htmlString : List Char) (beginPos : Nat) (htmlInfo : HtmlInfo) (currentLinkInfo : LinkPointer)
    (htmlInfo2 : HtmlInfo)
    (h : parseRound reallocates linkFilter htmlString beginPos htmlInfo currentLinkInfo
      = .inl (.ok htmlInfo2)) :
    (∀ c ∈ htmlString.drop beginPos, decide (c = '<') = false) ∧
    htmlInfo2.words = htmlInfo.words ++ tokenize (htmlString.drop beginPos) := by
  unfold parseRound at h
  simp only at h
  cases ha : addWords htmlInfo currentLinkInfo
      (tokenize (substrBetween htmlString beginPos (findChar htmlString '<' beginPos))) with
  | none => rw [ha] at h; simp at h
  | some info =>
    rw [ha] at h
    simp only at h
    cases hf : findChar htmlString '<' beginPos with
    | none =>
      rw [hf] at h ha
      simp only [Sum.inl.injEq, ParseResult.ok.injEq] at h
      rw [← h, addWords_words _ _ _ _ ha]
      exact ⟨findIdxFrom_eq_none _ _ _ hf, rfl⟩
    | some tagBegin =>
      rw [hf] at h
      simp only at h
      cases hc : findChar htmlString '>' tagBegin with
      | none => rw [hc] at h; simp at h
      | some closePos =>
        rw [hc] at h
        simp only at h
        cases hp : TagInfo.parse (substrBetween htmlString tagBegin (some (closePos + 1))) with
        | error e => rw [hp] at h; simp at h
        | ok tagInfo =>
          rw [hp] at h
          simp only at h
          split at h <;> simp at h

theorem parseRound_inr (reallocates : Nat → Bool)
    (linkFilter : Url → TagInfo → Except Exception Bool)
    (htmlString : List Char) (beginPos : Nat) (htmlInfo : HtmlInfo) (currentLinkInfo : LinkPointer)
    (next : Nat × HtmlInfo × LinkPointer)
    (h : parseRound reallocates linkFilter htmlString beginPos htmlInfo currentLinkInfo = .inr next) :
    ∃ (a b a2 rest : List Char) (tagInfo : TagInfo),
      htmlString.drop beginPos = a ++ '<' :: b ∧
      (∀ c ∈ a, decide (c = '<') = false) ∧
      '<' :: b = a2 ++ '>' :: rest ∧
      (∀ c ∈ a2, decide (c = '>') = false) ∧
      TagInfo.parse (a2 ++ ['>']) = .ok tagInfo ∧
      next.2.1.words = htmlInfo.words ++ tokenize a ∧
      (if tagInfo.type = TagType.Opening ∧
          tagInfo.name ∈ ["script".toList, "style".toList, "svg".toList, "title".toList] then
        skipPast tagInfo.getClosingTagString rest = some (htmlString.drop next.1)
      else htmlString.drop next.1 = rest) := by
  unfold parseRound at h
  simp only at h
  cases hadd : addWords htmlInfo currentLinkInfo
      (tokenize (substrBetween htmlString beginPos (findChar htmlString '<' beginPos))) with
  | none => rw [hadd] at h; simp at h
  | some info =>
  rw [hadd] at h
  simp only at h
  cases hf : findChar htmlString '<' beginPos with
  | none => rw [hf] at h; simp at h
  | some tagBegin =>
    rw [hf] at h hadd
    simp only at h
    cases hc : findChar htmlString '>' tagBegin with
    | none => rw [hc] at h; simp at h
    | some closePos =>
      rw [hc] at h
      simp only at h
      cases hp : TagInfo.parse (substrBetween htmlString tagBegin (some (closePos + 1))) with
      | error e => rw [hp] at h; simp at h
      | ok tagInfo =>
        rw [hp] at h
        simp only at h
        cases he : tagEffect reallocates linkFilter htmlString (closePos + 1) info
            currentLinkInfo tagInfo with
        | error e => rw [he] at h; simp at h
        | ok next2 =>
          rw [he] at h
          simp only [Sum.inr.injEq] at h
          subst h
          obtain ⟨a, d, b, hs, ha, hd, htb, _, hdrop, htake⟩ :=
            findIdxFrom_drop_eq_some _ htmlString beginPos tagBegin hf
          have hd2 : d = '<' := by simpa using hd
          subst hd2
          obtain ⟨a2, d2, rest, hs2, ha2, hd2, hcp, _, hdrop2, htake2⟩ :=
            findIdxFrom_drop_eq_some _ htmlString tagBegin closePos hc
          have hd3 : d2 = '>' := by simpa using hd2
          subst hd3
          have htag : substrBetween htmlString tagBegin (some (closePos + 1)) = a2 ++ ['>'] := by
            simp only [substrBetween]
            rw [hs2, hcp]
            have : tagBegin + a2.length + 1 - tagBegin = a2.length + 1 := by omega
            rw [this, List.take_append_eq_append_take]
            simp
          have hrest : htmlString.drop (closePos + 1) = rest := by
            have := congrArg (List.drop 1) hdrop2
            rw [List.drop_drop] at this
            simpa [Nat.add_comm] using this
          obtain ⟨hwords, hpos⟩ := tagEffect_spec _ _ _ _ _ _ _ _ he
          refine ⟨a, b, a2, rest, tagInfo, hs, ha, ?_, ha2, ?_, ?_, ?_⟩
          · rw [← hdrop, hs2]
          · rw [← htag, hp]
          · rw [hwords, addWords_words _ _ _ _ hadd]
            simp only [substrBetween]
            rw [htake]
          · split
            · next hcond =>
              rw [if_pos hcond] at hpos
              obtain ⟨found, hfound, hnext⟩ := hpos
              rw [hnext, ← hrest]
              exact skipPast_of_findStr _ _ _ _ hfound
            · next hcond =>
              rw [if_neg hcond] at hpos
              rw [hpos, hrest]

theorem parseLoop_words (reallocates : Nat → Bool)
    (linkFilter : Url → TagInfo → Except Exception Bool)
    (htmlString : List Char) (fuel : Nat) :
    ∀ (beginPos : Nat) (htmlInfo : HtmlInfo) (currentLinkInfo : LinkPointer)
      (htmlInfo2 : HtmlInfo),
      parseLoop reallocates linkFilter htmlString fuel beginPos htmlInfo currentLinkInfo
        = some (.ok htmlInfo2) →
      htmlInfo2.words = htmlInfo.words ++ wordsOfRuns
        (textRuns ["script".toList, "style".toList, "svg".toList, "title".toList] fuel
          (htmlString.drop beginPos)) := by
  induction fuel with
  | zero =>
    intro beginPos htmlInfo currentLinkInfo htmlInfo2 h
    simp [parseLoop] at h
  | succ fuel ih =>
    intro beginPos htmlInfo currentLinkInfo htmlInfo2 h
    simp only [parseLoop] at h
    cases hr : parseRound reallocates linkFilter htmlString beginPos htmlInfo currentLinkInfo with
    | inl result =>
      rw [hr] at h
      simp only [Option.some.injEq] at h
      subst h
      obtain ⟨hall, hwords⟩ := parseRound_inl _ _ _ _ _ _ _ hr
      obtain ⟨h1, h2⟩ := takeWhile_dropWhile_all (fun c => decide (c = '<')) _ hall
      simp only [textRuns, h1, h2, wordsOfRuns, List.append_nil]
      exact hwords
    | inr next =>
      rw [hr] at h
      simp only at h
      obtain ⟨a, b, a2, rest, tagInfo, hs, ha, hs2, ha2, hp, hwords, hnext⟩ :=
        parseRound_inr _ _ _ _ _ _ _ hr
      have hrec := ih _ _ _ _ h
      obtain ⟨h1, h2⟩ := takeWhile_dropWhile_split (fun c => decide (c = '<')) a '<' b ha
        (by simp)
      have h34 := takeWhile_dropWhile_split (fun c => decide (c = '>')) a2 '>' rest ha2
        (by simp)
      rw [← hs2] at h34
      obtain ⟨h3, h4⟩ := h34
      rw [hrec, hwords, List.append_assoc]
      congr 1
      rw [hs]
      simp only [textRuns, h1, h2, h3, h4, hp]
      split
      · next hcond =>
        rw [if_pos hcond] at hnext
        simp only [hnext, wordsOfRuns]
      · next hcond =>
        rw [if_neg hcond] at hnext
        simp only [hnext, wordsOfRuns]

end HtmlParser

namespace HtmlParser

/-- C10 on the text `<a href="/x">Hello World</a>` and the default link
filter: one link, the relative URL `/x`, with the anchor words `hello` and
`world`, which are also the words. -/
theorem parse_single_anchor_witness :
    parse (fun _ => true) defaultLinkFilter (anchorHtml "/x".toList "Hello World".toList) =
      some (.ok { words := ["hello".toList, "world".toList], titleWords := [],
                  links := [{ url := { _urlString := "/x".toList, _isAbsoluteUrl := false,
                                       _scheme := none, _host := none, _port := none,
                                       _localPath := none, _query := none },
                              anchorWords := ["hello".toList, "world".toList] }],
                  base := none }) := by
  have h := parse_single_anchor (fun _ => true) defaultLinkFilter "/x".toList
    "Hello World".toList
    { _urlString := "/x".toList, _isAbsoluteUrl := false, _scheme := none, _host := none,
      _port := none, _localPath := none, _query := none }
    (by decide) (by decide) rfl (by decide)
  have ht : tokenize "Hello World".toList = ["hello".toList, "world".toList] := by decide
  rw [ht] at h
  exact h

/-- C9 as stated fails: in `<title>Hello</title>` the text `Hello` lies outside
tags and outside `script`, `style` and `svg` elements, but the parse succeeds
with no words (the token goes to `titleWords`). -/
theorem words_omit_title_text :
    (∀ reallocates : Nat → Bool,
      parse reallocates defaultLinkFilter "<title>Hello</title>".toList =
        some (.ok { words := [], titleWords := ["hello".toList], links := [],
                    base := none })) ∧
    visibleWords ["script".toList, "style".toList, "svg".toList] "<title>Hello</title>".toList
      = ["hello".toList] ∧
    ¬ (visibleWords ["script".toList, "style".toList, "svg".toList]
        "<title>Hello</title>".toList).Sublist [] :=
  ⟨fun _ => rfl, by decide, by decide⟩

/-- C9 (amended): when the parse of an HTML text succeeds, `words` contains,
in document order, each token of every text run that lies outside tags and
outside `script`, `style`, `svg` and `title` elements; it is exactly the list
of these tokens. -/
theorem words_eq_visibleWords (reallocates : Nat → Bool)
    (linkFilter : Url → TagInfo → Except Exception Bool)
    (htmlString : List Char) (htmlInfo : HtmlInfo)
    (h : parse reallocates linkFilter htmlString = some (.ok htmlInfo)) :
    (visibleWords ["script".toList, "style".toList, "svg".toList, "title".toList]
      htmlString).Sublist htmlInfo.words ∧
    htmlInfo.words =
      visibleWords ["script".toList, "style".toList, "svg".toList, "title".toList]
        htmlString := by
  have hw := parseLoop_words reallocates linkFilter htmlString _ _ _ _ _ h
  simp only [List.nil_append, List.drop_zero] at hw
  have heq : htmlInfo.words =
      visibleWords ["script".toList, "style".toList, "svg".toList, "title".toList]
        htmlString := hw
  exact ⟨heq ▸ List.Sublist.refl _, heq⟩

/-- C9 (amended) on a text with a tag pair, a `script` element and a `title`
element. -/
theorem words_eq_visibleWords_witness :
    (visibleWords ["script".toList, "style".toList, "svg".toList, "title".toList]
      "a <b>B,c!</b> <script>x y</script> <title>T</title> d ".toList).Sublist
      ["a".toList, "b,c".toList, "d".toList] ∧
    ["a".toList, "b,c".toList, "d".toList] =
      visibleWords ["script".toList, "style".toList, "svg".toList, "title".toList]
        "a <b>B,c!</b> <script>x y</script> <title>T</title> d ".toList :=
  words_eq_visibleWords (fun _ => true) defaultLinkFilter
    "a <b>B,c!</b> <script>x y</script> <title>T</title> d ".toList
    { words := ["a".toList, "b,c".toList, "d".toList], titleWords := ["t".toList],
      links := [], base := none }
    (by decide)

end HtmlParser

theorem findIdxFrom_drop_lt (p : Char → Bool) (s : List Char) (pos e : Nat)
    (h : findIdxFrom p (s.drop pos) pos = some e) : pos ≤ e ∧ e < s.length := by
  obtain ⟨a, d, b, hs, _, _, he, _, _, _⟩ := findIdxFrom_drop_eq_some p s pos e h
  have hlen := congrArg List.length hs
  simp only [List.length_drop, List.length_append, List.length_cons] at hlen
  omega

theorem findStrFrom_bound (pat s : List Char) (i j : Nat) (h : findStrFrom pat s i = some j) :
    i ≤ j ∧ j - i + pat.length ≤ s.length := by
  induction s generalizing i with
  | nil =>
    simp only [findStrFrom] at h
    split at h
    · next hp =>
      cases h
      simp [hp]
    · cases h
  | cons c cs ih =>
    simp only [findStrFrom] at h
    by_cases hp : pat.isPrefixOf (c :: cs) = true
    · rw [if_pos hp] at h
      cases h
      have := (List.isPrefixOf_iff_prefix.1 hp).length_le
      simp only [List.length_cons] at this ⊢
      omega
    · rw [if_neg hp] at h
      obtain ⟨h1, h2⟩ := ih (i + 1) h
      simp only [List.length_cons]
      omega

theorem findStr_bound (s pat : List Char) (pos found : Nat)
    (h : findStr s pat pos = some found) : pos ≤ found ∧ found + pat.length ≤ s.length := by
  unfold findStr at h
  split at h
  · next hle =>
    obtain ⟨h1, h2⟩ := findStrFrom_bound pat _ _ _ h
    simp only [List.length_drop] at h2
    omega
  · cases h

namespace HtmlParser

theorem tagEffect_pos (reallocates : Nat → Bool)
    (linkFilter : Url → TagInfo → Except Exception Bool)
    (htmlString : List Char) (tagEnd : Nat) (htmlInfo : HtmlInfo) (currentLinkInfo : LinkPointer)
    (tagInfo : TagInfo) (next : Nat × HtmlInfo × LinkPointer) (hle : tagEnd ≤ htmlString.length)
    (h : tagEffect reallocates linkFilter htmlString tagEnd htmlInfo currentLinkInfo tagInfo = .ok next) :
    tagEnd ≤ next.1 ∧ next.1 ≤ htmlString.length := by
  have hspec := (tagEffect_spec _ _ _ _ _ _ _ _ h).2
  split at hspec
  · obtain ⟨found, hfound, hnext⟩ := hspec
    have := findStr_bound _ _ _ _ hfound
    omega
  · omega

theorem parseRound_pos (reallocates : Nat → Bool)
    (linkFilter : Url → TagInfo → Except Exception Bool)
    (htmlString : List Char) (beginPos : Nat) (htmlInfo : HtmlInfo) (currentLinkInfo : LinkPointer)
    (next : Nat × HtmlInfo × LinkPointer)
    (h : parseRound reallocates linkFilter htmlString beginPos htmlInfo currentLinkInfo = .inr next) :
    beginPos < next.1 ∧ next.1 ≤ htmlString.length := by
  unfold parseRound at h
  simp only at h
  cases hadd : addWords htmlInfo currentLinkInfo
      (tokenize (substrBetween htmlString beginPos (findChar htmlString '<' beginPos))) with
  | none => rw [hadd] at h; simp at h
  | some info =>
  rw [hadd] at h
  simp only at h
  cases hf : findChar htmlString '<' beginPos with
  | none => rw [hf] at h; simp at h
  | some tagBegin =>
    rw [hf] at h
    simp only at h
    cases hc : findChar htmlString '>' tagBegin with
    | none => rw [hc] at h; simp at h
    | some closePos =>
      rw [hc] at h
      simp only at h
      cases hp : TagInfo.parse (substrBetween htmlString tagBegin (some (closePos + 1))) with
      | error e => rw [hp] at h; simp at h
      | ok tagInfo =>
        rw [hp] at h
        simp only at h
        cases he : tagEffect reallocates linkFilter htmlString (closePos + 1) info
            currentLinkInfo tagInfo with
        | error e => rw [he] at h; simp at h
        | ok next2 =>
          rw [he] at h
          simp only [Sum.inr.injEq] at h
          subst h
          have h1 := findIdxFrom_drop_lt _ htmlString beginPos tagBegin hf
          have h2 := findIdxFrom_drop_lt _ htmlString tagBegin closePos hc
          have h3 := tagEffect_pos _ _ _ _ _ _ _ _ (by omega) he
          omega

theorem parseLoop_ne_none (reallocates : Nat → Bool)
    (linkFilter : Url → TagInfo → Except Exception Bool)
    (htmlString : List Char) (fuel : Nat) :
    ∀ (beginPos : Nat) (htmlInfo : HtmlInfo) (currentLinkInfo : LinkPointer),
      beginPos ≤ htmlString.length → htmlString.length < fuel + beginPos →
      parseLoop reallocates linkFilter htmlString fuel beginPos htmlInfo currentLinkInfo ≠ none := by
  induction fuel with
  | zero =>
    intro beginPos htmlInfo currentLinkInfo h1 h2
    omega
  | succ fuel ih =>
    intro beginPos htmlInfo currentLinkInfo h1 h2
    simp only [parseLoop]
    cases hr : parseRound reallocates linkFilter htmlString beginPos htmlInfo currentLinkInfo with
    | inl result => simp
    | inr next =>
      have hpos := parseRound_pos _ _ _ _ _ _ _ hr
      simp only
      exact ih _ _ _ hpos.2 (by omega)

/-- The fuel `htmlString.length + 1` of `parse` is enough: the loop always
ends, with a result, an exception or undefined behaviour. -/
theorem parse_ne_none (reallocates : Nat → Bool)
    (linkFilter : Url → TagInfo → Except Exception Bool)
    (htmlString : List Char) : parse reallocates linkFilter htmlString ≠ none :=
  parseLoop_ne_none reallocates linkFilter htmlString _ 0 _ _ (Nat.zero_le _) (by omega)

end HtmlParser

namespace HtmlParser

theorem skipPast_length (pat s r : List Char) (h : skipPast pat s = some r) :
    r.length ≤ s.length := by
  induction s with
  | nil =>
    simp only [skipPast] at h
    split at h
    · cases h; simp
    · cases h
  | cons c cs ih =>
    simp only [skipPast] at h
    split at h
    · cases h
      simp only [List.length_drop, List.length_cons]
      omega
    · have := ih h
      simp only [List.length_cons]
      omega

theorem dropWhile_length_le (p : Char → Bool) (s : List Char) :
    (s.dropWhile p).length ≤ s.length :=
  (List.dropWhile_suffix p).length_le

/-- The fuel of `textRuns` does not matter once it exceeds the length of the
text: `visibleWords` scans the whole text. -/
theorem textRuns_fuel (excluded : List (List Char)) (fuel1 : Nat) :
    ∀ (fuel2 : Nat) (s : List Char), s.length < fuel1 → s.length < fuel2 →
      textRuns excluded fuel1 s = textRuns excluded fuel2 s := by
  induction fuel1 with
  | zero => intro fuel2 s h1 h2; omega
  | succ fuel1 ih =>
    intro fuel2 s h1 h2
    cases fuel2 with
    | zero => omega
    | succ fuel2 =>
      have hlen1 := dropWhile_length_le (fun c => !decide (c = '<')) s
      simp only [textRuns]
      cases hd : s.dropWhile (fun c => !decide (c = '<')) with
      | nil => rfl
      | cons t ts =>
        rw [hd] at hlen1
        have hlen2 := dropWhile_length_le (fun c => !decide (c = '>')) (t :: ts)
        simp only
        cases hd2 : (t :: ts).dropWhile (fun c => !decide (c = '>')) with
        | nil => rfl
        | cons g rest =>
          rw [hd2] at hlen2
          simp only [List.length_cons] at hlen1 hlen2
          simp only
          cases hp : TagInfo.parse
              ((t :: ts).takeWhile (fun c => !decide (c = '>')) ++ ['>']) with
          | error e => rfl
          | ok tagInfo =>
            simp only
            split
            · cases hs : skipPast tagInfo.getClosingTagString rest with
              | none => rfl
              | some rest2 =>
                have := skipPast_length _ _ _ hs
                simp only
                rw [ih fuel2 rest2 (by omega) (by omega)]
            · rw [ih fuel2 rest (by omega) (by omega)]

end HtmlParser

/-! ### Bloom filter -/

namespace BloomFilter

theorem bitIndex_lt (h1 h2 : Int) (i size : Nat) (hsize : 0 < size) :
    bitIndex h1 h2 i size < size :=
  Nat.mod_lt _ hsize

theorem insertLoop_ok (h1 h2 : Int) (is : List Nat) (bitVec : List Bool)
    (hsize : 0 < bitVec.length) :
    ∃ bitVec2 : List Bool, insertLoop h1 h2 is bitVec = .ok bitVec2 ∧ bitVec2.length = bitVec.length ∧
      (∀ j : Nat, bitVec[j]? = some true → bitVec2[j]? = some true) ∧
      (∀ i ∈ is, bitVec2[bitIndex h1 h2 i bitVec.length]? = some true) := by
  induction is generalizing bitVec with
  | nil => exact ⟨bitVec, rfl, rfl, fun _ h => h, by simp⟩
  | cons i rest ih =>
    have hlt : bitIndex h1 h2 i bitVec.length < bitVec.length := bitIndex_lt h1 h2 i _ hsize
    have hlen : (bitVec.set (bitIndex h1 h2 i bitVec.length) true).length = bitVec.length :=
      List.length_set ..
    obtain ⟨b2, hb2, hlen2, hmono, hset⟩ :=
      ih (bitVec.set (bitIndex h1 h2 i bitVec.length) true) (by rw [hlen]; exact hsize)
    have hstep : ∀ j : Nat, bitVec[j]? = some true →
        (bitVec.set (bitIndex h1 h2 i bitVec.length) true)[j]? = some true := by
      intro j hj
      rw [List.getElem?_set]
      split
      · next heq => subst heq; simp [hlt]
      · exact hj
    refine ⟨b2, ?_, by rw [hlen2, hlen], fun j hj => hmono j (hstep j hj), ?_⟩
    · simp only [insertLoop, if_pos hlt]
      exact hb2
    · intro k hk
      rcases List.mem_cons.1 hk with rfl | hk
      · apply hmono
        rw [List.getElem?_set]
        simp [hlt]
      · have := hset k hk
        rwa [hlen] at this

theorem containsLoop_eq_true_iff (h1 h2 : Int) (bitVec : List Bool) (is : List Nat) :
    containsLoop h1 h2 bitVec is = .ok true ↔
      ∀ i ∈ is, bitVec[bitIndex h1 h2 i bitVec.length]? = some true := by
  induction is with
  | nil => simp [containsLoop]
  | cons i rest ih =>
    simp only [containsLoop, List.mem_cons, forall_eq_or_imp]
    cases hget : bitVec[bitIndex h1 h2 i bitVec.length]? with
    | none => simp
    | some b =>
      cases b with
      | false => simp
      | true => simpa using ih

theorem Covers.refl (f : BloomFilter) : Covers f f :=
  ⟨rfl, rfl, fun _ h => h⟩

theorem Covers.trans {f g h : BloomFilter} (hfg : Covers f g) (hgh : Covers g h) :
    Covers f h :=
  ⟨hgh.length_eq.trans hfg.length_eq, hgh.hashes_eq.trans hfg.hashes_eq,
    fun j hj => hgh.bits j (hfg.bits j hj)⟩

theorem contains_of_covers {f g : BloomFilter} (hfg : Covers f g) (hashValue : Nat)
    (hf : f.contains hashValue = .ok true) : g.contains hashValue = .ok true := by
  unfold contains at hf ⊢
  rw [containsLoop_eq_true_iff] at hf ⊢
  rw [hfg.hashes_eq, hfg.length_eq]
  exact fun i hi => hfg.bits _ (hf i hi)

theorem insert_ok (f : BloomFilter) (hashValue : Nat) (hsize : 0 < f._bitVec.length) :
    ∃ g, f.insert hashValue = .ok g ∧ Covers f g ∧ g.contains hashValue = .ok true := by
  obtain ⟨b2, hb2, hlen, hmono, hset⟩ :=
    insertLoop_ok (getHashPair hashValue).1 (getHashPair hashValue).2
      (List.range f._numHashFunctions.toNat) f._bitVec hsize
  refine ⟨{ f with _bitVec := b2, _size := toInt32 (f._size + 1) }, ?_, ⟨hlen, rfl, hmono⟩, ?_⟩
  · simp only [insert, hb2]
  · unfold contains
    rw [containsLoop_eq_true_iff]
    simpa only [hlen] using hset

theorem insert_covers (f g : BloomFilter) (hashValue : Nat)
    (h : f.insert hashValue = .ok g) : Covers f g ∧ g.contains hashValue = .ok true := by
  by_cases hsize : 0 < f._bitVec.length
  · obtain ⟨g2, hg2, hc, ht⟩ := insert_ok f hashValue hsize
    rw [h] at hg2
    cases hg2
    exact ⟨hc, ht⟩
  · have hnil : f._bitVec = [] := List.length_eq_zero.1 (by omega)
    unfold insert at h
    cases hk : List.range f._numHashFunctions.toNat with
    | nil =>
      rw [hk] at h
      simp only [insertLoop] at h
      cases h
      refine ⟨⟨rfl, rfl, fun _ hj => hj⟩, ?_⟩
      simp [contains, hk, containsLoop]
    | cons i rest =>
      rw [hk, hnil] at h
      simp [insertLoop] at h

theorem insertAll_covers (hashes : List Nat) (f g : BloomFilter)
    (h : f.insertAll hashes = .ok g) :
    Covers f g ∧ ∀ x ∈ hashes, g.contains x = .ok true := by
  induction hashes generalizing f with
  | nil =>
    simp only [insertAll] at h
    cases h
    exact ⟨Covers.refl _, by simp⟩
  | cons x rest ih =>
    simp only [insertAll] at h
    cases hins : f.insert x with
    | error e => rw [hins] at h; cases h
    | ok f2 =>
      rw [hins] at h
      obtain ⟨hc, hx⟩ := insert_covers f f2 x hins
      obtain ⟨hc2, hrest⟩ := ih f2 h
      refine ⟨hc.trans hc2, ?_⟩
      intro y hy
      rcases List.mem_cons.1 hy with rfl | hy
      · exact contains_of_covers hc2 _ hx
      · exact hrest y hy

theorem insertAll_ok (hashes : List Nat) (f : BloomFilter) (hsize : 0 < f._bitVec.length) :
    ∃ g, f.insertAll hashes = .ok g := by
  induction hashes generalizing f with
  | nil => exact ⟨f, rfl⟩
  | cons x rest ih =>
    obtain ⟨f2, hf2, hc, _⟩ := insert_ok f x hsize
    obtain ⟨g, hg⟩ := ih f2 (by rw [hc.length_eq]; exact hsize)
    exact ⟨g, by simp only [insertAll, hf2, hg]⟩

/-- C2: in a Bloom filter with at least one bit, every sequence of inserts
runs to its end, and afterwards `contains` is true for every value inserted
anywhere in the sequence, whatever the hash function, the number of hash
functions and the bits set before. -/
theorem contains_after_insertAll {α : Type} (hash : α → Nat) (filter : BloomFilter)
    (values : List α) (hsize : 1 ≤ filter._bitVec.length) :
    ∃ filter2, filter.insertAll (values.map hash) = .ok filter2 ∧
      filter2._bitVec.length = filter._bitVec.length ∧
      ∀ x ∈ values, filter2.contains (hash x) = .ok true := by
  obtain ⟨g, hg⟩ := insertAll_ok (values.map hash) filter hsize
  obtain ⟨hc, hall⟩ := insertAll_covers _ _ _ hg
  exact ⟨g, hg, hc.length_eq, fun x hx => hall _ (List.mem_map_of_mem hash hx)⟩

/-- C2, the scenario of the test: the filter built for N = 1000 and p = 1e-3
has 14378 bits and 10 hash functions; after the inserts of 0..99 (with
`std::hash<int>`, the identity) all 100 lookups return true. -/
theorem contains_after_insertAll_witness :
    ∃ filter2, (init 14378 10).insertAll ((List.range 100).map (fun n => n)) = .ok filter2 ∧
      filter2._bitVec.length = (init 14378 10)._bitVec.length ∧
      ∀ x ∈ List.range 100, filter2.contains x = .ok true :=
  contains_after_insertAll (fun n : Nat => n) (init 14378 10) (List.range 100)
    (by show 1 ≤ (List.replicate 14378 false).length; rw [List.length_replicate]; norm_num)

theorem readLoop_bits (count : Nat) (stream : List Nat) (value : Nat) (offset : Int)
    (hoff : offset ≠ -1) :
    (readLoop count stream value offset).1 =
      List.replicate count (decide ((value >>> offset.toNat) &&& 1 = 1)) := by
  induction count with
  | zero => rfl
  | succ n ih =>
    simp only [readLoop, if_neg hoff, ih, List.replicate_succ]

/-- What the reader does: `operator>>` reads one byte and gives every bit
of the filter the value of the top bit of that byte (every bit is set when the
stream is empty), because `offset` stays at 7. -/
theorem read_bits_constant (stream : List Nat) (filter : BloomFilter) :
    (read stream filter).1._bitVec =
      List.replicate filter._bitVec.length
        (decide (((streamGet stream).1 >>> 7) &&& 1 = 1)) := by
  unfold read
  cases hlen : filter._bitVec.length with
  | zero => rfl
  | succ n =>
    simp only [readLoop, if_true]
    rw [readLoop_bits _ _ _ _ (by decide)]
    rfl

/-- C3, the failing input: a filter of 16 bits and 1 hash function into which
the value with hash 3 was inserted answers true for it; after the filter is
written, cleared and read back, it answers false. -/
theorem write_read_loses_value :
    ((init 16 1).insert 3).map (fun f => (f.write, f.contains 3)) =
      .ok ([16, 0], .ok true) ∧
    ((init 16 1).insert 3).map (fun f => (read f.write f.clear).1.contains 3) =
      .ok (.ok false) := by
  decide

end BloomFilter

/-! ### Crawler -/

namespace Crawler

theorem countHost_nil (host : List Char) : countHost host [] = 0 := rfl

theorem countHost_append (host : List Char) (l1 l2 : List Url) :
    countHost host (l1 ++ l2) = countHost host l1 + countHost host l2 := by
  simp [countHost, List.filter_append]

theorem countHost_cons (host : List Char) (u : Url) (l : List Url) :
    countHost host (u :: l) = (if u.host = .ok host then 1 else 0) + countHost host l := by
  unfold countHost
  by_cases h : u.host = .ok host
  · simp [List.filter_cons, h, Nat.add_comm]
  · simp [List.filter_cons, h]

theorem countHost_sublist (host : List Char) {l1 l2 : List Url} (h : l1.Sublist l2) :
    countHost host l1 ≤ countHost host l2 :=
  (h.filter _).length_le

theorem countHost_perm (host : List Char) {l1 l2 : List Url} (h : l1.Perm l2) :
    countHost host l1 = countHost host l2 :=
  (h.filter _).length_eq

theorem sampleLoop_spec (hash : List Char → Nat) (scheduledUrls : BloomFilter) (sampleSize : Nat)
    (frontier : List Url) :
    ∀ (hitsCache : List Char → Int) (urlBatch kept : List Url) (hitsCache2 : List Char → Int)
      (urlBatch2 : List Url),
      sampleLoop hash scheduledUrls sampleSize frontier hitsCache urlBatch
        = .ok (kept, hitsCache2, urlBatch2) →
      ∃ added : List Url, urlBatch2 = urlBatch ++ added ∧
        (∀ u ∈ added, scheduledUrls.contains (hash u._urlString) = .ok false) ∧
        (∀ h, hitsCache2 h = hitsCache h + countHost h added) ∧
        ((∀ h, hitsCache h ≤ _hostHitRateLimit) → ∀ h, hitsCache2 h ≤ _hostHitRateLimit) := by
  induction frontier with
  | nil =>
    intro hitsCache urlBatch kept hitsCache2 urlBatch2 h
    simp only [sampleLoop, Except.ok.injEq, Prod.mk.injEq] at h
    obtain ⟨_, rfl, rfl⟩ := h
    exact ⟨[], by simp, by simp, by simp [countHost_nil], fun hb => hb⟩
  | cons url rest ih =>
    intro hitsCache urlBatch kept hitsCache2 urlBatch2 h
    simp only [sampleLoop] at h
    split at h
    · cases hc : scheduledUrls.contains (hash url._urlString) with
      | error e => rw [hc] at h; cases h
      | ok b =>
        rw [hc] at h
        cases b with
        | true => exact ih _ _ _ _ _ h
        | false =>
          simp only at h
          cases hh : url.host with
          | error e => rw [hh] at h; cases h
          | ok host =>
            rw [hh] at h
            simp only at h
            split at h
            · next hlt =>
              obtain ⟨added, hadd, hfresh, hcount, hbound⟩ := ih _ _ _ _ _ h
              refine ⟨url :: added, by simp [hadd], ?_, ?_, ?_⟩
              · intro u hu
                rcases List.mem_cons.1 hu with rfl | hu
                · exact hc
                · exact hfresh u hu
              · intro h0
                rw [hcount h0, countHost_cons, hh]
                by_cases heq : host = h0
                · subst heq
                  simp only [Function.update_same, if_true]
                  push_cast
                  ring
                · have hne : ¬ (Except.ok host : Except Exception (List Char)) = .ok h0 := by
                    intro hcon
                    exact heq (Except.ok.inj hcon)
                  rw [Function.update_noteq (Ne.symm heq), if_neg hne]
                  simp
              · intro hb
                apply hbound
                intro h0
                by_cases heq : h0 = host
                · subst heq
                  rw [Function.update_same]
                  omega
                · rw [Function.update_noteq heq]
                  exact hb h0
            · cases hrec : sampleLoop hash scheduledUrls sampleSize rest hitsCache urlBatch with
              | error e => rw [hrec] at h; cases h
              | ok r =>
                obtain ⟨kept2, hits3, batch3⟩ := r
                rw [hrec] at h
                simp only [Except.ok.injEq, Prod.mk.injEq] at h
                obtain ⟨_, rfl, rfl⟩ := h
                exact ih _ _ _ _ _ hrec
    · simp only [Except.ok.injEq, Prod.mk.injEq] at h
      obtain ⟨_, rfl, rfl⟩ := h
      exact ⟨[], by simp, by simp, by simp [countHost_nil], fun hb => hb⟩

theorem reinsertLoop_prefix (batchSize fuel : Nat) (frontier urlBatch : List Url) :
    (reinsertLoop batchSize fuel frontier urlBatch).2 <+: urlBatch := by
  induction fuel generalizing frontier urlBatch with
  | zero => exact List.prefix_refl _
  | succ n ih =>
    simp only [reinsertLoop]
    split
    · split
      · exact (ih _ _).trans (List.dropLast_prefix _)
      · exact List.prefix_refl _
    · exact List.prefix_refl _

theorem getNextUrlBatch_spec (hash : List Char → Nat) (sort : List Url → List Url)
    (hsort : ∀ l, (sort l).Perm l) (c c2 : Crawler) (batchSize sampleFactor : Nat)
    (urlBatch : List Url)
    (h : getNextUrlBatch hash sort c batchSize sampleFactor = .ok (urlBatch, c2)) :
    (∀ u ∈ urlBatch, c._scheduledUrls.contains (hash u._urlString) = .ok false) ∧
    (∀ u ∈ urlBatch, c2._scheduledUrls.contains (hash u._urlString) = .ok true) ∧
    BloomFilter.Covers c._scheduledUrls c2._scheduledUrls ∧
    (∀ h0, c._hitsCache h0 + countHost h0 urlBatch ≤ c2._hitsCache h0) ∧
    ((∀ h0, c._hitsCache h0 ≤ _hostHitRateLimit) → ∀ h0, c2._hitsCache h0 ≤ _hostHitRateLimit) := by
  unfold getNextUrlBatch at h
  simp only at h
  cases hs : sampleLoop hash c._scheduledUrls (batchSize * sampleFactor) c._frontier
      c._hitsCache [] with
  | error e => rw [hs] at h; cases h
  | ok r =>
    obtain ⟨kept, hitsCache, sample⟩ := r
    rw [hs] at h
    simp only at h
    obtain ⟨added, hadd, hfresh, hcount, hbound⟩ := sampleLoop_spec _ _ _ _ _ _ _ _ _ hs
    simp only [List.nil_append] at hadd
    subst hadd
    have hpre := reinsertLoop_prefix batchSize (sort sample).length kept (sort sample)
    cases hi : c._scheduledUrls.insertAll
        ((reinsertLoop batchSize (sort sample).length kept (sort sample)).2.map
          (fun u => hash u._urlString)) with
    | error e => rw [hi] at h; cases h
    | ok scheduledUrls =>
      rw [hi] at h
      simp only [Except.ok.injEq, Prod.mk.injEq] at h
      obtain ⟨rfl, rfl⟩ := h
      obtain ⟨hcov, hall⟩ := BloomFilter.insertAll_covers _ _ _ hi
      have hsub : ∀ u ∈ (reinsertLoop batchSize (sort sample).length kept (sort sample)).2,
          u ∈ sample := fun u hu => (hsort sample).mem_iff.1 (hpre.subset hu)
      refine ⟨fun u hu => hfresh u (hsub u hu), ?_, hcov, ?_, hbound⟩
      · intro u hu
        exact hall _ (List.mem_map_of_mem (fun u => hash u._urlString) hu)
      · intro h0
        simp only
        rw [hcount h0]
        have h1 := countHost_sublist h0 hpre.sublist
        have h2 := countHost_perm h0 (hsort sample)
        omega

theorem step_covers (hash : List Char → Nat) {c c2 : Crawler} {op : Op} {urls : List Url}
    (h : Step hash c op c2 urls) : BloomFilter.Covers c._scheduledUrls c2._scheduledUrls := by
  cases h with
  | insertFrontier _ url hi =>
    unfold insertFrontier at hi
    cases hc : c._scheduledUrls.contains (hash url._urlString) with
    | error e => rw [hc] at hi; cases hi
    | ok b =>
      rw [hc] at hi
      cases b <;> (cases hi; exact BloomFilter.Covers.refl _)
  | getNextUrlBatch _ sort b f _ hsort _ hg =>
    exact (getNextUrlBatch_spec hash sort hsort c c2 b f urls hg).2.2.1
  | gcFrontier => unfold gcFrontier; split <;> exact BloomFilter.Covers.refl _
  | gcHitsCache => exact BloomFilter.Covers.refl _
  | rehash order _ => exact BloomFilter.Covers.refl _

theorem step_fresh (hash : List Char → Nat) {c c2 : Crawler} {op : Op} {urls : List Url}
    (h : Step hash c op c2 urls) :
    ∀ v ∈ urls, c._scheduledUrls.contains (hash v._urlString) = .ok false := by
  cases h with
  | getNextUrlBatch _ sort b f _ hsort _ hg =>
    exact (getNextUrlBatch_spec hash sort hsort c c2 b f urls hg).1
  | _ => simp

theorem step_hits (hash : List Char → Nat) {c c2 : Crawler} {op : Op} {urls : List Url}
    (h : Step hash c op c2 urls) (hop : op.isReset = false) :
    (∀ h0, c._hitsCache h0 + countHost h0 urls ≤ c2._hitsCache h0) ∧
    ((∀ h0, c._hitsCache h0 ≤ _hostHitRateLimit) →
      ∀ h0, c2._hitsCache h0 ≤ _hostHitRateLimit) := by
  cases h with
  | insertFrontier _ url hi =>
    unfold insertFrontier at hi
    cases hc : c._scheduledUrls.contains (hash url._urlString) with
    | error e => rw [hc] at hi; cases hi
    | ok b =>
      rw [hc] at hi
      cases b <;> (cases hi; exact ⟨by simp [countHost_nil], fun hb => hb⟩)
  | getNextUrlBatch _ sort b f _ hsort _ hg =>
    have := getNextUrlBatch_spec hash sort hsort c c2 b f urls hg
    exact ⟨this.2.2.2.1, this.2.2.2.2⟩
  | gcFrontier =>
    unfold gcFrontier
    split <;> exact ⟨by simp [countHost_nil], fun hb => hb⟩
  | gcHitsCache => simp [Op.isReset] at hop
  | rehash order _ => exact ⟨by simp [countHost_nil], fun hb => hb⟩

theorem insertByScore_perm (url : Url) (l : List Url) :
    (insertByScore url l).Perm (url :: l) := by
  induction l with
  | nil => exact List.Perm.refl _
  | cons v rest ih =>
    simp only [insertByScore]
    split
    · exact List.Perm.refl _
    · exact (List.Perm.cons v ih).trans (List.Perm.swap url v rest)

theorem sortByScore_perm (l : List Url) : (sortByScore l).Perm l := by
  induction l with
  | nil => exact List.Perm.refl _
  | cons u rest ih =>
    simp only [sortByScore]
    exact (insertByScore_perm u _).trans (List.Perm.cons u ih)

theorem run_scheduled (hash : List Char → Nat) {c c2 : Crawler} {ops : List Op}
    {later : List Url} (hrun : Run hash c ops c2 later) (x : Nat)
    (hx : c._scheduledUrls.contains x = .ok true) :
    c2._scheduledUrls.contains x = .ok true ∧ ∀ v ∈ later, hash v._urlString ≠ x := by
  induction hrun with
  | nil c => exact ⟨hx, by simp⟩
  | cons c c1 c2 op ops urls later hstep _ ih =>
    have hx1 := BloomFilter.contains_of_covers (step_covers hash hstep) x hx
    obtain ⟨h2, hlater⟩ := ih hx1
    refine ⟨h2, ?_⟩
    intro v hv
    rcases List.mem_append.1 hv with hv | hv
    · intro heq
      have := step_fresh hash hstep v hv
      rw [heq, hx] at this
      cases this
    · exact hlater v hv

theorem run_hits (hash : List Char → Nat) {c c2 : Crawler} {ops : List Op}
    {returned : List Url} (hrun : Run hash c ops c2 returned)
    (hops : ∀ op ∈ ops, op.isReset = false) :
    (∀ h0, c._hitsCache h0 + countHost h0 returned ≤ c2._hitsCache h0) ∧
    ((∀ h0, c._hitsCache h0 ≤ _hostHitRateLimit) →
      ∀ h0, c2._hitsCache h0 ≤ _hostHitRateLimit) := by
  induction hrun with
  | nil c => exact ⟨by simp [countHost_nil], fun hb => hb⟩
  | cons c c1 c2 op ops urls later hstep _ ih =>
    obtain ⟨hs1, hs2⟩ := step_hits hash hstep (hops op (List.mem_cons_self _ _))
    obtain ⟨hr1, hr2⟩ := ih (fun o ho => hops o (List.mem_cons_of_mem _ ho))
    refine ⟨?_, fun hb => hr2 (hs2 hb)⟩
    intro h0
    have a := hs1 h0
    have b := hr1 h0
    rw [countHost_append]
    push_cast
    omega

/-- C4: every URL that a call of `getNextUrlBatch` returns is in the scheduled
set when the call returns, is still in it after every later sequence of
frontier insertions, `getNextUrlBatch` calls, GC passes and changes of the
iteration order, and is returned by none of these later calls. -/
theorem scheduled_never_redispatched (hash : List Char → Nat) (c c1 c2 : Crawler)
    (sort : List Url → List Url) (batchSize sampleFactor : Nat) (urlBatch : List Url)
    (ops : List Op) (later : List Url)
    (hstep : Step hash c (Op.getNextUrlBatch sort batchSize sampleFactor) c1 urlBatch)
    (hrun : Run hash c1 ops c2 later) (u : Url) (hu : u ∈ urlBatch) :
    c1._scheduledUrls.contains (hash u._urlString) = .ok true ∧
    c2._scheduledUrls.contains (hash u._urlString) = .ok true ∧
    ∀ v ∈ later, v._urlString ≠ u._urlString := by
  have h1 : c1._scheduledUrls.contains (hash u._urlString) = .ok true := by
    cases hstep with
    | getNextUrlBatch _ _ _ _ _ hsort _ hg =>
      exact (getNextUrlBatch_spec hash sort hsort c c1 batchSize sampleFactor urlBatch hg).2.1
        u hu
  obtain ⟨h2, hlater⟩ := run_scheduled hash hrun _ h1
  exact ⟨h1, h2, fun v hv heq => hlater v hv (by rw [heq])⟩

/-- C4 on `exampleCrawler`: the first call returns `http://a.org/`; a later
insertion of that URL and a later call, which returns the other URL, leave it
in the scheduled set. -/
theorem scheduled_never_redispatched_witness :
    exampleCrawler1._scheduledUrls.contains (exampleHash exampleUrl1._urlString) = .ok true ∧
    exampleCrawler2._scheduledUrls.contains (exampleHash exampleUrl1._urlString) = .ok true ∧
    ∀ v ∈ [exampleUrl2], v._urlString ≠ exampleUrl1._urlString :=
  scheduled_never_redispatched exampleHash exampleCrawler exampleCrawler1 exampleCrawler2
    sortByScore 1 2 [exampleUrl1]
    [Op.insertFrontier exampleUrl1, Op.getNextUrlBatch sortByScore 1 1] [exampleUrl2]
    (Step.getNextUrlBatch _ _ _ _ _ _ sortByScore_perm (by decide) rfl)
    (Run.cons _ exampleCrawler1 _ _ _ [] [exampleUrl2]
      (Step.insertFrontier _ _ _ rfl)
      (Run.cons _ exampleCrawler2 _ _ _ [exampleUrl2] []
        (Step.getNextUrlBatch _ _ _ _ _ _ sortByScore_perm (by decide) rfl)
        (Run.nil _)))
    exampleUrl1 (by simp)

/-- C5: from an empty hits cache and along every sequence of operations
without a reset of the hits cache, no entry of the hits cache exceeds 2048, and
for every host the URLs with that host returned by the `getNextUrlBatch` calls
number at most 2048. -/
theorem host_rate_limit (hash : List Char → Nat) (c c2 : Crawler) (ops : List Op)
    (returned : List Url) (hempty : ∀ h, c._hitsCache h = 0)
    (hrun : Run hash c ops c2 returned) (hops : ∀ op ∈ ops, op.isReset = false) :
    (∀ h, c2._hitsCache h ≤ 2048) ∧ ∀ h, countHost h returned ≤ 2048 := by
  obtain ⟨h1, h2⟩ := run_hits hash hrun hops
  have hb : ∀ h, c2._hitsCache h ≤ _hostHitRateLimit :=
    h2 (fun h => by rw [hempty h]; decide)
  refine ⟨hb, fun h => ?_⟩
  have a := h1 h
  have b := hb h
  rw [hempty h] at a
  have hl : _hostHitRateLimit = 2048 := rfl
  omega

/-- C5 on `exampleCrawler`: along two calls of `getNextUrlBatch` and an
insertion, the two hosts have at most 2048 hits and returned URLs. -/
theorem host_rate_limit_witness :
    (∀ h, exampleCrawler2._hitsCache h ≤ 2048) ∧
    ∀ h, countHost h [exampleUrl1, exampleUrl2] ≤ 2048 :=
  host_rate_limit exampleHash exampleCrawler exampleCrawler2
    [Op.getNextUrlBatch sortByScore 1 2, Op.insertFrontier exampleUrl1,
      Op.getNextUrlBatch sortByScore 1 1] [exampleUrl1, exampleUrl2]
    (fun _ => rfl)
    (Run.cons _ exampleCrawler1 _ _ _ [exampleUrl1] [exampleUrl2]
      (Step.getNextUrlBatch _ _ _ _ _ _ sortByScore_perm (by decide) rfl)
      (Run.cons _ exampleCrawler1 _ _ _ [] [exampleUrl2]
        (Step.insertFrontier _ _ _ rfl)
        (Run.cons _ exampleCrawler2 _ _ _ [exampleUrl2] []
          (Step.getNextUrlBatch _ _ _ _ _ _ sortByScore_perm (by decide) rfl)
          (Run.nil _))))
    (by simp [Op.isReset])

end Crawler

/-! ### Robots catalog -/

namespace RobotsCatalog

theorem wildcardMatches_nil_iff (t : List Char) : WildcardMatches [] t ↔ t = [] := by
  constructor
  · intro h
    cases h
    rfl
  · rintro rfl
    exact WildcardMatches.nil

theorem wildcardMatches_star_iff (q t : List Char) :
    WildcardMatches ('*' :: q) t ↔ ∃ w r, t = w ++ r ∧ WildcardMatches q r := by
  constructor
  · intro h
    cases h with
    | star _ w r hr => exact ⟨w, r, rfl, hr⟩
    | char _ _ _ hc _ => exact absurd rfl hc
  · rintro ⟨w, r, rfl, hr⟩
    exact WildcardMatches.star q w r hr

theorem wildcardMatches_char_iff (c : Char) (hc : c ≠ '*') (q t : List Char) :
    WildcardMatches (c :: q) t ↔ ∃ r, t = c :: r ∧ WildcardMatches q r := by
  constructor
  · intro h
    cases h with
    | star _ w r hr => exact absurd rfl hc
    | char _ _ r _ hr => exact ⟨r, rfl, hr⟩
  · rintro ⟨r, rfl, hr⟩
    exact WildcardMatches.char c q r hc hr

theorem prefixMatches_nil (s : List Char) : PrefixMatches [] s :=
  ⟨[], List.nil_prefix, WildcardMatches.nil⟩

theorem prefixMatches_char_cons (c : Char) (hc : c ≠ '*') (q s : List Char) :
    PrefixMatches (c :: q) (c :: s) ↔ PrefixMatches q s := by
  constructor
  · rintro ⟨t, ht, hm⟩
    obtain ⟨r, rfl, hr⟩ := (wildcardMatches_char_iff c hc q t).1 hm
    exact ⟨r, (List.cons_prefix_cons.1 ht).2, hr⟩
  · rintro ⟨t, ht, hm⟩
    exact ⟨c :: t, List.cons_prefix_cons.2 ⟨rfl, ht⟩, WildcardMatches.char c q t hc hm⟩

theorem not_prefixMatches_char_ne (c d : Char) (hc : c ≠ '*') (hd : d ≠ c) (q s : List Char) :
    ¬ PrefixMatches (c :: q) (d :: s) := by
  rintro ⟨t, ht, hm⟩
  obtain ⟨r, rfl, _⟩ := (wildcardMatches_char_iff c hc q t).1 hm
  exact hd (List.cons_prefix_cons.1 ht).1.symm

theorem not_prefixMatches_char_nil (c : Char) (hc : c ≠ '*') (q : List Char) :
    ¬ PrefixMatches (c :: q) [] := by
  rintro ⟨t, ht, hm⟩
  obtain ⟨r, rfl, _⟩ := (wildcardMatches_char_iff c hc q t).1 hm
  simp at ht

theorem prefixMatches_star_nil (q : List Char) :
    PrefixMatches ('*' :: q) [] ↔ PrefixMatches q [] := by
  constructor
  · rintro ⟨t, ht, hm⟩
    have ht0 : t = [] := List.prefix_nil.1 ht
    subst ht0
    obtain ⟨w, r, hwr, hr⟩ := (wildcardMatches_star_iff q []).1 hm
    have hr0 : r = [] := (List.append_eq_nil.1 hwr.symm).2
    subst hr0
    exact ⟨[], List.nil_prefix, hr⟩
  · rintro ⟨t, ht, hm⟩
    have ht0 : t = [] := List.prefix_nil.1 ht
    subst ht0
    exact ⟨[], List.nil_prefix, WildcardMatches.star q [] [] hm⟩

theorem prefixMatches_star_cons (q : List Char) (d : Char) (s : List Char) :
    PrefixMatches ('*' :: q) (d :: s) ↔
      PrefixMatches q (d :: s) ∨ PrefixMatches ('*' :: q) s := by
  constructor
  · rintro ⟨t, ht, hm⟩
    obtain ⟨w, r, rfl, hr⟩ := (wildcardMatches_star_iff q t).1 hm
    cases w with
    | nil => exact Or.inl ⟨r, ht, hr⟩
    | cons w0 w =>
      right
      have h2 : (w ++ r) <+: s := (List.cons_prefix_cons.1 ht).2
      exact ⟨w ++ r, h2, WildcardMatches.star q w r hr⟩
  · rintro (⟨t, ht, hm⟩ | ⟨t, ht, hm⟩)
    · exact ⟨t, ht, WildcardMatches.star q [] t hm⟩
    · obtain ⟨w, r, rfl, hr⟩ := (wildcardMatches_star_iff q t).1 hm
      exact ⟨d :: (w ++ r), List.cons_prefix_cons.2 ⟨rfl, ht⟩,
        WildcardMatches.star q (d :: w) r hr⟩

theorem prefixMatches_nil_right (q : List Char) :
    PrefixMatches q [] ↔ ∀ c ∈ q, c = '*' := by
  induction q with
  | nil => simp [prefixMatches_nil]
  | cons c q ih =>
    by_cases hc : c = '*'
    · subst hc
      rw [prefixMatches_star_nil, ih]
      simp
    · constructor
      · intro h
        exact absurd h (not_prefixMatches_char_nil c hc q)
      · intro h
        exact absurd (h c (List.mem_cons_self c q)) hc

theorem stars_eq_single (q : List Char) (hne : q ≠ []) (hall : ∀ c ∈ q, c = '*')
    (hq : ¬ (['*', '*'] <:+ q)) : q = ['*'] := by
  have hrep : q = List.replicate q.length '*' := List.eq_replicate_iff.2 ⟨rfl, hall⟩
  have hlen : q.length < 2 := by
    by_contra hge
    apply hq
    have h2 : q.length = (q.length - 2) + 2 := by omega
    rw [hrep, h2, List.replicate_add]
    exact List.suffix_append _ _
  have hpos : 0 < q.length := List.length_pos.2 hne
  have h1 : q.length = 1 := by omega
  rw [hrep, h1]
  rfl

theorem startsWithPattern_nil_left (q : List Char) :
    startsWithPattern [] q = true ↔ q = [] ∨ q = ['*'] := by
  cases q with
  | nil => simp [startsWithPattern]
  | cons p0 p => simp [startsWithPattern]

theorem ruleWalk_eq_true_iff (localPath : List Char) (rules : List Rule) (isDisallowed : Bool) :
    ruleWalk localPath rules isDisallowed = true ↔
      (∃ r ∈ rules, r.type = RuleType.Allow ∧ startsWithPattern localPath r.pattern = true) ∨
      (isDisallowed = false ∧
        ∀ r ∈ rules, r.type = RuleType.Disallow → startsWithPattern localPath r.pattern = false) := by
  induction rules generalizing isDisallowed with
  | nil => simp [ruleWalk]
  | cons rule rest ih =>
    obtain ⟨ty, pat⟩ := rule
    by_cases hm : startsWithPattern localPath pat = true
    · cases ty with
      | Allow => simp [ruleWalk, hm]
      | Disallow => simp [ruleWalk, hm, ih]
    · have hm2 : startsWithPattern localPath pat = false := by simpa using hm
      simp [ruleWalk, hm2, ih]

/-- C6: the robots decision is true exactly when some Allow rule matches the
path or no Disallow rule matches it; hence it is the same for every reordering
of the rules, and it is true when no rule matches. -/
theorem isAllowed_iff_allow_or_no_disallow (rules : List Rule) (localPath : List Char) :
    (isAllowed rules localPath = true ↔
      (∃ r ∈ rules, r.type = RuleType.Allow ∧ startsWithPattern localPath r.pattern = true) ∨
      (∀ r ∈ rules, r.type = RuleType.Disallow →
        startsWithPattern localPath r.pattern = false)) ∧
    (∀ rules2 : List Rule, rules2.Perm rules →
      isAllowed rules2 localPath = isAllowed rules localPath) ∧
    ((∀ r ∈ rules, startsWithPattern localPath r.pattern = false) →
      isAllowed rules localPath = true) := by
  have key : ∀ rs : List Rule, isAllowed rs localPath = true ↔
      (∃ r ∈ rs, r.type = RuleType.Allow ∧ startsWithPattern localPath r.pattern = true) ∨
      (∀ r ∈ rs, r.type = RuleType.Disallow →
        startsWithPattern localPath r.pattern = false) := by
    intro rs
    simp [isAllowed, ruleWalk_eq_true_iff]
  refine ⟨key rules, ?_, ?_⟩
  · intro rules2 hperm
    rw [Bool.eq_iff_iff, key rules2, key rules]
    constructor
    · rintro (⟨r, hr, h⟩ | h)
      · exact Or.inl ⟨r, hperm.mem_iff.1 hr, h⟩
      · exact Or.inr (fun r hr => h r (hperm.mem_iff.2 hr))
    · rintro (⟨r, hr, h⟩ | h)
      · exact Or.inl ⟨r, hperm.mem_iff.2 hr, h⟩
      · exact Or.inr (fun r hr => h r (hperm.mem_iff.1 hr))
  · intro hno
    exact (key rules).2 (Or.inr (fun r hr _ => hno r hr))

/-- C6, the scenario of the test: with the rules `Disallow: /wishlist/*` and
`Allow: /wishlist/universal`, the path `/wishlist/universal` is allowed and
`/wishlist/private` is not. -/
theorem isAllowed_wishlist :
    isAllowed [⟨RuleType.Disallow, "/wishlist/*".toList⟩,
        ⟨RuleType.Allow, "/wishlist/universal".toList⟩] "/wishlist/universal".toList = true ∧
    isAllowed [⟨RuleType.Disallow, "/wishlist/*".toList⟩,
        ⟨RuleType.Allow, "/wishlist/universal".toList⟩] "/wishlist/private".toList = false := by
  constructor
  · exact (isAllowed_iff_allow_or_no_disallow _ _).1.2
      (Or.inl ⟨⟨RuleType.Allow, "/wishlist/universal".toList⟩, by simp,
        rfl, by simp [startsWithPattern]⟩)
  · simp [isAllowed, ruleWalk, startsWithPattern]

/-- C7 as stated fails: the pattern `**` matches the empty initial segment of
the empty path, and the pattern `*b` matches the whole of the path `*ab`, but
`startsWithPattern` answers `false` on both. -/
theorem startsWithPattern_not_wildcard_relation :
    (startsWithPattern [] ['*', '*'] = false ∧ PrefixMatches ['*', '*'] []) ∧
    (startsWithPattern ['*', 'a', 'b'] ['*', 'b'] = false ∧
      PrefixMatches ['*', 'b'] ['*', 'a', 'b']) := by
  refine ⟨⟨by simp [startsWithPattern], ?_⟩, ⟨by simp [startsWithPattern], ?_⟩⟩
  · exact (prefixMatches_nil_right _).2 (by simp)
  · refine ⟨['*', 'a', 'b'], List.prefix_refl _, ?_⟩
    exact WildcardMatches.star ['b'] ['*', 'a'] ['b']
      (WildcardMatches.char 'b' [] [] (by decide) WildcardMatches.nil)

theorem startsWithPattern_sound (s q : List Char) :
    startsWithPattern s q = true → PrefixMatches q s := by
  induction s, q using startsWithPattern.induct with
  | case1 s => exact fun _ => prefixMatches_nil s
  | case2 p0 p =>
    intro h
    rcases (startsWithPattern_nil_left (p0 :: p)).1 h with h | h
    · exact absurd h (List.cons_ne_nil _ _)
    · rw [h]
      exact (prefixMatches_nil_right _).2 (by simp)
  | case3 s p0 p ih =>
    intro h
    rw [startsWithPattern, if_pos rfl] at h
    by_cases hp : p0 = '*'
    · subst hp
      obtain ⟨t, ht, hm⟩ := ih h
      exact (prefixMatches_star_cons p '*' s).2
        (Or.inr ⟨t, ht, WildcardMatches.star p [] t hm⟩)
    · exact (prefixMatches_char_cons p0 hp p s).2 (ih h)
  | case4 s0 s p hne ih1 ih2 =>
    intro h
    rw [startsWithPattern, if_neg hne, if_pos rfl, Bool.or_eq_true] at h
    rcases h with h | h
    · exact (prefixMatches_star_cons p s0 s).2 (Or.inl (ih1 h))
    · exact (prefixMatches_star_cons p s0 s).2 (Or.inr (ih2 h))
  | case5 s0 s p0 p hne hstar =>
    intro h
    rw [startsWithPattern, if_neg hne, if_neg hstar] at h
    exact absurd h (by simp)

theorem startsWithPattern_literal (s q : List Char) (hq : '*' ∉ q) :
    PrefixMatches q s → startsWithPattern s q = true := by
  induction s, q using startsWithPattern.induct with
  | case1 s => exact fun _ => by simp [startsWithPattern]
  | case2 p0 p =>
    intro h
    exact absurd h (not_prefixMatches_char_nil p0
      (fun e => hq (e ▸ List.mem_cons_self _ _)) p)
  | case3 s p0 p ih =>
    intro h
    have hp : p0 ≠ '*' := fun e => hq (e ▸ List.mem_cons_self _ _)
    rw [startsWithPattern, if_pos rfl]
    exact ih (fun e => hq (List.mem_cons_of_mem _ e)) ((prefixMatches_char_cons p0 hp p s).1 h)
  | case4 s0 s p hne ih1 ih2 =>
    exact absurd (List.mem_cons_self _ _) hq
  | case5 s0 s p0 p hne hstar =>
    intro h
    exact absurd h (not_prefixMatches_char_ne p0 s0 hstar hne p s)

theorem twoStars_suffix_cons (c : Char) (p : List Char) :
    ['*', '*'] <:+ c :: p ↔ ['*', '*'] <:+ p ∨ (c = '*' ∧ p = ['*']) := by
  rw [List.suffix_cons_iff]
  constructor
  · rintro (h | h)
    · simp only [List.cons.injEq] at h
      exact Or.inr ⟨h.1.symm, h.2.symm⟩
    · exact Or.inl h
  · rintro (h | ⟨rfl, rfl⟩)
    · exact Or.inr h
    · exact Or.inl rfl

theorem startsWithPattern_plain_path (s q : List Char) (hs : '*' ∉ s) :
    startsWithPattern s q = true ↔
      ∃ t, t <+: s ∧ WildcardMatches q t ∧ (['*', '*'] <:+ q → t ≠ s) := by
  induction s, q using startsWithPattern.induct with
  | case1 s =>
    simp only [startsWithPattern, true_iff]
    exact ⟨[], List.nil_prefix, WildcardMatches.nil, fun h => by simp at h⟩
  | case2 p0 p =>
    rw [startsWithPattern_nil_left]
    constructor
    · rintro (h | h)
      · exact absurd h (List.cons_ne_nil _ _)
      · rw [h]
        exact ⟨[], List.nil_prefix, WildcardMatches.star [] [] [] WildcardMatches.nil,
          fun h2 => absurd h2 (by decide)⟩
    · rintro ⟨t, ht, hm, hne⟩
      have ht0 : t = [] := List.prefix_nil.1 ht
      subst ht0
      have hall : ∀ c ∈ p0 :: p, c = '*' :=
        (prefixMatches_nil_right _).1 ⟨[], List.nil_prefix, hm⟩
      refine Or.inr (stars_eq_single _ (List.cons_ne_nil _ _) hall ?_)
      intro h2
      exact hne h2 rfl
  | case3 s p0 p ih =>
    have hp : p0 ≠ '*' := fun h => hs (h ▸ List.mem_cons_self _ _)
    have hs1 : '*' ∉ s := fun h => hs (List.mem_cons_of_mem _ h)
    rw [startsWithPattern, if_pos rfl, ih hs1]
    constructor
    · rintro ⟨t, ht, hm, hne⟩
      refine ⟨p0 :: t, List.cons_prefix_cons.2 ⟨rfl, ht⟩, WildcardMatches.char p0 p t hp hm, ?_⟩
      intro h2 e
      rcases (twoStars_suffix_cons p0 p).1 h2 with h3 | ⟨h3, _⟩
      · exact hne h3 (List.cons.inj e).2
      · exact hp h3
    · rintro ⟨t, ht, hm, hne⟩
      obtain ⟨r, rfl, hr⟩ := (wildcardMatches_char_iff p0 hp p t).1 hm
      refine ⟨r, (List.cons_prefix_cons.1 ht).2, hr, ?_⟩
      intro h2 e
      exact hne ((twoStars_suffix_cons p0 p).2 (Or.inl h2)) (by rw [e])
  | case4 s0 s p hne ih1 ih2 =>
    have hs1 : '*' ∉ s := fun h => hs (List.mem_cons_of_mem _ h)
    rw [startsWithPattern, if_neg hne, if_pos rfl, Bool.or_eq_true, ih1 hs, ih2 hs1]
    constructor
    · rintro (⟨t, ht, hm, hne2⟩ | ⟨t, ht, hm, hne2⟩)
      · by_cases hp : p = ['*']
        · subst hp
          exact ⟨[], List.nil_prefix,
            WildcardMatches.star ['*'] [] []
              (WildcardMatches.star [] [] [] WildcardMatches.nil),
            fun _ e => List.cons_ne_nil _ _ e.symm⟩
        · refine ⟨t, ht, WildcardMatches.star p [] t hm, ?_⟩
          intro h2
          rcases (twoStars_suffix_cons '*' p).1 h2 with h3 | ⟨_, h3⟩
          · exact hne2 h3
          · exact absurd h3 hp
      · obtain ⟨w, r, rfl, hr⟩ := (wildcardMatches_star_iff p t).1 hm
        refine ⟨s0 :: (w ++ r), List.cons_prefix_cons.2 ⟨rfl, ht⟩,
          WildcardMatches.star p (s0 :: w) r hr, ?_⟩
        intro h2 e
        exact hne2 h2 (List.cons.inj e).2
    · rintro ⟨t, ht, hm, hne2⟩
      obtain ⟨w, r, rfl, hr⟩ := (wildcardMatches_star_iff p t).1 hm
      cases w with
      | nil =>
        refine Or.inl ⟨r, ht, hr, ?_⟩
        intro h2
        exact hne2 ((twoStars_suffix_cons '*' p).2 (Or.inl h2))
      | cons d w =>
        rw [List.cons_append] at ht hne2
        obtain ⟨rfl, ht2⟩ := List.cons_prefix_cons.1 ht
        refine Or.inr ⟨w ++ r, ht2, WildcardMatches.star p w r hr, ?_⟩
        intro h2 e
        exact hne2 h2 (by rw [e])
  | case5 s0 s p0 p hne hstar =>
    rw [startsWithPattern, if_neg hne, if_neg hstar]
    constructor
    · intro h
      exact absurd h (by simp)
    · rintro ⟨t, ht, hm, _⟩
      exact absurd ⟨t, ht, hm⟩ (not_prefixMatches_char_ne p0 s0 hstar hne p s)

/-- C7 (amended): whenever `startsWithPattern` is true, some initial segment
of the path is matched in full by the pattern, `*` standing for zero or more
arbitrary characters and every other character for itself.  Conversely, when
the path or the pattern has no `*` character and the pattern does not end in
two `*`, such a match makes `startsWithPattern` true; and for a path without
`*` and a pattern that ends in two `*`, `startsWithPattern` is true exactly
when the pattern matches in full an initial segment other than the whole
path. -/
theorem startsWithPattern_iff_prefixMatches (s q : List Char) :
    (startsWithPattern s q = true → PrefixMatches q s) ∧
    (('*' ∉ s ∨ '*' ∉ q) → ¬ (['*', '*'] <:+ q) →
      PrefixMatches q s → startsWithPattern s q = true) ∧
    ('*' ∉ s → ['*', '*'] <:+ q →
      (startsWithPattern s q = true ↔ ∃ t, t <+: s ∧ t ≠ s ∧ WildcardMatches q t)) := by
  refine ⟨startsWithPattern_sound s q, ?_, ?_⟩
  · rintro (hs | hq) hq2 ⟨t, ht, hm⟩
    · exact (startsWithPattern_plain_path s q hs).2 ⟨t, ht, hm, fun h => absurd h hq2⟩
    · exact startsWithPattern_literal s q hq ⟨t, ht, hm⟩
  · intro hs hq2
    rw [startsWithPattern_plain_path s q hs]
    constructor
    · rintro ⟨t, ht, hm, hne⟩
      exact ⟨t, ht, hne hq2, hm⟩
    · rintro ⟨t, ht, hne, hm⟩
      exact ⟨t, ht, hm, fun _ => hne⟩

/-- C7 (amended), at the path `/wishlist/universal` with the patterns
`/wishlist/*` and `/wish**`, and at the path `/a*` with the pattern `/a`. -/
theorem startsWithPattern_iff_prefixMatches_witness :
    PrefixMatches "/wishlist/*".toList "/wishlist/universal".toList ∧
    startsWithPattern "/a*".toList "/a".toList = true ∧
    (startsWithPattern "/wishlist/universal".toList "/wish**".toList = true ↔
      ∃ t, t <+: "/wishlist/universal".toList ∧ t ≠ "/wishlist/universal".toList ∧
        WildcardMatches "/wish**".toList t) :=
  ⟨(startsWithPattern_iff_prefixMatches "/wishlist/universal".toList "/wishlist/*".toList).1
      (by simp [startsWithPattern]),
    (startsWithPattern_iff_prefixMatches "/a*".toList "/a".toList).2.1
      (Or.inr (by decide)) (by decide)
      ⟨"/a".toList, by decide,
        WildcardMatches.char '/' _ _ (by decide)
          (WildcardMatches.char 'a' _ _ (by decide) WildcardMatches.nil)⟩,
    (startsWithPattern_iff_prefixMatches "/wishlist/universal".toList "/wish**".toList).2.2
      (by decide) (by decide)⟩

/-- C8: `startsWithPattern(p, "")` is true for every string `p`, and
`startsWithPattern("", q)` is true exactly when `q` is empty or is `"*"`. -/
theorem startsWithPattern_empty_cases :
    (∀ p : List Char, startsWithPattern p [] = true) ∧
    (∀ q : List Char, startsWithPattern [] q = true ↔ q = [] ∨ q = ['*']) := by
  refine ⟨fun p => ?_, startsWithPattern_nil_left⟩
  cases p <;> simp [startsWithPattern]

end RobotsCatalog

/-! ### URL: the parts of a parsed URL -/

theorem substrBetween_scan_eq (p : Char → Bool) (s : List Char) (b : Nat) :
    substrBetween s b (findIdxFrom p (s.drop b) b) = (s.drop b).takeWhile (fun c => !p c) ∧
    Url.restAt s (findIdxFrom p (s.drop b) b) = (s.drop b).dropWhile (fun c => !p c) := by
  cases h : findIdxFrom p (s.drop b) b with
  | none =>
    obtain ⟨h1, h2⟩ := takeWhile_dropWhile_all p _ (findIdxFrom_eq_none p _ _ h)
    exact ⟨h1.symm, h2.symm⟩
  | some e =>
    obtain ⟨a, d, r, hs, ha, hd, _, _, hdrop, htake⟩ := findIdxFrom_drop_eq_some p s b e h
    obtain ⟨h1, h2⟩ := takeWhile_dropWhile_split p a d r ha hd
    simp only [substrBetween, Url.restAt]
    rw [htake, hdrop, hs, h1, h2]
    exact ⟨rfl, rfl⟩

theorem scan_restAt_ne_nil (p : Char → Bool) (s : List Char) (b e : Nat)
    (h : findIdxFrom p (s.drop b) b = some e) : ∃ d r, s.drop e = d :: r ∧ p d = true := by
  obtain ⟨a, d, r, _, _, hd, _, _, hdrop, _⟩ := findIdxFrom_drop_eq_some p s b e h
  exact ⟨d, r, hdrop, hd⟩

theorem getElem?_eq_head?_drop (s : List Char) (e : Nat) : s[e]? = (s.drop e).head? := by
  rw [List.head?_drop]

namespace Url

theorem parseQuery_eq (s : List Char) (endPos : Option Nat) :
    parseQuery s endPos = queryOfRest (restAt s endPos) := by
  cases endPos with
  | none => rfl
  | some e =>
    simp only [parseQuery, restAt]
    rw [getElem?_eq_head?_drop]
    cases hd : s.drop e with
    | nil => simp [queryOfRest]
    | cons c t =>
      by_cases hc : c = '?'
      · subst hc
        have ht : s.drop (e + 1) = t := by
          rw [← List.drop_drop, hd]
          rfl
        simp only [List.head?_cons, if_true, queryOfRest]
        have := (substrBetween_scan_eq (fun d => decide (d = '#')) s (e + 1)).1
        rw [ht] at this
        simp only [findChar]
        rw [ht]
        exact this
      · have : queryOfRest (c :: t) = [] := by
          unfold queryOfRest
          split
          · next heq =>
            cases heq
            exact absurd rfl hc
          · rfl
        rw [this]
        simp [hc]

theorem parseLocalPath_eq (s : List Char) (endPos : Option Nat)
    (hend : ∀ e, endPos = some e → s.drop e ≠ []) :
    (parseLocalPath s endPos).1 = (pathOfRest (restAt s endPos)).1 ∧
    restAt s (parseLocalPath s endPos).2 = (pathOfRest (restAt s endPos)).2 := by
  cases endPos with
  | none => exact ⟨rfl, rfl⟩
  | some e =>
    have hne := hend e rfl
    simp only [parseLocalPath, restAt, pathOfRest, if_neg hne]
    exact substrBetween_scan_eq (fun d => ['?', '#'].contains d) s e

theorem parsePort_eq (s scheme : List Char) (endPos : Option Nat)
    (hend : ∀ e, endPos = some e → s.drop e ≠ []) :
    (match parsePort s scheme endPos with
      | .error x => (.error x : Except Exception (Int × List Char))
      | .ok (p, endPos2) => .ok (p, restAt s endPos2)) = portOfRest scheme (restAt s endPos) ∧
    ∀ p endPos2 e, parsePort s scheme endPos = .ok (p, endPos2) → endPos2 = some e →
      s.drop e ≠ [] := by
  cases endPos with
  | none =>
    simp only [parsePort, restAt, portOfRest]
    cases _defaultPorts scheme with
    | none => simp
    | some d =>
      refine ⟨rfl, ?_⟩
      intro p endPos2 e h he
      cases h
      cases he
  | some e =>
    have hne := hend e rfl
    have hr : restAt s (some e) = s.drop e := rfl
    rw [hr]
    simp only [parsePort]
    rw [getElem?_eq_head?_drop]
    cases hd : s.drop e with
    | nil => exact absurd hd hne
    | cons c t =>
      by_cases hc : c = ':'
      · subst hc
        have ht : s.drop (e + 1) = t := by
          rw [← List.drop_drop, hd]
          rfl
        obtain ⟨h1, h2⟩ := substrBetween_scan_eq (fun d => decide (d = '/')) s (e + 1)
        rw [ht] at h1 h2
        simp only [List.head?_cons, if_true, portOfRest, findChar]
        rw [ht, h1]
        cases hst : stoi (t.takeWhile (fun c => !decide (c = '/'))) with
        | none => simp
        | some v =>
          refine ⟨by simp only [h2], ?_⟩
          intro p endPos2 e2 heq he2 hnil
          cases heq
          obtain ⟨d, r, hdr, _⟩ := scan_restAt_ne_nil _ s (e + 1) e2 (by rw [ht]; exact he2)
          rw [hdr] at hnil
          cases hnil
      · have hport : portOfRest scheme (c :: t) =
            (match _defaultPorts scheme with
              | some p => .ok (p, c :: t)
              | none => .error .OutOfRange) := by
          unfold portOfRest
          split
          · next heq =>
            cases heq
            exact absurd rfl hc
          · rfl
        rw [hport]
        simp only [List.head?_cons, Option.some.injEq, hc, if_false]
        cases _defaultPorts scheme with
        | none => simp
        | some d =>
          simp only [hr, hd, true_and]
          intro p endPos2 e2 h he2
          cases h
          cases he2
          rw [hd]
          simp

theorem parse_eq_parseAuthority (s : List Char) (slashes : Nat)
    (h : findStr s ['/', '/'] 0 = some slashes) :
    parse s =
      (let scheme : List Char :=
        (if slashes > 0 then s.take (slashes - 1) else ['h', 't', 't', 'p']).map toLower
      if (_defaultPorts scheme).isNone then .error .NotImplementedException
      else if slashes + 2 ≥ s.length then .error .FormatException
      else parseAuthority scheme (s.drop (slashes + 2))) := by
  unfold parse
  rw [h]
  simp only [substrBetween, List.drop_zero, Nat.sub_zero]
  generalize (List.map toLower (if slashes > 0 then s.take (slashes - 1)
    else ['h', 't', 't', 'p'])) = scheme
  by_cases hn : (_defaultPorts scheme).isNone = true
  · rw [if_pos hn, if_pos hn]
  · rw [if_neg hn, if_neg hn]
    by_cases hl : slashes + 2 ≥ s.length
    · rw [if_pos hl, if_pos hl]
    · rw [if_neg hl, if_neg hl]
      obtain ⟨h1, h2⟩ := substrBetween_scan_eq (fun d => [':', '/'].contains d) s (slashes + 2)
      have hend : ∀ e, findFirstOf s [':', '/'] (slashes + 2) = some e → s.drop e ≠ [] := by
        intro e he hnil
        obtain ⟨d, r, hdr, _⟩ := scan_restAt_ne_nil _ s (slashes + 2) e he
        rw [hdr] at hnil
        cases hnil
      obtain ⟨hp1, hp2⟩ := parsePort_eq s scheme (findFirstOf s [':', '/'] (slashes + 2)) hend
      unfold parseAuthority
      simp only [findFirstOf] at hp1 hp2 ⊢
      rw [← h1, ← h2, ← hp1]
      cases hport : parsePort s scheme (findIdxFrom (fun d => [':', '/'].contains d)
          (s.drop (slashes + 2)) (slashes + 2)) with
      | error e => rfl
      | ok r =>
        obtain ⟨port, endPos2⟩ := r
        simp only
        obtain ⟨hl1, hl2⟩ := parseLocalPath_eq s endPos2 (fun e he => hp2 port endPos2 e hport he)
        rw [← hl1, ← hl2, parseQuery_eq]
        rfl

end Url

theorem findStrFrom_skip (p0 : Char) (ps pre rest : List Char) (i : Nat)
    (hpre : ∀ c ∈ pre, c ≠ p0) :
    findStrFrom (p0 :: ps) (pre ++ ((p0 :: ps) ++ rest)) i = some (i + pre.length) := by
  induction pre generalizing i with
  | nil =>
    have : (p0 :: ps).isPrefixOf (p0 :: (ps ++ rest)) = true :=
      List.isPrefixOf_iff_prefix.2 (List.prefix_append (p0 :: ps) rest)
    rw [List.nil_append]
    show findStrFrom (p0 :: ps) (p0 :: (ps ++ rest)) i = _
    simp only [findStrFrom]
    rw [if_pos this]
    rfl
  | cons c pre ih =>
    have hc : c ≠ p0 := hpre c (List.mem_cons_self _ _)
    have : ¬ (p0 :: ps).isPrefixOf (c :: (pre ++ ((p0 :: ps) ++ rest))) = true := by
      simp [List.isPrefixOf, Ne.symm hc]
    rw [List.cons_append]
    simp only [findStrFrom]
    rw [if_neg this, ih (i + 1) (fun x hx => hpre x (List.mem_cons_of_mem _ hx))]
    simp only [List.length_cons]
    congr 1
    omega

theorem findStrFrom_eq_none_iff (pat s : List Char) (i : Nat) :
    findStrFrom pat s i = none ↔ ¬ pat <:+: s := by
  induction s generalizing i with
  | nil =>
    simp only [findStrFrom, List.infix_nil]
    by_cases hp : pat = [] <;> simp [hp]
  | cons c cs ih =>
    simp only [findStrFrom, List.infix_cons_iff]
    by_cases hp : pat.isPrefixOf (c :: cs) = true
    · rw [if_pos hp]
      simp [List.isPrefixOf_iff_prefix.1 hp]
    · rw [if_neg hp, ih (i + 1)]
      have : ¬ pat <+: c :: cs := fun h => hp (List.isPrefixOf_iff_prefix.2 h)
      simp [this]

theorem findStr_eq_none_iff (pat s : List Char) :
    findStr s pat 0 = none ↔ ¬ pat <:+: s := by
  unfold findStr
  rw [if_pos (Nat.zero_le _), List.drop_zero]
  exact findStrFrom_eq_none_iff pat s 0

/-- The first occurrence of `pat`: when no occurrence of `pat` begins inside
`pre`, the scan of `pre ++ pat ++ rest` stops at the end of `pre`. -/
theorem findStrFrom_first (pat pre rest : List Char) (i : Nat) (hpat : pat ≠ [])
    (hfirst : ¬ pat <:+: pre ++ pat.dropLast) :
    findStrFrom pat (pre ++ (pat ++ rest)) i = some (i + pre.length) := by
  induction pre generalizing i with
  | nil =>
    cases pat with
    | nil => exact absurd rfl hpat
    | cons p0 ps => exact findStrFrom_skip p0 ps [] rest i (by simp)
  | cons c pre ih =>
    have hno : ¬ pat.isPrefixOf (c :: (pre ++ (pat ++ rest))) = true := by
      intro h
      have h1 : pat <+: (c :: pre ++ pat.dropLast) ++ ([pat.getLast hpat] ++ rest) := by
        have h0 := List.isPrefixOf_iff_prefix.1 h
        have e : (c :: pre ++ pat.dropLast) ++ ([pat.getLast hpat] ++ rest)
            = c :: (pre ++ (pat ++ rest)) := by
          rw [← List.append_assoc _ [pat.getLast hpat] rest, List.append_assoc (c :: pre),
            List.dropLast_append_getLast hpat]
          simp
        rw [e]
        exact h0
      have h2 : c :: pre ++ pat.dropLast <+: (c :: pre ++ pat.dropLast) ++
          ([pat.getLast hpat] ++ rest) := List.prefix_append _ _
      have hlen : pat.length ≤ (c :: pre ++ pat.dropLast).length := by
        have := List.length_dropLast pat
        have hpos : 0 < pat.length := List.length_pos.2 hpat
        simp only [List.length_append, List.length_cons, List.length_dropLast]
        omega
      exact hfirst (List.prefix_of_prefix_length_le h1 h2 hlen).isInfix
    rw [List.cons_append]
    simp only [findStrFrom]
    rw [if_neg hno, ih (i + 1) (fun h => hfirst ?_)]
    · simp only [List.length_cons]
      congr 1
      omega
    · rw [List.cons_append]
      exact List.infix_cons h

theorem findStr_first (pat pre rest : List Char) (hpat : pat ≠ [])
    (hfirst : ¬ pat <:+: pre ++ pat.dropLast) :
    findStr (pre ++ (pat ++ rest)) pat 0 = some pre.length := by
  unfold findStr
  rw [if_pos (Nat.zero_le _), List.drop_zero, findStrFrom_first pat pre rest 0 hpat hfirst]
  simp

theorem takeWhile_dropWhile_append (p : Char → Bool) (a b : List Char)
    (ha : ∀ c ∈ a, p c = false) (hb : ∀ d, b.head? = some d → p d = true) :
    (a ++ b).takeWhile (fun c => !p c) = a ∧ (a ++ b).dropWhile (fun c => !p c) = b := by
  cases b with
  | nil =>
    rw [List.append_nil]
    exact takeWhile_dropWhile_all p a ha
  | cons d b => exact takeWhile_dropWhile_split p a d b ha (hb d rfl)

namespace Url

theorem mkAbsolute_of_scheme (scheme host : List Char) (port : Int) (localPath query : List Char)
    (hs : (_defaultPorts scheme).isSome = true) :
    ∃ u, mkAbsolute scheme host port localPath query = .ok u ∧ u._isAbsoluteUrl = true ∧
      u._scheme = some scheme ∧ u._host = some host ∧ u._port = some port ∧
      u._localPath = some localPath ∧ u._query = some query := by
  unfold mkAbsolute canonicalize
  cases hd : _defaultPorts scheme with
  | none =>
    rw [hd] at hs
    cases hs
  | some defaultPort => exact ⟨_, rfl, rfl, rfl, rfl, rfl, rfl, rfl⟩

theorem parseAuthority_host (scheme H rest : List Char)
    (hH : ∀ c ∈ H, c ≠ ':' ∧ c ≠ '/')
    (hrest : ∀ d, rest.head? = some d → d = ':' ∨ d = '/') :
    parseAuthority scheme (H ++ rest) =
      match portOfRest scheme rest with
      | .error e => .error e
      | .ok (port, rest2) =>
        mkAbsolute scheme H port (pathOfRest rest2).1 (queryOfRest (pathOfRest rest2).2) := by
  obtain ⟨h1, h2⟩ := takeWhile_dropWhile_append (fun d => [':', '/'].contains d) H rest
    (fun c hc => by
      have := hH c hc
      simp [this.1, this.2])
    (fun d hd => by
      rcases hrest d hd with rfl | rfl <;> decide)
  unfold parseAuthority
  simp only
  rw [h1, h2]

end Url

namespace Url

end Url

namespace Url

end Url

namespace Url

/-- C16: for a URL `b` that the program can hold and a string `r`, when `b` is
absolute `Url( b, r )` is an absolute URL with the scheme, host and port of
`b`; its path is the part of `r` before the first `?` or `#` when `r` starts
with `/`, and the path of `b` followed by that part otherwise; its query is
the text between `?` and the next `#` when the first `?` or `#` of `r` is a
`?`, and empty otherwise.  When `b` is not absolute the constructor throws
`ArgumentException`, and it throws in no other case. -/
theorem combine_parts (b : Url) (r : List Char) (hobt : Obtained b) :
    (b._isAbsoluteUrl = true →
      ∃ u basePath, b._localPath = some basePath ∧ combine b r = .ok u ∧
        u._isAbsoluteUrl = true ∧ u._scheme = b._scheme ∧ u._host = b._host ∧
        u._port = b._port ∧
        u._localPath = some
          (if r.head? = some '/' then r.takeWhile (fun c => !(['?', '#'].contains c))
            else basePath ++ r.takeWhile (fun c => !(['?', '#'].contains c))) ∧
        u._query = some (queryOfRest (r.dropWhile (fun c => !(['?', '#'].contains c))))) ∧
    (b._isAbsoluteUrl = false → combine b r = .error .ArgumentException) ∧
    ((∃ e, combine b r = .error e) → b._isAbsoluteUrl = false) := by
  have habs : b._isAbsoluteUrl = true →
      ∃ u basePath, b._localPath = some basePath ∧ combine b r = .ok u ∧
        u._isAbsoluteUrl = true ∧ u._scheme = b._scheme ∧ u._host = b._host ∧
        u._port = b._port ∧
        u._localPath = some
          (if r.head? = some '/' then r.takeWhile (fun c => !(['?', '#'].contains c))
            else basePath ++ r.takeWhile (fun c => !(['?', '#'].contains c))) ∧
        u._query = some (queryOfRest (r.dropWhile (fun c => !(['?', '#'].contains c)))) := by
    intro hb
    obtain ⟨scheme, host, port, basePath, query, ⟨hs, _⟩, hmk⟩ := obtained_wellFormed b hobt hb
    obtain ⟨_, h1, h2, h3, h4, _⟩ := mkAbsolute_eq_ok _ _ _ _ _ _ hmk
    obtain ⟨e1, e2⟩ := substrBetween_scan_eq (fun d => ['?', '#'].contains d) r 0
    rw [List.drop_zero] at e1 e2
    obtain ⟨u, hu, hu0, hu1, hu2, hu3, hu4, hu5⟩ := mkAbsolute_of_scheme scheme host port
      (if r.head? = some '/' then r.takeWhile (fun c => !(['?', '#'].contains c))
        else basePath ++ r.takeWhile (fun c => !(['?', '#'].contains c)))
      (queryOfRest (r.dropWhile (fun c => !(['?', '#'].contains c)))) hs
    refine ⟨u, basePath, h4, ?_, hu0, by rw [hu1, h1], by rw [hu2, h2], by rw [hu3, h3],
      hu4, hu5⟩
    unfold combine
    rw [hb, h1, h2, h3, h4]
    simp only [Bool.not_true, Bool.false_eq_true, if_false, findFirstOf, List.drop_zero]
    rw [parseQuery_eq, e2, e1]
    exact hu
  refine ⟨habs, ?_, ?_⟩
  · intro hb
    unfold combine
    rw [hb]
    rfl
  · rintro ⟨e, he⟩
    cases hb : b._isAbsoluteUrl with
    | false => rfl
    | true =>
      obtain ⟨u, _, _, hu, _⟩ := habs hb
      rw [hu] at he
      cases he

/-- C16 on the base `https://www.google.com/US/` and `/index.html?query=test`. -/
theorem combine_parts_witness :
    Obtained exampleBase ∧
    combine exampleBase "/index.html?query=test".toList = .ok exampleCombined ∧
    ∃ u basePath, exampleBase._localPath = some basePath ∧
      combine exampleBase "/index.html?query=test".toList = .ok u ∧
      u._isAbsoluteUrl = true ∧ u._scheme = exampleBase._scheme ∧
      u._host = exampleBase._host ∧ u._port = exampleBase._port ∧
      u._localPath = some
        (if "/index.html?query=test".toList.head? = some '/' then
          "/index.html?query=test".toList.takeWhile (fun c => !(['?', '#'].contains c))
          else basePath ++
            "/index.html?query=test".toList.takeWhile (fun c => !(['?', '#'].contains c))) ∧
      u._query = some (queryOfRest
        ("/index.html?query=test".toList.dropWhile (fun c => !(['?', '#'].contains c)))) :=
  ⟨Obtained.parse "https://www.google.com/US/".toList exampleBase (by decide), by decide,
    (combine_parts exampleBase "/index.html?query=test".toList
      (Obtained.parse "https://www.google.com/US/".toList exampleBase (by decide))).1 rfl⟩

end Url

theorem span_cases (p : Char → Bool) (s : List Char) :
    (∀ c ∈ s, p c = false) ∨
    ∃ a d b, s = a ++ d :: b ∧ (∀ c ∈ a, p c = false) ∧ p d = true := by
  cases h : findIdxFrom p s 0 with
  | none => exact Or.inl (findIdxFrom_eq_none p s 0 h)
  | some j =>
    obtain ⟨a, d, b, hs, ha, hd, _⟩ := findIdxFrom_eq_some p s 0 j h
    exact Or.inr ⟨a, d, b, hs, ha, hd⟩

namespace Url

theorem parse_first (pre rest : List Char) (hfirst : ¬ ['/', '/'] <:+: pre ++ ['/']) :
    parse (pre ++ (['/', '/'] ++ rest)) =
      if (_defaultPorts ((if pre ≠ [] then pre.dropLast
          else ['h', 't', 't', 'p']).map toLower)).isNone then .error .NotImplementedException
      else if rest = [] then .error .FormatException
      else parseAuthority ((if pre ≠ [] then pre.dropLast
          else ['h', 't', 't', 'p']).map toLower) rest := by
  have hfind := findStr_first ['/', '/'] pre rest (by simp) hfirst
  rw [parse_eq_parseAuthority _ _ hfind]
  have htake : (pre ++ (['/', '/'] ++ rest)).take (pre.length - 1) = pre.dropLast := by
    rw [List.take_append_of_le_length (Nat.sub_le _ _), List.dropLast_eq_take]
  have hdrop : (pre ++ (['/', '/'] ++ rest)).drop (pre.length + 2) = rest := by
    rw [List.drop_append]
    rfl
  have hpos : pre.length > 0 ↔ pre ≠ [] := List.length_pos
  have hlen : pre.length + 2 ≥ (pre ++ (['/', '/'] ++ rest)).length ↔ rest = [] := by
    simp only [List.length_append, List.length_cons, List.length_nil]
    constructor
    · intro h
      exact List.length_eq_zero.1 (by omega)
    · intro h
      rw [h]
      simp
  simp only [htake, hdrop, hpos, hlen]

theorem portOfRest_colon (scheme ds rest : List Char) (hds : ∀ c ∈ ds, c ≠ '/')
    (hrest : ∀ d, rest.head? = some d → d = '/') :
    portOfRest scheme (':' :: (ds ++ rest)) =
      match stoi ds with
      | none => .error .FormatException
      | some p => .ok (p, rest) := by
  obtain ⟨h1, h2⟩ := takeWhile_dropWhile_append (fun d => decide (d = '/')) ds rest
    (fun c hc => by simp [hds c hc])
    (fun d hd => by simp [hrest d hd])
  unfold portOfRest
  simp only
  rw [h1, h2]

theorem parseAuthority_cases (scheme rest : List Char)
    (hs : (_defaultPorts scheme).isSome = true) :
    (parseAuthority scheme rest = .error .FormatException ∨
      ∃ u, parseAuthority scheme rest = .ok u ∧ u._isAbsoluteUrl = true ∧
        u._scheme = some scheme ∧
        u._host = some (rest.takeWhile (fun c => !([':', '/'].contains c)))) ∧
    ((rest.dropWhile (fun c => !([':', '/'].contains c))).head? ≠ some ':' →
      ∃ u, parseAuthority scheme rest = .ok u ∧ u._isAbsoluteUrl = true ∧
        u._scheme = some scheme ∧
        u._host = some (rest.takeWhile (fun c => !([':', '/'].contains c)))) := by
  have hok : ∀ (port : Int) (rest2 : List Char),
      portOfRest scheme (rest.dropWhile (fun c => !([':', '/'].contains c))) = .ok (port, rest2) →
      ∃ u, parseAuthority scheme rest = .ok u ∧ u._isAbsoluteUrl = true ∧
        u._scheme = some scheme ∧
        u._host = some (rest.takeWhile (fun c => !([':', '/'].contains c))) := by
    intro port rest2 hp
    obtain ⟨u, hu, h0, h1, h2, _⟩ := mkAbsolute_of_scheme scheme
      (rest.takeWhile (fun c => !([':', '/'].contains c))) port (pathOfRest rest2).1
      (queryOfRest (pathOfRest rest2).2) hs
    refine ⟨u, ?_, h0, h1, h2⟩
    unfold parseAuthority
    simp only [hp]
    exact hu
  obtain ⟨dp, hdp⟩ := Option.isSome_iff_exists.1 hs
  constructor
  · cases hp : portOfRest scheme (rest.dropWhile (fun c => !([':', '/'].contains c))) with
    | ok r => exact Or.inr (hok r.1 r.2 hp)
    | error e =>
      left
      have he : e = .FormatException := by
        unfold portOfRest at hp
        split at hp
        · split at hp
          · cases hp
            rfl
          · cases hp
        · rw [hdp] at hp
          cases hp
      unfold parseAuthority
      simp only [hp, he]
  · intro hhead
    refine hok dp (rest.dropWhile (fun c => !([':', '/'].contains c))) ?_
    unfold portOfRest
    split
    · next t heq =>
      rw [heq] at hhead
      exact absurd rfl hhead
    · rw [hdp]

end Url

namespace Url

/-- C17 as stated fails: the string `//` begins with `//`, but `Url( "//" )`
throws `FormatException` and has no scheme. -/
theorem parse_slashes_alone : parse ['/', '/'] = .error .FormatException := by
  decide

/-- C17, amended: an absolute URL that `Url( urlString )` builds has the scheme
http or https; when the text before the first `//` is not empty and, without
its last character and in lower case, is neither http nor https, the
constructor throws `NotImplementedException`; a string without `//` gives a
relative URL; and for a string that begins with `//` the constructor either
builds an absolute URL with the scheme http or throws `FormatException`, and
it builds the URL when there is text after the `//` and no `:` after the host. -/
theorem parse_scheme_cases :
    (∀ s u, parse s = .ok u → u._isAbsoluteUrl = true →
      u._scheme = some ['h', 't', 't', 'p'] ∨ u._scheme = some ['h', 't', 't', 'p', 's']) ∧
    (∀ pre rest : List Char, pre ≠ [] → ¬ ['/', '/'] <:+: pre ++ ['/'] →
      pre.dropLast.map toLower ≠ ['h', 't', 't', 'p'] →
      pre.dropLast.map toLower ≠ ['h', 't', 't', 'p', 's'] →
      parse (pre ++ (['/', '/'] ++ rest)) = .error .NotImplementedException) ∧
    (∀ s : List Char, ¬ ['/', '/'] <:+: s →
      parse s = .ok { _urlString := s, _isAbsoluteUrl := false, _scheme := none, _host := none,
                      _port := none, _localPath := none, _query := none }) ∧
    (∀ rest : List Char,
      parse (['/', '/'] ++ rest) = .error .FormatException ∨
      ∃ u, parse (['/', '/'] ++ rest) = .ok u ∧ u._isAbsoluteUrl = true ∧
        u._scheme = some ['h', 't', 't', 'p']) ∧
    (∀ rest : List Char, rest ≠ [] →
      (rest.dropWhile (fun c => !([':', '/'].contains c))).head? ≠ some ':' →
      ∃ u, parse (['/', '/'] ++ rest) = .ok u ∧ u._isAbsoluteUrl = true ∧
        u._scheme = some ['h', 't', 't', 'p']) := by
  have hslash : ∀ rest : List Char, parse (['/', '/'] ++ rest) =
      if rest = [] then .error .FormatException
      else parseAuthority ['h', 't', 't', 'p'] rest := by
    intro rest
    have h := parse_first [] rest (by decide)
    rw [List.nil_append] at h
    rw [h]
    rfl
  refine ⟨?_, ?_, ?_, ?_, ?_⟩
  · intro s u h habs
    obtain ⟨scheme, host, port, localPath, query, ⟨hs, _⟩, hmk⟩ := parse_wellFormed s u h habs
    obtain ⟨_, h1, _⟩ := mkAbsolute_eq_ok _ _ _ _ _ _ hmk
    rw [h1]
    unfold _defaultPorts at hs
    by_cases e1 : scheme = ['h', 't', 't', 'p']
    · exact Or.inl (by rw [e1])
    · by_cases e2 : scheme = ['h', 't', 't', 'p', 's']
      · exact Or.inr (by rw [e2])
      · rw [if_neg e1, if_neg e2] at hs
        cases hs
  · intro pre rest hne hfirst h1 h2
    rw [parse_first pre rest hfirst, if_pos hne, if_pos]
    unfold _defaultPorts
    rw [if_neg h1, if_neg h2]
    rfl
  · intro s hs
    unfold parse
    rw [(findStr_eq_none_iff ['/', '/'] s).2 hs]
  · intro rest
    rw [hslash]
    by_cases hr : rest = []
    · exact Or.inl (by rw [if_pos hr])
    · rw [if_neg hr]
      rcases (parseAuthority_cases ['h', 't', 't', 'p'] rest rfl).1 with h | ⟨u, hu, h0, h1, _⟩
      · exact Or.inl h
      · exact Or.inr ⟨u, hu, h0, h1⟩
  · intro rest hr hhead
    rw [hslash, if_neg hr]
    obtain ⟨u, hu, h0, h1, _⟩ := (parseAuthority_cases ['h', 't', 't', 'p'] rest rfl).2 hhead
    exact ⟨u, hu, h0, h1⟩

/-- C17, amended, on `ftp://host/`, on `/x` and on `//host/`. -/
theorem parse_scheme_cases_witness :
    parse "ftp://host/".toList = .error .NotImplementedException ∧
    parse "/x".toList = .ok { _urlString := "/x".toList, _isAbsoluteUrl := false,
                              _scheme := none, _host := none, _port := none,
                              _localPath := none, _query := none } ∧
    ∃ u, parse "//host/".toList = .ok u ∧ u._isAbsoluteUrl = true ∧
      u._scheme = some ['h', 't', 't', 'p'] :=
  ⟨parse_scheme_cases.2.1 "ftp:".toList "host/".toList (by decide) (by decide) (by decide)
      (by decide),
    parse_scheme_cases.2.2.1 "/x".toList (by decide),
    parse_scheme_cases.2.2.2.2 "host/".toList (by decide) (by decide)⟩

end Url

namespace Url

/-- C18 as stated fails: `Url( "http://EXAMPLE.com/" )` has the host
`EXAMPLE.com`, with its upper-case letters, and is not equal to
`Url( "http://example.com/" )`: the canonical strings differ. -/
theorem parse_keeps_host_case :
    ∃ u v, parse "http://EXAMPLE.com/".toList = .ok u ∧
      parse "http://example.com/".toList = .ok v ∧
      u._host = some "EXAMPLE.com".toList ∧ v._host = some "example.com".toList ∧
      u._urlString ≠ v._urlString :=
  ⟨{ _urlString := "http://EXAMPLE.com/".toList, _isAbsoluteUrl := true,
     _scheme := some "http".toList, _host := some "EXAMPLE.com".toList, _port := some 80,
     _localPath := some "/".toList, _query := some [] },
   { _urlString := "http://example.com/".toList, _isAbsoluteUrl := true,
     _scheme := some "http".toList, _host := some "example.com".toList, _port := some 80,
     _localPath := some "/".toList, _query := some [] },
   by decide, by decide, rfl, rfl, by decide⟩

/-- C18, amended: the host of an absolute URL that `Url( urlString )` builds is
the text of the input after its first `//` up to the first `:` or `/`, with
the letter case as written; and two absolute URLs so built that have the same
canonical string are the same URL, so URLs with different hosts (also in
letter case only) are never equal. -/
theorem parse_host_as_written :
    (∀ (pre rest : List Char) (u : Url), ¬ ['/', '/'] <:+: pre ++ ['/'] →
      parse (pre ++ (['/', '/'] ++ rest)) = .ok u →
      u._isAbsoluteUrl = true ∧
      u._host = some (rest.takeWhile (fun c => !([':', '/'].contains c)))) ∧
    (∀ (s1 s2 : List Char) (u1 u2 : Url), parse s1 = .ok u1 → parse s2 = .ok u2 →
      u1._isAbsoluteUrl = true → u2._isAbsoluteUrl = true →
      (u1._urlString = u2._urlString → u1 = u2) ∧
      (u1._host ≠ u2._host → u1._urlString ≠ u2._urlString)) := by
  constructor
  · intro pre rest u hfirst h
    rw [parse_first pre rest hfirst] at h
    generalize (List.map toLower (if pre ≠ [] then pre.dropLast else ['h', 't', 't', 'p']))
      = scheme at h
    by_cases hn : (_defaultPorts scheme).isNone = true
    · rw [if_pos hn] at h
      cases h
    · rw [if_neg hn] at h
      by_cases hr : rest = []
      · rw [if_pos hr] at h
        cases h
      · rw [if_neg hr] at h
        have hs : (_defaultPorts scheme).isSome = true := by
          cases hd : _defaultPorts scheme with
          | none =>
            rw [hd] at hn
            exact absurd rfl hn
          | some p => rfl
        rcases (parseAuthority_cases scheme rest hs).1 with he | ⟨v, hv, h0, _, h2⟩
        · rw [he] at h
          cases h
        · rw [hv] at h
          cases h
          exact ⟨h0, h2⟩
  · intro s1 s2 u1 u2 h1 h2 a1 a2
    have key : u1._urlString = u2._urlString → u1 = u2 := by
      intro he
      obtain ⟨sc1, ho1, po1, lp1, q1, ok1, mk1⟩ := parse_wellFormed s1 u1 h1 a1
      obtain ⟨sc2, ho2, po2, lp2, q2, ok2, mk2⟩ := parse_wellFormed s2 u2 h2 a2
      have p1 := parse_mkAbsolute _ _ _ _ _ u1 ok1 mk1
      have p2 := parse_mkAbsolute _ _ _ _ _ u2 ok2 mk2
      rw [he, p2] at p1
      cases p1
      rfl
    refine ⟨key, ?_⟩
    intro hne he
    exact hne (by rw [key he])

/-- C18, amended, on `http://EXAMPLE.com/`. -/
theorem parse_host_as_written_witness :
    parse "http://EXAMPLE.com/".toList =
      .ok { _urlString := "http://EXAMPLE.com/".toList, _isAbsoluteUrl := true,
            _scheme := some "http".toList, _host := some "EXAMPLE.com".toList,
            _port := some 80, _localPath := some "/".toList, _query := some [] } ∧
    some "EXAMPLE.com".toList =
      some ("EXAMPLE.com/".toList.takeWhile (fun c => !([':', '/'].contains c))) :=
  ⟨by decide,
    (parse_host_as_written.1 "http:".toList "EXAMPLE.com/".toList
      { _urlString := "http://EXAMPLE.com/".toList, _isAbsoluteUrl := true,
        _scheme := some "http".toList, _host := some "EXAMPLE.com".toList,
        _port := some 80, _localPath := some "/".toList, _query := some [] }
      (by decide) (by decide)).2⟩

end Url

theorem intToString_chars (n : Int) : ∀ c ∈ intToString n, c = '-' ∨ isDigit c = true := by
  obtain ⟨ds, hds, _, hdig, _⟩ := natToDigits_spec (n.natAbs + 1) n.natAbs [] (by omega)
  rw [List.append_nil] at hds
  unfold intToString
  rw [hds]
  split
  · intro c hc
    rcases List.mem_cons.1 hc with rfl | hc
    · exact Or.inl rfl
    · exact Or.inr (hdig c hc)
  · intro c hc
    exact Or.inr (hdig c hc)

namespace Url

theorem path_query_fragment (rest frag : List Char) (hne : rest ≠ [])
    (hno : ∀ c ∈ rest, c ≠ '#') :
    (pathOfRest (rest ++ '#' :: frag)).1 = (pathOfRest rest).1 ∧
    queryOfRest (pathOfRest (rest ++ '#' :: frag)).2 = queryOfRest (pathOfRest rest).2 := by
  have hne2 : rest ++ '#' :: frag ≠ [] := by simp
  unfold pathOfRest
  rw [if_neg hne, if_neg hne2]
  rcases span_cases (fun d => ['?', '#'].contains d) rest with hall | ⟨x, d, y, hs, hx, hd⟩
  · obtain ⟨h1, h2⟩ := takeWhile_dropWhile_all _ rest hall
    obtain ⟨h3, h4⟩ := takeWhile_dropWhile_split (fun d => ['?', '#'].contains d) rest '#' frag
      hall (by decide)
    simp only at h1 h2 h3 h4 ⊢
    rw [h1, h2, h3, h4]
    exact ⟨rfl, rfl⟩
  · have hd2 : d = '?' := by
      have hdne : d ≠ '#' := hno d (by rw [hs]; simp)
      simp only [List.contains_cons, List.contains_nil, Bool.or_false, Bool.or_eq_true,
        beq_iff_eq] at hd
      rcases hd with h | h
      · exact h
      · exact absurd h hdne
    subst hd2
    have hy : ∀ c ∈ y, c ≠ '#' := fun c hc => hno c (by rw [hs]; simp [hc])
    obtain ⟨h1, h2⟩ := takeWhile_dropWhile_split (fun d => ['?', '#'].contains d) x '?' y hx hd
    obtain ⟨h3, h4⟩ := takeWhile_dropWhile_split (fun d => ['?', '#'].contains d) x '?'
      (y ++ '#' :: frag) hx hd
    have e : rest ++ '#' :: frag = x ++ '?' :: (y ++ '#' :: frag) := by
      rw [hs]
      simp
    rw [e, h3, h4, hs, h1, h2]
    refine ⟨rfl, ?_⟩
    obtain ⟨h5, _⟩ := takeWhile_dropWhile_split (fun d => decide (d = '#')) y '#' frag
      (fun c hc => by simp [hy c hc]) (by simp)
    obtain ⟨h6, _⟩ := takeWhile_dropWhile_all (fun d => decide (d = '#')) y
      (fun c hc => by simp [hy c hc])
    unfold queryOfRest
    simp only at h5 h6 ⊢
    rw [h5, h6]

theorem portOfRest_slash (scheme rest : List Char) :
    portOfRest scheme ('/' :: rest) =
      match _defaultPorts scheme with
      | some p => .ok (p, '/' :: rest)
      | none => .error .OutOfRange := by
  unfold portOfRest
  split
  · next t heq => cases heq
  · rfl

theorem parseAuthority_fragment (scheme rest frag : List Char) (hslash : '/' ∈ rest)
    (hno : ∀ c ∈ rest, c ≠ '#') :
    parseAuthority scheme (rest ++ '#' :: frag) = parseAuthority scheme rest := by
  rcases span_cases (fun d => [':', '/'].contains d) rest with hall | ⟨a, d, b, hs, ha, hd⟩
  · exact absurd (hall '/' hslash) (by decide)
  · have ha2 : ∀ c ∈ a, c ≠ ':' ∧ c ≠ '/' := by
      intro c hc
      have := ha c hc
      simpa using this
    have hb : ∀ c ∈ b, c ≠ '#' := fun c hc => hno c (by rw [hs]; simp [hc])
    have e : rest ++ '#' :: frag = a ++ (d :: (b ++ '#' :: frag)) := by
      rw [hs]
      simp
    have hd2 : d = ':' ∨ d = '/' := by simpa using hd
    rw [e, hs, parseAuthority_host scheme a _ ha2 (by
        intro x hx
        simp only [List.head?_cons, Option.some.injEq] at hx
        rw [← hx]
        exact hd2),
      parseAuthority_host scheme a _ ha2 (by
        intro x hx
        simp only [List.head?_cons, Option.some.injEq] at hx
        rw [← hx]
        exact hd2)]
    rcases hd2 with rfl | rfl
    · have hsb : '/' ∈ b := by
        rw [hs] at hslash
        rcases List.mem_append.1 hslash with h | h
        · exact absurd rfl (ha2 _ h).2
        · rcases List.mem_cons.1 h with h | h
          · exact absurd h (by decide)
          · exact h
      rcases span_cases (fun d => decide (d = '/')) b with hall | ⟨a2, d2, b2, hs2, ha2', hd2'⟩
      · exact absurd (hall '/' hsb) (by decide)
      · have hd3 : d2 = '/' := by simpa using hd2'
        subst hd3
        have hds : ∀ c ∈ a2, c ≠ '/' := by
          intro c hc
          have := ha2' c hc
          simpa using this
        have e2 : b ++ '#' :: frag = a2 ++ ('/' :: (b2 ++ '#' :: frag)) := by
          rw [hs2]
          simp
        rw [e2, hs2, portOfRest_colon scheme a2 _ hds (by
            intro x hx
            simp only [List.head?_cons, Option.some.injEq] at hx
            exact hx.symm),
          portOfRest_colon scheme a2 _ hds (by
            intro x hx
            simp only [List.head?_cons, Option.some.injEq] at hx
            exact hx.symm)]
        cases stoi a2 with
        | none => rfl
        | some p =>
          obtain ⟨h1, h2⟩ := path_query_fragment ('/' :: b2) frag (by simp)
            (fun c hc => hb c (by
              rw [hs2]
              exact List.mem_append_right _ hc))
          simp only
          rw [← List.cons_append, h1, h2]
    · rw [portOfRest_slash, portOfRest_slash]
      cases _defaultPorts scheme with
      | none => rfl
      | some p =>
        obtain ⟨h1, h2⟩ := path_query_fragment ('/' :: b) frag (by simp)
          (fun c hc => hno c (by
            rw [hs]
            exact List.mem_append_right _ hc))
        simp only
        rw [← List.cons_append, h1, h2]

theorem urlString_no_hash (scheme host : List Char) (port : Int) (localPath query : List Char)
    (u : Url) (hok : FieldsOk scheme host port localPath query)
    (hmk : mkAbsolute scheme host port localPath query = .ok u)
    (hhost : ∀ c ∈ host, c ≠ '#') : ∀ c ∈ u._urlString, c ≠ '#' := by
  obtain ⟨hscheme, _, _, _, hpath, hquery⟩ := hok
  have hsc : ∀ c ∈ scheme, c ≠ '#' := by
    unfold _defaultPorts at hscheme
    by_cases e1 : scheme = ['h', 't', 't', 'p']
    · rw [e1]
      decide
    · by_cases e2 : scheme = ['h', 't', 't', 'p', 's']
      · rw [e2]
        decide
      · rw [if_neg e1, if_neg e2] at hscheme
        cases hscheme
  have hport : ∀ c ∈ intToString port, c ≠ '#' := by
    intro c hc h
    subst h
    rcases intToString_chars port _ hc with h | h
    · revert h
      decide
    · revert h
      decide
  unfold mkAbsolute canonicalize at hmk
  cases hd : _defaultPorts scheme with
  | none =>
    rw [hd] at hmk
    cases hmk
  | some dp =>
    rw [hd] at hmk
    simp only [Except.ok.injEq] at hmk
    rw [← hmk]
    simp only
    intro c hc
    simp only [List.mem_append, List.mem_cons, List.mem_nil_iff, or_false] at hc
    rcases hc with (((((h | h) | h) | h) | h) | h)
    · exact hsc c h
    · rcases h with h | h | h <;> rw [h] <;> decide
    · exact hhost c h
    · split at h
      · rcases List.mem_cons.1 h with h | h
        · rw [h]
          decide
        · exact hport c h
      · cases h
    · exact (hpath c h).2
    · split at h
      · rcases List.mem_cons.1 h with h | h
        · rw [h]
          decide
        · exact hquery c h
      · cases h

end Url

theorem takeWhile_append_stop (p : Char → Bool) (y : List Char) (c : Char) (j : List Char)
    (hc : p c = false) : (y ++ c :: j).takeWhile p = y.takeWhile p := by
  induction y with
  | nil => simp [List.takeWhile, hc]
  | cons d y ih =>
    rw [List.cons_append, List.takeWhile_cons, List.takeWhile_cons, ih]

theorem dropWhile_append_ne_nil (p : Char → Bool) (a x : List Char) (h : a.dropWhile p ≠ []) :
    (a ++ x).dropWhile p = a.dropWhile p ++ x := by
  induction a with
  | nil => exact absurd rfl h
  | cons d a ih =>
    rw [List.cons_append, List.dropWhile_cons, List.dropWhile_cons]
    rw [List.dropWhile_cons] at h
    by_cases hd : p d = true
    · rw [if_pos hd] at h ⊢
      rw [if_pos hd]
      exact ih h
    · rw [if_neg hd, if_neg hd]
      rfl

theorem dropWhile_append_nil (p : Char → Bool) (a x : List Char) (h : a.dropWhile p = []) :
    (a ++ x).dropWhile p = x.dropWhile p := by
  induction a with
  | nil => rfl
  | cons d a ih =>
    rw [List.cons_append, List.dropWhile_cons]
    rw [List.dropWhile_cons] at h
    by_cases hd : p d = true
    · rw [if_pos hd] at h ⊢
      exact ih h
    · rw [if_neg hd] at h
      cases h

theorem stoi_hash (a junk : List Char) : stoi (a ++ '#' :: junk) = stoi a := by
  unfold stoi
  by_cases h : a.dropWhile isSpace = []
  · rw [dropWhile_append_nil _ _ _ h, h]
    rfl
  · rw [dropWhile_append_ne_nil _ _ _ h]
    cases hd : a.dropWhile isSpace with
    | nil => exact absurd hd h
    | cons c r =>
      have hsign : stoiSign (c :: r ++ '#' :: junk) =
          ((stoiSign (c :: r)).1, (stoiSign (c :: r)).2 ++ '#' :: junk) := by
        by_cases h1 : c = '-'
        · subst h1
          rfl
        · by_cases h2 : c = '+'
          · subst h2
            rfl
          · unfold stoiSign
            split
            · next heq =>
              simp only [List.cons_append, List.cons.injEq] at heq
              exact absurd heq.1 h1
            · next heq =>
              simp only [List.cons_append, List.cons.injEq] at heq
              exact absurd heq.1 h2
            · split
              · next heq =>
                simp only [List.cons.injEq] at heq
                exact absurd heq.1 h1
              · next heq =>
                simp only [List.cons.injEq] at heq
                exact absurd heq.1 h2
              · rfl
      simp only [hsign]
      rw [takeWhile_append_stop isDigit _ '#' junk (by decide)]

namespace Url

theorem parse_host_text (pre host rest : List Char) (u : Url)
    (hfirst : ¬ ['/', '/'] <:+: pre ++ ['/'])
    (hhost : ∀ c ∈ host, c ≠ ':' ∧ c ≠ '/')
    (hrest : ∀ d, rest.head? = some d → d = ':' ∨ d = '/')
    (h : parse (pre ++ (['/', '/'] ++ (host ++ rest))) = .ok u) :
    u._host = some host ∧ ∀ c ∈ host, c ∈ u._urlString := by
  rw [parse_first pre _ hfirst] at h
  generalize (List.map toLower (if pre ≠ [] then pre.dropLast else ['h', 't', 't', 'p']))
    = scheme at h
  by_cases hn : (_defaultPorts scheme).isNone = true
  · rw [if_pos hn] at h
    cases h
  · rw [if_neg hn] at h
    by_cases he : host ++ rest = []
    · rw [if_pos he] at h
      cases h
    · rw [if_neg he, parseAuthority_host scheme host rest hhost hrest] at h
      cases hp : portOfRest scheme rest with
      | error e =>
        rw [hp] at h
        cases h
      | ok v =>
        obtain ⟨port, rest2⟩ := v
        rw [hp] at h
        simp only at h
        obtain ⟨_, _, h2, _⟩ := mkAbsolute_eq_ok _ _ _ _ _ _ h
        refine ⟨h2, ?_⟩
        unfold mkAbsolute canonicalize at h
        cases hd : _defaultPorts scheme with
        | none =>
          rw [hd] at h
          cases h
        | some dp =>
          rw [hd] at h
          simp only [Except.ok.injEq] at h
          rw [← h]
          intro c hc
          simp only [List.mem_append]
          exact Or.inl (Or.inl (Or.inl (Or.inr hc)))

theorem parse_port_text (pre host port junk rest : List Char)
    (hfirst : ¬ ['/', '/'] <:+: pre ++ ['/'])
    (hhost : ∀ c ∈ host, c ≠ ':' ∧ c ≠ '/')
    (hport : ∀ c ∈ port, c ≠ '/') (hjunk : ∀ c ∈ junk, c ≠ '/')
    (hrest : ∀ d, rest.head? = some d → d = '/') :
    parse (pre ++ (['/', '/'] ++ (host ++ ':' :: ((port ++ '#' :: junk) ++ rest)))) =
      parse (pre ++ (['/', '/'] ++ (host ++ ':' :: (port ++ rest)))) := by
  have hc : ∀ (t : List Char) (d : Char), (':' :: t).head? = some d → d = ':' ∨ d = '/' := by
    intro t d hd
    simp only [List.head?_cons, Option.some.injEq] at hd
    exact Or.inl hd.symm
  rw [parse_first pre _ hfirst, parse_first pre _ hfirst,
    if_neg (by simp : host ++ ':' :: ((port ++ '#' :: junk) ++ rest) ≠ []),
    if_neg (by simp : host ++ ':' :: (port ++ rest) ≠ []),
    parseAuthority_host _ host _ hhost (hc _), parseAuthority_host _ host _ hhost (hc _),
    portOfRest_colon _ (port ++ '#' :: junk) rest (by
      intro c hc2
      rcases List.mem_append.1 hc2 with h | h
      · exact hport c h
      · rcases List.mem_cons.1 h with h | h
        · rw [h]
          decide
        · exact hjunk c h) hrest,
    portOfRest_colon _ port rest hport hrest, stoi_hash]

end Url

namespace Url

/-- C19 as stated fails: `Url( "http://example.com#top" )` is an absolute URL
whose host is `example.com#top` and whose canonical string is
`http://example.com#top/`: the `#` and the text after it are kept. -/
theorem parse_hash_in_host :
    parse "http://example.com#top".toList =
      .ok { _urlString := "http://example.com#top/".toList, _isAbsoluteUrl := true,
            _scheme := some "http".toList, _host := some "example.com#top".toList,
            _port := some 80, _localPath := some "/".toList, _query := some [] } := by
  decide

/-- C19, amended: the local path and the query of an absolute URL that
`Url( urlString )` builds have no `#`; and when the text after the first `//`
has a `/` and no `#` before the first `#` of the input, what follows that `#`
is discarded: the constructor does what it does on the input cut before the
`#`, and the host, the local path, the query and the canonical string of the
URL it builds have no `#`.  A `#` before that `/` starts no fragment: the host
is the whole text between the `//` and the first `:` or `/` after it, `#`
included, and it is part of the canonical string; and a `#` in the text
between the `:` that ends the host and the next `/` (or the end of the input)
is dropped together with what follows it up to that `/`, while the text from
that `/` on is still parsed as local path and query. -/
theorem parse_fragment_discarded :
    (∀ (s : List Char) (u : Url), parse s = .ok u → u._isAbsoluteUrl = true →
      (∀ localPath, u._localPath = some localPath → ∀ c ∈ localPath, c ≠ '#') ∧
      (∀ query, u._query = some query → ∀ c ∈ query, c ≠ '#')) ∧
    (∀ (pre auth tail frag : List Char), ¬ ['/', '/'] <:+: pre ++ ['/'] →
      (∀ c ∈ auth ++ '/' :: tail, c ≠ '#') →
      parse (pre ++ (['/', '/'] ++ ((auth ++ '/' :: tail) ++ '#' :: frag))) =
        parse (pre ++ (['/', '/'] ++ (auth ++ '/' :: tail))) ∧
      ∀ u, parse (pre ++ (['/', '/'] ++ (auth ++ '/' :: tail))) = .ok u →
        (∀ host, u._host = some host → ∀ c ∈ host, c ≠ '#') ∧
        (∀ localPath, u._localPath = some localPath → ∀ c ∈ localPath, c ≠ '#') ∧
        (∀ query, u._query = some query → ∀ c ∈ query, c ≠ '#') ∧
        ∀ c ∈ u._urlString, c ≠ '#') ∧
    (∀ (pre host rest : List Char) (u : Url), ¬ ['/', '/'] <:+: pre ++ ['/'] →
      (∀ c ∈ host, c ≠ ':' ∧ c ≠ '/') →
      (∀ d, rest.head? = some d → d = ':' ∨ d = '/') →
      parse (pre ++ (['/', '/'] ++ (host ++ rest))) = .ok u →
      u._host = some host ∧ ('#' ∈ host → '#' ∈ u._urlString)) ∧
    (∀ (pre host port junk rest : List Char), ¬ ['/', '/'] <:+: pre ++ ['/'] →
      (∀ c ∈ host, c ≠ ':' ∧ c ≠ '/') →
      (∀ c ∈ port, c ≠ '/') → (∀ c ∈ junk, c ≠ '/') →
      (∀ d, rest.head? = some d → d = '/') →
      parse (pre ++ (['/', '/'] ++ (host ++ ':' :: ((port ++ '#' :: junk) ++ rest)))) =
        parse (pre ++ (['/', '/'] ++ (host ++ ':' :: (port ++ rest))))) := by
  refine ⟨?_, ?_, ?_, ?_⟩
  · intro s u h habs
    obtain ⟨scheme, host, port, localPath, query, ⟨_, _, _, _, hpath, hquery⟩, hmk⟩ :=
      parse_wellFormed s u h habs
    obtain ⟨_, _, _, _, h4, h5⟩ := mkAbsolute_eq_ok _ _ _ _ _ _ hmk
    constructor
    · intro lp hlp c hc
      rw [h4] at hlp
      cases hlp
      exact (hpath c hc).2
    · intro q hq c hc
      rw [h5] at hq
      cases hq
      exact hquery c hc
  · intro pre auth tail frag hfirst hno
    have hne : auth ++ '/' :: tail ≠ [] := by simp
    constructor
    · have hne2 : (auth ++ '/' :: tail) ++ '#' :: frag ≠ [] := by simp
      rw [parse_first pre ((auth ++ '/' :: tail) ++ '#' :: frag) hfirst,
        parse_first pre (auth ++ '/' :: tail) hfirst, if_neg hne, if_neg hne2,
        parseAuthority_fragment _ _ frag (by simp) hno]
    · intro u h
      have hp := h
      rw [parse_first pre _ hfirst] at h
      generalize (List.map toLower (if pre ≠ [] then pre.dropLast else ['h', 't', 't', 'p']))
        = scheme at h
      by_cases hn : (_defaultPorts scheme).isNone = true
      · rw [if_pos hn] at h
        cases h
      · rw [if_neg hn, if_neg hne] at h
        have hs : (_defaultPorts scheme).isSome = true := by
          cases hd : _defaultPorts scheme with
          | none =>
            rw [hd] at hn
            exact absurd rfl hn
          | some p => rfl
        rcases (parseAuthority_cases scheme _ hs).1 with he | ⟨v, hv, h0, _, h2⟩
        · rw [he] at h
          cases h
        · rw [hv] at h
          cases h
          have hhost : ∀ host, u._host = some host → ∀ c ∈ host, c ≠ '#' := by
            intro host hh c hc
            rw [h2] at hh
            cases hh
            exact hno c ((List.takeWhile_prefix _).subset hc)
          obtain ⟨sc, host, port, localPath, query, hok, hmk⟩ := parse_wellFormed _ u hp h0
          obtain ⟨_, _, m2, _, m4, m5⟩ := mkAbsolute_eq_ok _ _ _ _ _ _ hmk
          refine ⟨hhost, ?_, ?_, urlString_no_hash _ _ _ _ _ u hok hmk (hhost host m2)⟩
          · intro lp hlp c hc
            rw [m4] at hlp
            cases hlp
            exact (hok.2.2.2.2.1 c hc).2
          · intro q hq c hc
            rw [m5] at hq
            cases hq
            exact hok.2.2.2.2.2 c hc
  · intro pre host rest u hfirst hhost hrest h
    obtain ⟨h1, h2⟩ := parse_host_text pre host rest u hfirst hhost hrest h
    exact ⟨h1, h2 '#'⟩
  · exact parse_port_text

/-- C19, amended, on `http://example.com/a?b#top`, on `http://example.com#top`
and on `http://h:80#x/y`. -/
theorem parse_fragment_discarded_witness :
    (parse "http://example.com/a?b#top".toList = parse "http://example.com/a?b".toList ∧
      parse "http://example.com/a?b".toList =
        .ok { _urlString := "http://example.com/a?b".toList, _isAbsoluteUrl := true,
              _scheme := some "http".toList, _host := some "example.com".toList,
              _port := some 80, _localPath := some "/a".toList,
              _query := some "b".toList }) ∧
    ((∀ localPath, (some "/a".toList : Option (List Char)) = some localPath →
        ∀ c ∈ localPath, c ≠ '#') ∧
      (∀ query, (some "b".toList : Option (List Char)) = some query →
        ∀ c ∈ query, c ≠ '#')) ∧
    ((some "example.com#top".toList : Option (List Char)) = some "example.com#top".toList ∧
      ('#' ∈ "example.com#top".toList → '#' ∈ "http://example.com#top/".toList)) ∧
    (parse "http://h:80#x/y".toList = parse "http://h:80/y".toList ∧
      parse "http://h:80/y".toList =
        .ok { _urlString := "http://h/y".toList, _isAbsoluteUrl := true,
              _scheme := some "http".toList, _host := some "h".toList,
              _port := some 80, _localPath := some "/y".toList, _query := some [] }) :=
  ⟨⟨(parse_fragment_discarded.2.1 "http:".toList "example.com".toList "a?b".toList "top".toList
      (by decide) (by decide)).1, by decide⟩,
    parse_fragment_discarded.1 "http://example.com/a?b#top".toList
      { _urlString := "http://example.com/a?b".toList, _isAbsoluteUrl := true,
        _scheme := some "http".toList, _host := some "example.com".toList,
        _port := some 80, _localPath := some "/a".toList, _query := some "b".toList }
      (by decide) rfl,
    parse_fragment_discarded.2.2.1 "http:".toList "example.com#top".toList []
      { _urlString := "http://example.com#top/".toList, _isAbsoluteUrl := true,
        _scheme := some "http".toList, _host := some "example.com#top".toList,
        _port := some 80, _localPath := some "/".toList, _query := some [] }
      (by decide) (by decide) (by simp) (by decide),
    ⟨parse_fragment_discarded.2.2.2 "http:".toList "h".toList "80".toList "x".toList
      "/y".toList (by decide) (by decide) (by decide) (by decide) (by simp), by decide⟩⟩

end Url

/-! ### HTML parser: malformed input -/

theorem findIdxFrom_before (p : Char → Bool) (s : List Char) (pos e : Nat)
    (h : findIdxFrom p (s.drop pos) pos = some e) (i : Nat) (hlo : pos ≤ i) (hhi : i < e)
    (c : Char) (hc : s[i]? = some c) : p c = false := by
  obtain ⟨a, d, b, hs, ha, _, he, _, _, _⟩ := findIdxFrom_drop_eq_some p s pos e h
  have h1 : (s.drop pos)[i - pos]? = some c := by
    rw [List.getElem?_drop]
    have : pos + (i - pos) = i := by omega
    rw [this]
    exact hc
  rw [hs, List.getElem?_append_left (by omega)] at h1
  exact ha c (List.getElem?_mem h1)

theorem findIdxFrom_none_at (p : Char → Bool) (s : List Char) (pos : Nat)
    (h : findIdxFrom p (s.drop pos) pos = none) (i : Nat) (hlo : pos ≤ i)
    (c : Char) (hc : s[i]? = some c) : p c = false := by
  have h1 : (s.drop pos)[i - pos]? = some c := by
    rw [List.getElem?_drop]
    have : pos + (i - pos) = i := by omega
    rw [this]
    exact hc
  exact findIdxFrom_eq_none p _ _ h c (List.getElem?_mem h1)

theorem findStrFrom_prefix (pat s : List Char) (i j : Nat)
    (h : findStrFrom pat s i = some j) : pat <+: s.drop (j - i) := by
  induction s generalizing i with
  | nil =>
    simp only [findStrFrom] at h
    split at h
    · next hp =>
      rw [hp]
      exact List.nil_prefix
    · cases h
  | cons c cs ih =>
    simp only [findStrFrom] at h
    by_cases hp : pat.isPrefixOf (c :: cs) = true
    · rw [if_pos hp] at h
      cases h
      rw [Nat.sub_self, List.drop_zero]
      exact List.isPrefixOf_iff_prefix.1 hp
    · rw [if_neg hp] at h
      have hb := (findStrFrom_bound pat cs (i + 1) j h).1
      have := ih (i + 1) h
      have e : j - i = (j - (i + 1)) + 1 := by omega
      rw [e, List.drop_succ_cons]
      exact this

theorem findStr_prefix (s pat : List Char) (pos found : Nat)
    (h : findStr s pat pos = some found) : pat <+: s.drop found := by
  unfold findStr at h
  split at h
  · have hb := (findStrFrom_bound pat _ pos found h).1
    have := findStrFrom_prefix pat _ pos found h
    rw [List.drop_drop] at this
    have e : pos + (found - pos) = found := by omega
    rw [e] at this
    exact this
  · cases h

namespace TagInfo

theorem parse_error (tagString : List Char) (e : Exception)
    (h : parse tagString = .error e) : e = .FormatException := by
  unfold parse at h
  by_cases h1 : tagString.length < 2
  · rw [if_pos h1] at h
    cases h
    rfl
  · rw [if_neg h1] at h
    by_cases h2 : tagString[1]? = some '/' <;>
      by_cases h3 : tagString[tagString.length - 2]? = some '/' <;>
      simp [h2, h3] at h
    exact h.symm

end TagInfo

namespace HtmlParser

theorem tagEffect_error (reallocates : Nat → Bool)
    (linkFilter : Url → TagInfo → Except Exception Bool)
    (htmlString : List Char) (tagEnd : Nat) (htmlInfo : HtmlInfo) (currentLinkInfo : LinkPointer)
    (tagInfo : TagInfo) (e : Exception)
    (h : tagEffect reallocates linkFilter htmlString tagEnd htmlInfo currentLinkInfo tagInfo = .error e) :
    e = .FormatException := by
  unfold tagEffect at h
  split at h
  · split at h
    · split at h <;> cases h
    · cases h
    · cases h
    · split at h
      · cases h
        rfl
      · cases h
    · split at h <;> cases h
    · split at h
      · cases h
        rfl
      · cases h
  · cases h
  · cases h

/-- The errors of one round are `FormatException`s. -/
theorem parseRound_error (reallocates : Nat → Bool)
    (linkFilter : Url → TagInfo → Except Exception Bool)
    (htmlString : List Char) (beginPos : Nat) (htmlInfo : HtmlInfo) (currentLinkInfo : LinkPointer)
    (e : Exception)
    (h : parseRound reallocates linkFilter htmlString beginPos htmlInfo currentLinkInfo = .inl (.error e)) :
    e = .FormatException := by
  unfold parseRound at h
  simp only at h
  split at h
  · cases h
  · split at h
    · cases h
    · split at h
      · cases h
        rfl
      · split at h
        · next e2 hp =>
          cases h
          exact TagInfo.parse_error _ _ hp
        · split at h
          · next e2 he =>
            cases h
            exact tagEffect_error _ _ _ _ _ _ _ _ he
          · cases h

theorem parseLoop_error (reallocates : Nat → Bool)
    (linkFilter : Url → TagInfo → Except Exception Bool)
    (htmlString : List Char) (fuel : Nat) :
    ∀ (beginPos : Nat) (htmlInfo : HtmlInfo) (currentLinkInfo : LinkPointer) (e : Exception),
      parseLoop reallocates linkFilter htmlString fuel beginPos htmlInfo currentLinkInfo = some (.error e) →
      e = .FormatException := by
  induction fuel with
  | zero =>
    intro beginPos htmlInfo currentLinkInfo e h
    cases h
  | succ fuel ih =>
    intro beginPos htmlInfo currentLinkInfo e h
    simp only [parseLoop] at h
    cases hr : parseRound reallocates linkFilter htmlString beginPos htmlInfo currentLinkInfo with
    | inl result =>
      rw [hr] at h
      simp only [Option.some.injEq] at h
      rw [h] at hr
      exact parseRound_error _ _ _ _ _ _ _ hr
    | inr next =>
      rw [hr] at h
      exact ih _ _ _ _ h

/-- A round that starts at or before a `<` with no `>` after it goes through
a dangling `currentLinkInfo`, throws `FormatException`, or ends at or before
that `<`. -/
theorem parseRound_unclosed (reallocates : Nat → Bool)
    (linkFilter : Url → TagInfo → Except Exception Bool)
    (htmlString : List Char) (open0 : Nat) (hopen : htmlString[open0]? = some '<')
    (hno : ∀ i, open0 < i → htmlString[i]? ≠ some '>')
    (beginPos : Nat) (htmlInfo : HtmlInfo) (currentLinkInfo : LinkPointer)
    (hle : beginPos ≤ open0) :
    parseRound reallocates linkFilter htmlString beginPos htmlInfo currentLinkInfo = .inl .undefined ∨
    parseRound reallocates linkFilter htmlString beginPos htmlInfo currentLinkInfo
        = .inl (.error .FormatException) ∨
    ∃ next, parseRound reallocates linkFilter htmlString beginPos htmlInfo currentLinkInfo = .inr next ∧
      next.1 ≤ open0 := by
  have hgt : ∀ i, htmlString[i]? = some '>' → i < open0 := by
    intro i hi
    rcases Nat.lt_trichotomy i open0 with h | h | h
    · exact h
    · rw [h, hopen] at hi
      cases hi
    · exact absurd hi (hno i h)
  cases hr : parseRound reallocates linkFilter htmlString beginPos htmlInfo currentLinkInfo with
  | inl result =>
    cases result with
    | undefined => exact Or.inl rfl
    | error e =>
      right
      left
      rw [parseRound_error _ _ _ _ _ _ _ hr]
    | ok info =>
      exfalso
      unfold parseRound at hr
      simp only at hr
      cases hf : findChar htmlString '<' beginPos with
      | none =>
        have := findIdxFrom_none_at _ htmlString beginPos hf open0 hle '<' hopen
        simp at this
      | some tagBegin =>
        rw [hf] at hr
        simp only at hr
        split at hr
        · cases hr
        · split at hr
          · cases hr
          · split at hr
            · cases hr
            · split at hr <;> cases hr
  | inr next =>
    right
    right
    refine ⟨next, rfl, ?_⟩
    unfold parseRound at hr
    simp only at hr
    cases hadd : addWords htmlInfo currentLinkInfo
        (tokenize (substrBetween htmlString beginPos (findChar htmlString '<' beginPos))) with
    | none =>
      rw [hadd] at hr
      cases hr
    | some info =>
    rw [hadd] at hr
    simp only at hr
    cases hf : findChar htmlString '<' beginPos with
    | none =>
      rw [hf] at hr
      cases hr
    | some tagBegin =>
      rw [hf] at hr
      simp only at hr
      cases hc : findChar htmlString '>' tagBegin with
      | none =>
        rw [hc] at hr
        cases hr
      | some closePos =>
        rw [hc] at hr
        simp only at hr
        have hclose : closePos < open0 := by
          obtain ⟨a, d, b, _, _, hd, _, hget, _, _⟩ :=
            findIdxFrom_drop_eq_some _ htmlString tagBegin closePos hc
          have hd2 : d = '>' := by simpa using hd
          rw [hd2] at hget
          exact hgt closePos hget
        cases hp : TagInfo.parse (substrBetween htmlString tagBegin (some (closePos + 1))) with
        | error e =>
          rw [hp] at hr
          cases hr
        | ok tagInfo =>
          rw [hp] at hr
          simp only at hr
          cases he : tagEffect reallocates linkFilter htmlString (closePos + 1) info
              currentLinkInfo tagInfo with
          | error e =>
            rw [he] at hr
            cases hr
          | ok next2 =>
            rw [he] at hr
            simp only [Sum.inr.injEq] at hr
            subst hr
            have hspec := (tagEffect_spec _ _ _ _ _ _ _ _ he).2
            split at hspec
            · obtain ⟨found, hfound, hnext⟩ := hspec
              have hpre := findStr_prefix _ _ _ _ hfound
              have hget : htmlString[found + (tagInfo.getClosingTagString.length - 1)]?
                  = some '>' := by
                obtain ⟨t, ht⟩ := hpre
                rw [← List.getElem?_drop, ← ht]
                unfold TagInfo.getClosingTagString
                rw [List.getElem?_append_left (by simp)]
                simp
              have := hgt _ hget
              have hlen : 0 < tagInfo.getClosingTagString.length := by
                unfold TagInfo.getClosingTagString
                simp
              omega
            · omega

theorem parseLoop_unclosed (reallocates : Nat → Bool)
    (linkFilter : Url → TagInfo → Except Exception Bool)
    (htmlString : List Char) (open0 : Nat) (hopen : htmlString[open0]? = some '<')
    (hno : ∀ i, open0 < i → htmlString[i]? ≠ some '>') (fuel : Nat) :
    ∀ (beginPos : Nat) (htmlInfo : HtmlInfo) (currentLinkInfo : LinkPointer),
      beginPos ≤ open0 →
      parseLoop reallocates linkFilter htmlString fuel beginPos htmlInfo currentLinkInfo = none ∨
      parseLoop reallocates linkFilter htmlString fuel beginPos htmlInfo currentLinkInfo
        = some .undefined ∨
      parseLoop reallocates linkFilter htmlString fuel beginPos htmlInfo currentLinkInfo
        = some (.error .FormatException) := by
  induction fuel with
  | zero =>
    intro beginPos htmlInfo currentLinkInfo _
    exact Or.inl rfl
  | succ fuel ih =>
    intro beginPos htmlInfo currentLinkInfo hle
    simp only [parseLoop]
    rcases parseRound_unclosed reallocates linkFilter htmlString open0 hopen hno beginPos htmlInfo
      currentLinkInfo hle with h | h | ⟨next, h, hnext⟩
    · rw [h]
      exact Or.inr (Or.inl rfl)
    · rw [h]
      exact Or.inr (Or.inr rfl)
    · rw [h]
      exact ih _ _ _ hnext

/-- A round that starts with a dangling `currentLinkInfo` has undefined
behaviour. -/
theorem parseRound_dangling (reallocates : Nat → Bool)
    (linkFilter : Url → TagInfo → Except Exception Bool)
    (htmlString : List Char) (beginPos : Nat) (htmlInfo : HtmlInfo) :
    parseRound reallocates linkFilter htmlString beginPos htmlInfo .dangling
      = .inl .undefined := rfl

/-- What `HtmlParser::parse` does on an HTML text with a `<` that no `>`
follows: it throws `FormatException`, unless it has gone through a dangling
`currentLinkInfo` before; it returns no `HtmlInfo`.  And whatever the text, an
exception that `HtmlParser::parse` throws is a `FormatException`. -/
theorem parse_unclosed_cases (reallocates : Nat → Bool)
    (linkFilter : Url → TagInfo → Except Exception Bool) :
    (∀ a b : List Char, (∀ c ∈ b, c ≠ '>') →
      parse reallocates linkFilter (a ++ '<' :: b) = some .undefined ∨
      parse reallocates linkFilter (a ++ '<' :: b) = some (.error .FormatException)) ∧
    (∀ (htmlString : List Char) (e : Exception),
      parse reallocates linkFilter htmlString = some (.error e) → e = .FormatException) := by
  constructor
  · intro a b hb
    have hopen : (a ++ '<' :: b)[a.length]? = some '<' := by
      rw [List.getElem?_append_right (Nat.le_refl _)]
      simp
    have hno : ∀ i, a.length < i → (a ++ '<' :: b)[i]? ≠ some '>' := by
      intro i hi h
      rw [List.getElem?_append_right (Nat.le_of_lt hi)] at h
      have e : i - a.length = (i - a.length - 1) + 1 := by omega
      rw [e, List.getElem?_cons_succ] at h
      exact hb _ (List.getElem?_mem h) rfl
    rcases parseLoop_unclosed reallocates linkFilter _ a.length hopen hno ((a ++ '<' :: b).length + 1) 0
      { words := [], titleWords := [], links := [], base := none } .null (Nat.zero_le _)
      with h | h | h
    · exact absurd h (parse_ne_none reallocates linkFilter _)
    · exact Or.inl h
    · exact Or.inr h
  · intro htmlString e h
    exact parseLoop_error reallocates linkFilter htmlString _ _ _ _ e h

/-- C20 fails on the code: the text `embedInAnchorHtml`, that is
`<a href="http://a.org/"><embed src="http://b.org/">x<`, has a `<` with no
`>` after it, but `HtmlParser::parse` does not get to throw `FormatException`
for it when the `emplace_back` of the embed link, the second of the vector,
moves the elements of `links`: the pointer `currentLinkInfo` refers to the
link of the open anchor, and the next round writes the word `x` through it
(line 146), which is undefined behaviour.  The exception is thrown when that
`emplace_back` does not move the elements, and for the text `Hello <b`. -/
theorem parse_unclosed_undefined :
    (∃ a b : List Char, embedInAnchorHtml = a ++ '<' :: b ∧ ∀ c ∈ b, c ≠ '>') ∧
    (∀ reallocates : Nat → Bool, reallocates 1 = true →
      parse reallocates defaultLinkFilter embedInAnchorHtml = some .undefined) ∧
    (∀ reallocates : Nat → Bool, reallocates 1 = false →
      parse reallocates defaultLinkFilter embedInAnchorHtml
        = some (.error .FormatException)) ∧
    (∀ reallocates : Nat → Bool,
      parse reallocates defaultLinkFilter "Hello <b".toList
        = some (.error .FormatException)) := by
  have hround : ∀ reallocates : Nat → Bool,
      parse reallocates defaultLinkFilter embedInAnchorHtml =
        parseLoop reallocates defaultLinkFilter embedInAnchorHtml 52 51
          { words := [], titleWords := [],
            links := [{ url := { _urlString := "http://a.org/".toList, _isAbsoluteUrl := true,
                                 _scheme := some "http".toList, _host := some "a.org".toList,
                                 _port := some 80, _localPath := some "/".toList,
                                 _query := some [] },
                        anchorWords := [] },
                      { url := { _urlString := "http://b.org/".toList, _isAbsoluteUrl := true,
                                 _scheme := some "http".toList, _host := some "b.org".toList,
                                 _port := some 80, _localPath := some "/".toList,
                                 _query := some [] },
                        anchorWords := [] }],
            base := none }
          (LinkPointer.afterEmplace (reallocates 1) (.link 0)) := fun _ => rfl
  refine ⟨⟨embedInAnchorHtml.dropLast, [], by decide, by simp⟩, ?_, ?_, fun _ => rfl⟩
  · intro reallocates h
    rw [hround, h]
    rfl
  · intro reallocates h
    rw [hround, h]
    rfl

end HtmlParser

/-! ### Distributed -/

namespace BloomFilter

theorem containsLoop_ok (h1 h2 : Int) (bitVec : List Bool) (hsize : 0 < bitVec.length)
    (is : List Nat) : ∃ b, containsLoop h1 h2 bitVec is = .ok b := by
  induction is with
  | nil => exact ⟨true, rfl⟩
  | cons i rest ih =>
    have hlt := bitIndex_lt h1 h2 i bitVec.length hsize
    simp only [containsLoop]
    rw [List.getElem?_eq_getElem hlt]
    cases bitVec[bitIndex h1 h2 i bitVec.length] with
    | false => exact ⟨false, rfl⟩
    | true => exact ih

theorem contains_ok (f : BloomFilter) (hashValue : Nat) (hsize : 0 < f._bitVec.length) :
    ∃ b, f.contains hashValue = .ok b :=
  containsLoop_ok _ _ _ hsize _

end BloomFilter

namespace Crawler

theorem frontierEmplace_has (frontier : List Url) (url : Url) :
    ∃ v ∈ frontierEmplace frontier url, v._urlString = url._urlString := by
  unfold frontierEmplace
  split
  · next h =>
    obtain ⟨v, hv, he⟩ := List.any_eq_true.1 h
    exact ⟨v, hv, by simpa using he⟩
  · exact ⟨url, by simp, rfl⟩

end Crawler

namespace Distributed

/-- C12 as stated fails: in a router of 3 peers with the server ID 1 that is no
longer alive, `sendURL` of the absolute URL `http://a.org/`, whose hash is 2
modulo 3, returns at once: the send queue of peer 2 stays empty. -/
theorem sendURL_not_alive :
    Crawler.exampleUrl1.isAbsoluteUrl = true ∧
    Crawler.exampleHash Crawler.exampleUrl1._urlString % 3 = 2 ∧
    (exampleRouter false).urlCache[2]? = some [] ∧
    sendURL Crawler.exampleHash (exampleRouter false) Crawler.exampleUrl1
      = some (.ok (exampleRouter false)) :=
  ⟨rfl, by decide, rfl, rfl⟩

/-- C12, amended: in a router with `N ≥ 1` peers, as many send queues, a server
ID from 0 to `N - 1` and a scheduled set with at least one bit, `sendURL` of
an absolute URL `u` does the following while the router is alive.  When
`hash( u ) mod N` is the server ID, it is the local insertion: `u` is added to
the frontier when the scheduled set does not contain it, nothing changes when
it does, and the send queues stay as they are.  Otherwise `u` is added to the
send queue of the peer `hash( u ) mod N`, and the crawler and the other send
queues stay as they are.  A relative URL changes nothing, and nothing changes
when the router is not alive. -/
theorem sendURL_routes (hash : List Char → Nat) (d : Distributed) (u : Url) (i : Nat)
    (hN : 1 ≤ d.serverSockets) (hqueues : d.urlCache.length = d.serverSockets)
    (hid : 0 ≤ d.serverID ∧ d.serverID < d.serverSockets ∧ d.serverID ≤ 2147483647)
    (hbits : 0 < d.crawler._scheduledUrls._bitVec.length)
    (hi : i = hash u._urlString % d.serverSockets) :
    (d._isAlive = true → u.isAbsoluteUrl = true → (i : Int) = d.serverID →
      ∃ b, d.crawler._scheduledUrls.contains (hash u._urlString) = .ok b ∧
        sendURL hash d u = some (.ok
          { d with crawler := { d.crawler with
                                _frontier := if b then d.crawler._frontier
                                  else Crawler.frontierEmplace d.crawler._frontier u } })) ∧
    (d._isAlive = true → u.isAbsoluteUrl = true → (i : Int) ≠ d.serverID →
      ∃ queue, d.urlCache[i]? = some queue ∧
        sendURL hash d u = some (.ok
          { d with urlCache := d.urlCache.set i (Crawler.frontierEmplace queue u) }) ∧
        (∃ v ∈ Crawler.frontierEmplace queue u, v._urlString = u._urlString) ∧
        ∀ j, j ≠ i →
          (d.urlCache.set i (Crawler.frontierEmplace queue u))[j]? = d.urlCache[j]?) ∧
    (u.isAbsoluteUrl = false → sendURL hash d u = some (.ok d)) ∧
    (d._isAlive = false → sendURL hash d u = some (.ok d)) := by
  have hne : ¬ d.serverSockets = 0 := by omega
  have hsz : toSizeT d.serverID = d.serverID.toNat := by
    unfold toSizeT
    rw [Int.emod_eq_of_lt hid.1 (by omega)]
  have hilt : i < d.serverSockets := by
    rw [hi]
    exact Nat.mod_lt _ (by omega)
  refine ⟨?_, ?_, ?_, ?_⟩
  · intro halive habs hlocal
    obtain ⟨b, hb⟩ := BloomFilter.contains_ok d.crawler._scheduledUrls (hash u._urlString) hbits
    refine ⟨b, hb, ?_⟩
    have hcond : hash u._urlString % d.serverSockets = toSizeT d.serverID := by
      rw [hsz, ← hi]
      omega
    unfold sendURL
    simp only [halive, habs, Bool.not_true, Bool.false_eq_true, if_false, hne, hcond, if_true]
    unfold Crawler.insertFrontier
    rw [hb]
    cases b <;> rfl
  · intro halive habs hremote
    have hcond : ¬ hash u._urlString % d.serverSockets = toSizeT d.serverID := by
      rw [hsz, ← hi]
      omega
    subst hi
    have hget : d.urlCache[hash u._urlString % d.serverSockets]? =
        some (d.urlCache.get ⟨hash u._urlString % d.serverSockets, by omega⟩) :=
      List.getElem?_eq_getElem (by omega)
    refine ⟨_, hget, ?_, Crawler.frontierEmplace_has _ _, ?_⟩
    · unfold sendURL
      simp only [halive, habs, Bool.not_true, Bool.false_eq_true, if_false, hne, hcond]
      rw [hget]
    · intro j hj
      exact List.getElem?_set_ne (Ne.symm hj)
  · intro hrel
    unfold sendURL
    simp [hrel]
  · intro hdead
    unfold sendURL
    simp [hdead]

/-- C12, amended, on a router of 3 peers with the server ID 1 that is alive:
`http://a.org/`, whose hash is 2 modulo 3, goes to the send queue of peer 2,
and the crawler, with its frontier, stays as it is. -/
theorem sendURL_routes_witness :
    sendURL Crawler.exampleHash (exampleRouter true) Crawler.exampleUrl1 = some (.ok
      { exampleRouter true with urlCache := [[], [], [Crawler.exampleUrl1]] }) ∧
    ∃ queue, (exampleRouter true).urlCache[2]? = some queue ∧
      sendURL Crawler.exampleHash (exampleRouter true) Crawler.exampleUrl1 = some (.ok
        { exampleRouter true with
          urlCache := (exampleRouter true).urlCache.set 2
            (Crawler.frontierEmplace queue Crawler.exampleUrl1) }) ∧
      (∃ v ∈ Crawler.frontierEmplace queue Crawler.exampleUrl1,
        v._urlString = Crawler.exampleUrl1._urlString) ∧
      ∀ j, j ≠ 2 →
        ((exampleRouter true).urlCache.set 2
          (Crawler.frontierEmplace queue Crawler.exampleUrl1))[j]?
          = (exampleRouter true).urlCache[j]? :=
  ⟨rfl, (sendURL_routes Crawler.exampleHash (exampleRouter true) Crawler.exampleUrl1 2
    (by decide) (by decide) (by decide)
    (by
      show 0 < (List.replicate 16 false).length
      decide)
    (by decide)).2.1 rfl rfl (by decide)⟩

end Distributed

/-! ### Crawler: link filter -/

namespace Crawler

theorem filterLink_relative (url : Url) (tagInfo : TagInfo) (h : url._isAbsoluteUrl = false) :
    filterLink url tagInfo = .error .InvalidOperationException := by
  unfold filterLink Url.localPath Url.member
  rw [h]
  rfl

/-- C11 fails on the code: with the filter `Crawler::filterLink` a link that
the parser takes from a tag is never relative, since the filter throws on a
relative URL and the parser drops the link; the page `<a href="/x">Hello
World</a>` fetched from `http://h/` parses with its two words and no link, so
the worker resolves no link for it. -/
theorem relative_links_dropped :
    (∀ (tagInfo : TagInfo) (param : List Char) (url : Url),
      HtmlParser.extractLink filterLink tagInfo param = some url → url._isAbsoluteUrl = true) ∧
    (∀ reallocates : Nat → Bool,
      HtmlParser.parse reallocates filterLink
          (HtmlParser.anchorHtml "/x".toList "Hello World".toList) =
        some (.ok { words := ["hello".toList, "world".toList], titleWords := [], links := [],
                    base := none })) ∧
    (∀ (reallocates : Nat → Bool) (requestUrl : Url),
      discoveredLinks reallocates requestUrl
          (HtmlParser.anchorHtml "/x".toList "Hello World".toList) =
        some (.ok [])) := by
  have hparse : ∀ reallocates : Nat → Bool, HtmlParser.parse reallocates filterLink
      (HtmlParser.anchorHtml "/x".toList "Hello World".toList) =
      some (.ok { words := ["hello".toList, "world".toList], titleWords := [], links := [],
                  base := none }) := fun _ => rfl
  refine ⟨?_, hparse, ?_⟩
  · intro tagInfo param url h
    unfold HtmlParser.extractLink at h
    split at h
    · cases h
    · split at h
      · cases h
      · split at h
        · cases h
        · next u hu =>
          cases hb : u._isAbsoluteUrl with
          | true =>
            split at h
            · cases h
              exact hb
            · cases h
          | false =>
            rw [filterLink_relative u tagInfo hb] at h
            cases h
  · intro reallocates requestUrl
    unfold discoveredLinks
    rw [hparse]
    rfl

end Crawler

/-! ### Checkpoint -/

theorem takeWhile_dropWhile_stop (q : Char → Bool) (a : List Char) (d : Char) (b : List Char)
    (ha : ∀ c ∈ a, q c = true) (hd : q d = false) :
    (a ++ d :: b).takeWhile q = a ∧ (a ++ d :: b).dropWhile q = d :: b := by
  induction a with
  | nil => simp [List.takeWhile, List.dropWhile, hd]
  | cons c a ih =>
    have hc : q c = true := ha c (List.mem_cons_self _ _)
    obtain ⟨h1, h2⟩ := ih (fun x hx => ha x (List.mem_cons_of_mem _ hx))
    simp [List.takeWhile, List.dropWhile, hc, h1, h2]

theorem dropWhile_isSpace_of_head (s : List Char) (c : Char) (t : List Char)
    (hs : s = c :: t) (hc : isSpace c = false) : s.dropWhile isSpace = s := by
  subst hs
  simp [List.dropWhile, hc]

namespace Crawler

/-- The extraction of an `int` from its decimal text, when a character that
is no digit follows. -/
theorem readInt_digits (neg : Bool) (ds : List Char) (d : Char) (rest : List Char)
    (hne : ds ≠ []) (hdig : ∀ c ∈ ds, isDigit c = true) (hd : isDigit d = false)
    (hval : if neg then digitsValue ds ≤ 2147483648 else digitsValue ds ≤ 2147483647) :
    readInt { text := (if neg then '-' :: ds else ds) ++ d :: rest, fail := false } =
      (some (if neg then -(digitsValue ds : Int) else (digitsValue ds : Int)),
        { text := d :: rest, fail := false }) := by
  obtain ⟨d0, ds0, hds⟩ : ∃ d0 ds0, ds = d0 :: ds0 := by
    cases ds with
    | nil => exact absurd rfl hne
    | cons d0 ds0 => exact ⟨d0, ds0, rfl⟩
  have hd0 : isDigit d0 = true := hdig d0 (by rw [hds]; exact List.mem_cons_self _ _)
  have hd0s : isSpace d0 = false := isDigit_not_isSpace d0 hd0
  obtain ⟨h1, h2⟩ := takeWhile_dropWhile_stop isDigit ds d rest hdig hd
  have hsign : stoiSign (((if neg then '-' :: ds else ds) ++ d :: rest).dropWhile isSpace)
      = (neg, ds ++ d :: rest) := by
    cases neg with
    | true =>
      simp only [if_true, List.cons_append]
      rw [dropWhile_isSpace_of_head _ '-' _ rfl (by decide)]
      rfl
    | false =>
      simp only [Bool.false_eq_true, if_false]
      rw [dropWhile_isSpace_of_head _ d0 (ds0 ++ d :: rest) (by rw [hds]; rfl) hd0s, hds]
      have hm : d0 ≠ '-' := by
        intro h
        rw [h] at hd0
        exact absurd hd0 (by decide)
      have hp : d0 ≠ '+' := by
        intro h
        rw [h] at hd0
        exact absurd hd0 (by decide)
      unfold stoiSign
      split
      · next r heq =>
        simp only [List.cons_append, List.cons.injEq] at heq
        exact absurd heq.1 hm
      · next r heq =>
        simp only [List.cons_append, List.cons.injEq] at heq
        exact absurd heq.1 hp
      · rfl
  unfold readInt
  simp only [Bool.false_eq_true, if_false, hsign, h1, h2, if_neg hne]
  cases neg with
  | true =>
    simp only [if_true] at hval ⊢
    rw [if_neg (by omega), if_neg (by omega)]
  | false =>
    simp only [Bool.false_eq_true, if_false] at hval ⊢
    rw [if_neg (by omega), if_neg (by omega)]

theorem readInt_space (t : List Char) :
    readInt { text := ' ' :: t, fail := false } = readInt { text := t, fail := false } := by
  have h : (' ' :: t).dropWhile isSpace = t.dropWhile isSpace := by
    have hsp : isSpace ' ' = true := by decide
    rw [List.dropWhile_cons, if_pos hsp]
  unfold readInt
  simp only [Bool.false_eq_true, if_false, h]

theorem readInt_intToString (n : Int) (d : Char) (rest : List Char)
    (hlo : -2147483648 ≤ n) (hhi : n ≤ 2147483647) (hd : isDigit d = false) :
    readInt { text := intToString n ++ d :: rest, fail := false } =
      (some n, { text := d :: rest, fail := false }) := by
  obtain ⟨ds, hds, hne, hdig, hval⟩ := natToDigits_spec (n.natAbs + 1) n.natAbs [] (by omega)
  rw [List.append_nil] at hds
  unfold intToString
  rw [hds]
  by_cases hn : n < 0
  · have := readInt_digits true ds d rest hne hdig hd (by
      simp only [if_true]
      omega)
    simp only [if_true] at this
    rw [if_pos hn, this, hval]
    congr 2
    omega
  · have := readInt_digits false ds d rest hne hdig hd (by
      simp only [Bool.false_eq_true, if_false]
      omega)
    simp only [Bool.false_eq_true, if_false] at this
    rw [if_neg hn, this, hval]
    congr 2
    omega

theorem readInt_natToDigits (n : Nat) (d : Char) (rest : List Char)
    (hhi : n ≤ 2147483647) (hd : isDigit d = false) :
    readInt { text := natToDigits (n + 1) n [] ++ d :: rest, fail := false } =
      (some (n : Int), { text := d :: rest, fail := false }) := by
  obtain ⟨ds, hds, hne, hdig, hval⟩ := natToDigits_spec (n + 1) n [] (by omega)
  rw [List.append_nil] at hds
  have := readInt_digits false ds d rest hne hdig hd (by
    simp only [Bool.false_eq_true, if_false]
    omega)
  simp only [Bool.false_eq_true, if_false] at this
  rw [hds, this, hval]

/-- The extraction of a string that starts a line and has no white space. -/
theorem readString_line (token rest : List Char) (hne : token ≠ [])
    (htoken : ∀ c ∈ token, isSpace c = false) :
    readString { text := '\n' :: (token ++ '\n' :: rest), fail := false } =
      (token, { text := '\n' :: rest, fail := false }) := by
  obtain ⟨c0, t0, ht⟩ : ∃ c0 t0, token = c0 :: t0 := by
    cases token with
    | nil => exact absurd rfl hne
    | cons c0 t0 => exact ⟨c0, t0, rfl⟩
  have hc0 : isSpace c0 = false := htoken c0 (by rw [ht]; exact List.mem_cons_self _ _)
  have hdrop : ('\n' :: (token ++ '\n' :: rest)).dropWhile isSpace = token ++ '\n' :: rest := by
    have hnl : isSpace '\n' = true := by decide
    rw [List.dropWhile_cons, if_pos hnl]
    exact dropWhile_isSpace_of_head _ c0 (t0 ++ '\n' :: rest) (by rw [ht]; rfl) hc0
  obtain ⟨h1, h2⟩ := takeWhile_dropWhile_stop (fun c => !isSpace c) token '\n' rest
    (fun c hc => by simp [htoken c hc]) (by decide)
  unfold readString
  simp only [Bool.false_eq_true, if_false, hdrop, h1, h2]
  simp [hne]

theorem wellFormed_unique (u v : Url) (hu : Url.WellFormed u) (hv : Url.WellFormed v)
    (h : u._urlString = v._urlString) : u = v := by
  obtain ⟨s1, h1, p1, l1, q1, ok1, mk1⟩ := hu
  obtain ⟨s2, h2, p2, l2, q2, ok2, mk2⟩ := hv
  have e1 := Url.parse_mkAbsolute _ _ _ _ _ u ok1 mk1
  have e2 := Url.parse_mkAbsolute _ _ _ _ _ v ok2 mk2
  rw [h, e2] at e1
  cases e1
  rfl

theorem mem_frontierEmplace (frontier : List Url) (url x : Url)
    (hf : ∀ v ∈ frontier, Url.WellFormed v) (hu : Url.WellFormed url) :
    x ∈ frontierEmplace frontier url ↔ x ∈ frontier ∨ x = url := by
  unfold frontierEmplace
  split
  · next h =>
    obtain ⟨v, hv, he⟩ := List.any_eq_true.1 h
    have hvu : v = url := wellFormed_unique v url (hf v hv) hu (by simpa using he)
    constructor
    · exact Or.inl
    · rintro (h | h)
      · exact h
      · rw [h, ← hvu]
        exact hv
  · simp

theorem wellFormed_frontierEmplace (frontier : List Url) (url : Url)
    (hf : ∀ v ∈ frontier, Url.WellFormed v) (hu : Url.WellFormed url) :
    ∀ v ∈ frontierEmplace frontier url, Url.WellFormed v := by
  intro v hv
  rcases (mem_frontierEmplace frontier url v hf hu).1 hv with h | h
  · exact hf v h
  · rw [h]
    exact hu

theorem wellFormed_urlString_ne_nil (u : Url) (hu : Url.WellFormed u) : u._urlString ≠ [] := by
  obtain ⟨s1, h1, p1, l1, q1, ok1, mk1⟩ := hu
  have hparse := Url.parse_mkAbsolute _ _ _ _ _ u ok1 mk1
  have habs := (Url.mkAbsolute_eq_ok _ _ _ _ _ _ mk1).1
  intro h
  rw [h] at hparse
  have h0 : Url.parse [] = .ok ⟨[], false, none, none, none, none, none⟩ := rfl
  rw [h0] at hparse
  cases hparse
  cases habs

/-- The loop of the loader on the lines of URLs that `createCheckpoint`
writes: every URL is put into the frontier, and the stream is left at the new
line that ends the last URL. -/
theorem loadLoop_lines (urls : List Url) :
    ∀ (frontier : List Url) (tail : List Char),
      (∀ u ∈ urls, Url.WellFormed u ∧ ∀ c ∈ u._urlString, isSpace c = false) →
      (∀ v ∈ frontier, Url.WellFormed v) →
      ∃ loaded, loadLoop urls.length
          { text := '\n' :: ((urls.map (fun url => url._urlString ++ ['\n'])).flatten ++ tail),
            fail := false } frontier
          = (loaded, { text := '\n' :: tail, fail := false }) ∧
        (∀ v ∈ loaded, Url.WellFormed v) ∧
        ∀ x, x ∈ loaded ↔ x ∈ frontier ∨ x ∈ urls := by
  induction urls with
  | nil =>
    intro frontier tail _ hf
    exact ⟨frontier, rfl, hf, by simp⟩
  | cons u urls ih =>
    intro frontier tail hurls hf
    obtain ⟨hu, hsp⟩ := hurls u (List.mem_cons_self _ _)
    have hparse : Url.parse u._urlString = .ok u := by
      obtain ⟨s1, h1, p1, l1, q1, ok1, mk1⟩ := hu
      exact Url.parse_mkAbsolute _ _ _ _ _ u ok1 mk1
    obtain ⟨loaded, h1, h2, h3⟩ := ih (frontierEmplace frontier u) tail
      (fun v hv => hurls v (List.mem_cons_of_mem _ hv))
      (wellFormed_frontierEmplace frontier u hf hu)
    refine ⟨loaded, ?_, h2, ?_⟩
    · have e : ((u :: urls).map (fun url => url._urlString ++ ['\n'])).flatten ++ tail
          = u._urlString ++ '\n' ::
            ((urls.map (fun url => url._urlString ++ ['\n'])).flatten ++ tail) := by
        simp
      rw [e]
      simp only [List.length_cons, loadLoop]
      rw [readString_line _ _ (wellFormed_urlString_ne_nil u hu) hsp]
      simp only [hparse]
      exact h1
    · intro x
      rw [h3, mem_frontierEmplace frontier u x hf hu]
      simp only [List.mem_cons]
      tauto

/-- C13: for a crawler whose frontier holds absolute URLs that the program can
hold, with no white space in their canonical strings, whose frontier size and
number of crawled pages fit an `int`, the loader run on the head that
`createCheckpoint` writes, followed by any text, builds a crawler with the
same number of crawled pages and with a frontier that has the same elements;
in particular on the text of `createCheckpoint`, whose tail is the bytes of
the scheduled set. -/
theorem checkpoint_frontier_roundtrip (c : Crawler) (bitVecSize : Nat) (numHashFunctions : Int)
    (hurls : ∀ u ∈ c._frontier, Url.Obtained u ∧ u._isAbsoluteUrl = true ∧
      ∀ ch ∈ u._urlString, isSpace ch = false)
    (hsize : c._frontier.length ≤ 2147483647)
    (hnum : -2147483648 ≤ c._numCrawledTotal ∧ c._numCrawledTotal ≤ 2147483647) :
    (∀ tail : List Char,
      ∃ loaded, loadCheckpoint bitVecSize numHashFunctions (checkpointHead c ++ tail)
          = some loaded ∧
        loaded._numCrawledTotal = c._numCrawledTotal ∧
        ∀ u, u ∈ loaded._frontier ↔ u ∈ c._frontier) ∧
    ∃ loaded, loadCheckpoint bitVecSize numHashFunctions (createCheckpoint c) = some loaded ∧
      loaded._numCrawledTotal = c._numCrawledTotal ∧
      ∀ u, u ∈ loaded._frontier ↔ u ∈ c._frontier := by
  have key : ∀ tail : List Char,
      ∃ loaded, loadCheckpoint bitVecSize numHashFunctions (checkpointHead c ++ tail)
          = some loaded ∧
        loaded._numCrawledTotal = c._numCrawledTotal ∧
        ∀ u, u ∈ loaded._frontier ↔ u ∈ c._frontier := by
    intro tail
    have htext : checkpointHead c ++ tail = intToString c._numCrawledTotal ++ ' ' ::
        (natToDigits (c._frontier.length + 1) c._frontier.length [] ++ '\n' ::
          ((c._frontier.map (fun url => url._urlString ++ ['\n'])).flatten ++ tail)) := by
      unfold checkpointHead
      simp
    obtain ⟨loaded, h1, _, h3⟩ := loadLoop_lines c._frontier [] tail
      (fun u hu => ⟨Url.obtained_wellFormed u (hurls u hu).1 (hurls u hu).2.1,
        (hurls u hu).2.2⟩)
      (by simp)
    unfold loadCheckpoint
    simp only
    rw [htext, readInt_intToString _ ' ' _ hnum.1 hnum.2 (by decide)]
    simp only
    rw [readInt_space, readInt_natToDigits c._frontier.length '\n' _ hsize (by decide)]
    simp only [Int.toNat_ofNat]
    rw [if_neg (by omega), h1]
    exact ⟨_, rfl, rfl, fun u => by simpa using h3 u⟩
  exact ⟨key, key _⟩

end Crawler

namespace Crawler

/-- C13 on `exampleCrawler3`, whose frontier holds `http://a.org/`. -/
theorem checkpoint_frontier_roundtrip_witness :
    ∃ loaded, loadCheckpoint 16 2 (createCheckpoint exampleCrawler3) = some loaded ∧
      loaded._numCrawledTotal = exampleCrawler3._numCrawledTotal ∧
      ∀ u, u ∈ loaded._frontier ↔ u ∈ exampleCrawler3._frontier :=
  (checkpoint_frontier_roundtrip exampleCrawler3 16 2
    (by
      intro u hu
      have hu1 : u = exampleUrl1 := by simpa [exampleCrawler3] using hu
      rw [hu1]
      exact ⟨Url.Obtained.parse "http://a.org/".toList exampleUrl1 (by decide), rfl,
        by decide⟩)
    (by decide) (by decide)).2

/-- C14 fails on the code: the scheduled set of `exampleCrawler3`, of 16 bits
and 2 hash functions, holds `https://b.com/xyzxyzxyzxyz?q=1`; `createCheckpoint`
writes the text `1 1\nhttp://a.org/\n` followed by the bytes 2 and 16 and a new
line; the loader, with a scheduled set of the same 16 bits and 2 hash
functions, gives every bit the top bit of the byte 2, which is 0, and its
scheduled set does not hold that URL. -/
theorem checkpoint_loses_scheduled :
    exampleCrawler3._scheduledUrls.contains (exampleHash exampleUrl2._urlString) = .ok true ∧
    createCheckpoint exampleCrawler3 =
      "1 1\nhttp://a.org/\n".toList ++ [Char.ofNat 2, Char.ofNat 16, '\n'] ∧
    (loadCheckpoint 16 2 (createCheckpoint exampleCrawler3)).map
        (fun loaded => loaded._scheduledUrls._bitVec) = some (List.replicate 16 false) ∧
    (loadCheckpoint 16 2 (createCheckpoint exampleCrawler3)).map
        (fun loaded => loaded._scheduledUrls.contains (exampleHash exampleUrl2._urlString))
      = some (.ok false) := by
  refine ⟨by decide, by decide, by decide, by decide⟩

end Crawler

/-! ### Bloom filter: byte layout and bit state -/

namespace BloomFilter

theorem testBit_or_shift (v : Nat) (b : Bool) (k j : Nat) :
    (v ||| ((if b then 1 else 0) <<< k)).testBit j = (v.testBit j || (b && decide (j = k))) := by
  rw [Nat.testBit_or, Nat.testBit_shiftLeft]
  cases b with
  | false => simp
  | true =>
    simp only [if_true, Bool.true_and]
    by_cases h : j = k
    · subst h
      simp
    · by_cases h2 : k ≤ j
      · have : j - k ≠ 0 := by omega
        simp [h, h2, Nat.testBit_one_eq_true_iff_self_eq_zero, this]
      · simp [h, h2]

theorem writeLoop_chunk (b0 b1 b2 b3 b4 b5 b6 b7 : Bool) (rest : List Bool) :
    writeLoop (b0 :: b1 :: b2 :: b3 :: b4 :: b5 :: b6 :: b7 :: rest) 0 7 =
      ((((((((0 ||| ((if b0 then 1 else 0) <<< 7)) ||| ((if b1 then 1 else 0) <<< 6))
        ||| ((if b2 then 1 else 0) <<< 5)) ||| ((if b3 then 1 else 0) <<< 4))
        ||| ((if b4 then 1 else 0) <<< 3)) ||| ((if b5 then 1 else 0) <<< 2))
        ||| ((if b6 then 1 else 0) <<< 1)) ||| ((if b7 then 1 else 0) <<< 0))
      :: writeLoop rest 0 7 := by
  rfl

end BloomFilter

namespace BloomFilter

/-- The byte that the writer puts on the stream for eight bits. -/
theorem chunk_byte (b0 b1 b2 b3 b4 b5 b6 b7 : Bool) (byte : Nat)
    (hb : byte = ((((((((0 ||| ((if b0 then 1 else 0) <<< 7)) ||| ((if b1 then 1 else 0) <<< 6))
        ||| ((if b2 then 1 else 0) <<< 5)) ||| ((if b3 then 1 else 0) <<< 4))
        ||| ((if b4 then 1 else 0) <<< 3)) ||| ((if b5 then 1 else 0) <<< 2))
        ||| ((if b6 then 1 else 0) <<< 1)) ||| ((if b7 then 1 else 0) <<< 0))) :
    byte < 256 ∧ ∀ i, i < 8 → byte.testBit (7 - i) = [b0, b1, b2, b3, b4, b5, b6, b7].getD i false := by
  have ht : ∀ j, byte.testBit j =
      (b0 && decide (j = 7) || b1 && decide (j = 6) || b2 && decide (j = 5)
        || b3 && decide (j = 4) || b4 && decide (j = 3) || b5 && decide (j = 2)
        || b6 && decide (j = 1) || b7 && decide (j = 0)) := by
    intro j
    rw [hb]
    simp only [testBit_or_shift, Nat.zero_testBit, Bool.false_or]
  constructor
  · have : byte < 2 ^ 8 := by
      apply Nat.lt_pow_two_of_testBit
      intro j hj
      rw [ht]
      have h7 : j ≠ 7 := by omega
      have h6 : j ≠ 6 := by omega
      have h5 : j ≠ 5 := by omega
      have h4 : j ≠ 4 := by omega
      have h3 : j ≠ 3 := by omega
      have h2 : j ≠ 2 := by omega
      have h1 : j ≠ 1 := by omega
      have h0 : j ≠ 0 := by omega
      simp [h0, h1, h2, h3, h4, h5, h6, h7]
    simpa using this
  · intro i hi
    rw [ht]
    interval_cases i <;> simp

theorem bitAt_cons (byte : Nat) (bytes : List Nat) (i : Nat) :
    bitAt (byte :: bytes) i =
      if i < 8 then byte.testBit (7 - i) else bitAt bytes (i - 8) := by
  unfold bitAt
  by_cases h : i < 8
  · rw [if_pos h]
    have h1 : i / 8 = 0 := Nat.div_eq_of_lt h
    have h2 : i % 8 = i := Nat.mod_eq_of_lt h
    rw [h1, h2]
    rfl
  · rw [if_neg h]
    have h1 : i / 8 = (i - 8) / 8 + 1 := by omega
    have h2 : i % 8 = (i - 8) % 8 := by omega
    rw [h1, h2]
    rfl

theorem bitAt_nil (i : Nat) : bitAt [] i = false := by
  simp [bitAt]

/-- A last group of fewer than eight bits is written like the group filled up
with zero bits. -/
theorem writeLoop_short (bits : List Bool) (hpos : 0 < bits.length) (hlt : bits.length < 8) :
    writeLoop bits 0 7 = writeLoop (bits ++ List.replicate (8 - bits.length) false) 0 7 := by
  match bits, hpos, hlt with
  | [_], _, _ => simp [writeLoop]
  | [_, _], _, _ => simp [writeLoop]
  | [_, _, _], _, _ => simp [writeLoop]
  | [_, _, _, _], _, _ => simp [writeLoop]
  | [_, _, _, _, _], _, _ => simp [writeLoop]
  | [_, _, _, _, _, _], _, _ => simp [writeLoop]
  | [_, _, _, _, _, _, _], _, _ => simp [writeLoop]
  | _ :: _ :: _ :: _ :: _ :: _ :: _ :: _ :: _, _, h =>
    simp only [List.length_cons] at h
    omega

/-- The layout of a last group of fewer than eight bits. -/
theorem writeLoop_small (bits : List Bool) (hpos : 0 < bits.length) (hlt : bits.length < 8) :
    (writeLoop bits 0 7).length = (bits.length + 7) / 8 ∧
    (∀ b ∈ writeLoop bits 0 7, b < 256) ∧
    ∀ i, bitAt (writeLoop bits 0 7) i = bits.getD i false := by
  obtain ⟨b0, b1, b2, b3, b4, b5, b6, b7, hpad⟩ :
      ∃ b0 b1 b2 b3 b4 b5 b6 b7, bits ++ List.replicate (8 - bits.length) false
        = [b0, b1, b2, b3, b4, b5, b6, b7] := by
    have hl : (bits ++ List.replicate (8 - bits.length) false).length = 8 := by
      simp only [List.length_append, List.length_replicate]
      omega
    match bits ++ List.replicate (8 - bits.length) false, hl with
    | [b0, b1, b2, b3, b4, b5, b6, b7], _ => exact ⟨b0, b1, b2, b3, b4, b5, b6, b7, rfl⟩
  obtain ⟨c1, c2⟩ := chunk_byte b0 b1 b2 b3 b4 b5 b6 b7 _ rfl
  have hget : ∀ i, [b0, b1, b2, b3, b4, b5, b6, b7].getD i false = bits.getD i false := by
    intro i
    rw [← hpad]
    by_cases hi : i < bits.length
    · simp [List.getD_eq_getElem?_getD, List.getElem?_append_left hi]
    · have hi2 : bits.length ≤ i := not_lt.1 hi
      simp only [List.getD_eq_getElem?_getD, List.getElem?_append_right hi2,
        List.getElem?_eq_none hi2, List.getElem?_replicate]
      split <;> rfl
  have hw : writeLoop [] 0 7 = [] := rfl
  rw [writeLoop_short bits hpos hlt, hpad, writeLoop_chunk, hw]
  refine ⟨?_, ?_, ?_⟩
  · simp only [List.length_singleton]
    omega
  · intro b hb
    rw [List.mem_singleton.1 hb]
    exact c1
  · intro i
    rw [bitAt_cons, ← hget]
    by_cases hi : i < 8
    · rw [if_pos hi, c2 i hi]
    · rw [if_neg hi, bitAt_nil, List.getD_eq_default _ _ (by simp; omega)]

theorem writeLoop_full : ∀ (n : Nat) (bits : List Bool), bits.length ≤ n →
    (writeLoop bits 0 7).length = (bits.length + 7) / 8 ∧
    (∀ b ∈ writeLoop bits 0 7, b < 256) ∧
    ∀ i, bitAt (writeLoop bits 0 7) i = bits.getD i false := by
  intro n
  induction n using Nat.strong_induction_on with
  | _ n ih =>
    intro bits hn
    match bits, hn with
    | b0 :: b1 :: b2 :: b3 :: b4 :: b5 :: b6 :: b7 :: rest, hn =>
      obtain ⟨h1, h2, h3⟩ := ih rest.length (by simp at hn; omega) rest (Nat.le_refl _)
      obtain ⟨c1, c2⟩ := chunk_byte b0 b1 b2 b3 b4 b5 b6 b7 _ rfl
      rw [writeLoop_chunk]
      refine ⟨?_, ?_, ?_⟩
      · simp only [List.length_cons, h1]
        omega
      · intro b hb
        rcases List.mem_cons.1 hb with hb | hb
        · rw [hb]
          exact c1
        · exact h2 b hb
      · intro i
        rw [bitAt_cons]
        by_cases hi : i < 8
        · rw [if_pos hi, c2 i hi]
          interval_cases i <;> rfl
        · rw [if_neg hi, h3]
          have e : i = (i - 8) + 8 := by omega
          conv_rhs => rw [e]
          simp [List.getD_cons_succ]
    | [], _ =>
      refine ⟨rfl, ?_, ?_⟩
      · intro b hb
        simp [writeLoop] at hb
      · intro i
        have : writeLoop [] 0 7 = [] := rfl
        rw [this, bitAt_nil]
        rfl
    | [b0], _ => exact writeLoop_small [b0] (by simp) (by simp)
    | [b0, b1], _ => exact writeLoop_small [b0, b1] (by simp) (by simp)
    | [b0, b1, b2], _ => exact writeLoop_small [b0, b1, b2] (by simp) (by simp)
    | [b0, b1, b2, b3], _ => exact writeLoop_small [b0, b1, b2, b3] (by simp) (by simp)
    | [b0, b1, b2, b3, b4], _ => exact writeLoop_small [b0, b1, b2, b3, b4] (by simp) (by simp)
    | [b0, b1, b2, b3, b4, b5], _ =>
      exact writeLoop_small [b0, b1, b2, b3, b4, b5] (by simp) (by simp)
    | [b0, b1, b2, b3, b4, b5, b6], _ =>
      exact writeLoop_small [b0, b1, b2, b3, b4, b5, b6] (by simp) (by simp)

end BloomFilter

namespace BloomFilter

/-- C22: for a filter of `m` bits `operator<<` puts `(m + 7) / 8` bytes on the
stream, each below 256; the bit `i` of the filter is the bit `7 - i mod 8` of
the byte `i / 8`; and every bit of the stream past the `m` bits of the filter,
so every unused low bit of the last byte, is zero. -/
theorem write_layout (f : BloomFilter) :
    (write f).length = (f._bitVec.length + 7) / 8 ∧
    (∀ b ∈ write f, b < 256) ∧
    (∀ i, i < f._bitVec.length →
      ∃ byte, (write f)[i / 8]? = some byte ∧
        byte.testBit (7 - i % 8) = f._bitVec.getD i false) ∧
    (∀ i, f._bitVec.length ≤ i → bitAt (write f) i = false) := by
  obtain ⟨h1, h2, h3⟩ := writeLoop_full f._bitVec.length f._bitVec (Nat.le_refl _)
  refine ⟨h1, h2, ?_, ?_⟩
  · intro i hi
    have hlt : i / 8 < (write f).length := by
      unfold write
      rw [h1]
      omega
    refine ⟨(write f).get ⟨i / 8, hlt⟩, List.getElem?_eq_getElem hlt, ?_⟩
    have := h3 i
    unfold bitAt at this
    rw [List.getD_eq_getElem?_getD, List.getElem?_eq_getElem (by unfold write at hlt; exact hlt)]
      at this
    exact this
  · intro i hi
    unfold write
    rw [h3 i, List.getD_eq_default _ _ hi]

/-- C22 on a filter of 16 bits with the bits 6 and 11 set: the bytes are 2 and
16. -/
theorem write_layout_witness :
    write { _bitVec := (List.replicate 16 false).set 6 true |>.set 11 true,
            _numHashFunctions := 2, _size := 1 } = [2, 16] ∧
    (write { _bitVec := (List.replicate 16 false).set 6 true |>.set 11 true,
             _numHashFunctions := 2, _size := 1 }).length = (16 + 7) / 8 :=
  ⟨by decide,
    (write_layout { _bitVec := (List.replicate 16 false).set 6 true |>.set 11 true,
                    _numHashFunctions := 2, _size := 1 }).1⟩

end BloomFilter

namespace BloomFilter

theorem insertLoop_bits (h1 h2 : Int) (is : List Nat) (bitVec : List Bool)
    (hsize : 0 < bitVec.length) :
    ∃ bitVec2 : List Bool, insertLoop h1 h2 is bitVec = .ok bitVec2 ∧
      bitVec2.length = bitVec.length ∧
      ∀ j : Nat, bitVec2[j]? = some true ↔
        (bitVec[j]? = some true ∨ ∃ i ∈ is, bitIndex h1 h2 i bitVec.length = j) := by
  induction is generalizing bitVec with
  | nil => exact ⟨bitVec, rfl, rfl, by simp⟩
  | cons i rest ih =>
    have hlt : bitIndex h1 h2 i bitVec.length < bitVec.length := bitIndex_lt h1 h2 i _ hsize
    have hlen : (bitVec.set (bitIndex h1 h2 i bitVec.length) true).length = bitVec.length :=
      List.length_set ..
    obtain ⟨b2, hb2, hlen2, hbits⟩ :=
      ih (bitVec.set (bitIndex h1 h2 i bitVec.length) true) (by rw [hlen]; exact hsize)
    refine ⟨b2, ?_, by rw [hlen2, hlen], ?_⟩
    · simp only [insertLoop, if_pos hlt]
      exact hb2
    · intro j
      rw [hbits j, hlen, List.getElem?_set]
      by_cases hj : bitIndex h1 h2 i bitVec.length = j
      · subst hj
        simp [hlt]
      · simp [hj]

/-- The bits of a filter after a sequence of inserts: those set before, and
those at the indices of the inserted values. -/
theorem insertAll_bits (hashes : List Nat) (f : BloomFilter) (hsize : 0 < f._bitVec.length) :
    ∃ g, f.insertAll hashes = .ok g ∧ g._bitVec.length = f._bitVec.length ∧
      ∀ j : Nat, g._bitVec[j]? = some true ↔
        (f._bitVec[j]? = some true ∨
          ∃ x ∈ hashes, ∃ i ∈ List.range f._numHashFunctions.toNat,
            bitIndex (getHashPair x).1 (getHashPair x).2 i f._bitVec.length = j) := by
  induction hashes generalizing f with
  | nil => exact ⟨f, rfl, rfl, by simp⟩
  | cons x rest ih =>
    obtain ⟨b2, hb2, hlen, hbits⟩ := insertLoop_bits (getHashPair x).1 (getHashPair x).2
      (List.range f._numHashFunctions.toNat) f._bitVec hsize
    obtain ⟨g, hg, hglen, hgbits⟩ :=
      ih { f with _bitVec := b2, _size := toInt32 (f._size + 1) } (by
        show 0 < b2.length
        rw [hlen]
        exact hsize)
    refine ⟨g, ?_, hglen.trans hlen, ?_⟩
    · simp only [insertAll, insert, hb2]
      exact hg
    · intro j
      rw [hgbits j]
      show (b2[j]? = some true ∨ ∃ y ∈ rest, ∃ i ∈ List.range f._numHashFunctions.toNat,
        bitIndex (getHashPair y).1 (getHashPair y).2 i b2.length = j) ↔ _
      rw [hbits j, hlen]
      constructor
      · rintro ((h | ⟨i, hi, h⟩) | ⟨y, hy, h⟩)
        · exact Or.inl h
        · exact Or.inr ⟨x, List.mem_cons_self _ _, i, hi, h⟩
        · exact Or.inr ⟨y, List.mem_cons_of_mem _ hy, h⟩
      · rintro (h | ⟨y, hy, i, hi, h⟩)
        · exact Or.inl (Or.inl h)
        · rcases List.mem_cons.1 hy with rfl | hy
          · exact Or.inl (Or.inr ⟨i, hi, h⟩)
          · exact Or.inr ⟨y, hy, i, hi, h⟩

theorem bits_eq_of_true_iff (a b : List Bool) (hlen : a.length = b.length)
    (h : ∀ j : Nat, a[j]? = some true ↔ b[j]? = some true) : a = b := by
  apply List.ext_getElem? 
  intro j
  by_cases hj : j < a.length
  · have hjb : j < b.length := by omega
    have ha := List.getElem?_eq_getElem hj
    have hb := List.getElem?_eq_getElem hjb
    have hj2 := h j
    rw [ha, hb] at hj2 ⊢
    cases hx : a[j] <;> cases hy : b[j] <;> simp [hx, hy] at hj2 ⊢
  · rw [List.getElem?_eq_none (by omega), List.getElem?_eq_none (by omega)]

/-- C23: in a filter with at least one bit, two sequences of inserts with the
same set of values, in any order and with any repetitions, both run to their
end and leave the same bit vector; a value inserted again leaves the bit
vector as it is.  (`contains` is a `const` member: it gives its answer and no
new filter.) -/
theorem insertAll_same_set {α : Type} (hash : α → Nat) (filter : BloomFilter)
    (xs ys : List α) (hsize : 1 ≤ filter._bitVec.length)
    (hset : ∀ x, x ∈ xs ↔ x ∈ ys) :
    ∃ g1 g2, filter.insertAll (xs.map hash) = .ok g1 ∧
      filter.insertAll (ys.map hash) = .ok g2 ∧ g1._bitVec = g2._bitVec := by
  obtain ⟨g1, hg1, hl1, hb1⟩ := insertAll_bits (xs.map hash) filter hsize
  obtain ⟨g2, hg2, hl2, hb2⟩ := insertAll_bits (ys.map hash) filter hsize
  refine ⟨g1, g2, hg1, hg2, bits_eq_of_true_iff _ _ (hl1.trans hl2.symm) ?_⟩
  intro j
  rw [hb1 j, hb2 j]
  simp only [List.mem_map, exists_exists_and_eq_and]
  constructor
  · rintro (h | ⟨x, hx, h⟩)
    · exact Or.inl h
    · exact Or.inr ⟨x, (hset x).1 hx, h⟩
  · rintro (h | ⟨x, hx, h⟩)
    · exact Or.inl h
    · exact Or.inr ⟨x, (hset x).2 hx, h⟩

/-- C23 on a filter of 16 bits and 2 hash functions: the inserts of 3, 5 and
of 5, 3, 5 leave the same bit vector. -/
theorem insertAll_same_set_witness :
    ∃ g1 g2, (init 16 2).insertAll ([3, 5].map (fun n => n)) = .ok g1 ∧
      (init 16 2).insertAll ([5, 3, 5].map (fun n => n)) = .ok g2 ∧ g1._bitVec = g2._bitVec :=
  insertAll_same_set (fun n : Nat => n) (init 16 2) [3, 5] [5, 3, 5] (by decide)
    (by
      intro x
      simp only [List.mem_cons, List.mem_singleton, List.mem_nil_iff, or_false]
      tauto)

end BloomFilter

/-! ### Robots catalog: path extension -/

namespace RobotsCatalog

theorem startsWithPattern_star (t : List Char) : startsWithPattern t ['*'] = true := by
  cases t with
  | nil => simp [startsWithPattern]
  | cons t0 t =>
    by_cases h : t0 = '*'
    · subst h
      rw [startsWithPattern, if_pos rfl]
      cases t <;> simp [startsWithPattern]
    · rw [startsWithPattern, if_neg h, if_pos rfl]
      simp [startsWithPattern]

/-- C30: `startsWithPattern` is defined on all inputs (its recursion goes down
on the sum of the two lengths, and it satisfies the equations of the source),
and it is monotone under extension of the path: when it is true for the path
`s` and the pattern `q`, it is true for every path `s ++ t` and `q`. -/
theorem startsWithPattern_append :
    (∀ s q t : List Char, startsWithPattern s q = true → startsWithPattern (s ++ t) q = true) ∧
    (∀ s : List Char, startsWithPattern s [] = true) ∧
    (∀ (p0 : Char) (p : List Char),
      startsWithPattern [] (p0 :: p) = decide (p0 :: p = ['*'])) ∧
    (∀ (s0 : Char) (s : List Char) (p0 : Char) (p : List Char),
      startsWithPattern (s0 :: s) (p0 :: p) =
        if s0 = p0 then startsWithPattern s p
        else if p0 = '*' then startsWithPattern (s0 :: s) p || startsWithPattern s (p0 :: p)
        else false) := by
  refine ⟨?_, ?_, ?_, ?_⟩
  · intro s q t
    induction s, q using startsWithPattern.induct with
    | case1 s =>
      intro _
      cases s ++ t <;> simp [startsWithPattern]
    | case2 p0 p =>
      intro h
      rw [startsWithPattern_nil_left] at h
      rcases h with h | h
      · exact absurd h (List.cons_ne_nil _ _)
      · rw [h, List.nil_append]
        exact startsWithPattern_star t
    | case3 s p0 p ih =>
      intro h
      rw [startsWithPattern, if_pos rfl] at h
      rw [List.cons_append, startsWithPattern, if_pos rfl]
      exact ih h
    | case4 s0 s p hne ih1 ih2 =>
      intro h
      rw [startsWithPattern, if_neg hne, if_pos rfl, Bool.or_eq_true] at h
      rw [List.cons_append, startsWithPattern, if_neg hne, if_pos rfl, Bool.or_eq_true]
      rcases h with h | h
      · exact Or.inl (ih1 h)
      · exact Or.inr (ih2 h)
    | case5 s0 s p0 p hne hstar =>
      intro h
      rw [startsWithPattern, if_neg hne, if_neg hstar] at h
      cases h
  · intro s
    cases s <;> simp [startsWithPattern]
  · intro p0 p
    rw [startsWithPattern]
  · intro s0 s p0 p
    rw [startsWithPattern]

/-- C30 on the path `/wishlist/` extended by `universal`, with the pattern
`/wishlist/*`. -/
theorem startsWithPattern_append_witness :
    startsWithPattern ("/wishlist/".toList ++ "universal".toList) "/wishlist/*".toList = true :=
  startsWithPattern_append.1 "/wishlist/".toList "/wishlist/*".toList "universal".toList
    (by simp [startsWithPattern])

end RobotsCatalog

/-! ### HTML parser: tokens and anchor words -/

namespace HtmlParser

theorem appendAnchorWords_getElem? (links : List LinkInfo) (index : Nat)
    (words : List (List Char)) (j : Nat) :
    (appendAnchorWords links index words)[j]? =
      if j = index then
        links[j]?.map (fun link => { link with anchorWords := link.anchorWords ++ words })
      else links[j]? := by
  induction links generalizing index j with
  | nil =>
    simp [appendAnchorWords]
  | cons link rest ih =>
    cases index with
    | zero =>
      cases j with
      | zero => simp [appendAnchorWords]
      | succ j => simp [appendAnchorWords]
    | succ index =>
      cases j with
      | zero => simp [appendAnchorWords]
      | succ j =>
        simp only [appendAnchorWords, List.getElem?_cons_succ, ih index j, Nat.succ.injEq]

theorem mem_appendAnchorWords (links : List LinkInfo) (index : Nat)
    (words : List (List Char)) (link2 : LinkInfo)
    (h : link2 ∈ appendAnchorWords links index words) :
    link2 ∈ links ∨
      ∃ link, links[index]? = some link ∧
        link2 = { link with anchorWords := link.anchorWords ++ words } := by
  obtain ⟨j, hj⟩ := List.mem_iff_getElem?.1 h
  rw [appendAnchorWords_getElem?] at hj
  by_cases hji : j = index
  · rw [if_pos hji] at hj
    subst hji
    cases hl : links[j]? with
    | none =>
      rw [hl] at hj
      cases hj
    | some link =>
      rw [hl] at hj
      simp only [Option.map_some', Option.some.injEq] at hj
      exact Or.inr ⟨link, rfl, hj.symm⟩
  · rw [if_neg hji] at hj
    exact Or.inl (List.getElem?_mem hj)

/-- What the handling of a tag does to the state: the words stay, the title
words get the tokens of a text at their end, the links get links without
anchor words at their end, and the pointer to the current link stays, becomes
null, is set to the first of the new links, or dangles. -/
theorem tagEffect_shape (reallocates : Nat → Bool)
    (linkFilter : Url → TagInfo → Except Exception Bool)
    (htmlString : List Char) (tagEnd : Nat) (htmlInfo : HtmlInfo) (currentLinkInfo : LinkPointer)
    (tagInfo : TagInfo) (next : Nat × HtmlInfo × LinkPointer)
    (h : tagEffect reallocates linkFilter htmlString tagEnd htmlInfo currentLinkInfo tagInfo = .ok next) :
    next.2.1.words = htmlInfo.words ∧
    (∃ text, next.2.1.titleWords = htmlInfo.titleWords ++ tokenize text) ∧
    ∃ newLinks, next.2.1.links = htmlInfo.links ++ newLinks ∧
      (∀ link ∈ newLinks, link.anchorWords = []) ∧
      (next.2.2 = currentLinkInfo ∨ next.2.2 = .null ∨
        next.2.2 = .link htmlInfo.links.length ∨ next.2.2 = .dangling) := by
  have hbase : ∀ info : HtmlInfo, (applyBase info tagInfo).words = info.words ∧
      (applyBase info tagInfo).titleWords = info.titleWords ∧
      (applyBase info tagInfo).links = info.links := by
    intro info
    unfold applyBase
    split
    · exact ⟨rfl, rfl, rfl⟩
    · split
      · exact ⟨rfl, rfl, rfl⟩
      · split
        · exact ⟨rfl, rfl, rfl⟩
        · split <;> exact ⟨rfl, rfl, rfl⟩
  have hsame : ∀ (pos : Nat) (cur : LinkPointer),
      (cur = currentLinkInfo ∨ cur = .null ∨ cur = .link htmlInfo.links.length ∨
        cur = .dangling) →
      (pos, htmlInfo, cur).2.1.words = htmlInfo.words ∧
      (∃ text, (pos, htmlInfo, cur).2.1.titleWords = htmlInfo.titleWords ++ tokenize text) ∧
      ∃ newLinks, (pos, htmlInfo, cur).2.1.links = htmlInfo.links ++ newLinks ∧
        (∀ link ∈ newLinks, link.anchorWords = []) ∧
        ((pos, htmlInfo, cur).2.2 = currentLinkInfo ∨ (pos, htmlInfo, cur).2.2 = .null ∨
          (pos, htmlInfo, cur).2.2 = .link htmlInfo.links.length ∨
          (pos, htmlInfo, cur).2.2 = .dangling) := by
    intro pos cur hcur
    exact ⟨rfl, ⟨[], by simp [tokenize_nil]⟩, [], by simp, by simp, hcur⟩
  have hlink : ∀ (pos : Nat) (url : Url) (cur : LinkPointer),
      (cur = currentLinkInfo ∨ cur = .null ∨ cur = .link htmlInfo.links.length ∨
        cur = .dangling) →
      (∃ text, htmlInfo.titleWords = htmlInfo.titleWords ++ tokenize text) ∧
      ∃ newLinks, htmlInfo.links ++ [{ url := url, anchorWords := [] }]
          = htmlInfo.links ++ newLinks ∧
        (∀ link ∈ newLinks, link.anchorWords = []) ∧
        (cur = currentLinkInfo ∨ cur = .null ∨ cur = .link htmlInfo.links.length ∨
        cur = .dangling) := by
    intro pos url cur hcur
    refine ⟨⟨[], by simp [tokenize_nil]⟩, [{ url := url, anchorWords := [] }], rfl, ?_, hcur⟩
    intro link hl
    rw [List.mem_singleton.1 hl]
  unfold tagEffect at h
  split at h
  · split at h
    · split at h
      · cases h
        exact ⟨rfl, hlink tagEnd _ _ (Or.inr (Or.inr (Or.inl rfl)))⟩
      · cases h
        exact hsame _ _ (Or.inl rfl)
    · cases h
      obtain ⟨b1, b2, b3⟩ := hbase htmlInfo
      exact ⟨b1, ⟨[], by simp [tokenize_nil, b2]⟩, [], by simp [b3], by simp, Or.inl rfl⟩
    · cases h
      exact hsame _ _ (Or.inl rfl)
    · split at h
      · cases h
      · cases h
        exact hsame _ _ (Or.inl rfl)
    · split at h
      · cases h
        refine ⟨rfl, hlink tagEnd _ _ ?_⟩
        cases currentLinkInfo with
        | null => exact Or.inl rfl
        | link index =>
          by_cases hm : reallocates htmlInfo.links.length = true
          · exact Or.inr (Or.inr (Or.inr (by simp [LinkPointer.afterEmplace, hm])))
          · exact Or.inl (by simp [LinkPointer.afterEmplace, hm])
        | dangling => exact Or.inl rfl
      · cases h
        exact hsame _ _ (Or.inl rfl)
    · split at h
      · cases h
      · cases h
        exact ⟨rfl, ⟨_, rfl⟩, [], by simp, by simp, Or.inl rfl⟩
  · cases h
    refine hsame _ _ ?_
    split
    · exact Or.inr (Or.inl rfl)
    · exact Or.inl rfl
  · cases h
    split
    · obtain ⟨b1, b2, b3⟩ := hbase htmlInfo
      exact ⟨b1, ⟨[], by simp [tokenize_nil, b2]⟩, [], by simp [b3], by simp, Or.inl rfl⟩
    · exact hsame _ _ (Or.inl rfl)

/-- A property of the state that the words of a text and the handling of a
tag keep holds at the end of a parse that returns. -/
theorem parseLoop_invariant (reallocates : Nat → Bool)
    (linkFilter : Url → TagInfo → Except Exception Bool)
    (htmlString : List Char) (I : HtmlInfo → LinkPointer → Prop)
    (hadd : ∀ (info : HtmlInfo) (cur : LinkPointer) (text : List Char) (info2 : HtmlInfo),
      I info cur → addWords info cur (tokenize text) = some info2 → I info2 cur)
    (htag : ∀ (tagEnd : Nat) (info : HtmlInfo) (cur : LinkPointer) (tagInfo : TagInfo)
      (next : Nat × HtmlInfo × LinkPointer), I info cur →
      tagEffect reallocates linkFilter htmlString tagEnd info cur tagInfo = .ok next → I next.2.1 next.2.2)
    (fuel : Nat) :
    ∀ (beginPos : Nat) (htmlInfo : HtmlInfo) (currentLinkInfo : LinkPointer) (result : HtmlInfo),
      I htmlInfo currentLinkInfo →
      parseLoop reallocates linkFilter htmlString fuel beginPos htmlInfo currentLinkInfo = some (.ok result) →
      ∃ cur, I result cur := by
  induction fuel with
  | zero =>
    intro beginPos htmlInfo currentLinkInfo result _ h
    cases h
  | succ fuel ih =>
    intro beginPos htmlInfo currentLinkInfo result hI h
    simp only [parseLoop] at h
    cases hr : parseRound reallocates linkFilter htmlString beginPos htmlInfo currentLinkInfo with
    | inl res =>
      rw [hr] at h
      simp only [Option.some.injEq] at h
      subst h
      unfold parseRound at hr
      simp only at hr
      split at hr
      · cases hr
      · next info hadd2 =>
        split at hr
        · simp only [Sum.inl.injEq, ParseResult.ok.injEq] at hr
          rw [← hr]
          exact ⟨currentLinkInfo, hadd _ _ _ _ hI hadd2⟩
        · split at hr
          · cases hr
          · split at hr
            · cases hr
            · split at hr <;> cases hr
    | inr next =>
      rw [hr] at h
      simp only at h
      refine ih _ _ _ _ ?_ h
      unfold parseRound at hr
      simp only at hr
      split at hr
      · cases hr
      · next info hadd2 =>
        split at hr
        · cases hr
        · split at hr
          · cases hr
          · split at hr
            · cases hr
            · split at hr
              · cases hr
              · next next2 he =>
                simp only [Sum.inr.injEq] at hr
                subst hr
                exact htag _ _ _ _ _ (hadd _ _ _ _ hI hadd2) he

end HtmlParser

theorem toLower_upper (c : Char) (h : isUpper c = true) :
    (toLower c).toNat = c.toNat + 32 := by
  simp only [isUpper, Bool.and_eq_true, decide_eq_true_eq] at h
  have e : toLower c = Char.ofNat (c.toNat + 32) := by
    unfold toLower
    rw [if_pos]
    exact ⟨h.1, h.2⟩
  rw [e]
  generalize c.toNat = n at h
  obtain ⟨h1, h2⟩ := h
  interval_cases n <;> rfl

theorem toLower_not_upper (c : Char) (h : isUpper c = false) : toLower c = c := by
  unfold toLower
  rw [if_neg]
  intro hc
  have : isUpper c = true := by
    simp only [isUpper, Bool.and_eq_true, decide_eq_true_eq]
    exact hc
  rw [h] at this
  cases this

theorem toLower_facts (c : Char) :
    isUpper (toLower c) = false ∧ isAlnum (toLower c) = isAlnum c ∧
      isSpace (toLower c) = isSpace c := by
  cases hu : isUpper c with
  | false =>
    rw [toLower_not_upper c hu]
    exact ⟨hu, rfl, rfl⟩
  | true =>
    have h := toLower_upper c hu
    simp only [isUpper, Bool.and_eq_true, decide_eq_true_eq] at hu
    simp only [isUpper, isAlnum, isDigit, isAlpha, isSpace, h]
    refine ⟨?_, ?_, ?_⟩
    · simp
      omega
    · have e1 : (decide (48 ≤ c.toNat + 32) && decide (c.toNat + 32 ≤ 57)) = false := by
        simp
        omega
      have e2 : (decide (65 ≤ c.toNat + 32) && decide (c.toNat + 32 ≤ 90)) = false := by
        simp
        omega
      have e3 : (decide (97 ≤ c.toNat + 32) && decide (c.toNat + 32 ≤ 122)) = true := by
        simp
        omega
      have e4 : (decide (65 ≤ c.toNat) && decide (c.toNat ≤ 90)) = true := by
        simp
        omega
      rw [e1, e2, e3, e4]
      simp
    · have e1 : decide (c.toNat + 32 = 32) = false := by
        simp
        omega
      have e2 : (decide (9 ≤ c.toNat + 32) && decide (c.toNat + 32 ≤ 13)) = false := by
        simp
      have e3 : decide (c.toNat = 32) = false := by
        simp
        omega
      have e4 : (decide (9 ≤ c.toNat) && decide (c.toNat ≤ 13)) = false := by
        simp
        omega
      rw [e1, e2, e3, e4]

namespace HtmlParser

/-- The runs that `splitTokens` gives are the pieces between white space. -/
theorem splitTokens_eq (s : List Char) :
    ∀ current : List Char, (∀ c ∈ current, isSpace c = false) →
      splitTokens s current =
        ((current ++ s).splitOnP isSpace).filter (fun run => decide (run ≠ [])) := by
  induction s with
  | nil =>
    intro current hc
    rw [List.append_nil, List.splitOnP_eq_single isSpace current (fun x hx => by simp [hc x hx])]
    by_cases h : current = []
    · simp [splitTokens, h]
    · simp [splitTokens, h]
  | cons c rest ih =>
    intro current hc
    simp only [splitTokens]
    by_cases hsp : isSpace c = true
    · rw [if_pos hsp, List.splitOnP_first isSpace current (fun x hx => by simp [hc x hx]) c hsp,
        ih [] (by simp), List.nil_append]
      by_cases h : current = []
      · simp [h]
      · simp [h]
    · rw [if_neg hsp, ih (current ++ [c]) (by
        intro x hx
        rcases List.mem_append.1 hx with hx | hx
        · exact hc x hx
        · rw [List.mem_singleton.1 hx]
          simpa using hsp)]
      simp

theorem splitTokens_no_space (s : List Char) :
    ∀ current : List Char, (∀ c ∈ current, isSpace c = false) →
      ∀ run ∈ splitTokens s current, ∀ c ∈ run, isSpace c = false := by
  induction s with
  | nil =>
    intro current hc run hr
    simp only [splitTokens] at hr
    split at hr
    · cases hr
    · rw [List.mem_singleton.1 hr]
      exact hc
  | cons c rest ih =>
    intro current hc run hr
    simp only [splitTokens] at hr
    by_cases hsp : isSpace c = true
    · rw [if_pos hsp] at hr
      split at hr
      · exact ih [] (by simp) run hr
      · rcases List.mem_cons.1 hr with hr | hr
        · rw [hr]
          exact hc
        · exact ih [] (by simp) run hr
    · rw [if_neg hsp] at hr
      refine ih (current ++ [c]) ?_ run hr
      intro x hx
      rcases List.mem_append.1 hx with hx | hx
      · exact hc x hx
      · rw [List.mem_singleton.1 hx]
        simpa using hsp

theorem preprocessToken_none (run : List Char) (h : ∀ c ∈ run, isAlnum c = false) :
    preprocessToken run = none := by
  obtain ⟨_, h2⟩ := takeWhile_dropWhile_all isAlnum run h
  unfold preprocessToken
  simp only [h2, if_true]

/-- A run with an alphanumeric character is cut to the part from its first to
its last alphanumeric character, and that part is lowercased. -/
theorem preprocessToken_some (run : List Char) (h : ∃ c ∈ run, isAlnum c = true) :
    ∃ pre mid post, run = pre ++ mid ++ post ∧
      (∀ c ∈ pre, isAlnum c = false) ∧ (∀ c ∈ post, isAlnum c = false) ∧
      (∃ c, mid.head? = some c ∧ isAlnum c = true) ∧
      (∃ c, mid.getLast? = some c ∧ isAlnum c = true) ∧
      preprocessToken run = some (mid.map toLower) := by
  rcases span_cases isAlnum run with hall | ⟨a, d, b, hs, ha, hd⟩
  · obtain ⟨c, hc, hca⟩ := h
    rw [hall c hc] at hca
    cases hca
  · obtain ⟨_, hdrop⟩ := takeWhile_dropWhile_split isAlnum a d b ha hd
    have hrev : (d :: b).reverse = b.reverse ++ [d] := by simp
    rcases span_cases isAlnum b.reverse with hall | ⟨a2, d2, b2, hs2, ha2, hd2⟩
    · obtain ⟨_, hdrop2⟩ := takeWhile_dropWhile_split isAlnum b.reverse d [] hall hd
      refine ⟨a, [d], b, by rw [hs]; simp, ha, ?_, ⟨d, rfl, hd⟩, ⟨d, rfl, hd⟩, ?_⟩
      · intro c hc
        exact hall c (List.mem_reverse.2 hc)
      · unfold preprocessToken
        simp only [hs, hdrop, hrev, hdrop2]
        simp
    · have hb : b = b2.reverse ++ d2 :: a2.reverse := by
        have := congrArg List.reverse hs2
        simpa using this
      have e : b.reverse ++ [d] = a2 ++ d2 :: (b2 ++ [d]) := by
        rw [hs2]
        simp
      obtain ⟨_, hdrop2⟩ := takeWhile_dropWhile_split isAlnum a2 d2 (b2 ++ [d]) ha2 hd2
      refine ⟨a, d :: (b2.reverse ++ [d2]), a2.reverse, by rw [hs, hb]; simp, ha, ?_,
        ⟨d, rfl, hd⟩,
        ⟨d2, by rw [← List.cons_append, List.getLast?_concat], hd2⟩, ?_⟩
      · intro c hc
        exact ha2 c (List.mem_reverse.1 hc)
      · unfold preprocessToken
        simp only [hs, hdrop, hrev, e, hdrop2]
        simp

theorem goodToken_of_preprocessToken (run token : List Char)
    (hrun : ∀ c ∈ run, isSpace c = false) (h : preprocessToken run = some token) :
    GoodToken token := by
  have hex : ∃ c ∈ run, isAlnum c = true := by
    by_contra hno
    have : ∀ c ∈ run, isAlnum c = false := by
      intro c hc
      cases hca : isAlnum c with
      | false => rfl
      | true => exact absurd ⟨c, hc, hca⟩ hno
    rw [preprocessToken_none run this] at h
    cases h
  obtain ⟨pre, mid, post, hs, _, _, ⟨c1, hc1, ha1⟩, ⟨c2, hc2, ha2⟩, hp⟩ :=
    preprocessToken_some run hex
  rw [hp] at h
  cases h
  have hne : mid ≠ [] := by
    intro hm
    rw [hm] at hc1
    cases hc1
  refine ⟨by simpa using hne, ⟨toLower c1, ?_, ?_⟩, ⟨toLower c2, ?_, ?_⟩, ?_⟩
  · rw [List.head?_map, hc1]
    rfl
  · rw [(toLower_facts c1).2.1]
    exact ha1
  · rw [List.getLast?_map, hc2]
    rfl
  · rw [(toLower_facts c2).2.1]
    exact ha2
  · intro c hc
    obtain ⟨x, hx, rfl⟩ := List.mem_map.1 hc
    refine ⟨(toLower_facts x).1, ?_⟩
    rw [(toLower_facts x).2.2]
    exact hrun x (by rw [hs]; simp [hx])

theorem goodToken_tokenize (s : List Char) : ∀ token ∈ tokenize s, GoodToken token := by
  intro token ht
  unfold tokenize at ht
  obtain ⟨run, hrun, hp⟩ := List.mem_filterMap.1 ht
  exact goodToken_of_preprocessToken run token
    (splitTokens_no_space s [] (by simp) run hrun) hp

theorem tokensOk_addWords (info : HtmlInfo) (cur : LinkPointer) (text : List Char)
    (info2 : HtmlInfo) (h : TokensOk info)
    (hadd : addWords info cur (tokenize text) = some info2) : TokensOk info2 := by
  obtain ⟨h1, h2, h3⟩ := h
  have hw : info2.words = info.words ++ tokenize text := addWords_words _ _ _ _ hadd
  have hwords : ∀ w ∈ info2.words, GoodToken w := by
    intro w hm
    rw [hw] at hm
    rcases List.mem_append.1 hm with hm | hm
    · exact h1 w hm
    · exact goodToken_tokenize text w hm
  cases cur with
  | dangling => cases hadd
  | null =>
    simp only [addWords, Option.some.injEq] at hadd
    subst hadd
    exact ⟨hwords, h2, h3⟩
  | link index =>
    simp only [addWords, Option.some.injEq] at hadd
    subst hadd
    refine ⟨hwords, h2, ?_⟩
    intro link2 hl w hwm
    rcases mem_appendAnchorWords info.links index (tokenize text) link2 hl with
      hm | ⟨link, hget, rfl⟩
    · exact h3 link2 hm w hwm
    · rcases List.mem_append.1 hwm with hm | hm
      · exact h3 link (List.getElem?_mem hget) w hm
      · exact goodToken_tokenize text w hm

theorem tokensOk_tagEffect (reallocates : Nat → Bool)
    (linkFilter : Url → TagInfo → Except Exception Bool)
    (htmlString : List Char) (tagEnd : Nat) (info : HtmlInfo) (cur : LinkPointer)
    (tagInfo : TagInfo) (next : Nat × HtmlInfo × LinkPointer) (h : TokensOk info)
    (he : tagEffect reallocates linkFilter htmlString tagEnd info cur tagInfo = .ok next) :
    TokensOk next.2.1 := by
  obtain ⟨h1, h2, h3⟩ := h
  obtain ⟨hw, ⟨text, ht⟩, newLinks, hl, hnew, _⟩ := tagEffect_shape _ _ _ _ _ _ _ _ he
  refine ⟨?_, ?_, ?_⟩
  · rw [hw]
    exact h1
  · intro w hm
    rw [ht] at hm
    rcases List.mem_append.1 hm with hm | hm
    · exact h2 w hm
    · exact goodToken_tokenize text w hm
  · intro link hm w hwm
    rw [hl] at hm
    rcases List.mem_append.1 hm with hm | hm
    · exact h3 link hm w hwm
    · rw [hnew link hm] at hwm
      cases hwm

/-- C25: `tokenize` gives, in order, the results of the white-space-separated
runs of the text: a run without an alphanumeric character gives nothing, and
every other run gives its part from the first to the last alphanumeric
character, lowercased.  Hence every token of `tokenize`, and every token in
the words, the title words and the anchor words of a result of
`HtmlParser::parse`, is not empty, begins and ends with an alphanumeric
character and has no upper-case letter and no white space. -/
theorem tokenize_runs :
    (∀ s : List Char, tokenize s = (whitespaceRuns s).filterMap preprocessToken) ∧
    (∀ run : List Char, (∀ c ∈ run, isAlnum c = false) → preprocessToken run = none) ∧
    (∀ run : List Char, (∃ c ∈ run, isAlnum c = true) →
      ∃ pre mid post, run = pre ++ mid ++ post ∧
        (∀ c ∈ pre, isAlnum c = false) ∧ (∀ c ∈ post, isAlnum c = false) ∧
        (∃ c, mid.head? = some c ∧ isAlnum c = true) ∧
        (∃ c, mid.getLast? = some c ∧ isAlnum c = true) ∧
        preprocessToken run = some (mid.map toLower)) ∧
    (∀ s : List Char, ∀ token ∈ tokenize s, GoodToken token) ∧
    (∀ (reallocates : Nat → Bool) (linkFilter : Url → TagInfo → Except Exception Bool)
      (htmlString : List Char) (htmlInfo : HtmlInfo),
      parse reallocates linkFilter htmlString = some (.ok htmlInfo) → TokensOk htmlInfo) := by
  refine ⟨?_, preprocessToken_none, preprocessToken_some, goodToken_tokenize, ?_⟩
  · intro s
    unfold tokenize whitespaceRuns
    rw [splitTokens_eq s [] (by simp), List.nil_append]
  · intro reallocates linkFilter htmlString htmlInfo h
    obtain ⟨_, hI⟩ := parseLoop_invariant reallocates linkFilter htmlString
      (fun info _ => TokensOk info)
      (fun info cur text info2 hI hadd => tokensOk_addWords info cur text info2 hI hadd)
      (fun tagEnd info cur tagInfo next hI he =>
        tokensOk_tagEffect reallocates linkFilter htmlString tagEnd info cur tagInfo next hI he)
      _ 0 { words := [], titleWords := [], links := [], base := none } .null htmlInfo
      ⟨by simp, by simp, by simp⟩ h
    exact hI

/-- C25 on the text ` (Hello, World!)  -- x2 `. -/
theorem tokenize_runs_witness :
    tokenize " (Hello, World!)  -- x2 ".toList =
      ["hello".toList, "world".toList, "x2".toList] ∧
    whitespaceRuns " (Hello, World!)  -- x2 ".toList =
      ["(Hello,".toList, "World!)".toList, "--".toList, "x2".toList] ∧
    ∀ token ∈ tokenize " (Hello, World!)  -- x2 ".toList, GoodToken token :=
  ⟨by decide, by simp [whitespaceRuns, List.splitOnP, List.splitOnP.go, isSpace],
    tokenize_runs.2.2.2.1 " (Hello, World!)  -- x2 ".toList⟩

end HtmlParser

namespace HtmlParser

theorem anchorsOk_addWords (info : HtmlInfo) (cur : LinkPointer) (words : List (List Char))
    (info2 : HtmlInfo) (h : AnchorsOk info cur)
    (hadd : addWords info cur words = some info2) : AnchorsOk info2 cur := by
  obtain ⟨h1, h2⟩ := h
  have hw : info2.words = info.words ++ words := addWords_words _ _ _ _ hadd
  cases cur with
  | dangling => cases hadd
  | null =>
    simp only [addWords, Option.some.injEq] at hadd
    subst hadd
    refine ⟨?_, ?_⟩
    · intro link hl
      rw [hw]
      exact (h1 link hl).trans (List.prefix_append _ _).isInfix
    · intro index link hc
      cases hc
  | link index =>
    simp only [addWords, Option.some.injEq] at hadd
    subst hadd
    have hupd : ∀ link, info.links[index]? = some link →
        link.anchorWords ++ words <:+ info.words ++ words := by
      intro link hl
      obtain ⟨t, ht⟩ := h2 index link rfl hl
      exact ⟨t, by rw [← ht, List.append_assoc]⟩
    refine ⟨?_, ?_⟩
    · intro link2 hl
      rw [hw]
      rcases mem_appendAnchorWords info.links index words link2 hl with hm | ⟨link, hget, rfl⟩
      · exact (h1 link2 hm).trans (List.prefix_append _ _).isInfix
      · exact (hupd link hget).isInfix
    · intro index2 link2 hc hget
      cases hc
      rw [hw]
      have hg : (appendAnchorWords info.links index words)[index]? = some link2 := hget
      rw [appendAnchorWords_getElem?, if_pos rfl] at hg
      cases hl : info.links[index]? with
      | none =>
        rw [hl] at hg
        cases hg
      | some link =>
        rw [hl] at hg
        simp only [Option.map_some', Option.some.injEq] at hg
        rw [← hg]
        exact hupd link hl

theorem anchorsOk_tagEffect (reallocates : Nat → Bool)
    (linkFilter : Url → TagInfo → Except Exception Bool)
    (htmlString : List Char) (tagEnd : Nat) (info : HtmlInfo) (cur : LinkPointer)
    (tagInfo : TagInfo) (next : Nat × HtmlInfo × LinkPointer) (h : AnchorsOk info cur)
    (he : tagEffect reallocates linkFilter htmlString tagEnd info cur tagInfo = .ok next) :
    AnchorsOk next.2.1 next.2.2 := by
  obtain ⟨h1, h2⟩ := h
  obtain ⟨hw, _, newLinks, hl, hnew, hcur⟩ := tagEffect_shape _ _ _ _ _ _ _ _ he
  refine ⟨?_, ?_⟩
  · intro link hm
    rw [hw]
    rw [hl] at hm
    rcases List.mem_append.1 hm with hm | hm
    · exact h1 link hm
    · rw [hnew link hm]
      exact List.nil_infix
  · intro index link hc hget
    rw [hw]
    rw [hl] at hget
    by_cases hi : index < info.links.length
    · rw [List.getElem?_append_left hi] at hget
      rcases hcur with hcur | hcur | hcur | hcur
      · rw [hcur] at hc
        exact h2 index link hc hget
      · rw [hcur] at hc
        cases hc
      · rw [hcur] at hc
        cases hc
        omega
      · rw [hcur] at hc
        cases hc
    · rw [List.getElem?_append_right (not_lt.1 hi)] at hget
      rw [hnew link (List.getElem?_mem hget)]
      exact List.nil_suffix

/-- C28: whatever the link filter, when `HtmlParser::parse` returns, the anchor
words of every link of the result are a contiguous part of its words: the same
words in the same order, without gaps.  The pointer `currentLinkInfo` of the
source is the index of the link it refers to; a parse that goes through the
pointer when it dangles does not return. -/
theorem anchorWords_infix_words (reallocates : Nat → Bool)
    (linkFilter : Url → TagInfo → Except Exception Bool)
    (htmlString : List Char) (htmlInfo : HtmlInfo)
    (h : parse reallocates linkFilter htmlString = some (.ok htmlInfo)) :
    ∀ link ∈ htmlInfo.links, link.anchorWords <:+: htmlInfo.words := by
  obtain ⟨cur, hI⟩ := parseLoop_invariant reallocates linkFilter htmlString AnchorsOk
    (fun info cur text info2 hI hadd => anchorsOk_addWords info cur _ info2 hI hadd)
    (fun tagEnd info cur tagInfo next hI he =>
      anchorsOk_tagEffect reallocates linkFilter htmlString tagEnd info cur tagInfo next hI he)
    _ 0 { words := [], titleWords := [], links := [], base := none } .null htmlInfo
    ⟨by simp, by simp⟩ h
  exact hI.1

/-- C28 on the text `x <a href="/x">Hello World</a> y`. -/
theorem anchorWords_infix_words_witness :
    parse (fun _ => true) defaultLinkFilter
        ("x ".toList ++ anchorHtml "/x".toList "Hello World".toList ++ " y".toList) =
      some (.ok { words := ["x".toList, "hello".toList, "world".toList, "y".toList],
                  titleWords := [],
                  links := [{ url := { _urlString := "/x".toList, _isAbsoluteUrl := false,
                                       _scheme := none, _host := none, _port := none,
                                       _localPath := none, _query := none },
                              anchorWords := ["hello".toList, "world".toList] }],
                  base := none }) ∧
    ∀ link ∈ [({ url := { _urlString := "/x".toList, _isAbsoluteUrl := false,
                          _scheme := none, _host := none, _port := none,
                          _localPath := none, _query := none },
                 anchorWords := ["hello".toList, "world".toList] } : LinkInfo)],
      link.anchorWords <:+: ["x".toList, "hello".toList, "world".toList, "y".toList] :=
  ⟨by decide,
    anchorWords_infix_words (fun _ => true) defaultLinkFilter
      ("x ".toList ++ anchorHtml "/x".toList "Hello World".toList ++ " y".toList)
      { words := ["x".toList, "hello".toList, "world".toList, "y".toList],
        titleWords := [],
        links := [{ url := { _urlString := "/x".toList, _isAbsoluteUrl := false,
                             _scheme := none, _host := none, _port := none,
                             _localPath := none, _query := none },
                    anchorWords := ["hello".toList, "world".toList] }],
        base := none }
      (by decide)⟩

end HtmlParser

/-! ### Crawler: the batch of the scheduler -/

namespace Crawler

theorem sampleLoop_parts (hash : List Char → Nat) (scheduledUrls : BloomFilter)
    (sampleSize : Nat) (hbits : 0 < scheduledUrls._bitVec.length) (frontier : List Url) :
    ∀ (hitsCache : List Char → Int) (urlBatch : List Url),
      (∀ u ∈ frontier, ∃ host, u.host = .ok host) →
      ∃ kept hitsCache2 added dropped,
        sampleLoop hash scheduledUrls sampleSize frontier hitsCache urlBatch
          = .ok (kept, hitsCache2, urlBatch ++ added) ∧
        frontier.Perm (kept ++ added ++ dropped) ∧
        (∀ u ∈ added, scheduledUrls.contains (hash u._urlString) = .ok false) ∧
        (∀ u ∈ dropped, scheduledUrls.contains (hash u._urlString) = .ok true) ∧
        (urlBatch.length ≤ sampleSize → (urlBatch ++ added).length ≤ sampleSize) := by
  induction frontier with
  | nil =>
    intro hitsCache urlBatch _
    exact ⟨[], hitsCache, [], [], by simp [sampleLoop], by simp, by simp, by simp, by simp⟩
  | cons url rest ih =>
    intro hitsCache urlBatch hhost
    have hrest : ∀ u ∈ rest, ∃ host, u.host = .ok host :=
      fun u hu => hhost u (List.mem_cons_of_mem _ hu)
    obtain ⟨host, hh⟩ := hhost url (List.mem_cons_self _ _)
    simp only [sampleLoop]
    by_cases hlen : urlBatch.length < sampleSize
    · rw [if_pos hlen]
      obtain ⟨b, hb⟩ := BloomFilter.contains_ok scheduledUrls (hash url._urlString) hbits
      rw [hb]
      cases b with
      | true =>
        obtain ⟨kept, hc2, added, dropped, h1, h2, h3, h4, h5⟩ := ih hitsCache urlBatch hrest
        refine ⟨kept, hc2, added, url :: dropped, h1, ?_, h3, ?_, h5⟩
        · exact (List.Perm.cons url h2).trans List.perm_middle.symm
        · intro u hu
          rcases List.mem_cons.1 hu with rfl | hu
          · exact hb
          · exact h4 u hu
      | false =>
        simp only [hh]
        by_cases hhit : hitsCache host < _hostHitRateLimit
        · rw [if_pos hhit]
          obtain ⟨kept, hc2, added, dropped, h1, h2, h3, h4, h5⟩ :=
            ih (Function.update hitsCache host (hitsCache host + 1)) (urlBatch ++ [url]) hrest
          refine ⟨kept, hc2, url :: added, dropped, ?_, ?_, ?_, h4, ?_⟩
          · rw [h1]
            simp
          · have : (kept ++ (url :: added) ++ dropped).Perm (url :: (kept ++ added ++ dropped)) := by
              rw [List.append_assoc, List.append_assoc]
              exact List.perm_middle
            exact (List.Perm.cons url h2).trans this.symm
          · intro u hu
            rcases List.mem_cons.1 hu with rfl | hu
            · exact hb
            · exact h3 u hu
          · intro _
            have := h5 (by simp only [List.length_append, List.length_singleton]; omega)
            simpa using this
        · rw [if_neg hhit]
          obtain ⟨kept, hc2, added, dropped, h1, h2, h3, h4, h5⟩ := ih hitsCache urlBatch hrest
          refine ⟨url :: kept, hc2, added, dropped, ?_, ?_, h3, h4, h5⟩
          · rw [h1]
          · exact List.Perm.cons url h2
    · rw [if_neg hlen]
      exact ⟨url :: rest, hitsCache, [], [], by simp, by simp, by simp, by simp, by simp⟩

theorem reinsertLoop_parts (batchSize : Nat) (fuel : Nat) :
    ∀ (frontier urlBatch : List Url), urlBatch.length ≤ fuel + batchSize →
      ∃ rest, urlBatch = (reinsertLoop batchSize fuel frontier urlBatch).2 ++ rest ∧
        (reinsertLoop batchSize fuel frontier urlBatch).2.length
          = min batchSize urlBatch.length ∧
        (reinsertLoop batchSize fuel frontier urlBatch).1
          = rest.reverse.foldl frontierEmplace frontier := by
  induction fuel with
  | zero =>
    intro frontier urlBatch h
    refine ⟨[], by simp [reinsertLoop], ?_, by simp [reinsertLoop]⟩
    show urlBatch.length = min batchSize urlBatch.length
    omega
  | succ fuel ih =>
    intro frontier urlBatch h
    simp only [reinsertLoop]
    by_cases hgt : urlBatch.length > batchSize
    · rw [if_pos hgt]
      have hne : urlBatch ≠ [] := by
        intro he
        rw [he] at hgt
        simp at hgt
      have hsplit := List.dropLast_append_getLast hne
      have hlast : urlBatch.getLast? = some (urlBatch.getLast hne) :=
        List.getLast?_eq_getLast _ hne
      rw [hlast]
      simp only
      have hlen : urlBatch.dropLast.length = urlBatch.length - 1 := List.length_dropLast _
      obtain ⟨rest, h1, h2, h3⟩ := ih (frontierEmplace frontier (urlBatch.getLast hne))
        urlBatch.dropLast (by omega)
      refine ⟨rest ++ [urlBatch.getLast hne], ?_, ?_, ?_⟩
      · rw [← List.append_assoc, ← h1, hsplit]
      · rw [h2, hlen]
        omega
      · rw [h3]
        simp
    · rw [if_neg hgt]
      refine ⟨[], by simp, ?_, by simp⟩
      show urlBatch.length = min batchSize urlBatch.length
      omega

theorem foldl_frontierEmplace_nodup (l : List Url) :
    ∀ frontier : List Url, ((frontier ++ l).map (fun u => u._urlString)).Nodup →
      l.foldl frontierEmplace frontier = frontier ++ l := by
  induction l with
  | nil =>
    intro frontier _
    simp
  | cons x l ih =>
    intro frontier hnd
    have hx : frontierEmplace frontier x = frontier ++ [x] := by
      unfold frontierEmplace
      rw [if_neg]
      intro hany
      obtain ⟨v, hv, he⟩ := List.any_eq_true.1 hany
      have he2 : v._urlString = x._urlString := by simpa using he
      rw [List.map_append, List.nodup_append] at hnd
      refine hnd.2.2 (List.mem_map_of_mem _ hv) ?_
      rw [he2]
      exact List.mem_map_of_mem _ (List.mem_cons_self _ _)
    rw [List.foldl_cons, hx, ih (frontier ++ [x]) (by simpa using hnd)]
    simp

/-- The parts of a call of `getNextUrlBatch`: the sample, what is kept in the
frontier, what is dropped as scheduled, and the reinserted end of the sorted
sample. -/
theorem getNextUrlBatch_parts (hash : List Char → Nat) (sort : List Url → List Url)
    (hsort : ∀ l, (sort l).Perm l) (c : Crawler) (batchSize sampleFactor : Nat)
    (hbits : 0 < c._scheduledUrls._bitVec.length)
    (hhost : ∀ u ∈ c._frontier, ∃ host, u.host = .ok host) :
    ∃ kept hitsCache sample dropped urlBatch reinserted scheduledUrls,
      sampleLoop hash c._scheduledUrls (batchSize * sampleFactor) c._frontier c._hitsCache []
        = .ok (kept, hitsCache, sample) ∧
      c._frontier.Perm (kept ++ sample ++ dropped) ∧
      (∀ u ∈ sample, c._scheduledUrls.contains (hash u._urlString) = .ok false) ∧
      (∀ u ∈ dropped, c._scheduledUrls.contains (hash u._urlString) = .ok true) ∧
      sample.length ≤ batchSize * sampleFactor ∧
      sort sample = urlBatch ++ reinserted ∧
      urlBatch.length = min batchSize sample.length ∧
      getNextUrlBatch hash sort c batchSize sampleFactor
        = .ok (urlBatch, { c with _frontier := reinserted.reverse.foldl frontierEmplace kept,
                                  _hitsCache := hitsCache,
                                  _scheduledUrls := scheduledUrls }) := by
  obtain ⟨kept, hitsCache, sample, dropped, h1, h2, h3, h4, h5⟩ :=
    sampleLoop_parts hash c._scheduledUrls (batchSize * sampleFactor) hbits c._frontier
      c._hitsCache [] hhost
  rw [List.nil_append] at h1 h5
  obtain ⟨rest, r1, r2, r3⟩ := reinsertLoop_parts batchSize (sort sample).length kept
    (sort sample) (by omega)
  obtain ⟨g, hg⟩ := BloomFilter.insertAll_ok
    ((reinsertLoop batchSize (sort sample).length kept (sort sample)).2.map
      (fun u => hash u._urlString)) c._scheduledUrls hbits
  refine ⟨kept, hitsCache, sample, dropped, _, rest, g, h1, h2, h3, h4, h5 (Nat.zero_le _), r1,
    ?_, ?_⟩
  · rw [r2, (hsort sample).length_eq]
  · unfold getNextUrlBatch
    simp only [h1, hg, r3]

end Crawler

namespace Crawler

theorem wellFormed_accessors (u : Url) (h : Url.WellFormed u) :
    (∃ host, u.host = .ok host) ∧ getUrlScore u = .ok (scoreOf u) := by
  obtain ⟨scheme, host, port, localPath, query, _, hmk⟩ := h
  obtain ⟨h0, h1, h2, _, h4, h5⟩ := Url.mkAbsolute_eq_ok _ _ _ _ _ _ hmk
  have e1 : u.scheme = .ok scheme := by simp [Url.scheme, Url.member, h0, h1]
  have e2 : u.host = .ok host := by simp [Url.host, Url.member, h0, h2]
  have e3 : u.localPath = .ok localPath := by simp [Url.localPath, Url.member, h0, h4]
  have e4 : u.query = .ok query := by simp [Url.query, Url.member, h0, h5]
  refine ⟨⟨host, e2⟩, ?_⟩
  have hs : ∃ s, getUrlScore u = .ok s := by
    unfold getUrlScore
    rw [e1, e2, e3, e4]
    exact ⟨_, rfl⟩
  obtain ⟨s, hs⟩ := hs
  unfold scoreOf
  rw [hs]

theorem insertByScore_sorted (url : Url) (l : List Url)
    (h : l.Pairwise (fun a b => scoreOf a ≥ scoreOf b)) :
    (insertByScore url l).Pairwise (fun a b => scoreOf a ≥ scoreOf b) := by
  induction l with
  | nil => simp [insertByScore]
  | cons v rest ih =>
    simp only [insertByScore]
    obtain ⟨hv, hrest⟩ := List.pairwise_cons.1 h
    split
    · next hgt =>
      refine List.pairwise_cons.2 ⟨?_, h⟩
      intro b hb
      rcases List.mem_cons.1 hb with rfl | hb
      · omega
      · have := hv b hb
        omega
    · next hle =>
      refine List.pairwise_cons.2 ⟨?_, ih hrest⟩
      intro b hb
      rcases List.mem_cons.1 ((insertByScore_perm url rest).subset hb) with rfl | hb
      · omega
      · exact hv b hb

theorem sortByScore_sorted (l : List Url) :
    (sortByScore l).Pairwise (fun a b => scoreOf a ≥ scoreOf b) := by
  induction l with
  | nil => simp [sortByScore]
  | cons u rest ih =>
    simp only [sortByScore]
    exact insertByScore_sorted u _ ih

theorem mem_foldl_frontierEmplace (l : List Url) :
    ∀ frontier : List Url,
      (∀ w ∈ frontier, w ∈ l.foldl frontierEmplace frontier) ∧
      ∀ x ∈ l, ∃ w ∈ l.foldl frontierEmplace frontier, w._urlString = x._urlString := by
  induction l with
  | nil =>
    intro frontier
    exact ⟨fun w hw => hw, by simp⟩
  | cons y l ih =>
    intro frontier
    obtain ⟨h1, h2⟩ := ih (frontierEmplace frontier y)
    have hsub : ∀ w ∈ frontier, w ∈ frontierEmplace frontier y := by
      intro w hw
      unfold frontierEmplace
      split
      · exact hw
      · exact List.mem_append_left _ hw
    refine ⟨fun w hw => h1 w (hsub w hw), ?_⟩
    intro x hx
    rcases List.mem_cons.1 hx with rfl | hx
    · obtain ⟨v, hv, he⟩ := frontierEmplace_has frontier x
      exact ⟨v, h1 v hv, he⟩
    · exact h2 x hx

/-- C26: for a crawler whose scheduled set has at least one bit and whose
frontier holds well-formed absolute URLs, and for `std::sort` giving a
permutation in non-increasing score order, `getNextUrlBatch` returns: the
sample has at most `batchSize * sampleFactor` URLs, the batch is the head of
the sorted sample, it has at most `batchSize` URLs in non-increasing score
order, and every URL of the batch has a score not below that of every URL of
the sample that goes back to the frontier. -/
theorem getNextUrlBatch_highest (hash : List Char → Nat) (sort : List Url → List Url)
    (hsort : ∀ l, (sort l).Perm l ∧ (sort l).Pairwise (fun a b => scoreOf a ≥ scoreOf b))
    (c : Crawler) (batchSize sampleFactor : Nat)
    (hbits : 0 < c._scheduledUrls._bitVec.length)
    (hurls : ∀ u ∈ c._frontier, Url.WellFormed u) :
    ∃ urlBatch c2 kept hitsCache sample reinserted,
      getNextUrlBatch hash sort c batchSize sampleFactor = .ok (urlBatch, c2) ∧
      sampleLoop hash c._scheduledUrls (batchSize * sampleFactor) c._frontier c._hitsCache []
        = .ok (kept, hitsCache, sample) ∧
      sample.length ≤ batchSize * sampleFactor ∧
      (∀ u ∈ sample, getUrlScore u = .ok (scoreOf u)) ∧
      sort sample = urlBatch ++ reinserted ∧
      urlBatch.length ≤ batchSize ∧
      urlBatch.Pairwise (fun a b => scoreOf a ≥ scoreOf b) ∧
      (∀ u ∈ urlBatch, ∀ v ∈ reinserted, scoreOf u ≥ scoreOf v) ∧
      (∀ v ∈ reinserted, ∃ w ∈ c2._frontier, w._urlString = v._urlString) := by
  obtain ⟨kept, hitsCache, sample, dropped, urlBatch, reinserted, g, h1, h2, _, _, h5, h6, h7,
    h8⟩ := getNextUrlBatch_parts hash sort (fun l => (hsort l).1) c batchSize sampleFactor hbits
      (fun u hu => (wellFormed_accessors u (hurls u hu)).1)
  have hsorted := (hsort sample).2
  rw [h6] at hsorted
  obtain ⟨hp1, _, hp3⟩ := List.pairwise_append.1 hsorted
  refine ⟨urlBatch, _, kept, hitsCache, sample, reinserted, h8, h1, h5, ?_, h6, ?_, hp1, hp3, ?_⟩
  · intro u hu
    have hmem : u ∈ c._frontier :=
      h2.symm.subset (List.mem_append_left _ (List.mem_append_right _ hu))
    exact (wellFormed_accessors u (hurls u hmem)).2
  · rw [h7]
    exact Nat.min_le_left _ _
  · intro v hv
    obtain ⟨w, hw, he⟩ := (mem_foldl_frontierEmplace reinserted.reverse kept).2 v
      (List.mem_reverse.2 hv)
    exact ⟨w, hw, he⟩

/-- C26 on `exampleCrawler`, whose frontier holds `https://b.com/xyzxyzxyzxyz?q=1`
(score 2) and `http://a.org/` (score 4), with the batch size 1 and the sample
factor 2: the batch is `http://a.org/`. -/
theorem getNextUrlBatch_highest_witness :
    (match getNextUrlBatch exampleHash sortByScore exampleCrawler 1 2 with
      | .ok r => some r.1
      | .error _ => none) = some [exampleUrl1] ∧
    ∃ urlBatch c2 kept hitsCache sample reinserted,
      getNextUrlBatch exampleHash sortByScore exampleCrawler 1 2 = .ok (urlBatch, c2) ∧
      sampleLoop exampleHash exampleCrawler._scheduledUrls (1 * 2) exampleCrawler._frontier
        exampleCrawler._hitsCache [] = .ok (kept, hitsCache, sample) ∧
      sample.length ≤ 1 * 2 ∧
      (∀ u ∈ sample, getUrlScore u = .ok (scoreOf u)) ∧
      sortByScore sample = urlBatch ++ reinserted ∧
      urlBatch.length ≤ 1 ∧
      urlBatch.Pairwise (fun a b => scoreOf a ≥ scoreOf b) ∧
      (∀ u ∈ urlBatch, ∀ v ∈ reinserted, scoreOf u ≥ scoreOf v) ∧
      (∀ v ∈ reinserted, ∃ w ∈ c2._frontier, w._urlString = v._urlString) :=
  ⟨by decide,
    getNextUrlBatch_highest exampleHash sortByScore
      (fun l => ⟨sortByScore_perm l, sortByScore_sorted l⟩) exampleCrawler 1 2
      (by
        show 0 < (List.replicate 16 false).length
        decide)
      (by
        intro u hu
        have hu2 : u = exampleUrl2 ∨ u = exampleUrl1 := by simpa [exampleCrawler] using hu
        rcases hu2 with rfl | rfl
        · exact Url.parse_wellFormed "https://b.com/xyzxyzxyzxyz?q=1".toList exampleUrl2
            (by decide) rfl
        · exact Url.parse_wellFormed "http://a.org/".toList exampleUrl1 (by decide) rfl)⟩

end Crawler

namespace Crawler

/-- The batch call on a frontier of well-formed absolute URLs, on which the
sampling loop does not throw: for a crawler whose scheduled set has at least
one bit and whose frontier holds such URLs with pairwise different canonical
strings, and for `std::sort` giving a permutation, `getNextUrlBatch` returns;
every URL of the frontier before the call is in the frontier afterwards or in
the batch, unless the scheduled set contained it before the call; the batch
has no duplicates, shares no URL with the frontier afterwards, and holds only
URLs of the frontier before the call that the scheduled set did not contain;
the frontier afterwards has no duplicates either. -/
theorem getNextUrlBatch_keeps (hash : List Char → Nat) (sort : List Url → List Url)
    (hsort : ∀ l, (sort l).Perm l) (c : Crawler) (batchSize sampleFactor : Nat)
    (hbits : 0 < c._scheduledUrls._bitVec.length)
    (hurls : ∀ u ∈ c._frontier, Url.WellFormed u)
    (hnodup : (c._frontier.map (fun u => u._urlString)).Nodup) :
    ∃ urlBatch c2,
      getNextUrlBatch hash sort c batchSize sampleFactor = .ok (urlBatch, c2) ∧
      (∀ u ∈ c._frontier, u ∈ c2._frontier ∨ u ∈ urlBatch ∨
        c._scheduledUrls.contains (hash u._urlString) = .ok true) ∧
      (urlBatch.map (fun u => u._urlString)).Nodup ∧
      (∀ u ∈ urlBatch, ∀ v ∈ c2._frontier, v._urlString ≠ u._urlString) ∧
      (∀ u ∈ urlBatch, u ∈ c._frontier ∧
        c._scheduledUrls.contains (hash u._urlString) = .ok false) ∧
      (c2._frontier.map (fun u => u._urlString)).Nodup := by
  obtain ⟨kept, hitsCache, sample, dropped, urlBatch, reinserted, g, _, h2, h3, h4, _, h6, _,
    h8⟩ := getNextUrlBatch_parts hash sort hsort c batchSize sampleFactor hbits
      (fun u hu => (wellFormed_accessors u (hurls u hu)).1)
  have hperm : c._frontier.Perm (kept ++ reinserted.reverse ++ urlBatch ++ dropped) := by
    refine h2.trans (List.Perm.append_right dropped ?_)
    rw [List.append_assoc]
    refine List.Perm.append_left kept ?_
    have hs := (hsort sample).symm
    rw [h6] at hs
    exact hs.trans (List.perm_append_comm.trans
      (List.Perm.append_right urlBatch (List.reverse_perm reinserted).symm))
  have hkeys : ((kept ++ reinserted.reverse ++ urlBatch ++ dropped).map
      (fun u => u._urlString)).Nodup := (hperm.map _).nodup_iff.1 hnodup
  rw [List.map_append, List.nodup_append] at hkeys
  obtain ⟨hk1, _, _⟩ := hkeys
  rw [List.map_append, List.nodup_append] at hk1
  obtain ⟨hk2, hk3, hk4⟩ := hk1
  have hfront : reinserted.reverse.foldl frontierEmplace kept = kept ++ reinserted.reverse :=
    foldl_frontierEmplace_nodup _ _ hk2
  have hbatchMem : ∀ u ∈ urlBatch, u ∈ sample := by
    intro u hu
    refine (hsort sample).subset ?_
    rw [h6]
    exact List.mem_append_left _ hu
  refine ⟨urlBatch, _, h8, ?_, hk3, ?_, ?_, ?_⟩
  · intro u hu
    show u ∈ reinserted.reverse.foldl frontierEmplace kept ∨ _
    rw [hfront]
    have := hperm.subset hu
    simp only [List.mem_append] at this ⊢
    rcases this with ((h | h) | h) | h
    · exact Or.inl (Or.inl h)
    · exact Or.inl (Or.inr h)
    · exact Or.inr (Or.inl h)
    · exact Or.inr (Or.inr (h4 u h))
  · intro u hu v hv he
    have hv2 : v ∈ kept ++ reinserted.reverse := by
      rw [← hfront]
      exact hv
    exact hk4 (List.mem_map_of_mem _ hv2) (by rw [he]; exact List.mem_map_of_mem _ hu)
  · intro u hu
    refine ⟨?_, h3 u (hbatchMem u hu)⟩
    exact h2.symm.subset (List.mem_append_left _ (List.mem_append_right _ (hbatchMem u hu)))
  · show ((reinserted.reverse.foldl frontierEmplace kept).map (fun u => u._urlString)).Nodup
    rw [hfront]
    exact hk2

/-- The batch call on `exampleCrawler` with the batch size 1 and the sample factor 2. -/
theorem getNextUrlBatch_keeps_witness :
    ∃ urlBatch c2,
      getNextUrlBatch exampleHash sortByScore exampleCrawler 1 2 = .ok (urlBatch, c2) ∧
      (∀ u ∈ exampleCrawler._frontier, u ∈ c2._frontier ∨ u ∈ urlBatch ∨
        exampleCrawler._scheduledUrls.contains (exampleHash u._urlString) = .ok true) ∧
      (urlBatch.map (fun u => u._urlString)).Nodup ∧
      (∀ u ∈ urlBatch, ∀ v ∈ c2._frontier, v._urlString ≠ u._urlString) ∧
      (∀ u ∈ urlBatch, u ∈ exampleCrawler._frontier ∧
        exampleCrawler._scheduledUrls.contains (exampleHash u._urlString) = .ok false) ∧
      (c2._frontier.map (fun u => u._urlString)).Nodup :=
  getNextUrlBatch_keeps exampleHash sortByScore sortByScore_perm exampleCrawler 1 2
    (by
      show 0 < (List.replicate 16 false).length
      decide)
    (by
      intro u hu
      have hu2 : u = exampleUrl2 ∨ u = exampleUrl1 := by simpa [exampleCrawler] using hu
      rcases hu2 with rfl | rfl
      · exact Url.parse_wellFormed "https://b.com/xyzxyzxyzxyz?q=1".toList exampleUrl2
          (by decide) rfl
      · exact Url.parse_wellFormed "http://a.org/".toList exampleUrl1 (by decide) rfl)
    (by decide)

end Crawler

/-! ### Robots catalog: the rules of a file -/

namespace RobotsCatalog

theorem getLines_line (line rest : List Char) (hline : ∀ c ∈ line, c ≠ '\n') :
    ∀ current : List Char,
      getLines (line ++ '\n' :: rest) current = (current ++ line) :: getLines rest [] := by
  induction line with
  | nil =>
    intro current
    simp [getLines]
  | cons c line ih =>
    intro current
    have hc : c ≠ '\n' := hline c (List.mem_cons_self _ _)
    rw [List.cons_append]
    simp only [getLines]
    rw [if_neg hc, ih (fun x hx => hline x (List.mem_cons_of_mem _ hx))]
    simp

theorem getLines_end (line : List Char) (hline : ∀ c ∈ line, c ≠ '\n') :
    ∀ current : List Char,
      getLines line current = if current ++ line = [] then [] else [current ++ line] := by
  induction line with
  | nil =>
    intro current
    simp [getLines]
  | cons c line ih =>
    intro current
    have hc : c ≠ '\n' := hline c (List.mem_cons_self _ _)
    simp only [getLines]
    rw [if_neg hc, ih (fun x hx => hline x (List.mem_cons_of_mem _ hx))]
    simp

theorem render_no_newline (line : RobotsLine) (h : line.Valid) :
    ∀ c ∈ line.render, c ≠ '\n' := by
  cases line with
  | directive name value =>
    obtain ⟨hn, _, _, hv, _⟩ := h
    intro c hc
    simp only [RobotsLine.render, List.mem_append, List.mem_cons] at hc
    rcases hc with hc | hc | hc | hc
    · exact (hn c hc).2
    · rw [hc]
      decide
    · rw [hc]
      decide
    · exact hv c hc
  | blank space =>
    intro c hc
    exact (h c hc).2
  | comment text =>
    intro c hc
    rcases List.mem_cons.1 hc with hc | hc
    · rw [hc]
      decide
    · exact h c hc

theorem getLines_robotsText (lines : List RobotsLine) (h : ∀ line ∈ lines, line.Valid) :
    getLines (robotsText lines) [] = lines.map RobotsLine.render := by
  induction lines with
  | nil => rfl
  | cons line rest ih =>
    have e : robotsText (line :: rest) = line.render ++ '\n' :: robotsText rest := by
      simp [robotsText]
    rw [e, getLines_line _ _ (render_no_newline line (h line (List.mem_cons_self _ _))),
      ih (fun l hl => h l (List.mem_cons_of_mem _ hl))]
    simp

/-- The file without the new line that ends its last line has the same lines,
but for a last line that is empty. -/
theorem getLines_robotsText_dropLast (lines : List RobotsLine)
    (h : ∀ line ∈ lines, line.Valid) :
    ∃ init last, lines.map RobotsLine.render = init ++ last ∧ (∀ l ∈ last, l = []) ∧
      getLines (robotsText lines).dropLast [] = init := by
  induction lines with
  | nil => exact ⟨[], [], rfl, by simp, rfl⟩
  | cons line rest ih =>
    have hline := render_no_newline line (h line (List.mem_cons_self _ _))
    have e : robotsText (line :: rest) = line.render ++ '\n' :: robotsText rest := by
      simp [robotsText]
    cases rest with
    | nil =>
      have e2 : (robotsText [line]).dropLast = line.render := by
        simp [robotsText]
      rw [e2, getLines_end _ hline, List.nil_append]
      by_cases hr : line.render = []
      · rw [if_pos hr]
        exact ⟨[], [line.render], by simp, by simp [hr], rfl⟩
      · rw [if_neg hr]
        exact ⟨[line.render], [], by simp, by simp, rfl⟩
    | cons line2 rest2 =>
      obtain ⟨init, last, h1, h2, h3⟩ := ih (fun l hl => h l (List.mem_cons_of_mem _ hl))
      have hne : robotsText (line2 :: rest2) ≠ [] := by
        simp [robotsText]
      have e3 : (robotsText (line :: line2 :: rest2)).dropLast
          = line.render ++ '\n' :: (robotsText (line2 :: rest2)).dropLast := by
        rw [e, List.dropLast_append_of_ne_nil _ (by simp), List.dropLast_cons_of_ne_nil hne]
      rw [e3, getLines_line _ _ hline, h3, List.nil_append]
      exact ⟨line.render :: init, last, by rw [List.map_cons, h1]; rfl, h2, rfl⟩

theorem robotsLine_nil (state : List Rule × List Char) : robotsLine state [] = state := by
  simp [robotsLine]

theorem foldl_robotsLine_nil (last : List (List Char)) (h : ∀ l ∈ last, l = [])
    (state : List Rule × List Char) : last.foldl robotsLine state = state := by
  induction last with
  | nil => rfl
  | cons l rest ih =>
    rw [List.foldl_cons, h l (List.mem_cons_self _ _), robotsLine_nil]
    exact ih (fun x hx => h x (List.mem_cons_of_mem _ hx))

theorem robotsLine_blank (state : List Rule × List Char) (space : List Char)
    (h : ∀ c ∈ space, isSpace c = true ∧ c ≠ '\n') : robotsLine state space = state := by
  by_cases hne : space = []
  · rw [hne]
    exact robotsLine_nil state
  · unfold robotsLine
    rw [if_neg hne]
    have hlast : space.getLast? = some (space.getLast hne) := List.getLast?_eq_getLast _ hne
    have hsp : isSpace (space.getLast hne) = true := (h _ (List.getLast_mem hne)).1
    simp only [hlast, hsp, if_true]
    have hall : ∀ c ∈ space.dropLast, isSpace c = true :=
      fun c hc => (h c (List.dropLast_subset _ hc)).1
    have hhead : ¬ space.dropLast.head? = some '#' := by
      intro hh
      have hm : '#' ∈ space.dropLast := List.mem_of_mem_head? hh
      have := hall '#' hm
      revert this
      decide
    rw [if_neg hhead]
    have hfind : findChar space.dropLast ':' 0 = none := by
      unfold findChar
      rw [List.drop_zero]
      apply findIdxFrom_none
      intro c hc
      have hcs := hall c hc
      have : c ≠ ':' := by
        intro he
        rw [he] at hcs
        revert hcs
        decide
      simpa using this
    rw [hfind]

theorem robotsLine_comment (state : List Rule × List Char) (text : List Char) :
    robotsLine state ('#' :: text) = state := by
  unfold robotsLine
  rw [if_neg (List.cons_ne_nil _ _)]
  cases text with
  | nil =>
    have h1 : ['#'].getLast? = some '#' := rfl
    have h2 : isSpace '#' = false := by decide
    simp only [h1, h2, Bool.false_eq_true, if_false, List.head?_cons, if_true]
  | cons t0 t =>
    have hne : t0 :: t ≠ [] := List.cons_ne_nil _ _
    have h1 : ('#' :: t0 :: t).getLast? = some ((t0 :: t).getLast hne) := by
      rw [List.getLast?_cons_cons, List.getLast?_eq_getLast _ hne]
    have h2 : ('#' :: t0 :: t).dropLast = '#' :: (t0 :: t).dropLast := rfl
    simp only [h1, h2]
    split <;> simp

/-- The body of the loop on a directive line `Name: Value`. -/
theorem robotsLine_directive (state : List Rule × List Char) (name value : List Char)
    (h : (RobotsLine.directive name value).Valid) :
    robotsLine state (name ++ ':' :: ' ' :: value) =
      (let currentUserAgent :=
        if name.map toLower = "user-agent".toList then value else state.2
      if currentUserAgent ≠ ['*'] then (state.1, currentUserAgent)
      else if name.map toLower = "allow".toList then
        (state.1 ++ [{ type := RuleType.Allow, pattern := value }], currentUserAgent)
      else if name.map toLower = "disallow".toList then
        (state.1 ++ [{ type := RuleType.Disallow, pattern := value }], currentUserAgent)
      else (state.1, currentUserAgent)) := by
  obtain ⟨hn, hhash, hv, _, hlast⟩ := h
  have hne : name ++ ':' :: ' ' :: value ≠ [] := by simp
  have hvl : value.getLast? = some (value.getLast hv) := List.getLast?_eq_getLast _ hv
  have hgl : (name ++ ':' :: ' ' :: value).getLast? = some (value.getLast hv) := by
    have e : name ++ ':' :: ' ' :: value = (name ++ [':', ' ']) ++ value := by simp
    rw [e, List.getLast?_append_of_ne_nil _ hv, hvl]
  have hsp : isSpace (value.getLast hv) = false := hlast _ hvl
  have hhead : ¬ (name ++ ':' :: ' ' :: value).head? = some '#' := by
    cases name with
    | nil =>
      simp
    | cons n0 name =>
      simpa using hhash
  have hfind : findChar (name ++ ':' :: ' ' :: value) ':' 0 = some name.length := by
    unfold findChar
    rw [List.drop_zero, findIdxFrom_append_hit _ name ':' (' ' :: value) 0
      (fun c hc => by simp [(hn c hc).1]) (by simp)]
    simp
  have hname : substrBetween (name ++ ':' :: ' ' :: value) 0 (some name.length) = name := by
    simp [substrBetween]
  have hlen : ¬ name.length + 2 ≥ (name ++ ':' :: ' ' :: value).length := by
    have : 0 < value.length := List.length_pos.2 hv
    simp only [List.length_append, List.length_cons]
    omega
  have hdrop : (name ++ ':' :: ' ' :: value).drop (name.length + 2) = value := by
    rw [List.drop_append]
    rfl
  unfold robotsLine
  rw [if_neg hne]
  simp only [hgl, hsp, Bool.false_eq_true, if_false, if_neg hhead, hfind, hname, if_neg hlen,
    hdrop]

/-- The loop on the lines of a file: the rules found are those of the
specification. -/
theorem foldl_robotsLine (lines : List RobotsLine) :
    ∀ (rules : List Rule) (agent : Option (List Char)), (∀ line ∈ lines, line.Valid) →
      ((lines.map RobotsLine.render).foldl robotsLine (rules, agent.getD [])).1
        = rules ++ expectedRules lines agent := by
  induction lines with
  | nil =>
    intro rules agent _
    simp [expectedRules]
  | cons line rest ih =>
    intro rules agent h
    have hrest : ∀ l ∈ rest, l.Valid := fun l hl => h l (List.mem_cons_of_mem _ hl)
    have hline := h line (List.mem_cons_self _ _)
    rw [List.map_cons, List.foldl_cons]
    cases line with
    | blank space =>
      rw [show (RobotsLine.blank space).render = space from rfl, robotsLine_blank _ _ hline,
        ih rules agent hrest]
      rfl
    | comment text =>
      rw [show (RobotsLine.comment text).render = '#' :: text from rfl, robotsLine_comment,
        ih rules agent hrest]
      rfl
    | directive name value =>
      rw [show (RobotsLine.directive name value).render = name ++ ':' :: ' ' :: value from rfl,
        robotsLine_directive _ _ _ hline]
      simp only [expectedRules]
      have hstar : agent.getD [] = ['*'] ↔ agent = some ['*'] := by
        cases agent with
        | none => simp
        | some a => simp
      by_cases hua : name.map toLower = "user-agent".toList
      · have hna : ¬ name.map toLower = "allow".toList := by
          rw [hua]
          decide
        have hnd : ¬ name.map toLower = "disallow".toList := by
          rw [hua]
          decide
        simp only [hua, if_true, hna, hnd, if_false]
        have := ih rules (some value) hrest
        simp only [Option.getD_some] at this
        split <;> exact this
      · simp only [hua, if_false]
        by_cases hs : agent = some ['*']
        · subst hs
          simp only [Option.getD_some, ne_eq, not_true_eq_false, if_false, if_true]
          have key : ∀ r : List Rule,
              ((rest.map RobotsLine.render).foldl robotsLine (r, ['*'])).1
                = r ++ expectedRules rest (some ['*']) := by
            intro r
            have := ih r (some ['*']) hrest
            simpa using this
          by_cases ha : name.map toLower = "allow".toList
          · simp only [ha, if_true]
            rw [key]
            simp
          · by_cases hd : name.map toLower = "disallow".toList
            · have hda : ¬ "disallow".toList = "allow".toList := by decide
              simp only [hd, hda, if_false, if_true]
              rw [key]
              simp
            · simp only [ha, hd, if_false]
              exact key rules
        · have hs2 : ¬ agent.getD [] = ['*'] := fun hc => hs (hstar.1 hc)
          simp only [ne_eq, hs2, not_false_eq_true, if_true, hs, if_false]
          exact ih rules agent hrest

/-- C24: for a robots file of directive lines `Name: Value`, blank lines and
comment lines, with or without the new line that ends the last line,
`parseRobotsFile` gives the rules of the specification: in the order of the
file, one rule with the value as its pattern for every line whose name is
allow or disallow up to letter case and whose nearest user-agent line before
it has the value `*`; the other lines give nothing, and the empty text gives
no rule. -/
theorem parseRobotsFile_rules (lines : List RobotsLine) (h : ∀ line ∈ lines, line.Valid) :
    parseRobotsFile (robotsText lines) = expectedRules lines none ∧
    parseRobotsFile (robotsText lines).dropLast = expectedRules lines none ∧
    parseRobotsFile [] = [] := by
  have h0 := foldl_robotsLine lines [] none h
  simp only [Option.getD_none, List.nil_append] at h0
  refine ⟨?_, ?_, rfl⟩
  · unfold parseRobotsFile
    rw [getLines_robotsText lines h]
    exact h0
  · obtain ⟨init, last, h1, h2, h3⟩ := getLines_robotsText_dropLast lines h
    unfold parseRobotsFile
    rw [h3, ← h0, h1, List.foldl_append, foldl_robotsLine_nil last h2]

/-- C24 on a file with two rules for every crawler and one for the crawler
`x`. -/
theorem parseRobotsFile_rules_witness :
    robotsText exampleRobotsLines =
      ("User-agent: *\nDisallow: /wishlist/\nALLOW: /wishlist/universal*\n\n# private\n"
        ++ "User-agent: x\nDisallow: /\n").toList ∧
    expectedRules exampleRobotsLines none =
      [{ type := RuleType.Disallow, pattern := "/wishlist/".toList },
       { type := RuleType.Allow, pattern := "/wishlist/universal*".toList }] ∧
    parseRobotsFile (robotsText exampleRobotsLines) = expectedRules exampleRobotsLines none ∧
    parseRobotsFile (robotsText exampleRobotsLines).dropLast
      = expectedRules exampleRobotsLines none :=
  ⟨by decide, by decide,
    (parseRobotsFile_rules exampleRobotsLines (by
      intro line hl
      simp only [exampleRobotsLines, List.mem_cons, List.mem_singleton, List.mem_nil_iff,
        or_false] at hl
      rcases hl with rfl | rfl | rfl | rfl | rfl | rfl | rfl <;>
        simp [RobotsLine.Valid, isSpace])).1,
    (parseRobotsFile_rules exampleRobotsLines (by
      intro line hl
      simp only [exampleRobotsLines, List.mem_cons, List.mem_singleton, List.mem_nil_iff,
        or_false] at hl
      rcases hl with rfl | rfl | rfl | rfl | rfl | rfl | rfl <;>
        simp [RobotsLine.Valid, isSpace])).2.1⟩

end RobotsCatalog

/-! ### HTML artifact -/

namespace HtmlParser

theorem splitTokens_token (token rest : List Char) (htoken : ∀ c ∈ token, isSpace c = false) :
    ∀ current : List Char, current ++ token ≠ [] →
      splitTokens (token ++ ' ' :: rest) current = (current ++ token) :: splitTokens rest [] := by
  induction token with
  | nil =>
    intro current hne
    rw [List.append_nil] at hne
    have hsp : isSpace ' ' = true := by decide
    simp only [List.nil_append, List.append_nil, splitTokens, hsp, if_true, if_neg hne]
  | cons c token ih =>
    intro current _
    have hc : isSpace c = false := htoken c (List.mem_cons_self _ _)
    rw [List.cons_append]
    simp only [splitTokens, hc, Bool.false_eq_true, if_false]
    rw [ih (fun x hx => htoken x (List.mem_cons_of_mem _ hx)) (current ++ [c]) (by simp)]
    simp

theorem splitTokens_words (words : List (List Char))
    (h : ∀ w ∈ words, w ≠ [] ∧ ∀ c ∈ w, isSpace c = false) :
    splitTokens (words.map (fun word => word ++ [' '])).flatten [] = words := by
  induction words with
  | nil => rfl
  | cons w rest ih =>
    obtain ⟨hne, hsp⟩ := h w (List.mem_cons_self _ _)
    have e : ((w :: rest).map (fun word => word ++ [' '])).flatten
        = w ++ ' ' :: (rest.map (fun word => word ++ [' '])).flatten := by
      simp
    rw [e, splitTokens_token w _ hsp [] (by simpa using hne),
      ih (fun x hx => h x (List.mem_cons_of_mem _ hx))]
    rfl

theorem sizeToString_digits (n : Nat) :
    sizeToString n ≠ [] ∧ (∀ c ∈ sizeToString n, isDigit c = true) ∧
      digitsValue (sizeToString n) = n := by
  obtain ⟨ds, hds, hne, hdig, hval⟩ := natToDigits_spec (n + 1) n [] (by omega)
  rw [List.append_nil] at hds
  unfold sizeToString
  rw [hds]
  exact ⟨hne, hdig, hval⟩

/-- The tokens of a line of counted words: the count and the words. -/
theorem whitespaceRuns_writeWords (words : List (List Char))
    (h : ∀ w ∈ words, w ≠ [] ∧ ∀ c ∈ w, isSpace c = false) :
    whitespaceRuns (writeWords words) = sizeToString words.length :: words := by
  obtain ⟨hne, hdig, _⟩ := sizeToString_digits words.length
  unfold whitespaceRuns
  rw [← List.nil_append (writeWords words), ← splitTokens_eq (writeWords words) [] (by simp)]
  unfold writeWords
  rw [splitTokens_token _ _ (fun c hc => isDigit_not_isSpace c (hdig c hc)) []
    (by simpa using hne), splitTokens_words words h]
  rfl

theorem linkLines_flatten (links : List LinkInfo) :
    (links.map (fun linkInfo => writeLinkInfo linkInfo ++ ['\n'])).flatten =
      (((links.map (fun linkInfo =>
        [linkInfo.url._urlString, writeWords linkInfo.anchorWords])).flatten).map
          (fun line => line ++ ['\n'])).flatten := by
  induction links with
  | nil => rfl
  | cons l rest ih =>
    rw [List.map_cons, List.flatten_cons, ih, List.map_cons, List.flatten_cons,
      List.map_append, List.flatten_append]
    congr 1
    simp [writeLinkInfo]

/-- C21 as stated fails: the artifact text of the request URL
`https://b.com/xyzxyzxyzxyz?q=1` and `exampleHtmlInfo` ends with the line
`false` and no new line after it, so it is not the text of lines that are all
ended by a new line. -/
theorem artifactText_last_line_open :
    artifactText Crawler.exampleUrl2 exampleHtmlInfo =
      "https://b.com/xyzxyzxyzxyz?q=1\n1 a \n0 \n1\nhttp://a.org/\n1 a \nfalse".toList ∧
    (artifactText Crawler.exampleUrl2 exampleHtmlInfo).getLast? = some 'e' ∧
    artifactText Crawler.exampleUrl2 exampleHtmlInfo ≠
      (((artifactLines Crawler.exampleUrl2 exampleHtmlInfo
        ++ [writeBase exampleHtmlInfo.base]).map (fun line => line ++ ['\n'])).flatten) := by
  refine ⟨by decide, by decide, by decide⟩

/-- C21, amended: the artifact text is made of the lines of `artifactLines`, in
their order and each ended by a new line, followed by the last line, `true`
with the base URL or `false`, which no new line ends.  There are four lines
and two more for every link.  On a line of counted words the
white-space-separated tokens are the count and then the words, when the words
are not empty and have no white space, and a written count is the decimal
text of the number of words or links. -/
theorem artifactText_lines (requestUrl : Url) (htmlInfo : HtmlInfo) :
    artifactText requestUrl htmlInfo =
      ((artifactLines requestUrl htmlInfo).map (fun line => line ++ ['\n'])).flatten
        ++ writeBase htmlInfo.base ∧
    (artifactLines requestUrl htmlInfo).length = 4 + 2 * htmlInfo.links.length ∧
    (writeBase htmlInfo.base = "false".toList ∧ htmlInfo.base = none ∨
      ∃ url, htmlInfo.base = some url ∧
        writeBase htmlInfo.base = "true".toList ++ ' ' :: url._urlString) ∧
    (∀ words : List (List Char), (∀ w ∈ words, w ≠ [] ∧ ∀ c ∈ w, isSpace c = false) →
      whitespaceRuns (writeWords words) = sizeToString words.length :: words) ∧
    (∀ n : Nat, (∀ c ∈ sizeToString n, isDigit c = true) ∧ digitsValue (sizeToString n) = n) := by
  refine ⟨?_, ?_, ?_, whitespaceRuns_writeWords, fun n => (sizeToString_digits n).2⟩
  · unfold artifactText writeHtmlInfo artifactLines
    rw [linkLines_flatten]
    simp
  · unfold artifactLines
    rw [List.length_append]
    have : ∀ links : List LinkInfo, ((links.map (fun linkInfo =>
        [linkInfo.url._urlString, writeWords linkInfo.anchorWords])).flatten).length
        = 2 * links.length := by
      intro links
      induction links with
      | nil => rfl
      | cons l rest ih =>
        simp only [List.map_cons, List.flatten_cons, List.length_append, ih, List.length_cons,
          List.length_nil]
        omega
    rw [this]
    rfl
  · cases hb : htmlInfo.base with
    | none => exact Or.inl ⟨rfl, rfl⟩
    | some url => exact Or.inr ⟨url, rfl, rfl⟩

/-- C21, amended, on the request URL `https://b.com/xyzxyzxyzxyz?q=1` and
`exampleHtmlInfo`. -/
theorem artifactText_lines_witness :
    artifactLines Crawler.exampleUrl2 exampleHtmlInfo =
      ["https://b.com/xyzxyzxyzxyz?q=1".toList, "1 a ".toList, "0 ".toList, "1".toList,
        "http://a.org/".toList, "1 a ".toList] ∧
    artifactText Crawler.exampleUrl2 exampleHtmlInfo =
      ((artifactLines Crawler.exampleUrl2 exampleHtmlInfo).map
        (fun line => line ++ ['\n'])).flatten ++ writeBase exampleHtmlInfo.base :=
  ⟨by decide, (artifactText_lines Crawler.exampleUrl2 exampleHtmlInfo).1⟩

/-- C29 fails on the code.  The text written for `exampleHtmlInfo`, which has
one link and no title word, is read back without the link: the loop of the
links runs as many times as there are title words.  The text written for
`exampleBaseInfo` is read back without the base: `true` is not a number, so
the extraction of the `bool` fails and gives `false`. -/
theorem read_write_loses_links :
    (match readHtmlInfo { text := writeHtmlInfo exampleHtmlInfo, fail := false } with
      | some (.ok r) => some r.1
      | _ => none) =
      some { words := ["a".toList], titleWords := [], links := [], base := none } ∧
    exampleHtmlInfo.links ≠ [] ∧
    (match readHtmlInfo { text := writeHtmlInfo exampleBaseInfo, fail := false } with
      | some (.ok r) => some r.1
      | _ => none) =
      some { words := [], titleWords := [], links := [], base := none } ∧
    exampleBaseInfo.base ≠ none := by
  refine ⟨by decide, by decide, by decide, by decide⟩

end HtmlParser

/-! ### Crawler: a batch call that throws -/

namespace Crawler

theorem sampleLoopLeft_of_ok (hash : List Char → Nat) (scheduledUrls : BloomFilter)
    (sampleSize : Nat) (frontier : List Url) :
    ∀ (hitsCache : List Char → Int) (urlBatch kept : List Url) (hitsCache2 : List Char → Int)
      (sample : List Url),
      sampleLoop hash scheduledUrls sampleSize frontier hitsCache urlBatch
        = .ok (kept, hitsCache2, sample) →
      sampleLoopLeft hash scheduledUrls sampleSize frontier hitsCache urlBatch
        = (kept, hitsCache2) := by
  induction frontier with
  | nil =>
    intro hitsCache urlBatch kept hitsCache2 sample h
    simp only [sampleLoop, Except.ok.injEq, Prod.mk.injEq] at h
    obtain ⟨rfl, rfl, _⟩ := h
    rfl
  | cons url rest ih =>
    intro hitsCache urlBatch kept hitsCache2 sample h
    simp only [sampleLoop] at h
    simp only [sampleLoopLeft]
    by_cases hlen : urlBatch.length < sampleSize
    · rw [if_pos hlen] at h ⊢
      cases hc : scheduledUrls.contains (hash url._urlString) with
      | error e =>
        rw [hc] at h
        cases h
      | ok b =>
        rw [hc] at h
        cases b with
        | true => exact ih _ _ _ _ _ h
        | false =>
          simp only at h ⊢
          cases hh : url.host with
          | error e =>
            rw [hh] at h
            cases h
          | ok host =>
            rw [hh] at h
            simp only at h ⊢
            by_cases hlim : hitsCache host < _hostHitRateLimit
            · rw [if_pos hlim] at h ⊢
              exact ih _ _ _ _ _ h
            · rw [if_neg hlim] at h ⊢
              cases hr : sampleLoop hash scheduledUrls sampleSize rest hitsCache urlBatch with
              | error e =>
                rw [hr] at h
                cases h
              | ok v =>
                obtain ⟨kept1, hitsCache1, sample1⟩ := v
                rw [hr] at h
                simp only [Except.ok.injEq, Prod.mk.injEq] at h
                obtain ⟨rfl, rfl, _⟩ := h
                rw [ih _ _ _ _ _ hr]
    · rw [if_neg hlen] at h ⊢
      simp only [Except.ok.injEq, Prod.mk.injEq] at h
      obtain ⟨rfl, rfl, _⟩ := h
      rfl

theorem getNextUrlBatchThrown_of_ok (hash : List Char → Nat) (c : Crawler)
    (batchSize sampleFactor : Nat) (kept : List Url) (hitsCache : List Char → Int)
    (sample : List Url)
    (hs : sampleLoop hash c._scheduledUrls (batchSize * sampleFactor) c._frontier c._hitsCache []
      = .ok (kept, hitsCache, sample)) :
    (getNextUrlBatchThrown hash c batchSize sampleFactor)._frontier = kept ∧
    (getNextUrlBatchThrown hash c batchSize sampleFactor)._hitsCache = hitsCache := by
  unfold getNextUrlBatchThrown
  simp only
  rw [sampleLoopLeft_of_ok _ _ _ _ _ _ _ _ _ hs]
  exact ⟨rfl, rfl⟩

/-- C27 fails on a frontier that holds a relative URL: on `exampleCrawler4`,
whose frontier is visited in the order `http://a.org/`, `b.org`, the call
`getNextUrlBatch( 1, 2 )` throws `InvalidOperationException` (`url.host( )` on
the relative URL) and returns no batch; `http://a.org/` was in the frontier
before the call and the scheduled set did not contain it, and after the call
the frontier holds `b.org` alone: `http://a.org/` is lost. -/
theorem getNextUrlBatch_loses_url :
    getNextUrlBatch exampleHash sortByScore exampleCrawler4 1 2
      = .error .InvalidOperationException ∧
    exampleUrl1 ∈ exampleCrawler4._frontier ∧
    exampleCrawler4._scheduledUrls.contains (exampleHash exampleUrl1._urlString) = .ok false ∧
    (getNextUrlBatchThrown exampleHash exampleCrawler4 1 2)._frontier = [exampleRelativeUrl] ∧
    exampleUrl1 ∉ (getNextUrlBatchThrown exampleHash exampleCrawler4 1 2)._frontier ∧
    Url.parse "b.org".toList = .ok exampleRelativeUrl := by
  refine ⟨by rfl, by decide, by decide, by decide, by decide, by decide⟩

end Crawler

end WebCrawler
